import Mathlib

/-!
# Realm core: bit-packed array node, B+-tree protocol and slab allocator

A shallow embedding of `src/realm/array.cpp` and `src/tightdb/alloc_slab.cpp`.
Machine integers are `Nat`/`Int` with explicit wrap-around, the payload of a
node is a map from byte offsets to byte values, and assertions that can fail
make an operation return `none`.
-/

namespace Realm

/-! ## Width policy (`Array::bit_width`, `lbound_for_width`, `ubound_for_width`) -/

/-- The eight element widths an array node can have. -/
def widths : List Nat := [0, 1, 2, 4, 8, 16, 32, 64]

/-- The cast `uint64_t(v)` of a signed 64-bit value: reduction modulo `2^64`. -/
def to_uint64 (v : Int) : Nat := (v % 18446744073709551616).toNat

/-- The cast `int64_t(x)`: the signed value congruent to `x` modulo `2^64`. -/
def to_int64 (x : Int) : Int :=
  (x + 9223372036854775808) % 18446744073709551616 - 9223372036854775808

/-- A value of type `int64_t`. -/
def is_int64 (v : Int) : Prop := -9223372036854775808 ≤ v ∧ v ≤ 9223372036854775807

instance (v : Int) : Decidable (is_int64 v) := by unfold is_int64; infer_instance

/-- The lookup table `bits[]` inside `Array::bit_width`. -/
def bits : List Nat := [0, 1, 2, 2, 4, 4, 4, 4, 4, 4, 4, 4, 4, 4, 4, 4]

/-- Embedding of `Array::bit_width(int64_t v)`. The first branch reads `bits[int8_t(v)]`
(the index is below 16 there); the second flips all bits of a negative value
(`~v = -v - 1`) and tests the shifted magnitude. -/
def bit_width (v : Int) : Nat :=
  if to_uint64 v >>> 4 = 0 then
    bits.getD (to_uint64 v % 256) 0
  else
    let v2 : Int := if v < 0 then -v - 1 else v
    if to_uint64 v2 >>> 31 ≠ 0 then 64
    else if to_uint64 v2 >>> 15 ≠ 0 then 32
    else if to_uint64 v2 >>> 7 ≠ 0 then 16
    else 8

/-- Embedding of `Array::lbound_for_width(size_t width)`; the width dispatch has exactly the
eight cases below (any other width is unreachable in the source). -/
def lbound_for_width (width : Nat) : Int :=
  match width with
  | 0 => 0
  | 1 => 0
  | 2 => 0
  | 4 => 0
  | 8 => -0x80
  | 16 => -0x8000
  | 32 => -0x80000000
  | 64 => -0x8000000000000000
  | _ => 0

/-- Embedding of `Array::ubound_for_width(size_t width)`. -/
def ubound_for_width (width : Nat) : Int :=
  match width with
  | 0 => 0
  | 1 => 1
  | 2 => 3
  | 4 => 15
  | 8 => 0x7F
  | 16 => 0x7FFF
  | 32 => 0x7FFFFFFF
  | 64 => 0x7FFFFFFFFFFFFFFF
  | _ => 0

/-- The specification of `bit_width` by value ranges: the first width, in
increasing order, whose range contains `v`. -/
def bit_width_spec (v : Int) : Nat :=
  if v = 0 then 0
  else if v = 1 then 1
  else if 0 ≤ v ∧ v ≤ 3 then 2
  else if 0 ≤ v ∧ v ≤ 15 then 4
  else if -128 ≤ v ∧ v ≤ 127 then 8
  else if -32768 ≤ v ∧ v ≤ 32767 then 16
  else if -2147483648 ≤ v ∧ v ≤ 2147483647 then 32
  else 64

/-! ## Payload memory and the direct accessors -/

/-- Payload memory of one array node: byte offset from `m_data` to byte value. -/
abbrev Mem := Nat → Nat

/-- The uninitialised blocks the allocator hands out, in the order an
operation asks for them. Nothing is known about their contents. -/
abbrev Fresh := Nat → Mem

/-- The blocks left after the first `n` have been used. -/
def Fresh.drop (fr : Fresh) (n : Nat) : Fresh := fun k => fr (n + k)

/-- Little-endian read of `k` bytes starting at byte offset `addr`. -/
def read_le (d : Mem) (addr : Nat) : Nat → Nat
  | 0 => 0
  | k + 1 => d addr % 256 + 256 * read_le d (addr + 1) k

/-- Little-endian store of the low `k` bytes of `u` at byte offset `addr`. -/
def write_le (d : Mem) (addr k u : Nat) : Mem :=
  fun a => if addr ≤ a ∧ a < addr + k then u / 256 ^ (a - addr) % 256 else d a

/-- Two's-complement reading of a `w`-bit pattern. -/
def to_signed (w u : Nat) : Int :=
  if u % 2 ^ w < 2 ^ (w - 1) then (u % 2 ^ w : Nat) else (u % 2 ^ w : Nat) - 2 ^ w

/-- A byte with its `w`-bit field at bit offset `shift` replaced by `u mod 2^w`:
the arithmetic form of `(p & ~(mask << shift)) | ((u & mask) << shift)`. -/
def set_field (p shift w u : Nat) : Nat :=
  p % 256 - (p / 2 ^ shift % 2 ^ w) * 2 ^ shift + (u % 2 ^ w) * 2 ^ shift

/-- Modelled from the spec: `get_direct<w>(data, ndx)` of `array.hpp`, which is
not part of the sources at hand. Width 0 reads the constant zero; widths 1, 2
and 4 read an unsigned field of a byte (element `ndx` occupies bits
`[ndx*w, ndx*w + w)` of the payload); widths 8 to 64 read a little-endian
two's-complement integer. -/
def get_direct (w : Nat) (d : Mem) (ndx : Nat) : Int :=
  match w with
  | 0 => 0
  | 1 => (d (ndx / 8) / 2 ^ (ndx % 8) % 2 : Nat)
  | 2 => (d (ndx / 4) / 2 ^ (2 * (ndx % 4)) % 4 : Nat)
  | 4 => (d (ndx / 2) / 2 ^ (4 * (ndx % 2)) % 16 : Nat)
  | 8 => to_signed 8 (read_le d ndx 1)
  | 16 => to_signed 16 (read_le d (ndx * 2) 2)
  | 32 => to_signed 32 (read_le d (ndx * 4) 4)
  | 64 => to_signed 64 (read_le d (ndx * 8) 8)
  | _ => 0

/-- Modelled from the spec: `set_direct<w>(data, ndx, value)` of `array.hpp`,
the store matching `get_direct`: it keeps the low `w` bits of `value` and
touches no bit outside element `ndx`. -/
def set_direct (w : Nat) (d : Mem) (ndx : Nat) (value : Int) : Mem :=
  match w with
  | 0 => d
  | 1 => Function.update d (ndx / 8) (set_field (d (ndx / 8)) (ndx % 8) 1 (to_uint64 value))
  | 2 => Function.update d (ndx / 4) (set_field (d (ndx / 4)) (2 * (ndx % 4)) 2 (to_uint64 value))
  | 4 => Function.update d (ndx / 2) (set_field (d (ndx / 2)) (4 * (ndx % 2)) 4 (to_uint64 value))
  | 8 => write_le d ndx 1 (to_uint64 value)
  | 16 => write_le d (ndx * 2) 2 (to_uint64 value)
  | 32 => write_le d (ndx * 4) 4 (to_uint64 value)
  | 64 => write_le d (ndx * 8) 8 (to_uint64 value)
  | _ => d

/-- Bit `b` of the payload (bit `b mod 8` of byte `b / 8`). -/
def mbit (d : Mem) (b : Nat) : Nat := d (b / 8) / 2 ^ (b % 8) % 2

/-- The loop of `std::copy_backward(first, last, d_last)` with `n = last - first`
bytes left to copy: `*(--d_last) = *(--last)`. -/
def copy_backward_n (first : Nat) : Nat → Nat → Mem → Mem
  | 0, _, d => d
  | n + 1, d_last, d =>
    copy_backward_n first n (d_last - 1) (Function.update d (d_last - 1) (d (first + n)))

/-- Embedding of `std::copy_backward(first, last, d_last)` on payload bytes. -/
def copy_backward (d : Mem) (first last d_last : Nat) : Mem :=
  copy_backward_n first (last - first) d_last d

/-! ## The array accessor -/

/-- Modelled from the spec: `Array::max_array_payload` (declared in
`array.hpp`), the largest byte size the 24-bit capacity field of the header
can record. -/
def max_array_payload : Nat := 0xFFFFFF

/-- Modelled from the spec: `Array::max_array_payload_aligned` (declared in
`array.hpp`), `max_array_payload` rounded down to a multiple of 8. -/
def max_array_payload_aligned : Nat := 0xFFFFF8

/-- Modelled from the spec: `Array::initial_capacity` (declared in `array.hpp`),
the byte size of a freshly created node. -/
def initial_capacity : Nat := 128

/-- The size of the node header in bytes. -/
def header_size : Nat := 8

/-- Embedding of `std::numeric_limits<size_t>::max()`. -/
def size_max : Nat := 18446744073709551615

/-- Arithmetic in `size_t`: reduction modulo `2^64`. -/
def sz (x : Nat) : Nat := x % 18446744073709551616

/-- Embedding of `Array::Type`. -/
inductive Type_ where
  | type_Normal
  | type_InnerBptreeNode
  | type_HasRefs
  deriving DecidableEq, Repr

/-- The accessor `Array` together with the node it is attached to. The fields
`m_*` are the members of the accessor; `hdr_size`, `hdr_width` and
`hdr_capacity` are the size, width and capacity fields of the node header in
memory; `read_only` is `m_alloc.is_read_only(m_ref)`; `m_data` is the payload
that follows the header. The getter and the vtable are functions of `m_width`
(`set_width` installs them together with the bounds). -/
structure Array where
  m_data : Mem
  m_size : Nat
  m_capacity : Nat
  m_width : Nat
  m_lbound : Int
  m_ubound : Int
  m_is_inner_bptree_node : Bool
  m_has_refs : Bool
  m_context_flag : Bool
  read_only : Bool
  hdr_size : Nat
  hdr_width : Nat
  hdr_capacity : Nat

/-- Embedding of `Array::calc_byte_len(num_items, width)`, in `size_t` arithmetic. -/
def calc_byte_len (num_items width : Nat) : Nat :=
  let bits := sz (num_items * width)
  let bytes := sz (bits + 7) / 8
  sz (bytes + header_size)

/-- Embedding of `Array::calc_item_count(bytes, width)`, in `size_t` arithmetic. -/
def calc_item_count (bytes width : Nat) : Nat :=
  if width = 0 then size_max
  else
    let bytes_data := sz (bytes + 18446744073709551616 - header_size)
    let total_bits := sz (bytes_data * 8)
    total_bits / width

/-- Embedding of `Array::set_width(width)`: install the bounds, the width and (implicitly)
the accessors of that width. -/
def Array.set_width (a : Array) (width : Nat) : Array :=
  { a with m_lbound := lbound_for_width width, m_ubound := ubound_for_width width,
           m_width := width }

/-- Modelled from the spec: `Array::get(ndx)` of `array.hpp`, the read through
the installed getter. -/
def Array.get (a : Array) (ndx : Nat) : Int := get_direct a.m_width a.m_data ndx

/-- Embedding of `Array::do_copy_on_write(minimum_size)`: a new block is allocated, the
`array_size` bytes of the node (header included) are copied into it, and the
capacity is recorded. The allocator is taken to succeed; `fresh` is the
content of the new block before the copy. -/
def Array.do_copy_on_write (a : Array) (minimum_size : Nat) (fresh : Mem) : Array :=
  let array_size := calc_byte_len a.m_size a.m_width
  let new_size := max array_size minimum_size
  let new_size := sz (new_size + 7) / 8 * 8
  let new_size := if new_size < max_array_payload - 64 then sz (new_size + 64) else new_size
  { a with m_data := fun p => if p + header_size < array_size then a.m_data p else fresh p,
           read_only := false,
           m_capacity := calc_item_count new_size a.m_width,
           hdr_capacity := new_size }

/-- Modelled from the spec: `Array::copy_on_write()` of `array.hpp`: a node in
the read-only region is copied before it is written to. -/
def Array.copy_on_write (a : Array) (fresh : Mem) : Array :=
  if a.read_only then a.do_copy_on_write 0 fresh else a

/-- The capacity computed by the reallocating branch of `Array::alloc`: the
old capacity doubled (clamped to `max_array_payload_aligned`, also on `size_t`
overflow) or, if that is not enough, `needed_bytes` rounded up to a multiple
of 8 (`rest = (~needed_bytes & 0x7) + 1`). -/
def grow_capacity (capacity_bytes needed_bytes : Nat) : Nat :=
  let new_capacity_bytes := sz (capacity_bytes * 2)
  let new_capacity_bytes :=
    if new_capacity_bytes < capacity_bytes then max_array_payload_aligned
    else new_capacity_bytes
  let new_capacity_bytes :=
    if new_capacity_bytes > max_array_payload_aligned then max_array_payload_aligned
    else new_capacity_bytes
  if new_capacity_bytes < needed_bytes then
    let rest := (7 - needed_bytes % 8) + 1
    if rest < 8 then sz (needed_bytes + rest) else needed_bytes
  else new_capacity_bytes

/-- Embedding of `Array::alloc(init_size, width)`. The two release assertions make the
operation fail; `Allocator::realloc_` copies the old `orig_capacity_bytes`
bytes into a new block whose remaining bytes are `fr 1`. -/
def Array.alloc (a : Array) (init_size width : Nat) (fr : Fresh) : Option Array :=
  let needed_bytes := calc_byte_len init_size width
  if needed_bytes > max_array_payload then none
  else
    let a := if a.read_only then a.do_copy_on_write needed_bytes (fr 0) else a
    if a.read_only ∨ a.m_capacity = 0 then none
    else if a.m_capacity < init_size ∨ width ≠ a.m_width then
      let orig_capacity_bytes := a.hdr_capacity
      if orig_capacity_bytes < needed_bytes then
        let capacity_bytes := grow_capacity orig_capacity_bytes needed_bytes
        some { a with
          m_data := fun p => if p + header_size < orig_capacity_bytes then a.m_data p
                             else fr 1 p,
          hdr_width := width, hdr_size := init_size, hdr_capacity := capacity_bytes,
          m_capacity := calc_item_count capacity_bytes width }
      else
        some { a with m_capacity := calc_item_count orig_capacity_bytes width,
                      hdr_width := width, hdr_size := init_size }
    else some { a with hdr_size := init_size }

/-- The loop `while (i > ndx) { --i; setter(i + 1, old_getter(i)); }` of
`Array::insert`, entered with loop variable `i`. -/
def insert_move_loop (old_width new_width ndx : Nat) : Nat → Mem → Mem
  | 0, d => d
  | i + 1, d =>
    if i + 1 > ndx then
      insert_move_loop old_width new_width ndx i
        (set_direct new_width d (i + 1) (get_direct old_width d i))
    else d

/-- The loop `while (i != 0) { --i; setter(i, old_getter(i)); }` of
`Array::insert` and `Array::do_ensure_minimum_width`, entered with loop
variable `i`. -/
def expand_loop (old_width new_width : Nat) : Nat → Mem → Mem
  | 0, d => d
  | i + 1, d => expand_loop old_width new_width i
      (set_direct new_width d i (get_direct old_width d i))

/-- Embedding of `Array::insert(ndx, value)`. -/
def Array.insert (a : Array) (ndx : Nat) (value : Int) (fr : Fresh) : Option Array :=
  let old_width := a.m_width
  let do_expand : Bool := value < a.m_lbound ∨ value > a.m_ubound
  let r :=
    if do_expand then
      (a.alloc (a.m_size + 1) (bit_width value) fr).map (fun b => b.set_width (bit_width value))
    else a.alloc (a.m_size + 1) a.m_width fr
  r.map fun b =>
    let d0 := b.m_data
    let d1 :=
      if do_expand ∨ b.m_width < 8 then insert_move_loop old_width b.m_width ndx b.m_size d0
      else if ndx ≠ b.m_size then
        let w := if b.m_width = 64 then 8 else if b.m_width = 32 then 4
                 else if b.m_width = 16 then 2 else 1
        copy_backward d0 (ndx * w) (b.m_size * w) (b.m_size * w + w)
      else d0
    let d2 := set_direct b.m_width d1 ndx value
    let d3 := if do_expand then expand_loop old_width b.m_width ndx d2 else d2
    { b with m_data := d3, m_size := b.m_size + 1 }

/-- Modelled from the spec: `Array::add(value)` of `array.hpp`, which is
`insert(size, value)`. -/
def Array.add (a : Array) (value : Int) (fr : Fresh) : Option Array :=
  a.insert a.m_size value fr

/-- Embedding of `Array::do_ensure_minimum_width(value)`. -/
def Array.do_ensure_minimum_width (a : Array) (value : Int) (fr : Fresh) : Option Array :=
  let width := bit_width value
  if ¬ width > a.m_width then none
  else
    let old_width := a.m_width
    (a.alloc a.m_size width fr).map fun b =>
      let b := b.set_width width
      { b with m_data := expand_loop old_width b.m_width b.m_size b.m_data }

/-- Modelled from the spec: `Array::ensure_minimum_width(value)` of `array.hpp`:
the width is promoted when `value` lies outside `[m_lbound, m_ubound]`. -/
def Array.ensure_minimum_width (a : Array) (value : Int) (fr : Fresh) : Option Array :=
  if value ≥ a.m_lbound ∧ value ≤ a.m_ubound then some a
  else a.do_ensure_minimum_width value fr

/-- Embedding of `Array::set(ndx, value)`; the assertion `ndx < m_size` makes it fail. -/
def Array.set (a : Array) (ndx : Nat) (value : Int) (fr : Fresh) : Option Array :=
  if ¬ ndx < a.m_size then none
  else if a.get ndx = value then some a
  else
    let b := a.copy_on_write (fr 0)
    (b.ensure_minimum_width value (fr.drop 1)).map fun c =>
      { c with m_data := set_direct c.m_width c.m_data ndx value }

/-- Embedding of `Array::truncate(new_size)`; the assertion `new_size <= m_size` makes it
fail. -/
def Array.truncate (a : Array) (new_size : Nat) (fr : Fresh) : Option Array :=
  if ¬ new_size ≤ a.m_size then none
  else if new_size = a.m_size then some a
  else
    let b := a.copy_on_write (fr 0)
    let b := { b with m_size := new_size, hdr_size := new_size }
    if new_size = 0 then
      let b := { b with m_capacity := calc_item_count b.hdr_capacity 0 }
      let b := b.set_width 0
      some { b with hdr_width := 0 }
    else some b

/-- Embedding of `Array::create(type, context_flag)` for an empty node of zero width: the
static `create` computes the flags and allocates `max(header_size,
initial_capacity)` bytes, `init_header` writes width 0, size 0 and the
capacity, and `init_from_mem` attaches the accessor. -/
def Array.create (type : Type_) (context_flag : Bool) (fr : Fresh) : Array :=
  let is_inner_bptree_node := decide (type = Type_.type_InnerBptreeNode)
  let has_refs := decide (type = Type_.type_InnerBptreeNode ∨ type = Type_.type_HasRefs)
  let byte_size := max header_size initial_capacity
  let a : Array :=
    { m_data := fr 0, m_size := 0, m_capacity := calc_item_count byte_size 0, m_width := 0,
      m_lbound := 0, m_ubound := 0, m_is_inner_bptree_node := is_inner_bptree_node,
      m_has_refs := has_refs, m_context_flag := context_flag, read_only := false,
      hdr_size := 0, hdr_width := 0, hdr_capacity := byte_size }
  a.set_width 0

/-- The element sequence of an array: `get(0), ..., get(size - 1)`. -/
def Array.elems (a : Array) : List Int := (List.range a.m_size).map a.get

/-- An attached accessor: the width is one of the eight, the bounds and the
header agree with the accessor, the size fits the 24-bit size field of the
header and the node fits the largest payload. A writable node has a non-zero
cached capacity and an 8-byte aligned byte capacity that covers header and
payload (the rounding in `do_copy_on_write` and `alloc` can take it to the
multiple of 8 just above `max_array_payload`). For a read-only node the
capacity fields are not used before the copy on write. -/
def Array.attached (a : Array) : Prop :=
  a.m_width ∈ widths ∧
  a.m_lbound = lbound_for_width a.m_width ∧ a.m_ubound = ubound_for_width a.m_width ∧
  a.m_size ≤ 0xFFFFFF ∧ a.hdr_size = a.m_size ∧ a.hdr_width = a.m_width ∧
  calc_byte_len a.m_size a.m_width ≤ max_array_payload ∧
  (a.read_only = false →
    a.m_capacity = calc_item_count a.hdr_capacity a.m_width ∧ 0 < a.m_capacity ∧
    calc_byte_len a.m_size a.m_width ≤ a.hdr_capacity ∧ a.hdr_capacity % 8 = 0 ∧
    a.hdr_capacity ≤ max_array_payload + 1)

instance (a : Array) : Decidable a.attached := by unfold Array.attached; infer_instance

/-! ## Sequences of insertions -/

/-- A sequence of `insert(ndx, value)` calls (`add(value)` is the call with
`ndx` equal to the current size); call number `k` draws its blocks from
`frs k`. -/
def run_inserts (a : Array) : List (Nat × Int) → (Nat → Fresh) → Option Array
  | [], _ => some a
  | op :: ops, frs =>
    (a.insert op.1 op.2 (frs 0)).bind fun b => run_inserts b ops (fun k => frs (k + 1))

/-- The calls of a sequence respect the precondition of `insert` on an array
of `n` elements: every index is at most the current size and every value is
an `int64_t`. -/
def valid_inserts (n : Nat) : List (Nat × Int) → Prop
  | [] => True
  | op :: ops => op.1 ≤ n ∧ is_int64 op.2 ∧ valid_inserts (n + 1) ops

/-- The largest `bit_width` among the elements (0 for no element). -/
def max_bit_width (xs : List Int) : Nat := (xs.map bit_width).foldr max 0

/-! ## Leaf insertion of the B+-tree (`Array::bptree_leaf_insert`) -/

/-- Embedding of `TreeInsertBase`: what a split reports to the parent. -/
structure TreeInsertBase where
  m_split_offset : Nat
  m_split_size : Nat
  deriving DecidableEq, Repr

/-- The loop `for (i = ndx; i != leaf_size; ++i) new_leaf.add(get(i))` of
`bptree_leaf_insert`, with `count = leaf_size - i` iterations left. -/
def leaf_split_copy (src : Array) : Nat → Nat → Array → (Nat → Fresh) → Option Array
  | 0, _, new_leaf, _ => some new_leaf
  | count + 1, i, new_leaf, frs =>
    (new_leaf.add (src.get i) (frs 0)).bind fun nl =>
      leaf_split_copy src count (i + 1) nl (fun k => frs (k + 1))

/-- Embedding of `Array::bptree_leaf_insert(ndx, value, state)`; `max_bpnode_size` is the
macro `REALM_MAX_BPNODE_SIZE`. The result is the leaf itself, the new sibling
when the leaf was split (`none` stands for the returned null ref), and
`state`. -/
def Array.bptree_leaf_insert (max_bpnode_size : Nat) (a : Array) (ndx : Nat) (value : Int)
    (state : TreeInsertBase) (frs : Nat → Fresh) :
    Option (Array × Option Array × TreeInsertBase) :=
  let leaf_size := a.m_size
  let ndx := if leaf_size < ndx then leaf_size else ndx
  if leaf_size < max_bpnode_size then
    (a.insert ndx value (frs 0)).map fun b => (b, none, state)
  else
    let new_leaf := Array.create
      (if a.m_has_refs then Type_.type_HasRefs else Type_.type_Normal) false (frs 0)
    if ndx = leaf_size then
      (new_leaf.add value (frs 1)).map fun nl =>
        (a, some nl, { m_split_offset := ndx, m_split_size := leaf_size + 1 })
    else
      (leaf_split_copy a (leaf_size - ndx) ndx new_leaf (fun k => frs (k + 1))).bind fun nl =>
        (a.truncate ndx (frs (leaf_size + 1))).bind fun b =>
          (b.add value (frs (leaf_size + 2))).map fun c =>
            (c, some nl, { m_split_offset := ndx + 1, m_split_size := leaf_size + 1 })

instance valid_inserts_decidable :
    (n : Nat) → (ops : List (Nat × Int)) → Decidable (valid_inserts n ops)
  | _, [] => isTrue trivial
  | n, op :: ops =>
    have := valid_inserts_decidable (n + 1) ops
    inferInstanceAs (Decidable (op.1 ≤ n ∧ is_int64 op.2 ∧ valid_inserts (n + 1) ops))

/-! ## Example inputs -/

/-- Fresh blocks filled with zero bytes. -/
def zero_fresh : Fresh := fun _ _ => 0

/-- A writable leaf of width 8 that holds 1, 2, 3, 4 in a block of 128 bytes. -/
def example_leaf : Array :=
  { m_data := fun p => if p < 4 then p + 1 else 0,
    m_size := 4, m_capacity := 120, m_width := 8, m_lbound := -128, m_ubound := 127,
    m_is_inner_bptree_node := false, m_has_refs := false, m_context_flag := false,
    read_only := false, hdr_size := 4, hdr_width := 8, hdr_capacity := 128 }

/-- The insertions of the width promotion scenario: 1, 3, 127, 128, -1, 70000
appended in this order. -/
def example_ops : List (Nat × Int) := [(0, 1), (1, 3), (2, 127), (3, 128), (4, -1), (5, 70000)]

/-! ## The B+-tree protocol -/

/-- The constant `npos`, `size_t(-1)`. -/
def npos : Nat := 18446744073709551615

/-- The cast `to_size_t` of a signed 64-bit value. -/
def to_size_t (v : Int) : Nat := to_uint64 v

/-- Subtraction in `size_t`. -/
def size_sub (a b : Nat) : Nat := if b ≤ a then a - b else a + 18446744073709551616 - b

/-- A node of a B+-tree together with the subtrees it owns. A leaf is its
element sequence. An inner node is the array
`[first_value, r_1, ..., r_N, last_value]`: each child ref `r_i` is represented
by the child it refers to (a parent slot owns its child exclusively), and an
even `first_value`, which is the ref of the offsets array, by that array
(`offsets` means nothing while `first_value` is odd). Only the parity of an
even `first_value` is observable here. -/
inductive BpNode where
  | leaf (elems : List Int)
  | inner (first_value : Int) (offsets : List Int) (children : List BpNode) (last_value : Int)

/-- An inner node is on the general form when slot 0 is even
(`first_value % 2 == 0` in C++, where `%` truncates). -/
def BpNode.is_general : BpNode → Bool
  | .leaf _ => false
  | .inner first_value _ _ _ => decide (Int.tmod first_value 2 = 0)

mutual
/-- The reference traversal: the concatenation of all leaves from left to
right. -/
def BpNode.flatten : BpNode → List Int
  | .leaf xs => xs
  | .inner _ _ cs _ => flatten_list cs
/-- The concatenation of the element sequences of a list of subtrees. -/
def flatten_list : List BpNode → List Int
  | [] => []
  | c :: cs => c.flatten ++ flatten_list cs
end

/-- Modelled from the spec: the loop of `upper_bound<width>(data, size, value)`
of `array.hpp`, a binary search over a sorted array that halves the range
`[low, low + size]` until it is a single position. -/
def upper_bound_loop (data : List Int) (value : Int) : Nat → Nat → Nat → Nat
  | 0, low, _ => low
  | fuel + 1, low, size =>
    if size > 0 then
      let half := size / 2
      let other_half := size - half
      let probe := low + half
      let other_low := low + other_half
      let v := data.getD probe 0
      upper_bound_loop data value fuel (if value ≥ v then other_low else low) half
    else low

/-- Modelled from the spec: `upper_bound<width>(data, size, value)` of
`array.hpp`: the index of the first element greater than `value` in a sorted
array, that is, the number of elements that are at most `value`. -/
def upper_bound (data : List Int) (value : Int) : Nat :=
  upper_bound_loop data value data.length 0 data.length

/-- Embedding of `find_child_from_offsets<width>(offsets_header, elem_ndx)`. -/
def find_child_from_offsets (offsets : List Int) (elem_ndx : Nat) : Nat × Nat :=
  let child_ndx := upper_bound offsets (to_int64 elem_ndx)
  let elem_ndx_offset :=
    if child_ndx = 0 then 0 else to_size_t (offsets.getD (child_ndx - 1) 0)
  (child_ndx, size_sub elem_ndx elem_ndx_offset)

/-- Embedding of `find_bptree_child(first_value, ndx, alloc)`; `offsets` is the
array that an even `first_value` refers to. C++ `%` and `/` truncate. -/
def find_bptree_child (first_value : Int) (offsets : List Int) (ndx : Nat) : Nat × Nat :=
  if Int.tmod first_value 2 ≠ 0 then
    let elems_per_child := to_size_t (Int.tdiv first_value 2)
    (ndx / elems_per_child, ndx % elems_per_child)
  else find_child_from_offsets offsets ndx

/-- Embedding of `Array::get_bptree_leaf(ndx)`: the loop that follows child
refs until a leaf is reached, with `fuel` bounding the number of iterations.
The result is the leaf and the index in the leaf; `none` stands for a failed
assertion, a read past the child slots, or fuel running out. -/
def get_bptree_leaf : Nat → BpNode → Nat → Option (List Int × Nat)
  | 0, _, _ => none
  | _ + 1, .leaf _, _ => none
  | fuel + 1, .inner first_value offsets children _, ndx =>
    let p := find_bptree_child first_value offsets ndx
    match children[p.1]? with
    | none => none
    | some (.leaf xs) => some (xs, p.2)
    | some child => get_bptree_leaf fuel child p.2

/-- The first part of the loop body of `verify_bptree`, which computes
`elems_in_child` and `leaf_level_of_child` for one child. The leaf verifier
returns the number of elements of the leaf. -/
def verify_child (verify : BpNode → Option (Nat × Int × Bool)) (general_form : Bool)
    (child : BpNode) : Option (Nat × Int) :=
  match child with
  | .leaf xs => if xs.length ≥ 1 then some (xs.length, 0) else none
  | .inner _ _ _ _ =>
    match verify child with
    | none => none
    | some (n, lvl, child_on_general_form) =>
      if general_form ∨ ¬ child_on_general_form then some (n, lvl) else none

/-- The loop over the children in `verify_bptree`, entered at child `i` with
the running `num_elems` and `leaf_level_of_children`. -/
def verify_children (verify : BpNode → Option (Nat × Int × Bool)) (general_form : Bool)
    (offsets : List Int) (elems_per_child num_children : Nat) :
    List BpNode → Nat → Nat → Int → Option (Nat × Int)
  | [], _, num_elems, leaf_level_of_children => some (num_elems, leaf_level_of_children)
  | child :: rest, i, num_elems, leaf_level_of_children =>
    match verify_child verify general_form child with
    | none => none
    | some (elems_in_child, leaf_level_of_child) =>
      let leaf_level_of_children :=
        if i = 0 then leaf_level_of_child else leaf_level_of_children
      if leaf_level_of_child ≠ leaf_level_of_children then none
      else if num_elems + elems_in_child > size_max then none
      else
        let num_elems := num_elems + elems_in_child
        let ok : Bool :=
          if general_form then
            if i < num_children - 1 then decide (offsets.getD i 0 = (num_elems : Int)) else true
          else
            if i < num_children - 1 then decide (elems_in_child = elems_per_child)
            else decide (elems_in_child ≤ elems_per_child)
        if ok then
          verify_children verify general_form offsets elems_per_child num_children rest (i + 1)
            num_elems leaf_level_of_children
        else none

/-- Embedding of `verify_bptree(node, leaf_verifier)`: `none` when an assertion
fails, otherwise `(num_elems, leaf_level, general_form)`. The recursion is
bounded by `fuel`. -/
def verify_bptree : Nat → BpNode → Option (Nat × Int × Bool)
  | 0, _ => none
  | _ + 1, .leaf _ => none
  | fuel + 1, .inner first_value offsets children last_value =>
    let num_children := children.length
    if num_children < 1 then none
    else
      let general_form := decide (Int.tmod first_value 2 = 0)
      if general_form ∧ offsets.length ≠ num_children - 1 then none
      else if ¬ general_form ∧ Int.tdiv first_value 2 < 0 then none
      else
        let elems_per_child := if general_form then 0 else to_size_t (Int.tdiv first_value 2)
        match verify_children (verify_bptree fuel) general_form offsets elems_per_child
            num_children children 0 0 (-1) with
        | none => none
        | some (num_elems, leaf_level_of_children) =>
          if leaf_level_of_children = -1 then none
          else if Int.tmod last_value 2 = 0 then none
          else if Int.tdiv last_value 2 < 0 then none
          else if (num_elems : Int) ≠ Int.tdiv last_value 2 then none
          else some (num_elems, 1 + leaf_level_of_children, general_form)

/-- The loop of `Array::create_bptree_offsets`, with `count` iterations left:
`accum_num_elems += elems_per_child; offsets.add(accum_num_elems)`. -/
def create_bptree_offsets_loop (elems_per_child : Int) : Nat → Int → List Int → List Int
  | 0, _, offsets => offsets
  | count + 1, accum_num_elems, offsets =>
    create_bptree_offsets_loop elems_per_child count (accum_num_elems + elems_per_child)
      (offsets ++ [accum_num_elems + elems_per_child])

/-- Embedding of `Array::create_bptree_offsets(offsets, first_value)`: the new
offsets array and the new slot 0, which is the ref `offsets_ref` of that
array, cast to `int64_t`. -/
def create_bptree_offsets (first_value : Int) (num_children : Nat) (offsets_ref : Nat) :
    Int × List Int :=
  (to_int64 offsets_ref,
    create_bptree_offsets_loop (Int.tdiv first_value 2) (num_children - 1) 0 [])

/-- Modelled from the spec: `Array::ensure_bptree_offsets(offsets)` of
`array.hpp`: a node that is still on the compact form is converted to the
general form; the result is slot 0 and the attached offsets array. -/
def ensure_bptree_offsets (first_value : Int) (offsets : List Int) (num_children : Nat)
    (offsets_ref : Nat) : Int × List Int :=
  if Int.tmod first_value 2 = 0 then (first_value, offsets)
  else create_bptree_offsets first_value num_children offsets_ref

/-- The loop of `adjust` over the positions from `i` on. -/
def adjust_loop (begin_ end_ : Nat) (diff : Int) : Nat → List Int → List Int
  | _, [] => []
  | i, x :: xs =>
    (if begin_ ≤ i ∧ i < end_ then x + diff else x) :: adjust_loop begin_ end_ diff (i + 1) xs

/-- Modelled from the spec: `Array::adjust(begin, end, diff)` of `array.hpp`:
`diff` is added to every element at an index in `[begin, end)`. -/
def adjust (xs : List Int) (begin_ end_ : Nat) (diff : Int) : List Int :=
  adjust_loop begin_ end_ diff 0 xs

/-- The leaf-level part of `Array::EraseHandler`: `erase_leaf_elem` receives
the leaf and the index in the leaf (`npos` for the last element) and returns
whether the leaf is to be destroyed, with the leaf as it left it. -/
structure EraseHandler where
  erase_leaf_elem : List Int → Nat → Bool × List Int

/-- Modelled from the spec: the contract of `EraseHandler::erase_leaf_elem`,
which `array.hpp` declares: called on a leaf with at least one element and a
valid index (`npos` being the last one), the handler reports `true` exactly
when erasing empties the leaf, that is, when the leaf holds a single element,
and when it reports `false` the leaf is left without the addressed element. -/
def EraseHandler.erases (h : EraseHandler) : Prop :=
  ∀ (xs : List Int) (i : Nat), 1 ≤ xs.length → (i < xs.length ∨ i = npos) →
    ((h.erase_leaf_elem xs i).1 = true ↔ xs.length = 1) ∧
    ((h.erase_leaf_elem xs i).1 = false →
      (h.erase_leaf_elem xs i).2 = xs.eraseIdx (if i = npos then xs.length - 1 else i))

/-- An example handler: it erases element `ndx` (the last one for `npos`)
unless the leaf has a single element, in which case it reports `true` and
leaves the leaf to be destroyed. -/
def example_erase_handler : EraseHandler :=
  { erase_leaf_elem := fun xs i =>
      if xs.length - 1 = 0 then (true, xs)
      else (false, xs.eraseIdx (if i = npos then xs.length - 1 else i)) }

/-- Embedding of `Array::do_erase_bptree_elem(elem_ndx, handler)` on the node
and its subtree: the result is the returned flag and the node as the call left
it. `offsets_ref` is the ref of an offsets array created on the way, `fuel`
bounds the recursion depth, and `none` stands for a call on a leaf, a read
past the child slots, or fuel running out. `Array::erase` removes one slot,
`destroy_singlet_bptree_branch` frees the removed child. The statements
marked `Throws` are followed on the path on which they do not throw. -/
def do_erase_bptree_elem (handler : EraseHandler) (offsets_ref : Nat) :
    Nat → BpNode → Nat → Option (Bool × BpNode)
  | 0, _, _ => none
  | _ + 1, .leaf _, _ => none
  | fuel + 1, .inner first_value offsets children last_value, elem_ndx =>
    let num_children := children.length
    let conv : Int × List Int :=
      if elem_ndx = npos then (first_value, offsets)
      else ensure_bptree_offsets first_value offsets num_children offsets_ref
    let p : Nat × Nat :=
      if elem_ndx = npos then (num_children - 1, npos)
      else find_bptree_child conv.1 conv.2 elem_ndx
    let child_ndx := p.1
    let ndx_in_child := p.2
    match children[child_ndx]? with
    | none => none
    | some child =>
      let r : Option (Bool × BpNode) :=
        match child with
        | .leaf xs =>
          some ((handler.erase_leaf_elem xs ndx_in_child).1,
            .leaf (handler.erase_leaf_elem xs ndx_in_child).2)
        | .inner _ _ _ _ => do_erase_bptree_elem handler offsets_ref fuel child ndx_in_child
      match r with
      | none => none
      | some (destroy_child, child2) =>
        let children1 := children.set child_ndx child2
        if destroy_child ∧ num_children = 1 then
          some (true, .inner conv.1 conv.2 children1 last_value)
        else
          let children2 := if destroy_child then children1.eraseIdx child_ndx else children1
          let offsets_attached : Bool :=
            decide (elem_ndx ≠ npos) || (destroy_child && decide (Int.tmod conv.1 2 = 0))
          let offsets2 :=
            if offsets_attached then
              if destroy_child then
                let offsets_adjust_begin :=
                  if child_ndx = num_children - 1 then child_ndx - 1 else child_ndx
                let erased := conv.2.eraseIdx offsets_adjust_begin
                adjust erased offsets_adjust_begin erased.length (-1)
              else adjust conv.2 child_ndx conv.2.length (-1)
            else conv.2
          some (false, .inner conv.1 offsets2 children2 (last_value - 2))

/-- Embedding of `elim_superfluous_bptree_root`, from the single child of the
root down: the new root is the first node on the chain that is a leaf
(`replace_root_by_leaf`) or has more than one child. The freeing of the
eliminated nodes has no counterpart here. -/
def elim_superfluous_bptree_root : Nat → BpNode → Option BpNode
  | 0, _ => none
  | _ + 1, .leaf xs => some (.leaf xs)
  | fuel + 1, .inner first_value offsets children last_value =>
    if children.length < 1 then none
    else if children.length > 1 then some (.inner first_value offsets children last_value)
    else
      match children[0]? with
      | none => none
      | some grandchild => elim_superfluous_bptree_root fuel grandchild

/-- Embedding of `Array::erase_bptree_elem(root, elem_ndx, handler)`: the
result is the root after the call, `none` standing for a failed assertion
(the debug assertion on `elem_ndx` included, with `get_bptree_size()` being
the last slot divided by two). `replace_root_by_empty_leaf` installs an empty
leaf. The optional elimination of a superfluous root is attempted when one
child is left; `elim_throws` says that the attempt throws, in which case it is
abandoned and the root stays. -/
def erase_bptree_elem (handler : EraseHandler) (offsets_ref : Nat) (elim_throws : Bool)
    (fuel : Nat) (root : BpNode) (elem_ndx : Nat) : Option BpNode :=
  match root with
  | .leaf _ => none
  | .inner _ _ root_children root_last_value =>
    if root_children.length < 1 then none
    else if ¬ (elem_ndx = npos ∨ elem_ndx + 1 ≠ to_size_t (Int.tdiv root_last_value 2)) then none
    else
      match do_erase_bptree_elem handler offsets_ref fuel root elem_ndx with
      | none => none
      | some (destroy_root, root2) =>
        if destroy_root then some (.leaf [])
        else
          match root2 with
          | .leaf _ => none
          | .inner _ _ children _ =>
            if children.length > 1 then some root2
            else if elim_throws then some root2
            else
              match children[0]? with
              | none => none
              | some child =>
                elim_superfluous_bptree_root fuel child

/-! ### Well-formed trees and the structural invariants -/

mutual
/-- The slots of an array are `int64_t` values: this records it for the first
and the last slot of every inner node of the subtree. -/
def BpNode.int64_slots : BpNode → Bool
  | .leaf _ => true
  | .inner first_value _ cs last_value =>
    decide (is_int64 first_value) && decide (is_int64 last_value) && int64_slots_list cs
/-- The first and the last slot of every inner node of a list of subtrees are
`int64_t` values. -/
def int64_slots_list : List BpNode → Bool
  | [] => true
  | c :: cs => c.int64_slots && int64_slots_list cs
end

/-- The number of elements in the first `m` children, given the per-child
element counts. -/
def psum (sizes : List Nat) (m : Nat) : Nat := (sizes.take m).sum

/-- The per-child element counts of a list of subtrees. -/
def child_sizes (cs : List BpNode) : List Nat := cs.map fun c => c.flatten.length

/-- The per-child element counts that the compact form allows: every child
but the last holds exactly `elems_per_child` elements, the last at most that
many. -/
def compact_counts (elems_per_child : Nat) (sizes : List Nat) : Prop :=
  ∀ i, i < sizes.length →
    (i + 1 < sizes.length → sizes.getD i 0 = elems_per_child) ∧
    sizes.getD i 0 ≤ elems_per_child

/-- The offsets array that the general form requires: one entry for every
child but the last, entry `i` being the number of elements in the children
`0..i`. -/
def general_offsets (offsets : List Int) (sizes : List Nat) : Prop :=
  offsets.length + 1 = sizes.length ∧
  ∀ i, i < offsets.length → offsets.getD i 0 = (psum sizes (i + 1) : Int)

mutual
/-- A well-formed subtree whose leaves are `level` levels down: what
`verify_bptree` accepts. A leaf holds at least one element; an inner node has
at least one child, its children are well-formed one level down, a child on
the general form has a parent on the general form, the per-child counts match
the form of the node, the last slot is `2 * total + 1`, and the first and the
last slot are `int64_t` values. -/
def BpNode.wf : BpNode → Nat → Prop
  | .leaf xs, level => level = 0 ∧ 1 ≤ xs.length
  | .inner first_value offsets cs last_value, level =>
    level ≠ 0 ∧ 1 ≤ cs.length ∧
    wf_list cs (level - 1) (decide (Int.tmod first_value 2 = 0)) ∧
    (if Int.tmod first_value 2 = 0 then general_offsets offsets (child_sizes cs)
      else 0 ≤ Int.tdiv first_value 2 ∧
        compact_counts (to_size_t (Int.tdiv first_value 2)) (child_sizes cs)) ∧
    last_value = 2 * ((flatten_list cs).length : Int) + 1 ∧
    is_int64 first_value ∧ is_int64 last_value
/-- The children of a well-formed inner node. -/
def wf_list : List BpNode → Nat → Bool → Prop
  | [], _, _ => True
  | c :: cs, level, parent_general =>
    c.wf level ∧ (c.is_general = true → parent_general = true) ∧
    wf_list cs level parent_general
end

mutual
/-- The invariant nonempty-inner: every inner node has at least one child. -/
def BpNode.nonempty_inner : BpNode → Prop
  | .leaf _ => True
  | .inner _ _ cs _ => 1 ≤ cs.length ∧ nonempty_inner_list cs
/-- The invariant nonempty-inner on every subtree of a list. -/
def nonempty_inner_list : List BpNode → Prop
  | [] => True
  | c :: cs => c.nonempty_inner ∧ nonempty_inner_list cs
end

mutual
/-- Every leaf of the subtree holds at least one element. -/
def BpNode.leaves_nonempty : BpNode → Prop
  | .leaf xs => 1 ≤ xs.length
  | .inner _ _ cs _ => leaves_nonempty_list cs
/-- Every leaf of every subtree of a list holds at least one element. -/
def leaves_nonempty_list : List BpNode → Prop
  | [] => True
  | c :: cs => c.leaves_nonempty ∧ leaves_nonempty_list cs
end

/-- The invariant nonempty-leaf: a leaf that is not the root holds at least
one element. -/
def BpNode.nonempty_leaf : BpNode → Prop
  | .leaf _ => True
  | .inner first_value offsets cs last_value =>
    (BpNode.inner first_value offsets cs last_value).leaves_nonempty

mutual
/-- Every leaf of the subtree is exactly `depth` levels below its root. -/
def BpNode.leaves_at : BpNode → Nat → Prop
  | .leaf _, depth => depth = 0
  | .inner _ _ cs _, depth => depth ≠ 0 ∧ leaves_at_list cs (depth - 1)
/-- Every leaf of every subtree of a list is `depth` levels below the root of
its subtree. -/
def leaves_at_list : List BpNode → Nat → Prop
  | [], _ => True
  | c :: cs, depth => c.leaves_at depth ∧ leaves_at_list cs depth
end

/-- The invariant leaf-depth: all leaves reside at the same depth. -/
def BpNode.leaf_depth (t : BpNode) : Prop := ∃ depth, t.leaves_at depth

mutual
/-- The invariant node-form: an inner node on the general form that has a
parent has a parent on the general form. -/
def BpNode.node_form : BpNode → Prop
  | .leaf _ => True
  | .inner first_value _ cs _ => node_form_list cs (decide (Int.tmod first_value 2 = 0))
/-- The invariant node-form for the children of a node. -/
def node_form_list : List BpNode → Bool → Prop
  | [], _ => True
  | c :: cs, parent_general =>
    (c.is_general = true → parent_general = true) ∧ c.node_form ∧
    node_form_list cs parent_general
end

/-! ### Example trees -/

/-- A root on the general form over an inner node on the general form (leaves
1, 2 and 3) and a compact inner node (leaves 4, 5 and 6). -/
def example_tree2 : BpNode :=
  .inner 16 [3]
    [.inner 24 [2] [.leaf [1, 2], .leaf [3]] 7,
     .inner 5 [] [.leaf [4, 5], .leaf [6]] 7] 13

/-! ## The slab allocator (`alloc_slab.cpp`) -/

/-- The cast `int(x)` of a `size_t`: the low 32 bits read as a signed value. -/
def to_int32 (x : Nat) : Int := ((x : Int) + 2147483648) % 4294967296 - 2147483648

/-- The cast `unsigned(x)` of a `size_t`: the low 32 bits. -/
def to_uint32 (x : Nat) : Nat := x % 4294967296

/-- The cast `to_ref` of a signed 64-bit value to `ref_type`, which is
`size_t`. -/
def to_ref (v : Int) : Nat := to_size_t v

/-- A row of the table `Slabs`: the columns `ref_end` and `addr`, both of
type `Int` (`int64_t`). -/
structure SlabRow where
  ref_end : Int
  addr : Int

/-- A row of the table `FreeSpace`: the columns `ref` and `size`, both of type
`Int` (`int64_t`). -/
structure FreeRow where
  ref : Int
  size : Int

/-- Embedding of `SlabAlloc::FreeMode`: how the attached memory is released. -/
inductive FreeMode where
  | free_Noop
  | free_Unalloc
  | free_Unmap
  deriving DecidableEq, Repr

/-- The state of a `SlabAlloc`: the members that `alloc`, `free_`,
`translate`, `free_all`, `attach_buffer` and `get_top_ref` read and write.
`m_data` is the address of the attached buffer. -/
structure SlabAlloc where
  m_baseline : Nat
  m_slabs : List SlabRow
  m_free_space : List FreeRow
  m_free_read_only : List FreeRow
  m_free_space_invalid : Bool
  m_data : Nat := 0
  m_free_mode : FreeMode := FreeMode.free_Noop

/-- Embedding of `find_first(value)` on an integer column: the index of the
first row that holds `value`, `none` being `not_found`. -/
def find_first (col : List Int) (value : Int) : Option Nat :=
  col.findIdx? fun v => decide (v = value)

/-- The search loop of `SlabAlloc::alloc` over the free list, from row `i` on:
the first row with `int(size) <= r.size`. -/
def alloc_find (size : Nat) : List FreeRow → Nat → Option Nat
  | [], _ => none
  | r :: rest, i => if to_int32 size ≤ r.size then some i else alloc_find size rest (i + 1)

/-- Embedding of `SlabAlloc::alloc(size)`: the state after the call and the
ref of the returned `MemRef`, `none` when the call throws (`InvalidFreeSpace`,
or `std::bad_alloc` from `new char[new_size]`, which `new_slab = none` stands
for; `new_slab = some p` is the address of the new slab). The arithmetic is
that of `size_t`, `int`, `unsigned` and `int64_t`. The assertions, which are
compiled in debug mode only, are the preconditions of the call, and the
updates of the two tables are followed on the path on which they do not
throw. -/
def SlabAlloc.alloc (a : SlabAlloc) (size : Nat) (new_slab : Option Nat) :
    SlabAlloc × Option Nat :=
  if a.m_free_space_invalid then (a, none)
  else
    match alloc_find size a.m_free_space 0 with
    | some i =>
      let r := a.m_free_space.getD i ⟨0, 0⟩
      let ref := to_ref r.ref
      let rest := to_size_t (r.size - (size : Int))
      let free_space :=
        if rest = 0 then a.m_free_space.eraseIdx i
        else a.m_free_space.set i ⟨to_int64 (r.ref + (to_uint32 size : Int)), to_int64 rest⟩
      ({ a with m_free_space := free_space }, some ref)
    | none =>
      let new_size := sz ((size_sub size 1 ||| 255) + 1)
      let curr_ref_end :=
        if a.m_slabs.isEmpty then a.m_baseline
        else to_size_t (a.m_slabs.getD (a.m_slabs.length - 1) ⟨0, 0⟩).ref_end
      let new_size :=
        if a.m_slabs.isEmpty then new_size
        else
          let prev_ref_end :=
            if a.m_slabs.length = 1 then a.m_baseline
            else to_size_t (a.m_slabs.getD (a.m_slabs.length - 2) ⟨0, 0⟩).ref_end
          let min_size := sz (2 * size_sub curr_ref_end prev_ref_end)
          if new_size < min_size then min_size else new_size
      match new_slab with
      | none => (a, none)
      | some slab =>
        let new_ref_end := sz (curr_ref_end + new_size)
        let slabs := a.m_slabs ++ [⟨to_int64 new_ref_end, to_int64 slab⟩]
        let unused := size_sub new_size (sz size)
        let free_space :=
          if 0 < unused then
            a.m_free_space ++ [⟨to_int64 (sz (curr_ref_end + size)), to_int64 unused⟩]
          else a.m_free_space
        ({ a with m_slabs := slabs, m_free_space := free_space }, some curr_ref_end)

/-- The loop of `SlabAlloc::free_` that looks for a free block that ends where
the freed block starts, from row `i` on. -/
def free_find_end (ref : Nat) : List FreeRow → Nat → Option Nat
  | [], _ => none
  | c :: rest, i =>
    if ref = to_ref (to_int64 (c.ref + c.size)) then some i else free_find_end ref rest (i + 1)

/-- The first part of the `try` block of `SlabAlloc::free_`, the merge with
the start of a free block: the free list, `merged_with` (`none` being `npos`)
and whether a statement threw. Statement `k` of the block throws when
`throws k` holds. -/
def free_merge_start (slabs : List SlabRow) (free_space : List FreeRow) (ref size ref_end : Nat)
    (throws : Nat → Bool) : List FreeRow × Option Nat × Bool :=
  match find_first (free_space.map fun r => r.ref) (to_int64 ref_end) with
  | none => (free_space, none, false)
  | some n =>
    if find_first (slabs.map fun s => s.ref_end) (to_int64 ref_end) = none then
      if throws 1 then (free_space, none, true)
      else
        let fs1 := free_space.set n { free_space.getD n ⟨0, 0⟩ with ref := to_int64 ref }
        if throws 2 then (fs1, none, true)
        else
          let row := fs1.getD n ⟨0, 0⟩
          (fs1.set n { row with size := to_int64 (row.size + (size : Int)) }, some n, false)
    else (free_space, none, false)

/-- The `try` block of `SlabAlloc::free_` on the free list that tracks the
freed block: the free list as the block leaves it and whether a statement
threw. The six statements marked `Throws` are numbered in source order. -/
def free_try (slabs : List SlabRow) (free_space : List FreeRow) (ref size ref_end : Nat)
    (throws : Nat → Bool) : List FreeRow × Bool :=
  match free_merge_start slabs free_space ref size ref_end throws with
  | (fs, _, true) => (fs, true)
  | (fs, merged_with, false) =>
    match (if find_first (slabs.map fun s => s.ref_end) (to_int64 ref) = none then
        free_find_end ref fs 0 else none) with
    | some i =>
      let c := fs.getD i ⟨0, 0⟩
      match merged_with with
      | some m =>
        let s := to_size_t (fs.getD m ⟨0, 0⟩).size
        if throws 3 then (fs, true)
        else
          let fs3 := fs.set i { c with size := to_int64 (c.size + (s : Int)) }
          if throws 4 then (fs3, true) else (fs3.eraseIdx m, false)
      | none =>
        if throws 5 then (fs, true)
        else (fs.set i { c with size := to_int64 (c.size + (size : Int)) }, false)
    | none =>
      match merged_with with
      | none =>
        if throws 6 then (fs, true) else (fs ++ [⟨to_int64 ref, to_int64 size⟩], false)
      | some _ => (fs, false)

/-- Embedding of `SlabAlloc::free_(ref, addr)`: `size` is the size that the
header at `addr` records (the byte size in the read-only segment, the capacity
otherwise). An exception from the `try` block sets `m_free_space_invalid`. -/
def SlabAlloc.free_ (a : SlabAlloc) (ref size : Nat) (throws : Nat → Bool) : SlabAlloc :=
  let read_only := decide (ref < a.m_baseline)
  let free_space := if read_only then a.m_free_read_only else a.m_free_space
  let ref_end := sz (ref + size)
  if a.m_free_space_invalid then a
  else
    let r := free_try a.m_slabs free_space ref size ref_end throws
    if read_only then { a with m_free_read_only := r.1, m_free_space_invalid := r.2 }
    else { a with m_free_space := r.1, m_free_space_invalid := r.2 }

/-- A call of the allocator, with what the environment decides: for `alloc`
the outcome of `new char[new_size]`, for `free_` the size recorded in the
header and the statements that throw. -/
inductive SlabOp where
  | alloc (size : Nat) (new_slab : Option Nat)
  | free_ (ref size : Nat) (throws : Nat → Bool)

/-- A sequence of calls, run from state `a`: the final state and the refs that
`alloc` returned, appended to `rets`. -/
def run_ops : SlabAlloc → List Nat → List SlabOp → SlabAlloc × List Nat
  | a, rets, [] => (a, rets)
  | a, rets, .alloc size new_slab :: ops =>
    run_ops (a.alloc size new_slab).1
      (match (a.alloc size new_slab).2 with
        | some ref => rets ++ [ref]
        | none => rets) ops
  | a, rets, .free_ ref size throws :: ops => run_ops (a.free_ ref size throws) rets ops

/-- The calls of a sequence are as the claim on alignment requires: every
`alloc` is for a positive multiple of 8, and every `free_` is on a block whose
recorded size is a multiple of 8, the block being one that an earlier `alloc`
of the run returned or one at an aligned ref in the read-only segment. -/
def valid_ops : SlabAlloc → List Nat → List SlabOp → Bool
  | _, _, [] => true
  | a, rets, .alloc size new_slab :: ops =>
    decide (0 < size) && decide (size % 8 = 0) &&
    valid_ops (a.alloc size new_slab).1
      (match (a.alloc size new_slab).2 with
        | some ref => rets ++ [ref]
        | none => rets) ops
  | a, rets, .free_ ref size throws :: ops =>
    decide (size % 8 = 0) &&
    (decide (ref ∈ rets) || (decide (ref < a.m_baseline) && decide (ref % 8 = 0))) &&
    valid_ops (a.free_ ref size throws) rets ops

/-- A `SlabAlloc` right after it is attached to a buffer of `baseline` bytes:
no slabs and empty free lists. -/
def fresh_slab_alloc (baseline : Nat) : SlabAlloc :=
  { m_baseline := baseline, m_slabs := [], m_free_space := [], m_free_read_only := [],
    m_free_space_invalid := false }

/-- The rows of a free list are aligned: refs and sizes are multiples of 8. -/
def aligned_rows (rows : List FreeRow) : Prop :=
  ∀ r ∈ rows, r.ref % 8 = 0 ∧ r.size % 8 = 0

/-- The alignment invariant of the allocator state. -/
def SlabAlloc.aligned (a : SlabAlloc) : Prop :=
  a.m_baseline % 8 = 0 ∧ aligned_rows a.m_free_space ∧ aligned_rows a.m_free_read_only ∧
  ∀ s ∈ a.m_slabs, s.ref_end % 8 = 0

/-- An example run: an allocation that creates a slab, two that are served
from the free list, the release of the first block, one more allocation, and a
release in the read-only segment during which the free-list update throws. -/
def example_slab_ops : List SlabOp :=
  [.alloc 16 (some 4096), .alloc 24 none, .alloc 24 (some 8192), .free_ 1024 16 (fun _ => false),
   .alloc 8 none, .free_ 8 16 (fun k => decide (k = 6))]

/-! ## The slab allocator: translation, attachment and free-space reset -/

/-- Embedding of `MemRef`: an address and the ref that translates to it. -/
structure MemRef where
  m_addr : Nat
  m_ref : Nat
  deriving DecidableEq, Repr

/-- The exceptions that the allocator throws. -/
inductive SlabError where
  | InvalidFreeSpace
  | bad_alloc
  | InvalidDatabase
  deriving DecidableEq, Repr

/-- Modelled from the spec: `upper_bound(value)` on an integer column, which
`column.hpp` declares: the binary search of `upper_bound` over the rows of the
column. -/
def column_upper_bound (col : List Int) (value : Int) : Nat := upper_bound col value

/-- Embedding of `SlabAlloc::translate(ref)`: the address that `ref` stands
for, `none` when the lookup leaves the slab table (`ndx == m_slabs.size()`,
the case that the assertion excludes). Addresses are natural numbers; the
column `addr` holds the address of a slab as an `int64_t`. -/
def SlabAlloc.translate (a : SlabAlloc) (ref : Nat) : Option Nat :=
  if ref < a.m_baseline then some (a.m_data + ref)
  else
    let ndx := column_upper_bound (a.m_slabs.map fun s => s.ref_end) (to_int64 ref)
    if ndx = a.m_slabs.length then none
    else
      let offset :=
        if ndx = 0 then a.m_baseline else to_size_t (a.m_slabs.getD (ndx - 1) ⟨0, 0⟩).ref_end
      let addr := to_size_t (a.m_slabs.getD ndx ⟨0, 0⟩).addr
      some (addr + size_sub ref offset)

/-- Embedding of `SlabAlloc::alloc(size)` with all that the call produces: the
state after the call and the returned `MemRef`, or the exception thrown;
`none` when `translate` leaves the slab table. The function `SlabAlloc.alloc`
is the projection of this one to the state and the ref. -/
def SlabAlloc.alloc_mem (a : SlabAlloc) (size : Nat) (new_slab : Option Nat) :
    Option (SlabAlloc × Except SlabError MemRef) :=
  if a.m_free_space_invalid then some (a, .error SlabError.InvalidFreeSpace)
  else
    match alloc_find size a.m_free_space 0 with
    | some i =>
      let r := a.m_free_space.getD i ⟨0, 0⟩
      let ref := to_ref r.ref
      let rest := to_size_t (r.size - (size : Int))
      let free_space :=
        if rest = 0 then a.m_free_space.eraseIdx i
        else a.m_free_space.set i ⟨to_int64 (r.ref + (to_uint32 size : Int)), to_int64 rest⟩
      let a2 := { a with m_free_space := free_space }
      match a2.translate ref with
      | none => none
      | some addr => some (a2, .ok ⟨addr, ref⟩)
    | none =>
      let new_size := sz ((size_sub size 1 ||| 255) + 1)
      let curr_ref_end :=
        if a.m_slabs.isEmpty then a.m_baseline
        else to_size_t (a.m_slabs.getD (a.m_slabs.length - 1) ⟨0, 0⟩).ref_end
      let new_size :=
        if a.m_slabs.isEmpty then new_size
        else
          let prev_ref_end :=
            if a.m_slabs.length = 1 then a.m_baseline
            else to_size_t (a.m_slabs.getD (a.m_slabs.length - 2) ⟨0, 0⟩).ref_end
          let min_size := sz (2 * size_sub curr_ref_end prev_ref_end)
          if new_size < min_size then min_size else new_size
      match new_slab with
      | none => some (a, .error SlabError.bad_alloc)
      | some slab =>
        let new_ref_end := sz (curr_ref_end + new_size)
        let slabs := a.m_slabs ++ [⟨to_int64 new_ref_end, to_int64 slab⟩]
        let unused := size_sub new_size (sz size)
        let free_space :=
          if 0 < unused then
            a.m_free_space ++ [⟨to_int64 (sz (curr_ref_end + size)), to_int64 unused⟩]
          else a.m_free_space
        some ({ a with m_slabs := slabs, m_free_space := free_space }, .ok ⟨slab, curr_ref_end⟩)

/-- The loop of `SlabAlloc::free_all` that rebuilds the free list, one entry
for every slab, with `ref` the start of the next slab. -/
def free_all_loop : List SlabRow → Nat → List FreeRow → List FreeRow
  | [], _, free_space => free_space
  | c :: rest, ref, free_space =>
    let size := to_size_t (c.ref_end - (ref : Int))
    free_all_loop rest (to_size_t c.ref_end) (free_space ++ [⟨to_int64 ref, to_int64 size⟩])

/-- Embedding of `SlabAlloc::free_all()`. -/
def SlabAlloc.free_all (a : SlabAlloc) : SlabAlloc :=
  { a with
    m_free_read_only := [],
    m_free_space := free_all_loop a.m_slabs a.m_baseline [],
    m_free_space_invalid := false }

/-- The loop of `SlabAlloc::Verify` over the free list: whether both
assertions hold for every entry. -/
def verify_loop (slabs : List SlabRow) : List FreeRow → Bool
  | [] => true
  | c :: rest =>
    let ref := to_ref c.ref
    let ndx := column_upper_bound (slabs.map fun s => s.ref_end) (to_int64 ref)
    if ndx = slabs.length then false
    else
      let slab_end := to_ref (slabs.getD ndx ⟨0, 0⟩).ref_end
      let free_end := sz (ref + to_ref c.size)
      if free_end ≤ slab_end then verify_loop slabs rest else false

/-- Embedding of `SlabAlloc::Verify()`: whether its assertions hold. -/
def SlabAlloc.Verify (a : SlabAlloc) : Bool := verify_loop a.m_slabs a.m_free_space

/-- Embedding of `SlabAlloc::validate_buffer(data, len)` on the memory `mem`,
`data` being the address of the buffer. The top-refs are read in the byte
order of the host, which is little-endian here. -/
def validate_buffer (mem : Mem) (data len : Nat) : Bool :=
  if len < 24 ∨ len % 8 ≠ 0 then false
  else if ¬ (mem (data + 16) % 256 = 84 ∧ mem (data + 17) % 256 = 45 ∧
      mem (data + 18) % 256 = 68 ∧ mem (data + 19) % 256 = 66) then false
  else
    let valid_part := mem (data + 16 + 7) % 256 % 2
    let version := mem (data + 16 + 4 + valid_part) % 256
    if version ≠ 0 then false
    else
      let ref := to_ref (to_int64 (read_le mem (data + 8 * valid_part) 8))
      if ref ≥ len then false else true

/-- Embedding of `SlabAlloc::attach_buffer(data, size, take_ownership)`: the
state after the call and the exception thrown, if any. -/
def SlabAlloc.attach_buffer (a : SlabAlloc) (mem : Mem) (data size : Nat)
    (take_ownership : Bool) : SlabAlloc × Option SlabError :=
  if ¬ validate_buffer mem data size then (a, some SlabError.InvalidDatabase)
  else
    ({ a with
        m_data := data,
        m_baseline := size,
        m_free_mode := if take_ownership then FreeMode.free_Unalloc else FreeMode.free_Noop },
      none)

/-- A byte with its bit 0 flipped. -/
def flip_bit0 (b : Nat) : Nat := if b % 2 = 0 then b + 1 else b - 1

/-- Embedding of `SlabAlloc::get_top_ref()` on the memory `mem`. The
assertions, compiled in debug mode only, are preconditions. -/
def SlabAlloc.get_top_ref (a : SlabAlloc) (mem : Mem) : Nat :=
  let valid_ref := mem (a.m_data + 16 + 7) % 256 % 2
  to_ref (to_int64 (read_le mem (a.m_data + 8 * valid_ref) 8))

deriving instance DecidableEq for SlabRow, FreeRow, SlabAlloc

/-- The slab table is ordered: the `ref_end` column increases strictly from
the baseline on and holds values of `int64_t`. -/
def SlabAlloc.slabs_ordered (a : SlabAlloc) : Prop :=
  List.Pairwise (fun x y => x < y) ((a.m_baseline : Int) :: a.m_slabs.map fun s => s.ref_end) ∧
  ∀ s ∈ a.m_slabs, s.ref_end ≤ 9223372036854775807

instance (a : SlabAlloc) : Decidable a.slabs_ordered := by
  unfold SlabAlloc.slabs_ordered; infer_instance

/-! ## `Array::truncate_and_destroy_children` and sequences of `add` -/

/-- Embedding of `Array::truncate_and_destroy_children(new_size)`. The call
`destroy_children(offset)`, made when `m_has_refs` holds, frees the subtrees
of the dropped slots and leaves the array itself as it is. -/
def Array.truncate_and_destroy_children (a : Array) (new_size : Nat) (fr : Fresh) :
    Option Array :=
  if ¬ new_size ≤ a.m_size then none
  else if new_size = a.m_size then some a
  else
    let b := a.copy_on_write (fr 0)
    let b := { b with m_size := new_size, hdr_size := new_size }
    if new_size = 0 then
      let b := { b with m_capacity := calc_item_count b.hdr_capacity 0 }
      let b := b.set_width 0
      some { b with hdr_width := 0 }
    else some b

/-- The widths to expect along a sequence of added values: the running
maximum of `bit_width`, from the width `w` on. -/
def width_trace (w : Nat) : List Int → List Nat
  | [] => []
  | v :: vs => max (bit_width v) w :: width_trace (max (bit_width v) w) vs

/-- The widths of the array after each call of a sequence of `add(value)`
calls; call number `k` draws its blocks from `frs k`. -/
def add_widths (a : Array) : List Int → (Nat → Fresh) → Option (List Nat)
  | [], _ => some []
  | v :: vs, frs =>
    (a.add v (frs 0)).bind fun b =>
      (add_widths b vs (fun k => frs (k + 1))).map fun ws => b.m_width :: ws

/-! ### Example inputs -/

/-- An allocator with two slabs above a baseline of 1024: the refs 1024 to
1279 at address 4096 and the refs 1280 to 1791 at address 8192. -/
def example_slab_alloc : SlabAlloc :=
  { m_baseline := 1024, m_slabs := [⟨1280, 4096⟩, ⟨1792, 8192⟩],
    m_free_space := [⟨1040, 240⟩, ⟨1280, 512⟩], m_free_read_only := [⟨24, 8⟩],
    m_free_space_invalid := false, m_data := 65536 }

/-- A run of three allocations, each of which creates a slab, the last one of
`2^32` bytes: requests of 8, `2^31 - 8` and `2^31 - 8` bytes. -/
def example_large_ops : List SlabOp :=
  [.alloc 8 (some 4096), .alloc 2147483640 (some 1048576), .alloc 2147483640 (some 4294967296)]

/-- A file header: top-refs 24 and 32, the magic bytes `T-DB`, version bytes
0 and the select bit clear, in a buffer at address 0. -/
def example_header : Mem := fun p =>
  if p = 0 then 24 else if p = 8 then 32
  else if p = 16 then 84 else if p = 17 then 45 else if p = 18 then 68 else if p = 19 then 66
  else 0

/-- An empty writable array of width 8, as `erase` leaves an array after its
last element is removed. -/
def example_empty_wide : Array :=
  { m_data := fun _ => 0,
    m_size := 0, m_capacity := 120, m_width := 8, m_lbound := -128, m_ubound := 127,
    m_is_inner_bptree_node := false, m_has_refs := false, m_context_flag := false,
    read_only := false, hdr_size := 0, hdr_width := 8, hdr_capacity := 128 }

/-! ## Counting and chunked reads (`Array::count`, `Array::get_chunk`) -/

/-- Arithmetic in `uint64_t`: reduction modulo `2^64`. -/
def u64 (x : Nat) : Nat := x % 18446744073709551616

/-- The complement `~x` of a `uint64_t`. -/
def not64 (x : Nat) : Nat := 18446744073709551615 - u64 x

/-- The difference `x - y` in `uint64_t`. -/
def sub64 (x y : Nat) : Nat := u64 (x + 18446744073709551616 - u64 y)

/-- The constant `m1` of `Array::count`. -/
def count_m1 : Nat := 0x5555555555555555

/-- The constant `m2` of `Array::count`. -/
def count_m2 : Nat := 0x3333333333333333

/-- The constant `m4` of `Array::count`. -/
def count_m4 : Nat := 0x0f0f0f0f0f0f0f0f

/-- The constant `h01` of `Array::count`. -/
def count_h01 : Nat := 0x0101010101010101

/-- The body of the chunk loop of `Array::count` for width 1, on the word
`a = next[i / chunkvals]`: the population count of `a`, or of `~a` when
zeros are counted. -/
def count_chunk_1 (value : Int) (a : Nat) : Nat :=
  let a := if value = 0 then not64 a else a
  let a := sub64 a ((a >>> 1) &&& count_m1)
  let a := u64 ((a &&& count_m2) + ((a >>> 2) &&& count_m2))
  let a := u64 (a + (a >>> 4)) &&& count_m4
  u64 (a * count_h01) >>> 56

/-- The body of the chunk loop of `Array::count` for width 2. -/
def count_chunk_2 (value : Int) (a : Nat) : Nat :=
  let v := u64 (18446744073709551615 / 0x3 * to_uint64 value)
  let c1 := u64 (18446744073709551615 / 0x3 * 0x1)
  let a := a ^^^ v
  let a := a ||| ((a >>> 1) &&& c1)
  let a := a &&& count_m1
  let a := a ^^^ count_m1
  let a := u64 ((a &&& count_m2) + ((a >>> 2) &&& count_m2))
  let a := u64 (a + (a >>> 4)) &&& count_m4
  u64 (a * count_h01) >>> 56

/-- The body of the chunk loop of `Array::count` for width 4. -/
def count_chunk_4 (value : Int) (a : Nat) : Nat :=
  let v := u64 (18446744073709551615 / 0xF * to_uint64 value)
  let m := u64 (18446744073709551615 / 0xF * 0x1)
  let c1 := u64 (18446744073709551615 / 0xF * 0x7)
  let c2 := u64 (18446744073709551615 / 0xF * 0x3)
  let a := a ^^^ v
  let a := a ||| ((a >>> 1) &&& c1)
  let a := a ||| ((a >>> 2) &&& c2)
  let a := a &&& m
  let a := a ^^^ m
  let a := u64 (a + (a >>> 4)) &&& count_m4
  u64 (a * count_h01) >>> 56

/-- The body of the chunk loop of `Array::count` for width 8. The product
`~0ULL / 0xFF * value` is taken in `uint64_t`, to which `value` is
converted. -/
def count_chunk_8 (value : Int) (a : Nat) : Nat :=
  let v := u64 (18446744073709551615 / 0xFF * to_uint64 value)
  let m := u64 (18446744073709551615 / 0xFF * 0x1)
  let c1 := u64 (18446744073709551615 / 0xFF * 0x7F)
  let c2 := u64 (18446744073709551615 / 0xFF * 0x3F)
  let c3 := u64 (18446744073709551615 / 0xFF * 0x0F)
  let a := a ^^^ v
  let a := a ||| ((a >>> 1) &&& c1)
  let a := a ||| ((a >>> 2) &&& c2)
  let a := a ||| ((a >>> 4) &&& c3)
  let a := a &&& m
  let a := a ^^^ m
  u64 (a * count_h01) >>> 56

/-- The body of the chunk loop of `Array::count` for width 16. -/
def count_chunk_16 (value : Int) (a : Nat) : Nat :=
  let v := u64 (18446744073709551615 / 0xFFFF * to_uint64 value)
  let m := u64 (18446744073709551615 / 0xFFFF * 0x1)
  let c1 := u64 (18446744073709551615 / 0xFFFF * 0x7FFF)
  let c2 := u64 (18446744073709551615 / 0xFFFF * 0x3FFF)
  let c3 := u64 (18446744073709551615 / 0xFFFF * 0x0FFF)
  let c4 := u64 (18446744073709551615 / 0xFFFF * 0x00FF)
  let a := a ^^^ v
  let a := a ||| ((a >>> 1) &&& c1)
  let a := a ||| ((a >>> 2) &&& c2)
  let a := a ||| ((a >>> 4) &&& c3)
  let a := a ||| ((a >>> 8) &&& c4)
  let a := a &&& m
  let a := a ^^^ m
  u64 (a * count_h01) >>> 56

/-- The loop `for (; i + chunkvals <= end; i += chunkvals)` of `Array::count`,
entered with loop variable `i` and the running `value_count`; `body` is the
loop body on the word `next[i / chunkvals]`, which is read little-endian. The
result is the loop variable and the count on exit; the loop takes fewer than
`fuel = end + 1` iterations. -/
def count_chunk_loop (chunkvals : Nat) (body : Nat → Nat) (d : Mem) (end_ : Nat) :
    Nat → Nat → Nat → Nat × Nat
  | 0, i, value_count => (i, value_count)
  | fuel + 1, i, value_count =>
    if i + chunkvals ≤ end_ then
      count_chunk_loop chunkvals body d end_ fuel (i + chunkvals)
        (sz (value_count + body (read_le d (8 * (i / chunkvals)) 8)))
    else (i, value_count)

/-- The loops `for (; i < end; ++i) if (get(i) == value) ++value_count` of
`Array::count`, with `get` the read at width `w` and `n` iterations left. -/
def count_scan_loop (w : Nat) (d : Mem) (value : Int) : Nat → Nat → Nat → Nat
  | 0, _, value_count => value_count
  | n + 1, i, value_count =>
    count_scan_loop w d value n (i + 1)
      (if get_direct w d i = value then value_count + 1 else value_count)

/-- Embedding of `Array::count(value)`. Width 32 compares with `int32_t(value)`. -/
def Array.count (a : Array) (value : Int) : Nat :=
  let end_ := a.m_size
  if a.m_width = 0 then (if value = 0 then a.m_size else 0)
  else if a.m_width = 32 then
    count_scan_loop 32 a.m_data (to_signed 32 (to_uint64 value)) end_ 0 0
  else if a.m_width = 64 then count_scan_loop 64 a.m_data value end_ 0 0
  else
    let r : Option (Nat × Nat) :=
      if a.m_width = 1 then
        if to_uint64 value > 1 then none
        else some (count_chunk_loop 64 (count_chunk_1 value) a.m_data end_ (end_ + 1) 0 0)
      else if a.m_width = 2 then
        if to_uint64 value > 3 then none
        else some (count_chunk_loop 32 (count_chunk_2 value) a.m_data end_ (end_ + 1) 0 0)
      else if a.m_width = 4 then
        if to_uint64 value > 15 then none
        else some (count_chunk_loop 16 (count_chunk_4 value) a.m_data end_ (end_ + 1) 0 0)
      else if a.m_width = 8 then
        if value > 0x7F ∨ value < -0x80 then none
        else some (count_chunk_loop 8 (count_chunk_8 value) a.m_data end_ (end_ + 1) 0 0)
      else if a.m_width = 16 then
        if value > 0x7FFF ∨ value < -0x8000 then none
        else some (count_chunk_loop 4 (count_chunk_16 value) a.m_data end_ (end_ + 1) 0 0)
      else some (0, 0)
    match r with
    | none => 0
    | some (i, value_count) =>
      count_scan_loop a.m_width a.m_data value (end_ - i) i value_count

/-- The number of indices `i < size` with `get(i) = value`. -/
def Array.count_spec (a : Array) (value : Int) : Nat :=
  (a.elems.filter fun x => decide (x = value)).length

/-- Modelled from the spec: the macro `no0(v)`, defined outside the sources at
hand, which replaces a zero width by 1 so that it can be divided by. -/
def no0 (v : Nat) : Nat := if v = 0 then 1 else v

/-- The loop `for (; i + ndx < m_size && i < 8; i++) res[i] = get<w>(ndx + i)`
of `Array::get_chunk`, with at most `fuel` iterations left: the loop variable
on exit and `res`. -/
def get_chunk_read_loop (w : Nat) (d : Mem) (m_size ndx : Nat) :
    Nat → Nat → List Int → Nat × List Int
  | 0, i, res => (i, res)
  | fuel + 1, i, res =>
    if sz (i + ndx) < m_size ∧ i < 8 then
      get_chunk_read_loop w d m_size ndx fuel (i + 1) (res.set i (get_direct w d (sz (ndx + i))))
    else (i, res)

/-- The loop `for (; i < 8; i++) res[i] = 0` of `Array::get_chunk`. -/
def get_chunk_zero_loop : Nat → Nat → List Int → List Int
  | 0, _, res => res
  | fuel + 1, i, res =>
    if i < 8 then get_chunk_zero_loop fuel (i + 1) (res.set i 0) else res

/-- Embedding of `Array::get_chunk<w>(ndx, res)`: the array `res[8]` after the call, `none`
when the assertion `ndx < m_size` fails. `x86_or_x64` is the macro
`REALM_X86_OR_X64_TRUE`; the words are read little-endian, as on those
machines. The check in the debug block repeats the element-wise read. -/
def Array.get_chunk (w : Nat) (a : Array) (ndx : Nat) (res : List Int) (x86_or_x64 : Bool) :
    Option (List Int) :=
  if ¬ ndx < a.m_size then none
  else if x86_or_x64 = true ∧ (w = 1 ∨ w = 2 ∨ w = 4) ∧ sz (ndx + 32) < a.m_size then
    let bytealign := ndx / (8 / no0 w)
    let c : Nat :=
      if w = 1 then read_le a.m_data bytealign 2 >>> (size_sub ndx (sz (bytealign * 8)) * w)
      else if w = 2 then read_le a.m_data bytealign 4 >>> (size_sub ndx (sz (bytealign * 4)) * w)
      else if w = 4 then read_le a.m_data bytealign 8 >>> (size_sub ndx (sz (bytealign * 2)) * w)
      else 0
    let mask : Nat :=
      if w = 64 then 18446744073709551615 else sub64 (1 <<< (if w = 64 then 0 else w)) 1
    let s := if w > 4 then 0 else w
    let res := res.set 0 (((c >>> (0 * s)) &&& mask : Nat) : Int)
    let res := res.set 1 (((c >>> (1 * s)) &&& mask : Nat) : Int)
    let res := res.set 2 (((c >>> (2 * s)) &&& mask : Nat) : Int)
    let res := res.set 3 (((c >>> (3 * s)) &&& mask : Nat) : Int)
    let res := res.set 4 (((c >>> (4 * s)) &&& mask : Nat) : Int)
    let res := res.set 5 (((c >>> (5 * s)) &&& mask : Nat) : Int)
    let res := res.set 6 (((c >>> (6 * s)) &&& mask : Nat) : Int)
    let res := res.set 7 (((c >>> (7 * s)) &&& mask : Nat) : Int)
    some res
  else
    let r := get_chunk_read_loop w a.m_data a.m_size ndx 8 0 res
    some (get_chunk_zero_loop 8 r.1 r.2)

/-! ## `Array::adjust_ge` -/

/-- Embedding of the template `Array::adjust_ge<w>(start, end, limit, diff)`, with
`n = end - i` iterations of the loop left: the array and the position the
template returns, `none` when an assertion fails under `ensure_minimum_width`.
The element at position `i` draws its blocks from `frs i`; the sum `v + diff`
wraps around in `int64_t`. -/
def adjust_ge_w (w : Nat) (limit diff : Int) (end_ : Nat) (frs : Nat → Fresh) :
    Nat → Array → Option (Array × Nat)
  | 0, a => some (a, end_)
  | n + 1, a =>
    let i := end_ - (n + 1)
    let v := get_direct w a.m_data i
    if v ≥ limit then
      let shifted := to_int64 (v + diff)
      match a.ensure_minimum_width shifted (frs i) with
      | none => none
      | some b =>
        let c := b.copy_on_write ((frs i).drop 2 0)
        if c.m_width ≠ w then some (c, i)
        else adjust_ge_w w limit diff end_ frs n { c with m_data := set_direct w c.m_data i shifted }
    else adjust_ge_w w limit diff end_ frs n a

/-- The loop `for (size_t i = 0, n = size(); i != n;) i = adjust_ge<m_width>(i, n, limit, diff)`
of `Array::adjust_ge`, entered with loop variable `i`; `fuel` bounds the
number of passes, and pass number `k` draws its blocks from `frs k`. -/
def adjust_ge_loop (limit diff : Int) (n : Nat) :
    Nat → Nat → Array → (Nat → Nat → Fresh) → Option Array
  | 0, _, _, _ => none
  | fuel + 1, i, a, frs =>
    if i = n then some a
    else
      match adjust_ge_w a.m_width limit diff n (frs 0) (n - i) a with
      | none => none
      | some (b, j) => adjust_ge_loop limit diff n fuel j b (fun k => frs (k + 1))

/-- The number of widths above `w`: how many times an array of width `w` can
still be promoted. -/
def width_rank (w : Nat) : Nat := (widths.filter fun x => decide (w < x)).length

/-- Embedding of `Array::adjust_ge(limit, diff)`. The re-dispatch loop is given one pass
for each of the eight widths and one more to leave the loop. -/
def Array.adjust_ge (a : Array) (limit diff : Int) (frs : Nat → Nat → Fresh) : Option Array :=
  if diff ≠ 0 then adjust_ge_loop limit diff a.m_size 9 0 a frs else some a

/-! ## `Array::find_gte` -/

/-- The constant `not_found`, which is `npos`. -/
def not_found : Nat := npos

/-- The loop of the reference scan in the debug block of `Array::find_gte`,
`for (idx = start; idx < end; ++idx) if (get(idx) >= target) { ref = idx; break; }`,
with at most `fuel` iterations left: `ref` and `idx` on exit. -/
def find_gte_ref_loop (a : Array) (target : Int) (end_ : Nat) : Nat → Nat → Nat → Nat × Nat
  | 0, ref, idx => (ref, idx)
  | fuel + 1, ref, idx =>
    if idx < end_ then
      if a.get idx ≥ target then (idx, idx)
      else find_gte_ref_loop a target end_ fuel ref (idx + 1)
    else (ref, idx)

/-- The reference scan in the debug block of `Array::find_gte`: the value of
`ref` that `REALM_ASSERT_DEBUG(ref == ret)` compares with the result. -/
def Array.find_gte_ref (a : Array) (target : Int) (start end_ : Nat) : Nat :=
  let end_ := if end_ > a.m_size then a.m_size else end_
  let r := find_gte_ref_loop a target end_ (end_ + 1) 0 start
  if r.2 = end_ then not_found else r.1

/-- The probing loop of `Array::find_gte`,
`for (offset = start + test_ndx;; offset = start + test_ndx)`, which doubles
`test_ndx`: `start` and `test_ndx` on exit, `none` when `fuel` runs out. -/
def find_gte_probe (w : Nat) (d : Mem) (target : Int) (end_ : Nat) :
    Nat → Nat → Nat → Option (Nat × Nat)
  | 0, _, _ => none
  | fuel + 1, start, test_ndx =>
    let offset := sz (start + test_ndx)
    if offset < end_ ∧ get_direct w d offset < target then
      find_gte_probe w d target end_ fuel (sz (start + test_ndx)) (sz (test_ndx * 2))
    else some (start, test_ndx)

/-- The bisection loop `while (high - start > 1)` of `Array::find_gte`, in
`size_t` arithmetic: `high` on exit, `none` when `fuel` runs out. -/
def find_gte_bisect (w : Nat) (d : Mem) (target : Int) : Nat → Nat → Nat → Option Nat
  | 0, _, _ => none
  | fuel + 1, start, high =>
    if size_sub high start > 1 then
      let probe := sz (start + high) / 2
      if get_direct w d probe < target then find_gte_bisect w d target fuel probe high
      else find_gte_bisect w d target fuel start probe
    else some high

/-- Embedding of the template `Array::find_gte<w>(target, start, end)` without its debug
block: `none` when the assertion `start < size()` fails. The two loops are
given `m_size + 1` iterations each. -/
def Array.find_gte_w (w : Nat) (a : Array) (target : Int) (start end_ : Nat) : Option Nat :=
  if ¬ start < a.m_size then none
  else
    let end_ := if end_ > a.m_size then a.m_size else end_
    if start ≥ end_ ∨ target > ubound_for_width w then some not_found
    else
      let first : Option Nat × Nat :=
        if sz (start + 2) < end_ then
          if get_direct w a.m_data start ≥ target then (some start, start)
          else if get_direct w a.m_data (sz (start + 1)) ≥ target then
            (some (sz (start + 1)), start)
          else (none, sz (sz (start + 1) + 1))
        else (none, start)
      match first with
      | (some ret, _) => some ret
      | (none, start) =>
        if target > get_direct w a.m_data (size_sub end_ 1) then some not_found
        else
          match find_gte_probe w a.m_data target end_ (a.m_size + 1) start 1 with
          | none => none
          | some (start, test_ndx) =>
            let high := sz (sz (start + test_ndx) + 1)
            let high := if high > end_ then end_ else high
            let start := size_sub start 1
            let orig_high := high
            match find_gte_bisect w a.m_data target (a.m_size + 1) start high with
            | none => none
            | some high => if high = orig_high then some not_found else some high

/-- Embedding of `Array::find_gte(target, start, end)`: the dispatch on `m_width`. -/
def Array.find_gte (a : Array) (target : Int) (start end_ : Nat) : Option Nat :=
  if a.m_width ∈ widths then a.find_gte_w a.m_width target start end_ else some not_found

/-- The least index `i` in `[start, min(end, size))` with `get(i) >= target`,
`not_found` when there is none. -/
def Array.find_gte_spec (a : Array) (target : Int) (start end_ : Nat) : Nat :=
  match (List.range (min end_ a.m_size)).find? fun i => decide (start ≤ i ∧ a.get i ≥ target) with
  | some i => i
  | none => not_found

/-! ## `Array::move`, `Array::move_backward` and `Array::move_rotate` -/

/-- The loop of `std::copy_n(first, n, d_first)` on payload bytes, which
`realm::safe_copy_n` runs: `*d_first++ = *first++`, `n` bytes left. -/
def copy_n (d : Mem) : Nat → Nat → Nat → Mem
  | 0, _, _ => d
  | n + 1, first, d_first =>
    copy_n (Function.update d d_first (d first)) n (first + 1) (d_first + 1)

/-- The loop `for (i = begin; i != end; ++i) setter(dest_begin++, getter(i))`
of `Array::move`, with `n = end - i` iterations left. -/
def move_loop (w : Nat) : Nat → Nat → Nat → Mem → Mem
  | 0, _, _, d => d
  | n + 1, i, dest_begin, d =>
    move_loop w n (i + 1) (dest_begin + 1) (set_direct w d dest_begin (get_direct w d i))

/-- The loop `for (i = end; i != begin; --i) setter(--dest_end, getter(i - 1))`
of `Array::move_backward`, with `n = i - begin` iterations left. -/
def move_backward_loop (w : Nat) (begin_ : Nat) : Nat → Nat → Mem → Mem
  | 0, _, d => d
  | n + 1, dest_end, d =>
    move_backward_loop w begin_ n (dest_end - 1)
      (set_direct w d (dest_end - 1) (get_direct w d (begin_ + n)))

/-- Embedding of `Array::move(begin, end, dest_begin)` on a node of width type
`wtype_Bits`; a failed assertion gives `none`. -/
def Array.move (a : Array) (begin_ end_ dest_begin : Nat) (fr : Fresh) : Option Array :=
  if ¬ begin_ ≤ end_ then none
  else if ¬ end_ ≤ a.m_size then none
  else if ¬ dest_begin ≤ a.m_size then none
  else if ¬ end_ - begin_ ≤ a.m_size - dest_begin then none
  else if dest_begin ≥ begin_ ∧ dest_begin < end_ then none
  else
    let a := a.copy_on_write (fr 0)
    let bits_per_elem := a.m_width
    if bits_per_elem < 8 then
      some { a with m_data := move_loop a.m_width (end_ - begin_) begin_ dest_begin a.m_data }
    else
      let bytes_per_elem := bits_per_elem / 8
      let begin_2 := begin_ * bytes_per_elem
      let end_2 := end_ * bytes_per_elem
      let dest_begin_2 := dest_begin * bytes_per_elem
      some { a with m_data := copy_n a.m_data (end_2 - begin_2) begin_2 dest_begin_2 }

/-- Embedding of `Array::move_backward(begin, end, dest_end)` on a node of width type
`wtype_Bits`; a failed assertion gives `none`. -/
def Array.move_backward (a : Array) (begin_ end_ dest_end : Nat) (fr : Fresh) : Option Array :=
  if ¬ begin_ ≤ end_ then none
  else if ¬ end_ ≤ a.m_size then none
  else if ¬ dest_end ≤ a.m_size then none
  else if ¬ end_ - begin_ ≤ dest_end then none
  else if dest_end > begin_ ∧ dest_end ≤ end_ then none
  else
    let a := a.copy_on_write (fr 0)
    let bits_per_elem := a.m_width
    if bits_per_elem < 8 then
      some { a with m_data := move_backward_loop a.m_width begin_ (end_ - begin_) dest_end a.m_data }
    else
      let bytes_per_elem := bits_per_elem / 8
      let begin_2 := begin_ * bytes_per_elem
      let end_2 := end_ * bytes_per_elem
      let dest_end_2 := dest_end * bytes_per_elem
      some { a with m_data := copy_backward a.m_data begin_2 end_2 dest_end_2 }

/-- The result of `std::rotate(first, new_first, last)` on payload bytes, as
the C++ standard prescribes it: the bytes of `[first, last)` are shifted left
so that the byte at `new_first` comes to `first` and the byte at
`new_first - 1` comes to `last - 1`. -/
def rotate (d : Mem) (first new_first last : Nat) : Mem :=
  fun p =>
    if first ≤ p ∧ p < last then
      if p < first + (last - new_first) then d (p + (new_first - first))
      else d (p - (last - new_first))
    else d p

/-- The loop `for (i = 0; i < num_elems; ++i) save[i] = get(from + i)` of
`Array::move_rotate`: the saved elements. -/
def move_rotate_save (a : Array) (from_ num_elems : Nat) : List Int :=
  (List.range num_elems).map fun i => a.get (from_ + i)

/-- The loop `for (i = 0; i < num_elems; ++i) set(to + i, save[i])` of
`Array::move_rotate`, entered with loop variable `i` and the elements of
`save` from `i` on; call number `k` of `set` draws its blocks from `frs k`. -/
def move_rotate_restore (to_ : Nat) : List Int → Nat → Array → (Nat → Fresh) → Option Array
  | [], _, a, _ => some a
  | v :: save, i, a, frs =>
    match a.set (to_ + i) v (frs 0) with
    | none => none
    | some b => move_rotate_restore to_ save (i + 1) b (fun k => frs (k + 1))

/-- Embedding of `Array::move_rotate(from, to, num_elems)` on a node of width type
`wtype_Bits`. The assertion at the head is compiled in debug mode only and is
a precondition of the call; `frs 0` holds the blocks for the copy on write and
for `move` or `move_backward`, the later ones those for the calls of `set`. -/
def Array.move_rotate (a : Array) (from_ to_ num_elems : Nat) (frs : Nat → Fresh) :
    Option Array :=
  if from_ = to_ then some a
  else
    let a := a.copy_on_write (frs 0 0)
    let bits_per_elem := a.m_width
    if bits_per_elem < 8 then
      let save := move_rotate_save a from_ num_elems
      let moved :=
        if from_ < to_ then a.move (from_ + num_elems) (to_ + num_elems) from_ ((frs 0).drop 1)
        else a.move_backward to_ from_ (from_ + num_elems) ((frs 0).drop 1)
      match moved with
      | none => none
      | some b => move_rotate_restore to_ save 0 b (fun k => frs (k + 1))
    else
      let bytes_per_elem := bits_per_elem / 8
      let first := if from_ < to_ then from_ * bytes_per_elem else to_ * bytes_per_elem
      let new_first :=
        if from_ < to_ then (from_ + num_elems) * bytes_per_elem else from_ * bytes_per_elem
      let last :=
        if from_ < to_ then (to_ + num_elems) * bytes_per_elem
        else (from_ + num_elems) * bytes_per_elem
      some { a with m_data := rotate a.m_data first new_first last }

/-- The rotation of element indices that `move_rotate(from, to, num_elems)`
stands for: the index whose old element is found at index `j` afterwards. -/
def rotate_source (from_ to_ num_elems j : Nat) : Nat :=
  if from_ < to_ then
    if from_ ≤ j ∧ j < to_ then j + num_elems
    else if to_ ≤ j ∧ j < to_ + num_elems then j - to_ + from_
    else j
  else
    if to_ ≤ j ∧ j < to_ + num_elems then j - to_ + from_
    else if to_ + num_elems ≤ j ∧ j < from_ + num_elems then j - num_elems
    else j

/-! ### Example inputs -/

/-- A writable leaf of width 8 that holds eight times the value -1 (every
payload byte is `0xFF`). -/
def example_minus_ones : Array :=
  { m_data := fun _ => 255,
    m_size := 8, m_capacity := 120, m_width := 8, m_lbound := -128, m_ubound := 127,
    m_is_inner_bptree_node := false, m_has_refs := false, m_context_flag := false,
    read_only := false, hdr_size := 8, hdr_width := 8, hdr_capacity := 128 }

/-- A writable leaf of width 1 with 48 elements, whose payload bytes are
0xA5 six times. -/
def example_bits : Array :=
  { m_data := fun p => if p < 6 then 165 else 0,
    m_size := 48, m_capacity := 960, m_width := 1, m_lbound := 0, m_ubound := 1,
    m_is_inner_bptree_node := false, m_has_refs := false, m_context_flag := false,
    read_only := false, hdr_size := 48, hdr_width := 1, hdr_capacity := 128 }

/-- A writable leaf of width 32 that holds 5, 6, 5. -/
def example_int32_leaf : Array :=
  { m_data := fun p => if p = 0 then 5 else if p = 4 then 6 else if p = 8 then 5 else 0,
    m_size := 3, m_capacity := 30, m_width := 32, m_lbound := -2147483648,
    m_ubound := 2147483647,
    m_is_inner_bptree_node := false, m_has_refs := false, m_context_flag := false,
    read_only := false, hdr_size := 3, hdr_width := 32, hdr_capacity := 128 }

/-- The slab reuse scenario on an allocator with baseline `b`: allocations of
1024, 2048 and 1024 bytes, each of which creates a slab (at the addresses
`p1`, `p2`, `p3`), the release of the second block, whose header records a
capacity of 2048 bytes, and `n` further allocations of 2048 bytes for which no
new slab can be had. -/
def slab_reuse_ops (b p1 p2 p3 n : Nat) : List SlabOp :=
  [.alloc 1024 (some p1), .alloc 2048 (some p2), .alloc 1024 (some p3),
   .free_ (b + 1024) 2048 (fun _ => false)] ++ List.replicate n (.alloc 2048 none)

/-! ## Node trees: `Array::slice`, `Array::clone`, `Array::destroy_children` -/

/-- A node of width type `wtype_Bits` as it lies in the memory of an
allocator: the fields of the 8-byte header, the payload that follows it, and
whether the allocator holds the node in its read-only region. -/
structure Node where
  is_inner_bptree_node : Bool
  has_refs : Bool
  context_flag : Bool
  width : Nat
  size : Nat
  capacity : Nat
  data : Mem
  read_only : Bool

/-- A node together with what its slots refer to: `children` has one entry
per slot, the node tree that the allocator translates the slot to when the
slot holds a ref, and `null` when it holds none. A parent slot owns its child
exclusively. -/
inductive MemTree where
  | null
  | node (hdr : Node) (children : List MemTree)

/-- Embedding of `Array::init_from_mem(mem)`: the accessor attached to a node. -/
def Array.init_from_mem (n : Node) : Array :=
  Array.set_width
    { m_data := n.data, m_size := n.size,
      m_capacity := if n.read_only then n.size else calc_item_count n.capacity n.width,
      m_width := n.width, m_lbound := 0, m_ubound := 0,
      m_is_inner_bptree_node := n.is_inner_bptree_node, m_has_refs := n.has_refs,
      m_context_flag := n.context_flag, read_only := n.read_only,
      hdr_size := n.size, hdr_width := n.width, hdr_capacity := n.capacity }
    n.width

/-- Modelled from the spec: `Array::get_mem()` of `array.hpp`, read as the
node that the accessor is attached to: the header in memory and the payload. -/
def Array.get_mem (a : Array) : Node :=
  { is_inner_bptree_node := a.m_is_inner_bptree_node, has_refs := a.m_has_refs,
    context_flag := a.m_context_flag, width := a.hdr_width, size := a.hdr_size,
    capacity := a.hdr_capacity, data := a.m_data, read_only := a.read_only }

/-- Modelled from the spec: `Array::get_type()` of `array.hpp`, the type that
the flags `is_inner_bptree_node` and `has_refs` stand for. -/
def Array.get_type (a : Array) : Type_ :=
  if a.m_is_inner_bptree_node then Type_.type_InnerBptreeNode
  else if a.m_has_refs then Type_.type_HasRefs
  else Type_.type_Normal

/-- Modelled from the spec: `Array::get_type_from_header(header)` of
`array.hpp`. -/
def Node.get_type (n : Node) : Type_ :=
  if n.is_inner_bptree_node then Type_.type_InnerBptreeNode
  else if n.has_refs then Type_.type_HasRefs
  else Type_.type_Normal

/-- Modelled from the spec: `Array::get_byte_size_from_header(header)` of
`array.hpp` for the width scheme `bits`: `ceil(width * size / 8)` payload
bytes, rounded up to a multiple of 8, and the 8 bytes of the header. -/
def Node.byte_size (n : Node) : Nat :=
  let num_bytes := sz (sz (n.size * n.width) + 7) / 8
  let num_bytes := sz (num_bytes + 7) / 8 * 8
  sz (num_bytes + header_size)

/-- Modelled from the spec: `from_ref(ref)` of `alloc.hpp`, the cast of a ref
to `int_fast64_t`. -/
def from_ref (ref : Nat) : Int := to_int64 ref

/-- The test `value != 0 && (value & 1) == 0` of `Array::clone`,
`Array::slice_and_clone_children` and (as two tests) `Array::destroy_children`:
the slot holds a ref. -/
def is_subarray (value : Int) : Bool :=
  decide (value ≠ 0) && decide (to_uint64 value &&& 1 = 0)

/-- The loop `for (i = begin; i != end; ++i) new_slice.add(get(i))` of
`Array::slice`, with `count = end - i` iterations left; call number `k` of `add`
draws its blocks from `frs k`. -/
def slice_loop (src : Array) : Nat → Nat → Array → (Nat → Fresh) → Option Array
  | 0, _, new_slice, _ => some new_slice
  | count + 1, i, new_slice, frs =>
    match new_slice.add (src.get i) (frs 0) with
    | none => none
    | some ns => slice_loop src count (i + 1) ns (fun k => frs (k + 1))

/-- Embedding of `Array::slice(offset, slice_size, target_alloc)`: the node that the
returned `MemRef` refers to. The block for `create` is `frs 0 0`. -/
def Array.slice (a : Array) (offset slice_size : Nat) (frs : Nat → Fresh) : Option Node :=
  let new_slice := Array.create a.get_type a.m_context_flag (frs 0)
  let begin_ := offset
  let end_ := sz (offset + slice_size)
  (slice_loop a (size_sub end_ begin_) begin_ new_slice (fun k => frs (k + 1))).map
    Array.get_mem

mutual
/-- Embedding of `Array::clone(mem, alloc, target_alloc)` on the node tree at `mem`: the
new node tree, its ref and the number of nodes that `target_alloc` has placed
so far. Node number `k` that `target_alloc` places ends up at ref `refs k`, in
blocks drawn from `frs k`. A node without refs is copied byte for byte; `none`
stands for a slot that refers to no node or a failed assertion. -/
def MemTree.clone (refs : Nat → Nat) (frs : Nat → Nat → Fresh) :
    MemTree → Nat → Option (MemTree × Nat × Nat)
  | .null, _ => none
  | .node hdr children, k =>
    if ¬ hdr.has_refs then
      let size := hdr.byte_size
      let clone_hdr : Node :=
        { hdr with
          data := fun p => if p + header_size < size then hdr.data p else frs k 0 0 p,
          capacity := size, read_only := false }
      some (.node clone_hdr (children.map fun _ => MemTree.null), refs k, k + 1)
    else
      let array := Array.init_from_mem hdr
      let new_array := Array.create hdr.get_type hdr.context_flag (frs k 0)
      match clone_children refs frs array array.m_size (fun j => frs k (j + 1)) children 0
          new_array (k + 1) with
      | none => none
      | some (new_array, new_children, k2) =>
        some (.node new_array.get_mem new_children, refs k, k2)
/-- The loop over the slots in `Array::clone` and in
`Array::slice_and_clone_children`, entered at slot `i` with the slots from `i`
on: a slot that holds no ref is added as it is, and a slot that holds a ref
is replaced by the ref of the clone of the node tree it refers to. The result
is the new array, what its slots refer to, and the number of nodes placed.
Call number `j` of `add` draws its blocks from `fr j`. -/
def clone_children (refs : Nat → Nat) (frs : Nat → Nat → Fresh) (array : Array) (end_ : Nat)
    (fr : Nat → Fresh) :
    List MemTree → Nat → Array → Nat → Option (Array × List MemTree × Nat)
  | [], i, new_array, k => if i = end_ then some (new_array, [], k) else none
  | c :: cs, i, new_array, k =>
    if i = end_ then some (new_array, [], k)
    else
      let value := array.get i
      if ¬ is_subarray value then
        match new_array.add value (fr i) with
        | none => none
        | some na =>
          match clone_children refs frs array end_ fr cs (i + 1) na k with
          | none => none
          | some (r, new_children, k2) => some (r, MemTree.null :: new_children, k2)
      else
        match MemTree.clone refs frs c k with
        | none => none
        | some (new_mem, new_ref, k2) =>
          let value := from_ref new_ref
          match new_array.add value (fr i) with
          | none => none
          | some na =>
            match clone_children refs frs array end_ fr cs (i + 1) na k2 with
            | none => none
            | some (r, new_children, k3) => some (r, new_mem :: new_children, k3)
end

/-- Embedding of `Array::slice_and_clone_children(offset, slice_size, target_alloc)` on
the array attached to the root of a node tree: the new node tree, its ref and
the number of nodes placed. -/
def MemTree.slice_and_clone_children (refs : Nat → Nat) (frs : Nat → Nat → Fresh) :
    MemTree → Nat → Nat → Nat → Option (MemTree × Nat × Nat)
  | .null, _, _, _ => none
  | .node hdr children, offset, slice_size, k =>
    let this := Array.init_from_mem hdr
    if ¬ this.m_has_refs then
      match this.slice offset slice_size (frs k) with
      | none => none
      | some n => some (.node n (List.replicate slice_size MemTree.null), refs k, k + 1)
    else
      let new_slice := Array.create this.get_type this.m_context_flag (frs k 0)
      let begin_ := offset
      let end_ := sz (offset + slice_size)
      match clone_children refs frs this end_ (fun j => frs k (j + 1)) (children.drop begin_)
          begin_ new_slice (k + 1) with
      | none => none
      | some (new_slice, new_children, k2) =>
        some (.node new_slice.get_mem new_children, refs k, k2)

/-- The loop of `Array::destroy_children(offset)`, with `count = m_size - i`
iterations left: the refs that the loop hands to `destroy_deep`, in order. -/
def destroy_children_loop (a : Array) : Nat → Nat → List Nat
  | 0, _ => []
  | count + 1, i =>
    let value := a.get i
    if value = 0 then destroy_children_loop a count (i + 1)
    else if to_uint64 value &&& 1 ≠ 0 then destroy_children_loop a count (i + 1)
    else to_ref value :: destroy_children_loop a count (i + 1)

/-- Embedding of `Array::destroy_children(offset)`: the refs that the calls
`destroy_deep(ref, m_alloc)` are made on, in order; `none` when `offset` is
past the end of the array, where the loop does not stop at `m_size`. -/
def Array.destroy_children (a : Array) (offset : Nat) : Option (List Nat) :=
  if offset ≤ a.m_size then some (destroy_children_loop a (a.m_size - offset) offset) else none

/-- The refs that `Array::truncate_and_destroy_children(new_size)` hands to
`destroy_deep`: those of `destroy_children(new_size)`, called after the copy
on write when `m_has_refs` holds. -/
def Array.truncate_destroyed (a : Array) (new_size : Nat) (fr : Fresh) : Option (List Nat) :=
  if ¬ new_size ≤ a.m_size then none
  else if new_size = a.m_size then some []
  else
    let b := a.copy_on_write (fr 0)
    if b.m_has_refs then b.destroy_children new_size else some []

/-! ### Well-formed node trees and their structure -/

/-- A node can be read: its width is one of the eight, its size fits the
24-bit size field and the node fits the largest payload. -/
def Node.valid (n : Node) : Prop :=
  n.width ∈ widths ∧ n.size ≤ 0xFFFFFF ∧ calc_byte_len n.size n.width ≤ max_array_payload

instance (n : Node) : Decidable n.valid := by unfold Node.valid; infer_instance

mutual
/-- A well-formed node tree: every node can be read, and in a node with refs
every slot that holds a ref refers to a well-formed node tree. A node with
refs has at most 2097150 slots, so that it fits the largest payload at every
width. -/
def MemTree.wf : MemTree → Bool
  | .null => false
  | .node hdr children =>
    decide hdr.valid &&
      (!hdr.has_refs ||
        (decide (hdr.size ≤ 2097150) && wf_slots (Array.init_from_mem hdr) children 0))
/-- The slots from `i` on of a node with refs are well formed. -/
def wf_slots (array : Array) : List MemTree → Nat → Bool
  | [], i => decide (i = array.m_size)
  | c :: cs, i =>
    decide (i < array.m_size) && (!is_subarray (array.get i) || c.wf) &&
      wf_slots array cs (i + 1)
end

mutual
/-- The number of levels of a node tree. -/
def MemTree.depth : MemTree → Nat
  | .null => 0
  | .node _ children => depth_list children + 1
/-- The largest number of levels among the trees of a list. -/
def depth_list : List MemTree → Nat
  | [] => 0
  | c :: cs => max c.depth (depth_list cs)
end

/-- The structure of a node tree, without the refs: a slot that holds no ref
is its value, and a node is its three header flags, its size, what is
recorded of its layout, and its slots. -/
inductive Shape where
  | null
  | value (v : Int)
  | node (is_inner_bptree_node has_refs context_flag : Bool) (size : Nat)
      (layout : Option (Nat × Nat)) (slots : List Shape)

mutual
/-- The structure of a node tree. Of a node without refs, `lay` says what is
recorded of the layout; a slot of a node with refs that holds a ref is the
structure of the node tree it refers to. -/
def MemTree.shape (lay : Node → Option (Nat × Nat)) : MemTree → Shape
  | .null => Shape.null
  | .node hdr children =>
    Shape.node hdr.is_inner_bptree_node hdr.has_refs hdr.context_flag hdr.size
      (if hdr.has_refs then none else lay hdr)
      (if hdr.has_refs then shape_children lay (Array.init_from_mem hdr) children 0
        else (Array.init_from_mem hdr).elems.map Shape.value)
/-- The structure of the slots from `i` on of a node with refs. -/
def shape_children (lay : Node → Option (Nat × Nat)) (array : Array) :
    List MemTree → Nat → List Shape
  | [], _ => []
  | c :: cs, i =>
    (if is_subarray (array.get i) then c.shape lay else Shape.value (array.get i)) ::
      shape_children lay array cs (i + 1)
end

/-- Nothing is recorded of the layout. -/
def no_layout : Node → Option (Nat × Nat) := fun _ => none

/-- The layout of a node: its width and the capacity field of its header. -/
def Node.layout (n : Node) : Option (Nat × Nat) := some (n.width, n.capacity)

/-- The layout that a byte-for-byte copy of a node has: the width of the node
and, as capacity, its byte size. -/
def Node.copy_layout (n : Node) : Option (Nat × Nat) := some (n.width, n.byte_size)

/-- The refs that an allocator hands out: not null, 8-byte aligned, and of
type `size_t`. -/
def valid_refs (refs : Nat → Nat) : Prop :=
  ∀ k, 0 < refs k ∧ refs k % 8 = 0 ∧ refs k < 18446744073709551616

/-- The header of the root of a node tree. -/
def MemTree.hdr : MemTree → Option Node
  | .null => none
  | .node hdr _ => some hdr

/-- What the slots of the root of a node tree refer to. -/
def MemTree.children : MemTree → List MemTree
  | .null => []
  | .node _ children => children

/-- The slots of an array that hold a ref, from slot `offset` on, as refs:
the non-zero elements whose low bit is clear. -/
def Array.ref_slots (a : Array) (offset : Nat) : List Nat :=
  (((List.range (a.m_size - offset)).map fun j => a.get (offset + j)).filter
    fun v => decide (v ≠ 0 ∧ v % 2 = 0)).map to_ref

/-! ### Example inputs -/

/-- A leaf node of width 8 that holds 1, 2, 3, 4. -/
def example_child : Node :=
  { is_inner_bptree_node := false, has_refs := false, context_flag := false,
    width := 8, size := 4, capacity := 128,
    data := fun p => if p < 4 then p + 1 else 0, read_only := false }

/-- A node with refs of width 8 whose slots hold 0, the tagged integer
`(5 << 1) | 1 = 11`, and the ref 16. -/
def example_parent : Node :=
  { is_inner_bptree_node := false, has_refs := true, context_flag := false,
    width := 8, size := 3, capacity := 128,
    data := fun p => if p = 1 then 11 else if p = 2 then 16 else 0, read_only := false }

/-- The node tree of `example_parent`, whose third slot refers to
`example_child`. -/
def example_node_tree : MemTree :=
  .node example_parent [.null, .null, .node example_child []]

/-- A node with refs of width 8 whose only slot holds the ref 16. -/
def example_ref_parent : Node :=
  { is_inner_bptree_node := false, has_refs := true, context_flag := false,
    width := 8, size := 1, capacity := 128,
    data := fun p => if p = 0 then 16 else 0, read_only := false }

/-- The node tree of `example_ref_parent`, whose slot refers to
`example_child`. -/
def example_ref_tree : MemTree :=
  .node example_ref_parent [.node example_child []]

/-- A target allocator that places node number `k` at ref `104 + 16 * k`,
starting over after 1024 nodes. -/
def example_refs : Nat → Nat := fun k => 104 + 16 * (k % 1024)

/-- Zeroed blocks for every node. -/
def example_blocks : Nat → Nat → Fresh := fun _ _ _ _ => 0

/-! ## Leaf visiting, root elimination, byte sizes and extrema -/

/-- Embedding of `Array::NodeInfo`: `m_mem` is the node at the slot, `m_parent`
the node that holds the slot, `m_ndx_in_parent` the position of the slot in
the parent array, `m_offset` the global index of the first element of the
node and `m_size` its number of elements. -/
structure NodeInfo where
  m_mem : BpNode
  m_parent : BpNode
  m_ndx_in_parent : Nat
  m_offset : Nat
  m_size : Nat

/-- The loop `for (;;)` over the children in `foreach_bptree_leaf`, entered
at child `child_ndx` with the children from that one on and with
`child_info.m_offset`. The handler is a function object: it is called with
its state and the `NodeInfo`, and returns its answer and its new state.
`foreach` is the recursive call on a child; reading a child slot past the
last child gives `none`. In `child_ndx-1 + 1` the two steps in `size_t`
cancel. -/
def foreach_children {σ : Type} (foreach : BpNode → Nat → Nat → σ → Option (Bool × σ))
    (handler : σ → NodeInfo → Bool × σ) (node : BpNode)
    (node_offset node_size elems_per_child : Nat) (offsets : List Int) (num_children : Nat)
    (children_are_leaves : Bool) :
    List BpNode → Nat → Nat → σ → Option (Bool × σ)
  | [], _, _, _ => none
  | child :: rest, child_ndx, m_offset, s =>
    let is_last_child : Bool := decide (child_ndx = num_children - 1)
    let m_size :=
      if ¬ is_last_child then
        if elems_per_child ≠ 0 then elems_per_child
        else size_sub (sz (node_offset + to_size_t (offsets.getD child_ndx 0))) m_offset
      else size_sub (sz (node_offset + node_size)) m_offset
    let child_info : NodeInfo :=
      { m_mem := child, m_parent := node, m_ndx_in_parent := 1 + child_ndx,
        m_offset := m_offset, m_size := m_size }
    let r : Option (Bool × σ) :=
      if children_are_leaves then some (handler s child_info)
      else foreach child m_offset m_size s
    match r with
    | none => none
    | some (go_on, s2) =>
      if ¬ go_on then some (false, s2)
      else if is_last_child then some (true, s2)
      else
        foreach_children foreach handler node node_offset node_size elems_per_child offsets
          num_children children_are_leaves rest (child_ndx + 1) (sz (m_offset + m_size)) s2

/-- Embedding of `foreach_bptree_leaf(node, node_offset, node_size, handler, start_offset)`:
the value returned and the state of the handler afterwards. `none` stands for
a failed assertion, a division by an `elems_per_child` of zero, a read past
the child slots, or fuel running out; `fuel` bounds the depth of the
recursion. -/
def foreach_bptree_leaf {σ : Type} (handler : σ → NodeInfo → Bool × σ) (start_offset : Nat) :
    Nat → BpNode → Nat → Nat → σ → Option (Bool × σ)
  | 0, _, _, _, _ => none
  | _ + 1, .leaf _, _, _, _ => none
  | fuel + 1, .inner first_value offsets children last_value, node_offset, node_size, s =>
    let is_compact : Bool := decide (Int.tmod first_value 2 ≠ 0)
    let elems_per_child := if is_compact then to_size_t (Int.tdiv first_value 2) else 0
    if is_compact ∧ start_offset > node_offset ∧ elems_per_child = 0 then none
    else
      let local_start_offset := start_offset - node_offset
      let child_ndx :=
        if start_offset > node_offset then
          if is_compact then local_start_offset / elems_per_child
          else upper_bound offsets (to_int64 local_start_offset)
        else 0
      let child_offset :=
        if start_offset > node_offset then
          if is_compact then sz (node_offset + sz (child_ndx * elems_per_child))
          else if child_ndx > 0 then
            sz (node_offset + to_size_t (offsets.getD (child_ndx - 1) 0))
          else node_offset
        else node_offset
      let num_children := children.length
      if num_children < 1 then none
      else
        match children[child_ndx]? with
        | none => none
        | some first_child =>
          let children_are_leaves : Bool :=
            match first_child with
            | .leaf _ => true
            | .inner _ _ _ _ => false
          foreach_children (foreach_bptree_leaf handler start_offset fuel) handler
            (.inner first_value offsets children last_value) node_offset node_size
            elems_per_child offsets num_children children_are_leaves
            (children.drop child_ndx) child_ndx child_offset s

/-- Embedding of `Array::visit_bptree_leaves(elem_ndx_offset, elems_in_tree, handler)` on the
root of a tree. -/
def visit_bptree_leaves {σ : Type} (handler : σ → NodeInfo → Bool × σ) (fuel : Nat)
    (root : BpNode) (elem_ndx_offset elems_in_tree : Nat) (s : σ) : Option (Bool × σ) :=
  if ¬ elem_ndx_offset < elems_in_tree then none
  else foreach_bptree_leaf handler elem_ndx_offset fuel root 0 elems_in_tree s

mutual
/-- The leaves of a subtree from left to right, each with the slot that holds
it and the global index of its first element: `parent` and `ndx` name the
slot of the subtree itself, `offset` is the global index of its first
element. -/
def BpNode.leaf_infos : BpNode → BpNode → Nat → Nat → List NodeInfo
  | .leaf xs, parent, ndx, offset =>
    [{ m_mem := .leaf xs, m_parent := parent, m_ndx_in_parent := ndx, m_offset := offset,
       m_size := xs.length }]
  | .inner first_value offsets cs last_value, _, _, offset =>
    leaf_infos_list (.inner first_value offsets cs last_value) cs 0 offset
/-- The leaves below the children of `parent` from child `i` on, the first of
which starts at the global index `offset`. -/
def leaf_infos_list (parent : BpNode) : List BpNode → Nat → Nat → List NodeInfo
  | [], _, _ => []
  | c :: cs, i, offset =>
    c.leaf_infos parent (1 + i) offset ++
      leaf_infos_list parent cs (i + 1) (offset + c.flatten.length)
end

/-- The calls of a handler on a sequence of leaves, one after the other until
a call returns false: whether every call returned true, and the state of the
handler after the last call made. -/
def handle_leaves {σ : Type} (handler : σ → NodeInfo → Bool × σ) : List NodeInfo → σ → Bool × σ
  | [], s => (true, s)
  | x :: xs, s =>
    if (handler s x).1 then handle_leaves handler xs (handler s x).2
    else (false, (handler s x).2)

mutual
/-- The tree with the last slot of every inner node set to zero: two trees
are identical except for the stored totals when this gives the same tree. -/
def BpNode.clear_totals : BpNode → BpNode
  | .leaf xs => .leaf xs
  | .inner first_value offsets cs _ => .inner first_value offsets (clear_totals_list cs) 0
/-- The subtrees of a list with the stored totals cleared. -/
def clear_totals_list : List BpNode → List BpNode
  | [] => []
  | c :: cs => c.clear_totals :: clear_totals_list cs
end

/-- A `NodeInfo` with the stored totals cleared in the nodes it names. -/
def NodeInfo.clear_totals (x : NodeInfo) : NodeInfo :=
  { x with m_mem := x.m_mem.clear_totals, m_parent := x.m_parent.clear_totals }

/-- A handler that does not read the stored totals of the nodes it is
given. -/
def ignores_totals {σ : Type} (handler : σ → NodeInfo → Bool × σ) : Prop :=
  ∀ s x, handler s x = handler s x.clear_totals

/-- A handler that records `m_ndx_in_parent`, `m_offset`, `m_size` and the
elements of every leaf it is given, and stops after `limit` leaves. -/
def recording_handler (limit : Nat) :
    List (Nat × Nat × Nat × List Int) → NodeInfo → Bool × List (Nat × Nat × Nat × List Int) :=
  fun s x =>
    (decide (s.length + 1 < limit),
      s ++ [(x.m_ndx_in_parent, x.m_offset, x.m_size, x.m_mem.flatten)])

/-- The children of an inner node (none for a leaf). -/
def BpNode.children : BpNode → List BpNode
  | .leaf _ => []
  | .inner _ _ cs _ => cs

/-- A block handed to `Allocator::free_` during the elimination of a superfluous
root: the array of an inner node, or the offsets array at a ref. -/
inductive Freed where
  | node (n : BpNode)
  | offsets (ref : Nat)

/-- The two statements at the end of `elim_superfluous_bptree_root`, which are
those of `destroy_inner_bptree_node`: the node is freed, and its offsets
array when slot 0 is even. -/
def freed_with (n : BpNode) : List Freed :=
  match n with
  | .leaf _ => [Freed.node n]
  | .inner first_value _ _ _ =>
    Freed.node n :: (if Int.tmod first_value 2 = 0 then [Freed.offsets (to_ref first_value)] else [])

/-- The calls of `free_` that `elim_superfluous_bptree_root(root, parent_mem, parent_first_value, child_ref, handler)`
makes on the path on which nothing throws, in the order in which they are
made; the argument is the node at `parent_mem`, whose slot 1 is `child_ref`.
`none` stands for a failed assertion or fuel running out. -/
def elim_superfluous_bptree_root_frees : Nat → BpNode → Option (List Freed)
  | 0, _ => none
  | _ + 1, .leaf _ => none
  | fuel + 1, .inner first_value offsets children last_value =>
    match children[0]? with
    | none => none
    | some child =>
      let below : Option (List Freed) :=
        match child with
        | .leaf _ => some []
        | .inner _ _ grandchildren _ =>
          if grandchildren.length < 1 then none
          else if grandchildren.length > 1 then some []
          else elim_superfluous_bptree_root_frees fuel child
      match below with
      | none => none
      | some frees => some (frees ++ freed_with (.inner first_value offsets children last_value))

/-- The calls of `do_erase_bptree_elem` that one call gives rise to, the call itself
first and then the one on the child on the path, and so on: for each call
the fuel left, the node it is made on and its `elem_ndx`. The child is found
as in the function: the last child for `npos`, and otherwise by
`find_bptree_child` after `ensure_bptree_offsets`. -/
def do_erase_bptree_elem_calls (offsets_ref : Nat) : Nat → BpNode → Nat → List (Nat × BpNode × Nat)
  | 0, _, _ => []
  | _ + 1, .leaf _, _ => []
  | fuel + 1, .inner first_value offsets children last_value, elem_ndx =>
    let num_children := children.length
    let conv : Int × List Int :=
      if elem_ndx = npos then (first_value, offsets)
      else ensure_bptree_offsets first_value offsets num_children offsets_ref
    let p : Nat × Nat :=
      if elem_ndx = npos then (num_children - 1, npos)
      else find_bptree_child conv.1 conv.2 elem_ndx
    (fuel + 1, .inner first_value offsets children last_value, elem_ndx) ::
      match children[p.1]? with
      | some (.inner a b c d) => do_erase_bptree_elem_calls offsets_ref fuel (.inner a b c d) p.2
      | _ => []

/-- A chain of inner nodes with a single child each: `chain` starts at `n`,
every node of it is the only child of the one before, and `r` is the only
child of the last one (`r` is `n` for the empty chain). -/
def single_child_chain : List BpNode → BpNode → BpNode → Prop
  | [], n, r => n = r
  | m :: ms, n, r =>
    n = m ∧ ∃ fv offs c last, m = .inner fv offs [c] last ∧ single_child_chain ms c r

/-- The error that `Array::calc_aligned_byte_size` throws. -/
inductive ByteSizeError where
  | byte_size_overflow
  deriving DecidableEq, Repr

/-- Embedding of `Array::calc_aligned_byte_size(size, width)` for a positive `width`, in
`size_t` arithmetic: `none` when an assertion fails, the error for the
exception thrown, or the value returned. -/
def calc_aligned_byte_size (size width : Nat) : Option (Except ByteSizeError Nat) :=
  if ¬ (width ≠ 0 ∧ width &&& (width - 1) = 0) then none
  else
    let max := size_max
    let max_2 := max &&& not64 7
    let r : Bool × Nat :=
      if width < 8 then
        let elems_per_byte := 8 / width
        let byte_size_0 := size / elems_per_byte
        let byte_size_0 := if size % elems_per_byte ≠ 0 then sz (byte_size_0 + 1) else byte_size_0
        (decide (byte_size_0 > size_sub max_2 header_size), sz (header_size + byte_size_0))
      else
        let bytes_per_elem := width / 8
        (decide (size > size_sub max_2 header_size / bytes_per_elem),
          sz (header_size + sz (size * bytes_per_elem)))
    let overflow := r.1
    let byte_size := r.2
    if overflow then some (.error ByteSizeError.byte_size_overflow)
    else if ¬ byte_size > 0 then none
    else some (.ok (sz ((size_sub byte_size 1 ||| 7) + 1)))

/-- The loop `for (; start < end; ++start)` of `Array::minmax`, with at most
`fuel` iterations left: `m` and `best_index` on exit. -/
def minmax_loop (find_max : Bool) (w : Nat) (d : Mem) (end_ : Nat) :
    Nat → Nat → Int → Nat → Int × Nat
  | 0, _, m, best_index => (m, best_index)
  | fuel + 1, start, m, best_index =>
    if start < end_ then
      let v := get_direct w d start
      if (if find_max then v > m else v < m) then minmax_loop find_max w d end_ fuel (start + 1) v start
      else minmax_loop find_max w d end_ fuel (start + 1) m best_index
    else (m, best_index)

/-- Embedding of the template `Array::minmax<find_max, w>(result, start, end, return_ndx)`, with the
block under `#if 0` left out: `none` when the assertion fails, `some none`
when the function returns false, and otherwise `result` and the index written
to `*return_ndx`. -/
def Array.minmax (find_max : Bool) (w : Nat) (a : Array) (start end_ : Nat) :
    Option (Option (Int × Nat)) :=
  let best_index := 0
  let end_ := if end_ = npos then a.m_size else end_
  if ¬ (start < a.m_size ∧ end_ ≤ a.m_size ∧ start < end_) then none
  else if a.m_size = 0 then some none
  else if w = 0 then some (some (0, best_index))
  else
    let m := get_direct w a.m_data start
    let start := start + 1
    some (some (minmax_loop find_max w a.m_data end_ (end_ - start) start m best_index))

/-- Embedding of `Array::maximum(result, start, end, return_ndx)`: the template for the width of
the array. -/
def Array.maximum (a : Array) (start end_ : Nat) : Option (Option (Int × Nat)) :=
  a.minmax true a.m_width start end_

/-- Embedding of `Array::minimum(result, start, end, return_ndx)`. -/
def Array.minimum (a : Array) (start end_ : Nat) : Option (Option (Int × Nat)) :=
  a.minmax false a.m_width start end_

/-! ### Example inputs -/

/-- A root on the general form over two compact inner nodes with one leaf
each: the leaf 1 and the leaf 2, 3. -/
def example_tree3 : BpNode :=
  .inner 16 [1] [.inner 3 [] [.leaf [1]] 3, .inner 5 [] [.leaf [2, 3]] 5] 7

/-- The tree `example_tree2` with other values in the last slots. -/
def example_tree2_totals : BpNode :=
  .inner 16 [3]
    [.inner 24 [2] [.leaf [1, 2], .leaf [3]] 99,
     .inner 5 [] [.leaf [4, 5], .leaf [6]] (-1)] 1

/-! ## Theorems: width policy -/

theorem to_uint64_nonneg (v : Int) (h0 : 0 ≤ v) (h : v ≤ 9223372036854775807) :
    to_uint64 v = v.toNat := by
  unfold to_uint64
  congr 1
  omega

theorem to_uint64_neg (v : Int) (h0 : v < 0) (h : -9223372036854775808 ≤ v) :
    to_uint64 v = (v + 18446744073709551616).toNat := by
  unfold to_uint64
  congr 1
  omega

theorem bits_eq_spec (n : Nat) (h : n < 16) : bits.getD (n % 256) 0 = bit_width_spec n := by
  interval_cases n <;> decide

theorem bit_width_spec_8 (v : Int) (h : (-128 ≤ v ∧ v < 0) ∨ (16 ≤ v ∧ v ≤ 127)) :
    bit_width_spec v = 8 := by
  unfold bit_width_spec
  rw [if_neg (by omega), if_neg (by omega), if_neg (by omega), if_neg (by omega),
    if_pos (by omega)]

theorem bit_width_spec_16 (v : Int) (h : (-32768 ≤ v ∧ v < -128) ∨ (128 ≤ v ∧ v ≤ 32767)) :
    bit_width_spec v = 16 := by
  unfold bit_width_spec
  rw [if_neg (by omega), if_neg (by omega), if_neg (by omega), if_neg (by omega),
    if_neg (by omega), if_pos (by omega)]

theorem bit_width_spec_32 (v : Int)
    (h : (-2147483648 ≤ v ∧ v < -32768) ∨ (32768 ≤ v ∧ v ≤ 2147483647)) :
    bit_width_spec v = 32 := by
  unfold bit_width_spec
  rw [if_neg (by omega), if_neg (by omega), if_neg (by omega), if_neg (by omega),
    if_neg (by omega), if_neg (by omega), if_pos (by omega)]

theorem bit_width_spec_64 (v : Int) (h : v < -2147483648 ∨ 2147483648 ≤ v) :
    bit_width_spec v = 64 := by
  unfold bit_width_spec
  rw [if_neg (by omega), if_neg (by omega), if_neg (by omega), if_neg (by omega),
    if_neg (by omega), if_neg (by omega), if_neg (by omega)]

/-- The magnitude test at the end of `Array::bit_width`. -/
theorem bit_width_tail (m : Nat) :
    (if m / 2147483648 ≠ 0 then 64 else if m / 32768 ≠ 0 then 32
      else if m / 128 ≠ 0 then 16 else 8) =
    (if 2147483648 ≤ m then 64 else if 32768 ≤ m then 32 else if 128 ≤ m then 16 else 8) := by
  have e1 : (m / 2147483648 ≠ 0) = (2147483648 ≤ m) := by
    apply propext; omega
  have e2 : (m / 32768 ≠ 0) = (32768 ≤ m) := by
    apply propext; omega
  have e3 : (m / 128 ≠ 0) = (128 ≤ m) := by
    apply propext; omega
  simp only [e1, e2, e3]

theorem bit_width_eq_spec (v : Int) (h : is_int64 v) : bit_width v = bit_width_spec v := by
  obtain ⟨hlo, hhi⟩ := h
  rcases lt_or_le v 0 with hneg | hpos
  · have hu := to_uint64_neg v hneg hlo
    have hu2 := to_uint64_nonneg (-v - 1) (by omega) (by omega)
    unfold bit_width
    simp only [hu, hu2, hneg, if_true, Nat.shiftRight_eq_div_pow]
    norm_num only
    have e : (v + 18446744073709551616).toNat / 16 ≠ 0 := by omega
    simp only [e, if_false]
    rw [bit_width_tail]
    clear hu hu2 e
    by_cases c1 : 2147483648 ≤ (-v - 1).toNat
    · rw [if_pos c1, bit_width_spec_64 v (by omega)]
    rw [if_neg c1]
    by_cases c2 : 32768 ≤ (-v - 1).toNat
    · rw [if_pos c2, bit_width_spec_32 v (by omega)]
    rw [if_neg c2]
    by_cases c3 : 128 ≤ (-v - 1).toNat
    · rw [if_pos c3, bit_width_spec_16 v (by omega)]
    rw [if_neg c3, bit_width_spec_8 v (by omega)]
  · have hu := to_uint64_nonneg v hpos hhi
    unfold bit_width
    have hn : ¬ v < 0 := by omega
    simp only [hu, hn, if_false, Nat.shiftRight_eq_div_pow]
    norm_num only
    by_cases h1 : v.toNat / 16 = 0
    · have h16 : v.toNat < 16 := by omega
      have hv : v = (v.toNat : Int) := by omega
      simp only [h1, if_true]
      rw [bits_eq_spec _ h16, ← hv]
    · simp only [h1, if_false]
      rw [bit_width_tail]
      clear hu
      by_cases c1 : 2147483648 ≤ v.toNat
      · rw [if_pos c1, bit_width_spec_64 v (by omega)]
      rw [if_neg c1]
      by_cases c2 : 32768 ≤ v.toNat
      · rw [if_pos c2, bit_width_spec_32 v (by omega)]
      rw [if_neg c2]
      by_cases c3 : 128 ≤ v.toNat
      · rw [if_pos c3, bit_width_spec_16 v (by omega)]
      rw [if_neg c3, bit_width_spec_8 v (by omega)]

theorem bit_width_spec_small (v : Int) :
    (v = 0 → bit_width_spec v = 0) ∧ (v = 1 → bit_width_spec v = 1) ∧
    (2 ≤ v ∧ v ≤ 3 → bit_width_spec v = 2) ∧ (4 ≤ v ∧ v ≤ 15 → bit_width_spec v = 4) := by
  unfold bit_width_spec
  refine ⟨fun h => ?_, fun h => ?_, fun h => ?_, fun h => ?_⟩
  · rw [if_pos h]
  · rw [if_neg (by omega), if_pos h]
  · rw [if_neg (by omega), if_neg (by omega), if_pos (by omega)]
  · rw [if_neg (by omega), if_neg (by omega), if_neg (by omega), if_pos (by omega)]

/-- Membership in `widths`, spelled out. -/
theorem mem_widths (w : Nat) :
    w ∈ widths ↔ w = 0 ∨ w = 1 ∨ w = 2 ∨ w = 4 ∨ w = 8 ∨ w = 16 ∨ w = 32 ∨ w = 64 := by
  simp [widths]

theorem bit_width_minimal (v : Int) (h : is_int64 v) :
    bit_width v ∈ widths ∧
    lbound_for_width (bit_width v) ≤ v ∧ v ≤ ubound_for_width (bit_width v) ∧
    (∀ w ∈ widths, lbound_for_width w ≤ v → v ≤ ubound_for_width w → bit_width v ≤ w) := by
  rw [bit_width_eq_spec v h]
  obtain ⟨hlo, hhi⟩ := h
  have hs := bit_width_spec_small v
  have cases : v = 0 ∨ v = 1 ∨ (2 ≤ v ∧ v ≤ 3) ∨ (4 ≤ v ∧ v ≤ 15) ∨
      ((-128 ≤ v ∧ v < 0) ∨ (16 ≤ v ∧ v ≤ 127)) ∨
      ((-32768 ≤ v ∧ v < -128) ∨ (128 ≤ v ∧ v ≤ 32767)) ∨
      ((-2147483648 ≤ v ∧ v < -32768) ∨ (32768 ≤ v ∧ v ≤ 2147483647)) ∨
      (v < -2147483648 ∨ 2147483648 ≤ v) := by omega
  have fin : ∀ k : Nat, k ∈ widths → lbound_for_width k ≤ v → v ≤ ubound_for_width k →
      (∀ w ∈ widths, w < k → ¬ (lbound_for_width w ≤ v ∧ v ≤ ubound_for_width w)) →
      k ∈ widths ∧ lbound_for_width k ≤ v ∧ v ≤ ubound_for_width k ∧
      (∀ w ∈ widths, lbound_for_width w ≤ v → v ≤ ubound_for_width w → k ≤ w) := by
    intro k hk h1 h2 h3
    refine ⟨hk, h1, h2, fun w hw a b => ?_⟩
    by_contra hlt
    exact h3 w hw (by omega) ⟨a, b⟩
  rcases cases with c | c | c | c | c | c | c | c
  · rw [hs.1 c]
    apply fin 0 (by decide) <;> simp [lbound_for_width, ubound_for_width, c]
  · rw [hs.2.1 c]
    apply fin 1 (by decide)
    · simp [lbound_for_width, c]
    · simp [ubound_for_width, c]
    · intro w hw hlt
      rw [mem_widths] at hw
      rcases hw with rfl | rfl | rfl | rfl | rfl | rfl | rfl | rfl <;>
        simp [lbound_for_width, ubound_for_width] at hlt ⊢ <;> omega
  · rw [hs.2.2.1 c]
    apply fin 2 (by decide)
    · simp [lbound_for_width]; omega
    · simp [ubound_for_width]; omega
    · intro w hw hlt
      rw [mem_widths] at hw
      rcases hw with rfl | rfl | rfl | rfl | rfl | rfl | rfl | rfl <;>
        simp [lbound_for_width, ubound_for_width] at hlt ⊢ <;> omega
  · rw [hs.2.2.2 c]
    apply fin 4 (by decide)
    · simp [lbound_for_width]; omega
    · simp [ubound_for_width]; omega
    · intro w hw hlt
      rw [mem_widths] at hw
      rcases hw with rfl | rfl | rfl | rfl | rfl | rfl | rfl | rfl <;>
        simp [lbound_for_width, ubound_for_width] at hlt ⊢ <;> omega
  · rw [bit_width_spec_8 v c]
    apply fin 8 (by decide)
    · simp [lbound_for_width]; omega
    · simp [ubound_for_width]; omega
    · intro w hw hlt
      rw [mem_widths] at hw
      rcases hw with rfl | rfl | rfl | rfl | rfl | rfl | rfl | rfl <;>
        simp [lbound_for_width, ubound_for_width] at hlt ⊢ <;> omega
  · rw [bit_width_spec_16 v c]
    apply fin 16 (by decide)
    · simp [lbound_for_width]; omega
    · simp [ubound_for_width]; omega
    · intro w hw hlt
      rw [mem_widths] at hw
      rcases hw with rfl | rfl | rfl | rfl | rfl | rfl | rfl | rfl <;>
        simp [lbound_for_width, ubound_for_width] at hlt ⊢ <;> omega
  · rw [bit_width_spec_32 v c]
    apply fin 32 (by decide)
    · simp [lbound_for_width]; omega
    · simp [ubound_for_width]; omega
    · intro w hw hlt
      rw [mem_widths] at hw
      rcases hw with rfl | rfl | rfl | rfl | rfl | rfl | rfl | rfl <;>
        simp [lbound_for_width, ubound_for_width] at hlt ⊢ <;> omega
  · rw [bit_width_spec_64 v c]
    apply fin 64 (by decide)
    · simp [lbound_for_width]; omega
    · simp [ubound_for_width]; omega
    · intro w hw hlt
      rw [mem_widths] at hw
      rcases hw with rfl | rfl | rfl | rfl | rfl | rfl | rfl | rfl <;>
        simp [lbound_for_width, ubound_for_width] at hlt ⊢ <;> omega

/-! ## Theorems: payload memory -/

theorem mod_two_pow_eq_of_bits (x y n : Nat)
    (h : ∀ t, t < n → x / 2 ^ t % 2 = y / 2 ^ t % 2) : x % 2 ^ n = y % 2 ^ n := by
  induction n with
  | zero => simp [Nat.mod_one]
  | succ n ih =>
    rw [Nat.mod_pow_succ, Nat.mod_pow_succ, ih (fun t ht => h t (by omega)), h n (by omega)]

theorem mbit_byte (d : Mem) (a t : Nat) (ht : t < 8) : mbit d (a * 8 + t) = d a / 2 ^ t % 2 := by
  unfold mbit
  rw [show (a * 8 + t) / 8 = a by omega, show (a * 8 + t) % 8 = t by omega]

theorem byte_eq_of_mbit (d e : Mem) (a a2 : Nat)
    (h : ∀ t, t < 8 → mbit d (a * 8 + t) = mbit e (a2 * 8 + t)) : d a % 256 = e a2 % 256 := by
  have := mod_two_pow_eq_of_bits (d a) (e a2) 8 (fun t ht => by
    rw [← mbit_byte d a t ht, ← mbit_byte e a2 t ht]; exact h t ht)
  simpa using this

theorem read_le_congr (d e : Mem) (a a2 k : Nat)
    (h : ∀ t, t < k → d (a + t) % 256 = e (a2 + t) % 256) :
    read_le d a k = read_le e a2 k := by
  induction k generalizing a a2 with
  | zero => rfl
  | succ k ih =>
    simp only [read_le]
    have h0 := h 0 (by omega)
    simp only [Nat.add_zero] at h0
    rw [h0, ih (a + 1) (a2 + 1)]
    intro t ht
    have := h (t + 1) (by omega)
    rw [show a + 1 + t = a + (t + 1) by omega, show a2 + 1 + t = a2 + (t + 1) by omega]
    exact this

theorem field_eq_of_bits (x y s w : Nat)
    (h : ∀ t, t < w → x / 2 ^ (s + t) % 2 = y / 2 ^ (s + t) % 2) :
    x / 2 ^ s % 2 ^ w = y / 2 ^ s % 2 ^ w := by
  apply mod_two_pow_eq_of_bits
  intro t ht
  rw [Nat.div_div_eq_div_mul, Nat.div_div_eq_div_mul, ← pow_add]
  exact h t ht

/-- The function `get_direct` depends only on the `w` payload bits of element `i`. -/
theorem get_direct_congr (w : Nat) (hw : w ∈ widths) (d e : Mem) (i : Nat)
    (h : ∀ b, i * w ≤ b → b < i * w + w → mbit d b = mbit e b) :
    get_direct w d i = get_direct w e i := by
  rw [mem_widths] at hw
  rcases hw with rfl | rfl | rfl | rfl | rfl | rfl | rfl | rfl
  · simp only [get_direct]
  · have := h i (by omega) (by omega)
    unfold mbit at this
    simp only [get_direct, this]
  · have := field_eq_of_bits (d (i / 4)) (e (i / 4)) (2 * (i % 4)) 2 (fun t ht => by
      have := h (i * 2 + t) (by omega) (by omega)
      unfold mbit at this
      rw [show (i * 2 + t) / 8 = i / 4 by omega,
        show (i * 2 + t) % 8 = 2 * (i % 4) + t by omega] at this
      exact this)
    simp only [get_direct]
    norm_num only at this ⊢
    rw [this]
  · have := field_eq_of_bits (d (i / 2)) (e (i / 2)) (4 * (i % 2)) 4 (fun t ht => by
      have := h (i * 4 + t) (by omega) (by omega)
      unfold mbit at this
      rw [show (i * 4 + t) / 8 = i / 2 by omega,
        show (i * 4 + t) % 8 = 4 * (i % 2) + t by omega] at this
      exact this)
    simp only [get_direct]
    norm_num only at this ⊢
    rw [this]
  · simp only [get_direct]
    rw [read_le_congr d e i i 1]
    intro t ht
    apply byte_eq_of_mbit
    intro u hu
    exact h _ (by omega) (by omega)
  · simp only [get_direct]
    rw [read_le_congr d e (i * 2) (i * 2) 2]
    intro t ht
    apply byte_eq_of_mbit
    intro u hu
    exact h _ (by omega) (by omega)
  · simp only [get_direct]
    rw [read_le_congr d e (i * 4) (i * 4) 4]
    intro t ht
    apply byte_eq_of_mbit
    intro u hu
    exact h _ (by omega) (by omega)
  · simp only [get_direct]
    rw [read_le_congr d e (i * 8) (i * 8) 8]
    intro t ht
    apply byte_eq_of_mbit
    intro u hu
    exact h _ (by omega) (by omega)

theorem set_field_bit_other_1 (p s u t : Nat) (hs : s < 8) (ht : t < 8) (hne : t ≠ s) :
    set_field p s 1 u / 2 ^ t % 2 = p / 2 ^ t % 2 := by
  unfold set_field
  interval_cases s <;> interval_cases t <;> first | omega | (norm_num only; omega)

theorem set_field_bit_other_2 (p r u t : Nat) (hr : r < 4) (ht : t < 8)
    (hne : t < 2 * r ∨ 2 * r + 2 ≤ t) :
    set_field p (2 * r) 2 u / 2 ^ t % 2 = p / 2 ^ t % 2 := by
  unfold set_field
  interval_cases r <;> interval_cases t <;> first | omega | (norm_num only; omega)

theorem set_field_bit_other_4 (p r u t : Nat) (hr : r < 2) (ht : t < 8)
    (hne : t < 4 * r ∨ 4 * r + 4 ≤ t) :
    set_field p (4 * r) 4 u / 2 ^ t % 2 = p / 2 ^ t % 2 := by
  unfold set_field
  interval_cases r <;> interval_cases t <;> first | omega | (norm_num only; omega)

theorem set_field_same_1 (p s u : Nat) (hs : s < 8) :
    set_field p s 1 u / 2 ^ s % 2 = u % 2 := by
  unfold set_field
  interval_cases s <;> (norm_num only; omega)

theorem set_field_same_2 (p r u : Nat) (hr : r < 4) :
    set_field p (2 * r) 2 u / 2 ^ (2 * r) % 4 = u % 4 := by
  unfold set_field
  interval_cases r <;> (norm_num only; omega)

theorem set_field_same_4 (p r u : Nat) (hr : r < 2) :
    set_field p (4 * r) 4 u / 2 ^ (4 * r) % 16 = u % 16 := by
  unfold set_field
  interval_cases r <;> (norm_num only; omega)

theorem mbit_write_le_other (d : Mem) (a k u b : Nat) (h : b / 8 < a ∨ a + k ≤ b / 8) :
    mbit (write_le d a k u) b = mbit d b := by
  unfold mbit write_le
  rw [if_neg (by omega)]

theorem mbit_update (d : Mem) (a p b : Nat) :
    mbit (Function.update d a p) b = if b / 8 = a then p / 2 ^ (b % 8) % 2 else mbit d b := by
  unfold mbit
  by_cases h : b / 8 = a
  · rw [if_pos h, h, Function.update_same]
  · rw [if_neg h, Function.update_noteq h]

/-- The function `set_direct` leaves every payload bit outside element `i` unchanged. -/
theorem mbit_set_direct_other (w : Nat) (hw : w ∈ widths) (d : Mem) (i : Nat) (v : Int) (b : Nat)
    (h : b < i * w ∨ i * w + w ≤ b) : mbit (set_direct w d i v) b = mbit d b := by
  rw [mem_widths] at hw
  rcases hw with rfl | rfl | rfl | rfl | rfl | rfl | rfl | rfl
  · simp only [set_direct]
  · simp only [set_direct, mbit_update]
    split
    · rename_i hb
      rw [set_field_bit_other_1 _ _ _ _ (by omega) (by omega) (by omega)]
      unfold mbit
      rw [hb]
    · rfl
  · simp only [set_direct, mbit_update]
    split
    · rename_i hb
      rw [set_field_bit_other_2 _ _ _ _ (by omega) (by omega) (by omega)]
      unfold mbit
      rw [hb]
    · rfl
  · simp only [set_direct, mbit_update]
    split
    · rename_i hb
      rw [set_field_bit_other_4 _ _ _ _ (by omega) (by omega) (by omega)]
      unfold mbit
      rw [hb]
    · rfl
  · simp only [set_direct]
    exact mbit_write_le_other _ _ _ _ _ (by omega)
  · simp only [set_direct]
    exact mbit_write_le_other _ _ _ _ _ (by omega)
  · simp only [set_direct]
    exact mbit_write_le_other _ _ _ _ _ (by omega)
  · simp only [set_direct]
    exact mbit_write_le_other _ _ _ _ _ (by omega)

theorem read_write_le_aux (d : Mem) (a k u : Nat) :
    ∀ n j, j + n = k → read_le (write_le d a k u) (a + j) n = u / 256 ^ j % 256 ^ n := by
  intro n
  induction n with
  | zero => intro j _; simp [read_le, Nat.mod_one]
  | succ n ih =>
    intro j hj
    simp only [read_le]
    rw [show a + j + 1 = a + (j + 1) by omega, ih (j + 1) (by omega)]
    have e : write_le d a k u (a + j) = u / 256 ^ j % 256 := by
      unfold write_le
      rw [if_pos (by omega), show a + j - a = j by omega]
    rw [e, Nat.mod_mod, pow_succ' 256 n, Nat.mod_mul, pow_succ 256 j, Nat.div_div_eq_div_mul]

theorem read_write_le (d : Mem) (a k u : Nat) :
    read_le (write_le d a k u) a k = u % 256 ^ k := by
  have := read_write_le_aux d a k u k 0 (by omega)
  simpa using this

/-! ## Theorems: direct accessors -/

theorem to_signed_range_8 (u : Nat) : -128 ≤ to_signed 8 u ∧ to_signed 8 u ≤ 127 := by
  unfold to_signed
  norm_num only
  split <;> omega

theorem to_signed_range_16 (u : Nat) : -32768 ≤ to_signed 16 u ∧ to_signed 16 u ≤ 32767 := by
  unfold to_signed
  norm_num only
  split <;> omega

theorem to_signed_range_32 (u : Nat) :
    -2147483648 ≤ to_signed 32 u ∧ to_signed 32 u ≤ 2147483647 := by
  unfold to_signed
  norm_num only
  split <;> omega

theorem to_signed_range_64 (u : Nat) :
    -9223372036854775808 ≤ to_signed 64 u ∧ to_signed 64 u ≤ 9223372036854775807 := by
  unfold to_signed
  norm_num only
  split <;> omega

/-- Every value read from the payload lies in the range of the width read at. -/
theorem get_direct_fits (w : Nat) (hw : w ∈ widths) (d : Mem) (i : Nat) :
    lbound_for_width w ≤ get_direct w d i ∧ get_direct w d i ≤ ubound_for_width w := by
  rw [mem_widths] at hw
  rcases hw with rfl | rfl | rfl | rfl | rfl | rfl | rfl | rfl
  · simp [get_direct, lbound_for_width, ubound_for_width]
  · simp only [get_direct, lbound_for_width, ubound_for_width]; omega
  · simp only [get_direct, lbound_for_width, ubound_for_width]; omega
  · simp only [get_direct, lbound_for_width, ubound_for_width]; omega
  · simpa only [get_direct, lbound_for_width, ubound_for_width] using to_signed_range_8 _
  · simpa only [get_direct, lbound_for_width, ubound_for_width] using to_signed_range_16 _
  · simpa only [get_direct, lbound_for_width, ubound_for_width] using to_signed_range_32 _
  · simpa only [get_direct, lbound_for_width, ubound_for_width] using to_signed_range_64 _

theorem to_signed_to_uint64_8 (v : Int) (h : -128 ≤ v ∧ v ≤ 127) :
    to_signed 8 (to_uint64 v % 256 ^ 1) = v := by
  unfold to_signed to_uint64
  norm_num only
  split <;> omega

theorem to_signed_to_uint64_16 (v : Int) (h : -32768 ≤ v ∧ v ≤ 32767) :
    to_signed 16 (to_uint64 v % 256 ^ 2) = v := by
  unfold to_signed to_uint64
  norm_num only
  split <;> omega

theorem to_signed_to_uint64_32 (v : Int) (h : -2147483648 ≤ v ∧ v ≤ 2147483647) :
    to_signed 32 (to_uint64 v % 256 ^ 4) = v := by
  unfold to_signed to_uint64
  norm_num only
  split <;> omega

theorem to_signed_to_uint64_64 (v : Int)
    (h : -9223372036854775808 ≤ v ∧ v ≤ 9223372036854775807) :
    to_signed 64 (to_uint64 v % 256 ^ 8) = v := by
  unfold to_signed to_uint64
  norm_num only
  split <;> omega

/-- Reading back the element just stored gives the stored value, when the
value lies in the range of the width. -/
theorem get_set_direct_same (w : Nat) (hw : w ∈ widths) (d : Mem) (i : Nat) (v : Int)
    (hlo : lbound_for_width w ≤ v) (hhi : v ≤ ubound_for_width w) :
    get_direct w (set_direct w d i v) i = v := by
  rw [mem_widths] at hw
  rcases hw with rfl | rfl | rfl | rfl | rfl | rfl | rfl | rfl
  · simp only [lbound_for_width, ubound_for_width] at hlo hhi
    simp only [get_direct]; omega
  · simp only [lbound_for_width, ubound_for_width] at hlo hhi
    simp only [get_direct, set_direct, Function.update_same]
    rw [set_field_same_1 _ _ _ (by omega)]
    unfold to_uint64; omega
  · simp only [lbound_for_width, ubound_for_width] at hlo hhi
    simp only [get_direct, set_direct, Function.update_same]
    rw [set_field_same_2 _ _ _ (by omega)]
    unfold to_uint64; omega
  · simp only [lbound_for_width, ubound_for_width] at hlo hhi
    simp only [get_direct, set_direct, Function.update_same]
    rw [set_field_same_4 _ _ _ (by omega)]
    unfold to_uint64; omega
  · simp only [lbound_for_width, ubound_for_width] at hlo hhi
    simp only [get_direct, set_direct]
    rw [read_write_le]
    exact to_signed_to_uint64_8 v (by omega)
  · simp only [lbound_for_width, ubound_for_width] at hlo hhi
    simp only [get_direct, set_direct]
    rw [read_write_le]
    exact to_signed_to_uint64_16 v (by omega)
  · simp only [lbound_for_width, ubound_for_width] at hlo hhi
    simp only [get_direct, set_direct]
    rw [read_write_le]
    exact to_signed_to_uint64_32 v (by omega)
  · simp only [lbound_for_width, ubound_for_width] at hlo hhi
    simp only [get_direct, set_direct]
    rw [read_write_le]
    exact to_signed_to_uint64_64 v (by omega)

/-- The value ranges of the widths are nested. -/
theorem bounds_mono (w w2 : Nat) (hw : w ∈ widths) (hw2 : w2 ∈ widths) (h : w ≤ w2) :
    lbound_for_width w2 ≤ lbound_for_width w ∧ ubound_for_width w ≤ ubound_for_width w2 := by
  rw [mem_widths] at hw hw2
  rcases hw with rfl | rfl | rfl | rfl | rfl | rfl | rfl | rfl <;>
    rcases hw2 with rfl | rfl | rfl | rfl | rfl | rfl | rfl | rfl <;>
    first
    | (exfalso; omega)
    | (simp only [lbound_for_width, ubound_for_width]; omega)

/-- Storing at `i` does not change what is read at another index of the same
or of a narrower width whose bits lie outside element `i`. -/
theorem get_set_direct_other (w w2 : Nat) (hw : w ∈ widths) (hw2 : w2 ∈ widths) (d : Mem)
    (i j : Nat) (v : Int) (h : j * w + w ≤ i * w2 ∨ i * w2 + w2 ≤ j * w) :
    get_direct w (set_direct w2 d i v) j = get_direct w d j := by
  apply get_direct_congr w hw
  intro b hb1 hb2
  apply mbit_set_direct_other w2 hw2
  omega

/-! ## Theorems: the loops of `insert` -/

/-- Closed form of the backward byte copy when the destination ends at or
after the source. -/
theorem copy_backward_n_spec (first : Nat) :
    ∀ (n d_last : Nat) (d : Mem), first + n ≤ d_last →
      ∀ a, copy_backward_n first n d_last d a =
        if d_last - n ≤ a ∧ a < d_last then d (first + (a - (d_last - n))) else d a := by
  intro n
  induction n with
  | zero =>
    intro d_last d _ a
    simp only [copy_backward_n]
    rw [if_neg (by omega)]
  | succ n ih =>
    intro d_last d h a
    simp only [copy_backward_n]
    rw [ih (d_last - 1) _ (by omega) a]
    by_cases h1 : d_last - 1 - n ≤ a ∧ a < d_last - 1
    · rw [if_pos h1, if_pos (by omega), Function.update_noteq (by omega)]
      congr 1
      omega
    · rw [if_neg h1]
      by_cases h2 : a = d_last - 1
      · rw [h2, Function.update_same, if_pos (by omega)]
        congr 1
        omega
      · rw [Function.update_noteq h2, if_neg (by omega)]

theorem copy_backward_spec (d : Mem) (first last k : Nat) (h : first ≤ last) (a : Nat) :
    copy_backward d first last (last + k) a =
      if first + k ≤ a ∧ a < last + k then d (a - k) else d a := by
  unfold copy_backward
  rw [copy_backward_n_spec first (last - first) (last + k) d (by omega) a]
  by_cases h1 : first + k ≤ a ∧ a < last + k
  · rw [if_pos h1, if_pos (by omega)]
    congr 1
    omega
  · rw [if_neg h1, if_neg (by omega)]

/-- The shifting loop of `insert`: the bits below element `ndx + 1` (new width)
and above element `n` are untouched, and every element `k` in `(ndx, n]` of the
new width holds what element `k - 1` of the old width held. -/
theorem insert_move_loop_spec (w w2 : Nat) (hw : w ∈ widths) (hw2 : w2 ∈ widths) (hle : w ≤ w2)
    (ndx : Nat) :
    ∀ (n : Nat) (d : Mem),
      (∀ b, b < (ndx + 1) * w2 → mbit (insert_move_loop w w2 ndx n d) b = mbit d b) ∧
      (∀ b, (n + 1) * w2 ≤ b → mbit (insert_move_loop w w2 ndx n d) b = mbit d b) ∧
      (∀ k, ndx < k → k ≤ n →
        get_direct w2 (insert_move_loop w w2 ndx n d) k = get_direct w d (k - 1)) := by
  intro n
  induction n with
  | zero =>
    intro d
    simp only [insert_move_loop]
    refine ⟨fun _ _ => trivial, fun _ _ => trivial, fun k h1 h2 => by omega⟩
  | succ i ih =>
    intro d
    simp only [insert_move_loop]
    by_cases hi : i + 1 > ndx
    · rw [if_pos hi]
      obtain ⟨iha, ihb, ihc⟩ := ih (set_direct w2 d (i + 1) (get_direct w d i))
      have e1 : (i + 1 + 1) * w2 = (i + 1) * w2 + w2 := by ring
      have e2 : (ndx + 1) * w2 ≤ (i + 1) * w2 := Nat.mul_le_mul_right _ (by omega)
      refine ⟨fun b hb => ?_, fun b hb => ?_, fun k h1 h2 => ?_⟩
      · rw [iha b hb]
        exact mbit_set_direct_other w2 hw2 _ _ _ _ (by omega)
      · rw [ihb b (by omega)]
        exact mbit_set_direct_other w2 hw2 _ _ _ _ (by omega)
      · by_cases hk : k ≤ i
        · rw [ihc k h1 hk]
          apply get_set_direct_other w w2 hw hw2
          left
          have e3 : (k - 1) * w + w = k * w := by
            have : k = (k - 1) + 1 := by omega
            conv_rhs => rw [this]
            ring
          have e4 : k * w ≤ i * w := Nat.mul_le_mul_right _ hk
          have e5 : i * w ≤ i * w2 := Nat.mul_le_mul_left _ hle
          have e6 : (i + 1) * w2 = i * w2 + w2 := by ring
          omega
        · have hk2 : k = i + 1 := by omega
          subst hk2
          have : get_direct w2 (insert_move_loop w w2 ndx i
              (set_direct w2 d (i + 1) (get_direct w d i))) (i + 1) =
              get_direct w2 (set_direct w2 d (i + 1) (get_direct w d i)) (i + 1) := by
            apply get_direct_congr w2 hw2
            intro b hb1 _
            exact ihb b hb1
          rw [this, Nat.add_sub_cancel]
          have hf := get_direct_fits w hw d i
          have hm := bounds_mono w w2 hw hw2 hle
          exact get_set_direct_same w2 hw2 _ _ _ (by omega) (by omega)
    · rw [if_neg hi]
      refine ⟨fun _ _ => rfl, fun _ _ => rfl, fun k h1 h2 => by omega⟩

/-- The re-encoding loop: the bits from element `n` (new width) on are
untouched, and every element `k < n` of the new width holds what element `k` of
the old width held. -/
theorem expand_loop_spec (w w2 : Nat) (hw : w ∈ widths) (hw2 : w2 ∈ widths) (hle : w ≤ w2) :
    ∀ (n : Nat) (d : Mem),
      (∀ b, n * w2 ≤ b → mbit (expand_loop w w2 n d) b = mbit d b) ∧
      (∀ k, k < n → get_direct w2 (expand_loop w w2 n d) k = get_direct w d k) := by
  intro n
  induction n with
  | zero =>
    intro d
    simp only [expand_loop]
    exact ⟨fun _ _ => trivial, fun k h => by omega⟩
  | succ i ih =>
    intro d
    simp only [expand_loop]
    obtain ⟨iha, ihb⟩ := ih (set_direct w2 d i (get_direct w d i))
    have e1 : (i + 1) * w2 = i * w2 + w2 := by ring
    refine ⟨fun b hb => ?_, fun k hk => ?_⟩
    · rw [iha b (by omega)]
      exact mbit_set_direct_other w2 hw2 _ _ _ _ (by omega)
    · by_cases hk2 : k < i
      · rw [ihb k hk2]
        apply get_set_direct_other w w2 hw hw2
        left
        have e3 : k * w + w = (k + 1) * w := by ring
        have e4 : (k + 1) * w ≤ i * w := Nat.mul_le_mul_right _ (by omega)
        have e5 : i * w ≤ i * w2 := Nat.mul_le_mul_left _ hle
        omega
      · have hk3 : k = i := by omega
        subst hk3
        have : get_direct w2 (expand_loop w w2 k (set_direct w2 d k (get_direct w d k))) k =
            get_direct w2 (set_direct w2 d k (get_direct w d k)) k := by
          apply get_direct_congr w2 hw2
          intro b hb1 _
          exact iha b hb1
        rw [this]
        have hf := get_direct_fits w hw d k
        have hm := bounds_mono w w2 hw hw2 hle
        exact get_set_direct_same w2 hw2 _ _ _ (by omega) (by omega)

/-! ## Theorems: byte sizes and `Array::alloc` -/

theorem width_le_64 (w : Nat) (hw : w ∈ widths) : w ≤ 64 := by
  rw [mem_widths] at hw
  omega

theorem calc_byte_len_eq (n w : Nat) (hn : n ≤ 0xFFFFFF) (hw : w ≤ 64) :
    calc_byte_len n w = (n * w + 7) / 8 + 8 := by
  have h : n * w ≤ 0xFFFFFF * 64 := Nat.mul_le_mul hn hw
  unfold calc_byte_len sz header_size
  simp only []
  omega

theorem calc_item_count_eq (c w : Nat) (hw : w ≠ 0) (h8 : 8 ≤ c) (hc : c ≤ 0x1000000) :
    calc_item_count c w = (c - 8) * 8 / w := by
  rw [calc_item_count, if_neg hw]
  simp only [sz, header_size]
  have e : (c + 18446744073709551616 - 8) % 18446744073709551616 * 8 % 18446744073709551616 =
      (c - 8) * 8 := by omega
  rw [e]

theorem calc_item_count_pos (c n w : Nat) (hw : w ∈ widths) (hn : n ≤ 0xFFFFFF) (h1 : 1 ≤ n)
    (hc8 : c % 8 = 0) (hc : c ≤ 0x1000000) (hge : calc_byte_len n w ≤ c) :
    0 < calc_item_count c w := by
  have hw64 := width_le_64 w hw
  rw [calc_byte_len_eq n w hn hw64] at hge
  by_cases h0 : w = 0
  · subst h0
    simp [calc_item_count, size_max]
  · have hnw : 1 ≤ n * w := Nat.mul_pos (by omega) (by omega)
    rw [calc_item_count_eq c w h0 (by omega) hc]
    apply Nat.div_pos _ (by omega)
    omega

theorem calc_byte_len_le_of_count (c n w : Nat) (hw : w ∈ widths) (hn : n ≤ 0xFFFFFF)
    (h8 : 8 ≤ c) (hc : c ≤ 0x1000000) (hcnt : n ≤ calc_item_count c w) :
    calc_byte_len n w ≤ c := by
  have hw64 := width_le_64 w hw
  rw [calc_byte_len_eq n w hn hw64]
  by_cases h0 : w = 0
  · subst h0
    omega
  · rw [calc_item_count_eq c w h0 h8 hc] at hcnt
    have := (Nat.le_div_iff_mul_le (by omega : 0 < w)).mp hcnt
    omega

/-- The invariant of a writable node that `attached` records. -/
theorem attached_writable (a : Array) (h : a.attached) (hro : a.read_only = false) :
    a.m_capacity = calc_item_count a.hdr_capacity a.m_width ∧ 0 < a.m_capacity ∧
    calc_byte_len a.m_size a.m_width ≤ a.hdr_capacity ∧ a.hdr_capacity % 8 = 0 ∧
    a.hdr_capacity ≤ 0x1000000 := by
  obtain ⟨_, _, _, _, _, _, _, h7⟩ := h
  obtain ⟨c1, c2, c3, c4, c5⟩ := h7 hro
  exact ⟨c1, c2, c3, c4, by simpa [max_array_payload] using c5⟩

/-- The capacity chosen by the reallocating branch of `alloc`. -/
theorem grow_capacity_spec (c needed : Nat) (hc : c ≤ 0x1000000) (hc8 : c % 8 = 0)
    (hneed : needed ≤ 0xFFFFFF) :
    needed ≤ grow_capacity c needed ∧ grow_capacity c needed % 8 = 0 ∧
    grow_capacity c needed ≤ 0x1000000 := by
  have e : sz (c * 2) = c * 2 := by unfold sz; omega
  have e2 : sz (needed + (7 - needed % 8 + 1)) = needed + (7 - needed % 8 + 1) := by
    unfold sz; omega
  simp only [grow_capacity, e, e2, max_array_payload_aligned]
  split_ifs <;> omega

/-- The function `do_copy_on_write` makes the node writable, keeps the accessor fields and
the payload bytes, and leaves a capacity that covers `minimum_size`. -/
theorem do_copy_on_write_spec (a : Array) (m : Nat) (fresh : Mem) (h : a.attached)
    (hm : m ≤ 0xFFFFFF) :
    let b := a.do_copy_on_write m fresh
    b.read_only = false ∧ b.m_size = a.m_size ∧ b.m_width = a.m_width ∧
    b.m_lbound = a.m_lbound ∧ b.m_ubound = a.m_ubound ∧
    b.hdr_size = a.hdr_size ∧ b.hdr_width = a.hdr_width ∧
    b.m_is_inner_bptree_node = a.m_is_inner_bptree_node ∧ b.m_has_refs = a.m_has_refs ∧
    b.m_context_flag = a.m_context_flag ∧
    b.m_capacity = calc_item_count b.hdr_capacity b.m_width ∧
    calc_byte_len a.m_size a.m_width ≤ b.hdr_capacity ∧ m ≤ b.hdr_capacity ∧
    72 ≤ b.hdr_capacity ∧
    b.hdr_capacity % 8 = 0 ∧ b.hdr_capacity ≤ 0x1000000 ∧
    (∀ p, p + 8 < calc_byte_len a.m_size a.m_width → b.m_data p = a.m_data p) := by
  obtain ⟨h1, _, _, h4, _, _, h7, _⟩ := h
  have hlen := calc_byte_len_eq a.m_size a.m_width h4 (width_le_64 _ h1)
  simp only [max_array_payload] at h7
  intro b
  have hcap : b.hdr_capacity =
      (if sz (max (calc_byte_len a.m_size a.m_width) m + 7) / 8 * 8 < max_array_payload - 64
        then sz (sz (max (calc_byte_len a.m_size a.m_width) m + 7) / 8 * 8 + 64)
        else sz (max (calc_byte_len a.m_size a.m_width) m + 7) / 8 * 8) := rfl
  have hdata : ∀ p, b.m_data p =
      if p + header_size < calc_byte_len a.m_size a.m_width then a.m_data p else fresh p :=
    fun _ => rfl
  have hfacts : calc_byte_len a.m_size a.m_width ≤ b.hdr_capacity ∧ m ≤ b.hdr_capacity ∧
      72 ≤ b.hdr_capacity ∧ b.hdr_capacity % 8 = 0 ∧ b.hdr_capacity ≤ 0x1000000 := by
    rw [hcap]
    generalize calc_byte_len a.m_size a.m_width = L at h7 hlen
    have hmax : max L m ≤ 0xFFFFFF := max_le h7 hm
    have hmax1 : L ≤ max L m := le_max_left _ _
    have hmax2 : m ≤ max L m := le_max_right _ _
    generalize max L m = M at hmax hmax1 hmax2
    simp only [sz, max_array_payload]
    split_ifs <;> omega
  refine ⟨rfl, rfl, rfl, rfl, rfl, rfl, rfl, rfl, rfl, rfl, rfl, hfacts.1, hfacts.2.1,
    hfacts.2.2.1, hfacts.2.2.2.1, hfacts.2.2.2.2, fun p hp => ?_⟩
  rw [hdata p, if_pos (by simpa [header_size] using hp)]

theorem alloc_writable (a : Array) (n w : Nat) (fr : Fresh) (hro : a.read_only = false)
    (hcap : a.m_capacity = calc_item_count a.hdr_capacity a.m_width) (hpos : 0 < a.m_capacity)
    (h8 : 8 ≤ a.hdr_capacity) (hal : a.hdr_capacity % 8 = 0) (hle : a.hdr_capacity ≤ 0x1000000)
    (hhw : a.hdr_width = a.m_width)
    (hw : w ∈ widths) (hn : n ≤ 0xFFFFFF) (h1 : 1 ≤ n)
    (hroom : calc_byte_len n w ≤ max_array_payload) :
    ∃ b, a.alloc n w fr = some b ∧ b.read_only = false ∧ b.m_size = a.m_size ∧
      b.m_width = a.m_width ∧ b.m_lbound = a.m_lbound ∧ b.m_ubound = a.m_ubound ∧
      b.hdr_size = n ∧ b.hdr_width = w ∧
      b.m_is_inner_bptree_node = a.m_is_inner_bptree_node ∧ b.m_has_refs = a.m_has_refs ∧
      b.m_context_flag = a.m_context_flag ∧
      b.m_capacity = calc_item_count b.hdr_capacity w ∧ 0 < b.m_capacity ∧
      calc_byte_len n w ≤ b.hdr_capacity ∧ b.hdr_capacity % 8 = 0 ∧
      b.hdr_capacity ≤ 0x1000000 ∧
      (∀ p, p + 8 < a.hdr_capacity → b.m_data p = a.m_data p) := by
  have hroom2 : calc_byte_len n w ≤ 0xFFFFFF := by simpa [max_array_payload] using hroom
  unfold Array.alloc
  simp only [hro, Bool.false_eq_true, if_false, false_or]
  rw [if_neg (by omega), if_neg (by omega)]
  by_cases hc : a.m_capacity < n ∨ w ≠ a.m_width
  · rw [if_pos hc]
    by_cases hlt : a.hdr_capacity < calc_byte_len n w
    · rw [if_pos hlt]
      obtain ⟨g1, g2, g3⟩ := grow_capacity_spec a.hdr_capacity (calc_byte_len n w) hle hal hroom2
      refine ⟨_, rfl, rfl, rfl, rfl, rfl, rfl, rfl, rfl, rfl, rfl, rfl, rfl, ?_, g1, g2, g3,
        fun p hp => ?_⟩
      · exact calc_item_count_pos _ n w hw hn h1 g2 g3 g1
      · simp only [header_size]
        rw [if_pos hp]
    · rw [if_neg hlt]
      refine ⟨_, rfl, rfl, rfl, rfl, rfl, rfl, rfl, rfl, rfl, rfl, rfl, rfl, ?_, (by show calc_byte_len n w ≤ a.hdr_capacity; omega), hal,
        hle, fun p hp => rfl⟩
      exact calc_item_count_pos _ n w hw hn h1 hal hle (by omega)
  · rw [if_neg hc]
    have hwe : w = a.m_width := by
      by_contra hne
      exact hc (Or.inr hne)
    have hge : n ≤ a.m_capacity := by
      by_contra hne
      exact hc (Or.inl (by omega))
    subst hwe
    refine ⟨_, rfl, rfl, rfl, rfl, rfl, rfl, rfl, hhw, rfl, rfl, rfl, hcap, hpos, ?_, hal,
      hle, fun p hp => rfl⟩
    rw [hcap] at hge
    exact calc_byte_len_le_of_count _ n _ hw hn h8 hle hge

theorem do_copy_on_write_read_only (a : Array) (m : Nat) (fresh : Mem) :
    (a.do_copy_on_write m fresh).read_only = false := rfl

theorem alloc_read_only (a : Array) (n w : Nat) (fr : Fresh) (hro : a.read_only = true) :
    a.alloc n w fr = (a.do_copy_on_write (calc_byte_len n w) (fr 0)).alloc n w fr := by
  unfold Array.alloc
  simp only [hro, if_true, do_copy_on_write_read_only, Bool.false_eq_true, if_false]

/-- The function `Array::alloc` on an attached array: it succeeds when the requested node
fits the largest payload, leaves size, width, bounds and flags of the accessor
alone, records the requested size and width in the header, leaves the node
writable with a capacity that covers the request, and keeps the payload. -/
theorem alloc_spec (a : Array) (n w : Nat) (fr : Fresh) (h : a.attached)
    (hw : w ∈ widths) (hn : n ≤ 0xFFFFFF) (h1 : 1 ≤ n)
    (hroom : calc_byte_len n w ≤ max_array_payload) :
    ∃ b, a.alloc n w fr = some b ∧ b.read_only = false ∧ b.m_size = a.m_size ∧
      b.m_width = a.m_width ∧ b.m_lbound = a.m_lbound ∧ b.m_ubound = a.m_ubound ∧
      b.hdr_size = n ∧ b.hdr_width = w ∧
      b.m_is_inner_bptree_node = a.m_is_inner_bptree_node ∧ b.m_has_refs = a.m_has_refs ∧
      b.m_context_flag = a.m_context_flag ∧
      b.m_capacity = calc_item_count b.hdr_capacity w ∧ 0 < b.m_capacity ∧
      calc_byte_len n w ≤ b.hdr_capacity ∧ b.hdr_capacity % 8 = 0 ∧
      b.hdr_capacity ≤ 0x1000000 ∧
      (∀ p, p + 8 < calc_byte_len a.m_size a.m_width → b.m_data p = a.m_data p) := by
  have hat := h
  obtain ⟨h1w, _, _, h4, _, h6, h7, _⟩ := h
  have hroom2 : calc_byte_len n w ≤ 0xFFFFFF := by simpa [max_array_payload] using hroom
  cases hro : a.read_only
  · obtain ⟨c1, c2, c3, c4, c5⟩ := attached_writable a hat hro
    have hlen := calc_byte_len_eq a.m_size a.m_width h4 (width_le_64 _ h1w)
    obtain ⟨b, hb, r⟩ := alloc_writable a n w fr hro c1 c2 (by omega) c4 c5 h6 hw hn h1 hroom
    obtain ⟨r1, r2, r3, r4, r5, r6, r7, r8, r9, r10, r11, r12, r13, r14, r15, r16⟩ := r
    exact ⟨b, hb, r1, r2, r3, r4, r5, r6, r7, r8, r9, r10, r11, r12, r13, r14, r15,
      fun p hp => r16 p (by omega)⟩
  · rw [alloc_read_only a n w fr hro]
    obtain ⟨d1, d2, d3, d4, d5, d6, d7, d8, d9, d10, d11, d12, d13, d14, d15, d16, d17⟩ :=
      do_copy_on_write_spec a (calc_byte_len n w) (fr 0) hat hroom2
    generalize a.do_copy_on_write (calc_byte_len n w) (fr 0) = c at *
    have hpos : 0 < c.m_capacity := by
      rw [d11]
      by_cases h0 : c.m_width = 0
      · rw [h0]; simp [calc_item_count, size_max]
      · rw [calc_item_count_eq _ _ h0 (by omega) d16]
        have := width_le_64 _ (d3 ▸ h1w)
        apply Nat.div_pos _ (by omega)
        omega
    obtain ⟨b, hb, r⟩ := alloc_writable c n w fr d1 d11 hpos (by omega) d15 d16
      (by rw [d7, d3, h6]) hw hn h1 hroom
    obtain ⟨r1, r2, r3, r4, r5, r6, r7, r8, r9, r10, r11, r12, r13, r14, r15, r16⟩ := r
    refine ⟨b, hb, r1, r2.trans d2, r3.trans d3, r4.trans d4, r5.trans d5, r6, r7,
      r8.trans d8, r9.trans d9, r10.trans d10, r11, r12, r13, r14, r15, fun p hp => ?_⟩
    rw [r16 p (by omega), d17 p hp]

/-! ## Theorems: `Array::insert` -/

theorem mbit_congr (d e : Mem) (b : Nat) (h : d (b / 8) = e (b / 8)) : mbit d b = mbit e b := by
  unfold mbit
  rw [h]

/-- A value outside the range of a width needs a strictly larger width (the
assertion `width > m_width` of `insert` and `do_ensure_minimum_width`). -/
theorem bit_width_gt_of_not_fits (w : Nat) (hw : w ∈ widths) (v : Int) (hv : is_int64 v)
    (h : v < lbound_for_width w ∨ v > ubound_for_width w) : w < bit_width v := by
  obtain ⟨m1, m2, m3, _⟩ := bit_width_minimal v hv
  by_contra hle
  have := bounds_mono (bit_width v) w m1 hw (by omega)
  omega

/-- The last steps of `insert`, after the elements above `ndx` have been moved
up: store the value and, on a width promotion, re-encode the elements below. -/
theorem insert_finish (w w2 : Nat) (hw : w ∈ widths) (hw2 : w2 ∈ widths) (hle : w ≤ w2)
    (expand : Bool) (hex : expand = false → w = w2) (ndx n : Nat) (d0 d1 : Mem) (v : Int)
    (hlo : lbound_for_width w2 ≤ v) (hhi : v ≤ ubound_for_width w2)
    (hlow : ∀ b, b < ndx * w2 → mbit d1 b = mbit d0 b)
    (hup : ∀ k, ndx < k → k ≤ n → get_direct w2 d1 k = get_direct w d0 (k - 1)) :
    get_direct w2 (if expand then expand_loop w w2 ndx (set_direct w2 d1 ndx v)
      else set_direct w2 d1 ndx v) ndx = v ∧
    (∀ j, j < ndx → get_direct w2 (if expand then expand_loop w w2 ndx (set_direct w2 d1 ndx v)
      else set_direct w2 d1 ndx v) j = get_direct w d0 j) ∧
    (∀ j, ndx < j → j ≤ n → get_direct w2 (if expand then expand_loop w w2 ndx
      (set_direct w2 d1 ndx v) else set_direct w2 d1 ndx v) j = get_direct w d0 (j - 1)) := by
  have old_kept : ∀ j, j < ndx → get_direct w (set_direct w2 d1 ndx v) j = get_direct w d0 j := by
    intro j hj
    have e3 : j * w + w = (j + 1) * w := by ring
    have e4 : (j + 1) * w ≤ ndx * w := Nat.mul_le_mul_right _ (by omega)
    have e5 : ndx * w ≤ ndx * w2 := Nat.mul_le_mul_left _ hle
    rw [get_set_direct_other w w2 hw hw2 _ _ _ _ (by omega)]
    apply get_direct_congr w hw
    intro b _ hb2
    exact hlow b (by omega)
  have up_kept : ∀ j, ndx < j → j ≤ n →
      get_direct w2 (set_direct w2 d1 ndx v) j = get_direct w d0 (j - 1) := by
    intro j hj hjn
    have e3 : ndx * w2 + w2 = (ndx + 1) * w2 := by ring
    have e4 : (ndx + 1) * w2 ≤ j * w2 := Nat.mul_le_mul_right _ (by omega)
    rw [get_set_direct_other w2 w2 hw2 hw2 _ _ _ _ (by omega)]
    exact hup j hj hjn
  cases expand
  · have hww := hex rfl
    subst hww
    simp only [Bool.false_eq_true, if_false]
    exact ⟨get_set_direct_same w hw _ _ _ hlo hhi, old_kept, up_kept⟩
  · simp only [if_true]
    obtain ⟨ea, eb⟩ := expand_loop_spec w w2 hw hw2 hle ndx (set_direct w2 d1 ndx v)
    have hi : ∀ j, ndx ≤ j → get_direct w2 (expand_loop w w2 ndx (set_direct w2 d1 ndx v)) j =
        get_direct w2 (set_direct w2 d1 ndx v) j := by
      intro j hj
      apply get_direct_congr w2 hw2
      intro b hb1 _
      have : ndx * w2 ≤ j * w2 := Nat.mul_le_mul_right _ hj
      exact ea b (by omega)
    refine ⟨?_, fun j hj => ?_, fun j hj hjn => ?_⟩
    · rw [hi ndx (le_refl _)]
      exact get_set_direct_same w2 hw2 _ _ _ hlo hhi
    · rw [eb j hj]
      exact old_kept j hj
    · rw [hi j (by omega)]
      exact up_kept j hj hjn

/-- The byte-wise `copy_backward` of `insert` moves the elements above `ndx` up
by one and leaves the payload below element `ndx` alone. -/
theorem insert_memmove_spec (w k : Nat) (hk : (w = 8 ∧ k = 1) ∨ (w = 16 ∧ k = 2) ∨
    (w = 32 ∧ k = 4) ∨ (w = 64 ∧ k = 8)) (ndx n : Nat) (hndx : ndx ≤ n) (d0 : Mem) :
    (∀ b, b < ndx * w → mbit (copy_backward d0 (ndx * k) (n * k) (n * k + k)) b = mbit d0 b) ∧
    (∀ j, ndx < j → j ≤ n →
      get_direct w (copy_backward d0 (ndx * k) (n * k) (n * k + k)) j =
        get_direct w d0 (j - 1)) := by
  have hmul : ndx * k ≤ n * k := Nat.mul_le_mul_right _ hndx
  have hcb := copy_backward_spec d0 (ndx * k) (n * k) k hmul
  refine ⟨fun b hb => ?_, fun j hj hjn => ?_⟩
  · apply mbit_congr
    rw [hcb, if_neg]
    rcases hk with ⟨rfl, rfl⟩ | ⟨rfl, rfl⟩ | ⟨rfl, rfl⟩ | ⟨rfl, rfl⟩ <;> omega
  · have key : ∀ t, t < k →
        copy_backward d0 (ndx * k) (n * k) (n * k + k) (j * k + t) % 256 =
          d0 ((j - 1) * k + t) % 256 := by
      intro t ht
      have e1 : (j - 1) * k + k = j * k := by
        have : j = (j - 1) + 1 := by omega
        conv_rhs => rw [this]
        ring
      have e2 : (ndx + 1) * k ≤ j * k := Nat.mul_le_mul_right _ (by omega)
      have e3 : (ndx + 1) * k = ndx * k + k := by ring
      have e4 : j * k ≤ n * k := Nat.mul_le_mul_right _ hjn
      rw [hcb, if_pos (by omega)]
      congr 2
      omega
    rcases hk with ⟨rfl, rfl⟩ | ⟨rfl, rfl⟩ | ⟨rfl, rfl⟩ | ⟨rfl, rfl⟩
    · simp only [get_direct]
      rw [read_le_congr _ d0 j (j - 1) 1 (fun t ht => by simpa using key t ht)]
    · simp only [get_direct]
      rw [read_le_congr _ d0 (j * 2) ((j - 1) * 2) 2 key]
    · simp only [get_direct]
      rw [read_le_congr _ d0 (j * 4) ((j - 1) * 4) 4 key]
    · simp only [get_direct]
      rw [read_le_congr _ d0 (j * 8) ((j - 1) * 8) 8 key]

theorem get_direct_alloc_kept (a b : Array) (h : a.attached)
    (hk : ∀ p, p + 8 < calc_byte_len a.m_size a.m_width → b.m_data p = a.m_data p)
    (j : Nat) (hj : j < a.m_size) :
    get_direct a.m_width b.m_data j = get_direct a.m_width a.m_data j := by
  obtain ⟨h1, _, _, h4, _, _, _, _⟩ := h
  apply get_direct_congr _ h1
  intro x hx1 hx2
  apply mbit_congr
  apply hk
  rw [calc_byte_len_eq _ _ h4 (width_le_64 _ h1)]
  have e1 : j * a.m_width + a.m_width = (j + 1) * a.m_width := by ring
  have e2 : (j + 1) * a.m_width ≤ a.m_size * a.m_width := Nat.mul_le_mul_right _ (by omega)
  omega

/-- The function `Array::insert` on an attached array whose new size fits the header and the
largest payload: it succeeds, the result is attached, and the elements are the
old ones with `v` inserted at `ndx`. -/
theorem insert_spec (a : Array) (ndx : Nat) (v : Int) (fr : Fresh) (h : a.attached)
    (hndx : ndx ≤ a.m_size) (hv : is_int64 v) (hsz : a.m_size + 1 ≤ 0xFFFFFF)
    (hroom : calc_byte_len (a.m_size + 1)
      (if v < a.m_lbound ∨ v > a.m_ubound then bit_width v else a.m_width) ≤
        max_array_payload) :
    ∃ b, a.insert ndx v fr = some b ∧ b.attached ∧ b.m_size = a.m_size + 1 ∧
      b.m_width = (if v < a.m_lbound ∨ v > a.m_ubound then bit_width v else a.m_width) ∧
      b.get ndx = v ∧ (∀ j, j < ndx → b.get j = a.get j) ∧
      (∀ j, ndx < j → j ≤ a.m_size → b.get j = a.get (j - 1)) ∧
      b.m_is_inner_bptree_node = a.m_is_inner_bptree_node ∧ b.m_has_refs = a.m_has_refs ∧
      b.m_context_flag = a.m_context_flag ∧ b.read_only = false := by
  have hat := h
  obtain ⟨h1, h2, h3, h4, h5, h6, h7, _⟩ := h
  obtain ⟨m1, m2, m3, _⟩ := bit_width_minimal v hv
  by_cases hx : v < a.m_lbound ∨ v > a.m_ubound
  · rw [if_pos hx] at hroom ⊢
    have hlt : a.m_width < bit_width v := bit_width_gt_of_not_fits _ h1 v hv (by rw [← h2, ← h3]; exact hx)
    obtain ⟨b0, hb0, r1, r2, r3, r4, r5, r6, r7, r8, r9, r10, r11, r12, r13, r14, r15, r16⟩ :=
      alloc_spec a (a.m_size + 1) (bit_width v) fr hat m1 hsz (by omega) hroom
    unfold Array.insert
    simp only [hx, decide_True, if_true, hb0, Option.map_some', true_or, Array.set_width]
    obtain ⟨ma, _, mc⟩ := insert_move_loop_spec a.m_width (bit_width v) h1 m1 (by omega) ndx
      b0.m_size b0.m_data
    have e0 : ndx * bit_width v ≤ (ndx + 1) * bit_width v := Nat.mul_le_mul_right _ (by omega)
    have hf := insert_finish a.m_width (bit_width v) h1 m1 (by omega) true (by simp) ndx
      b0.m_size b0.m_data _ v m2 m3 (fun b hb => ma b (by omega)) mc
    simp only [if_true] at hf
    obtain ⟨f1, f2, f3⟩ := hf
    refine ⟨_, rfl, ?_, by simp only [r2], rfl, f1, fun j hj => ?_, fun j hj hjn => ?_,
      r8, r9, r10, r1⟩
    · refine ⟨m1, rfl, rfl, ?_, ?_, r7, ?_, fun _ => ⟨r11, r12, ?_, r14, ?_⟩⟩
      · show b0.m_size + 1 ≤ 0xFFFFFF
        omega
      · show b0.hdr_size = b0.m_size + 1
        omega
      · show calc_byte_len (b0.m_size + 1) (bit_width v) ≤ max_array_payload
        rw [r2]; exact hroom
      · show calc_byte_len (b0.m_size + 1) (bit_width v) ≤ b0.hdr_capacity
        rw [r2]; exact r13
      · show b0.hdr_capacity ≤ max_array_payload + 1
        simp only [max_array_payload]; omega
    · exact (f2 j hj).trans (get_direct_alloc_kept a b0 hat r16 j (by omega))
    · exact (f3 j hj (by omega)).trans (get_direct_alloc_kept a b0 hat r16 (j - 1) (by omega))
  · rw [if_neg hx] at hroom ⊢
    have hlo : lbound_for_width a.m_width ≤ v := by rw [← h2]; omega
    have hhi : v ≤ ubound_for_width a.m_width := by rw [← h3]; omega
    obtain ⟨b0, hb0, r1, r2, r3, r4, r5, r6, r7, r8, r9, r10, r11, r12, r13, r14, r15, r16⟩ :=
      alloc_spec a (a.m_size + 1) a.m_width fr hat h1 hsz (by omega) hroom
    have hatt : ∀ d, Array.attached { b0 with m_data := d, m_size := b0.m_size + 1 } := by
      intro d
      refine ⟨r3 ▸ h1, ?_, ?_, ?_, ?_, ?_, ?_, fun _ => ⟨?_, r12, ?_, r14, ?_⟩⟩
      · show b0.m_lbound = lbound_for_width b0.m_width
        rw [r4, r3, h2]
      · show b0.m_ubound = ubound_for_width b0.m_width
        rw [r5, r3, h3]
      · show b0.m_size + 1 ≤ 0xFFFFFF
        omega
      · show b0.hdr_size = b0.m_size + 1
        omega
      · show b0.hdr_width = b0.m_width
        rw [r7, r3]
      · show calc_byte_len (b0.m_size + 1) b0.m_width ≤ max_array_payload
        rw [r2, r3]; exact hroom
      · show b0.m_capacity = calc_item_count b0.hdr_capacity b0.m_width
        rw [r3]; exact r11
      · show calc_byte_len (b0.m_size + 1) b0.m_width ≤ b0.hdr_capacity
        rw [r2, r3]; exact r13
      · show b0.hdr_capacity ≤ max_array_payload + 1
        simp only [max_array_payload]; omega
    have fin : ∀ d1 : Mem, (∀ b, b < ndx * a.m_width → mbit d1 b = mbit b0.m_data b) →
        (∀ k, ndx < k → k ≤ b0.m_size →
          get_direct a.m_width d1 k = get_direct a.m_width b0.m_data (k - 1)) →
        ∃ b, some ({ b0 with m_data := set_direct b0.m_width d1 ndx v,
                             m_size := b0.m_size + 1 } : Array) = some b ∧ b.attached ∧
          b.m_size = a.m_size + 1 ∧ b.m_width = a.m_width ∧
          b.get ndx = v ∧ (∀ j, j < ndx → b.get j = a.get j) ∧
          (∀ j, ndx < j → j ≤ a.m_size → b.get j = a.get (j - 1)) ∧
          b.m_is_inner_bptree_node = a.m_is_inner_bptree_node ∧ b.m_has_refs = a.m_has_refs ∧
          b.m_context_flag = a.m_context_flag ∧ b.read_only = false := by
      intro d1 hlow hup
      have hf := insert_finish a.m_width a.m_width h1 h1 (le_refl _) false (by simp) ndx
        b0.m_size b0.m_data d1 v hlo hhi hlow hup
      simp only [Bool.false_eq_true, if_false] at hf
      obtain ⟨f1, f2, f3⟩ := hf
      refine ⟨_, rfl, hatt _, by simp only [r2], r3, ?_, fun j hj => ?_, fun j hj hjn => ?_,
        r8, r9, r10, r1⟩
      · show get_direct b0.m_width (set_direct b0.m_width d1 ndx v) ndx = v
        rw [r3]; exact f1
      · show get_direct b0.m_width (set_direct b0.m_width d1 ndx v) j = _
        rw [r3]
        exact (f2 j hj).trans (get_direct_alloc_kept a b0 hat r16 j (by omega))
      · show get_direct b0.m_width (set_direct b0.m_width d1 ndx v) j = _
        rw [r3]
        exact (f3 j hj (by omega)).trans
          (get_direct_alloc_kept a b0 hat r16 (j - 1) (by omega))
    unfold Array.insert
    simp only [hx, decide_False, Bool.false_eq_true, if_false, hb0, Option.map_some', false_or]
    by_cases hw8 : b0.m_width < 8
    · rw [if_pos hw8]
      obtain ⟨ma, _, mc⟩ := insert_move_loop_spec a.m_width a.m_width h1 h1 (le_refl _) ndx
        b0.m_size b0.m_data
      have e0 : ndx * a.m_width ≤ (ndx + 1) * a.m_width := Nat.mul_le_mul_right _ (by omega)
      rw [r3]
      rw [r3] at fin
      exact fin _ (fun b hb => ma b (by omega)) mc
    · rw [if_neg hw8]
      by_cases hne : ndx ≠ b0.m_size
      · rw [if_pos hne]
        have hk : (a.m_width = 8 ∧ (if b0.m_width = 64 then 8 else if b0.m_width = 32 then 4
            else if b0.m_width = 16 then 2 else 1) = 1) ∨
            (a.m_width = 16 ∧ (if b0.m_width = 64 then 8 else if b0.m_width = 32 then 4
            else if b0.m_width = 16 then 2 else 1) = 2) ∨
            (a.m_width = 32 ∧ (if b0.m_width = 64 then 8 else if b0.m_width = 32 then 4
            else if b0.m_width = 16 then 2 else 1) = 4) ∨
            (a.m_width = 64 ∧ (if b0.m_width = 64 then 8 else if b0.m_width = 32 then 4
            else if b0.m_width = 16 then 2 else 1) = 8) := by
          rw [r3]
          rw [r3] at hw8
          rw [mem_widths] at h1
          rcases h1 with e | e | e | e | e | e | e | e <;> rw [e] at hw8 ⊢ <;> simp at hw8 ⊢
        obtain ⟨ca, cb⟩ := insert_memmove_spec a.m_width _ hk ndx b0.m_size (by omega) b0.m_data
        exact fin _ ca cb
      · rw [if_neg hne]
        exact fin _ (fun _ _ => rfl) (fun k hk1 hk2 => by omega)

/-! ## Theorems: `Array::set` -/

theorem get_set_direct (w : Nat) (hw : w ∈ widths) (d : Mem) (i j : Nat) (v : Int)
    (hlo : lbound_for_width w ≤ v) (hhi : v ≤ ubound_for_width w) :
    get_direct w (set_direct w d i v) j = if j = i then v else get_direct w d j := by
  by_cases h : j = i
  · rw [if_pos h, h]
    exact get_set_direct_same w hw d i v hlo hhi
  · rw [if_neg h]
    apply get_set_direct_other w w hw hw
    rcases Nat.lt_or_gt_of_ne h with h1 | h1
    · left
      have e1 : j * w + w = (j + 1) * w := by ring
      have e2 : (j + 1) * w ≤ i * w := Nat.mul_le_mul_right _ (by omega)
      omega
    · right
      have e1 : i * w + w = (i + 1) * w := by ring
      have e2 : (i + 1) * w ≤ j * w := Nat.mul_le_mul_right _ (by omega)
      omega

/-- The function `copy_on_write` keeps an attached array attached, makes it writable, and
keeps the accessor fields and the elements. -/
theorem copy_on_write_spec (a : Array) (fresh : Mem) (h : a.attached) :
    (a.copy_on_write fresh).attached ∧ (a.copy_on_write fresh).read_only = false ∧
    (a.copy_on_write fresh).m_size = a.m_size ∧ (a.copy_on_write fresh).m_width = a.m_width ∧
    (a.copy_on_write fresh).m_lbound = a.m_lbound ∧
    (a.copy_on_write fresh).m_ubound = a.m_ubound ∧
    (a.copy_on_write fresh).m_is_inner_bptree_node = a.m_is_inner_bptree_node ∧
    (a.copy_on_write fresh).m_has_refs = a.m_has_refs ∧
    (a.copy_on_write fresh).m_context_flag = a.m_context_flag ∧
    (∀ j, j < a.m_size → (a.copy_on_write fresh).get j = a.get j) := by
  unfold Array.copy_on_write
  cases hro : a.read_only
  · simp only [Bool.false_eq_true, if_false]
    exact ⟨h, hro, by simp⟩
  · simp only [if_true]
    have hat := h
    obtain ⟨h1, h2, h3, h4, h5, h6, h7, _⟩ := h
    obtain ⟨d1, d2, d3, d4, d5, d6, d7, d8, d9, d10, d11, d12, d13, d14, d15, d16, d17⟩ :=
      do_copy_on_write_spec a 0 fresh hat (by omega)
    have hget : ∀ j, j < a.m_size → (a.do_copy_on_write 0 fresh).get j = a.get j := by
      intro j hj
      unfold Array.get
      rw [d3]
      exact get_direct_alloc_kept a _ hat d17 j hj
    generalize a.do_copy_on_write 0 fresh = c at *
    refine ⟨⟨d3 ▸ h1, ?_, ?_, d2 ▸ h4, ?_, ?_, ?_, fun _ => ⟨d11, ?_, ?_, d15, ?_⟩⟩,
      d1, d2, d3, d4, d5, d8, d9, d10, hget⟩
    · rw [d4, d3, h2]
    · rw [d5, d3, h3]
    · rw [d6, d2, h5]
    · rw [d7, d3, h6]
    · rw [d2, d3]; exact h7
    · rw [d11]
      by_cases h0 : c.m_width = 0
      · rw [h0]; simp [calc_item_count, size_max]
      · rw [calc_item_count_eq _ _ h0 (by omega) d16]
        have := width_le_64 _ (d3 ▸ h1)
        apply Nat.div_pos _ (by omega)
        omega
    · rw [d2, d3]; exact d12
    · simp only [max_array_payload]; omega

/-- The function `Array::set` on an attached array: it succeeds, element `ndx` reads back as
`v`, every other element is unchanged, the size is unchanged, the width is
promoted exactly when `v` is outside the current bounds, and nothing at all
changes when the element already equals `v`. -/
theorem set_spec (a : Array) (ndx : Nat) (v : Int) (fr : Fresh) (h : a.attached)
    (hndx : ndx < a.m_size) (hv : is_int64 v)
    (hroom : calc_byte_len a.m_size
      (if v < a.m_lbound ∨ v > a.m_ubound then bit_width v else a.m_width) ≤
        max_array_payload) :
    ∃ b, a.set ndx v fr = some b ∧ b.attached ∧ b.m_size = a.m_size ∧
      b.m_width = (if v < a.m_lbound ∨ v > a.m_ubound then bit_width v else a.m_width) ∧
      b.get ndx = v ∧ (∀ j, j < a.m_size → j ≠ ndx → b.get j = a.get j) ∧
      (a.get ndx = v → b = a) ∧
      b.m_is_inner_bptree_node = a.m_is_inner_bptree_node ∧ b.m_has_refs = a.m_has_refs ∧
      b.m_context_flag = a.m_context_flag := by
  have hat := h
  obtain ⟨h1, h2, h3, h4, h5, h6, h7, _⟩ := h
  obtain ⟨m1, m2, m3, _⟩ := bit_width_minimal v hv
  unfold Array.set
  rw [if_neg (by omega)]
  by_cases heq : a.get ndx = v
  · rw [if_pos heq]
    have hf := get_direct_fits a.m_width h1 a.m_data ndx
    have hin : ¬ (v < a.m_lbound ∨ v > a.m_ubound) := by
      rw [h2, h3, ← heq]
      unfold Array.get
      omega
    rw [if_neg hin]
    exact ⟨a, rfl, hat, rfl, rfl, heq, fun _ _ _ => rfl, fun _ => rfl, rfl, rfl, rfl⟩
  · rw [if_neg heq]
    obtain ⟨c0, c1, c2, c3, c4, c5, c6, c7, c8, c9⟩ := copy_on_write_spec a (fr 0) hat
    generalize a.copy_on_write (fr 0) = c at *
    have hc := c0
    obtain ⟨k1, k2, k3, k4, k5, k6, k7, k8⟩ := c0
    unfold Array.ensure_minimum_width
    dsimp only
    by_cases hin : v ≥ c.m_lbound ∧ v ≤ c.m_ubound
    · rw [if_pos hin]
      have hout : ¬ (v < a.m_lbound ∨ v > a.m_ubound) := by rw [← c4, ← c5]; omega
      rw [if_neg hout]
      simp only [Option.map_some']
      have hg := get_set_direct c.m_width k1 c.m_data ndx
      refine ⟨_, rfl, ⟨k1, k2, k3, k4, k5, k6, k7, k8⟩, c2, c3, ?_, fun j hj hne => ?_,
        fun hh => absurd hh heq, c6, c7, c8⟩
      · show get_direct c.m_width (set_direct c.m_width c.m_data ndx v) ndx = v
        rw [hg ndx v (by rw [← k2]; omega) (by rw [← k3]; omega), if_pos rfl]
      · show get_direct c.m_width (set_direct c.m_width c.m_data ndx v) j = _
        rw [hg j v (by rw [← k2]; omega) (by rw [← k3]; omega), if_neg hne]
        exact c9 j hj
    · rw [if_neg hin]
      have hout : v < a.m_lbound ∨ v > a.m_ubound := by rw [← c4, ← c5]; omega
      rw [if_pos hout] at hroom ⊢
      have hlt : c.m_width < bit_width v :=
        bit_width_gt_of_not_fits _ k1 v hv (by rw [← k2, ← k3]; omega)
      unfold Array.do_ensure_minimum_width
      rw [if_neg (by omega)]
      obtain ⟨b0, hb0, r1, r2, r3, r4, r5, r6, r7, r8, r9, r10, r11, r12, r13, r14, r15, r16⟩ :=
        alloc_spec c c.m_size (bit_width v) (fr.drop 1) hc m1 k4 (by omega)
          (by rw [c2]; exact hroom)
      simp only [hb0, Option.map_some', Array.set_width]
      obtain ⟨_, eb⟩ := expand_loop_spec c.m_width (bit_width v) k1 m1 (by omega) b0.m_size
        b0.m_data
      have hg := get_set_direct (bit_width v) m1
        (expand_loop c.m_width (bit_width v) b0.m_size b0.m_data) ndx
      have hold : ∀ j, j < a.m_size →
          get_direct (bit_width v) (expand_loop c.m_width (bit_width v) b0.m_size b0.m_data) j =
            a.get j := by
        intro j hj
        rw [eb j (by omega), get_direct_alloc_kept c b0 hc r16 j (by omega)]
        exact c9 j hj
      refine ⟨_, rfl, ⟨m1, rfl, rfl, ?_, ?_, r7, ?_, fun _ => ⟨r11, r12, ?_, r14, ?_⟩⟩,
        by simp only [r2, c2], rfl, ?_, fun j hj hne => ?_, fun hh => absurd hh heq,
        r8.trans c6, r9.trans c7, r10.trans c8⟩
      · show b0.m_size ≤ 0xFFFFFF
        omega
      · show b0.hdr_size = b0.m_size
        omega
      · show calc_byte_len b0.m_size (bit_width v) ≤ max_array_payload
        rw [r2, c2]; exact hroom
      · show calc_byte_len b0.m_size (bit_width v) ≤ b0.hdr_capacity
        rw [r2]; exact r13
      · show b0.hdr_capacity ≤ max_array_payload + 1
        simp only [max_array_payload]; omega
      · show get_direct (bit_width v) (set_direct (bit_width v) _ ndx v) ndx = v
        rw [hg ndx v m2 m3, if_pos rfl]
      · show get_direct (bit_width v) (set_direct (bit_width v) _ ndx v) j = _
        rw [hg j v m2 m3, if_neg hne]
        exact hold j hj

/-! ## Theorems: element sequences -/

theorem elems_length (a : Array) : a.elems.length = a.m_size := by
  simp [Array.elems]

theorem elems_getElem? (a : Array) (j : Nat) :
    a.elems[j]? = if j < a.m_size then some (a.get j) else none := by
  unfold Array.elems
  rw [List.getElem?_map]
  by_cases h : j < a.m_size
  · rw [if_pos h, List.getElem?_range h]
    rfl
  · rw [if_neg h, List.getElem?_eq_none (by simpa using h)]
    rfl

/-- A list that agrees position by position with `xs` with `v` inserted at
`ndx` is `take ndx xs ++ v :: drop ndx xs`. -/
theorem list_eq_insert (xs ys : List Int) (ndx : Nat) (v : Int)
    (hlen : ys.length = xs.length + 1) (hndx : ndx ≤ xs.length)
    (h1 : ∀ j, j < ndx → ys[j]? = xs[j]?) (h2 : ys[ndx]? = some v)
    (h3 : ∀ j, ndx < j → j ≤ xs.length → ys[j]? = xs[j - 1]?) :
    ys = xs.take ndx ++ v :: xs.drop ndx := by
  apply List.ext_getElem?
  intro j
  have hl : (List.take ndx xs).length = ndx := by simp; omega
  by_cases c1 : j < ndx
  · rw [h1 j c1, List.getElem?_append_left (by omega), List.getElem?_take_of_lt c1]
  · by_cases c2 : j = ndx
    · subst c2
      rw [h2, List.getElem?_append_right (by omega), hl]
      simp
    · rw [List.getElem?_append_right (by omega), hl]
      obtain ⟨k, hk⟩ : ∃ k, j - ndx = k + 1 := ⟨j - ndx - 1, by omega⟩
      rw [hk, List.getElem?_cons_succ, List.getElem?_drop]
      by_cases c3 : j ≤ xs.length
      · rw [h3 j (by omega) c3]
        congr 1
        omega
      · rw [List.getElem?_eq_none (by omega), List.getElem?_eq_none (by omega)]

theorem elems_of_insert (a b : Array) (ndx : Nat) (v : Int) (hndx : ndx ≤ a.m_size)
    (hsz : b.m_size = a.m_size + 1) (hg : b.get ndx = v)
    (hl : ∀ j, j < ndx → b.get j = a.get j)
    (hu : ∀ j, ndx < j → j ≤ a.m_size → b.get j = a.get (j - 1)) :
    b.elems = a.elems.take ndx ++ v :: a.elems.drop ndx := by
  apply list_eq_insert
  · rw [elems_length, elems_length, hsz]
  · rw [elems_length]; exact hndx
  · intro j hj
    rw [elems_getElem?, elems_getElem?, if_pos (by omega), if_pos (by omega), hl j hj]
  · rw [elems_getElem?, if_pos (by omega), hg]
  · intro j hj hjn
    rw [elems_length] at hjn
    rw [elems_getElem?, elems_getElem?, if_pos (by omega), if_pos (by omega), hu j hj hjn]

theorem max_bit_width_append (xs ys : List Int) :
    max_bit_width (xs ++ ys) = max (max_bit_width xs) (max_bit_width ys) := by
  unfold max_bit_width
  induction xs with
  | nil => simp
  | cons x xs ih =>
    simp only [List.cons_append, List.map_cons, List.foldr_cons]
    rw [ih, max_assoc]

theorem max_bit_width_insert (xs : List Int) (ndx : Nat) (v : Int) :
    max_bit_width (xs.take ndx ++ v :: xs.drop ndx) = max (bit_width v) (max_bit_width xs) := by
  have e : max_bit_width xs = max (max_bit_width (xs.take ndx)) (max_bit_width (xs.drop ndx)) := by
    rw [← max_bit_width_append, List.take_append_drop]
  rw [max_bit_width_append, e]
  have e2 : max_bit_width (v :: xs.drop ndx) = max (bit_width v) (max_bit_width (xs.drop ndx)) := by
    simp [max_bit_width]
  rw [e2]
  omega

/-! ## Theorems: sequences of insertions and the width invariant -/

theorem room_of_small (n w : Nat) (hn : n ≤ 2097150) (hw : w ∈ widths) :
    calc_byte_len n w ≤ max_array_payload := by
  have hw64 := width_le_64 w hw
  rw [calc_byte_len_eq n w (by omega) hw64]
  have : n * w ≤ 2097150 * 64 := Nat.mul_le_mul hn hw64
  simp only [max_array_payload]
  omega

theorem calc_byte_len_mono (n m w : Nat) (hnm : n ≤ m) (hm : m ≤ 0xFFFFFF) (hw : w ∈ widths) :
    calc_byte_len n w ≤ calc_byte_len m w := by
  have hw64 := width_le_64 w hw
  rw [calc_byte_len_eq n w (by omega) hw64, calc_byte_len_eq m w hm hw64]
  have : n * w ≤ m * w := Nat.mul_le_mul_right _ hnm
  omega

theorem create_spec (type : Type_) (context_flag : Bool) (fr : Fresh) :
    (Array.create type context_flag fr).attached ∧
    (Array.create type context_flag fr).m_size = 0 ∧
    (Array.create type context_flag fr).m_width = 0 ∧
    (Array.create type context_flag fr).elems = [] ∧
    (Array.create type context_flag fr).m_has_refs =
      decide (type = Type_.type_InnerBptreeNode ∨ type = Type_.type_HasRefs) := by
  refine ⟨⟨?_, rfl, rfl, ?_, rfl, rfl, ?_, fun _ => ⟨rfl, ?_, ?_, ?_, ?_⟩⟩, rfl, rfl, rfl, rfl⟩
  · show 0 ∈ widths
    decide
  · show (0 : Nat) ≤ 0xFFFFFF
    decide
  · show calc_byte_len 0 0 ≤ max_array_payload
    decide
  · show 0 < calc_item_count (max header_size initial_capacity) 0
    decide
  · show calc_byte_len 0 0 ≤ max header_size initial_capacity
    decide
  · show max header_size initial_capacity % 8 = 0
    decide
  · show max header_size initial_capacity ≤ max_array_payload + 1
    decide

/-- One insertion keeps the width equal to the largest `bit_width` of the
elements, and does not decrease it. -/
theorem insert_width_invariant (a : Array) (ndx : Nat) (v : Int) (fr : Fresh) (h : a.attached)
    (hndx : ndx ≤ a.m_size) (hv : is_int64 v) (hsz : a.m_size + 1 ≤ 2097150)
    (hinv : a.m_width = max_bit_width a.elems) :
    ∃ b, a.insert ndx v fr = some b ∧ b.attached ∧ b.m_size = a.m_size + 1 ∧
      b.elems = a.elems.take ndx ++ v :: a.elems.drop ndx ∧
      b.m_width = max_bit_width b.elems ∧ a.m_width ≤ b.m_width ∧
      b.m_has_refs = a.m_has_refs := by
  have hat := h
  obtain ⟨h1, h2, h3, _⟩ := h
  obtain ⟨m1, m2, m3, m4⟩ := bit_width_minimal v hv
  have hwid : (if v < a.m_lbound ∨ v > a.m_ubound then bit_width v else a.m_width) ∈ widths := by
    split
    · exact m1
    · exact h1
  obtain ⟨b, hb, b1, b2, b3, b4, b5, b6, _, b8, _, _⟩ := insert_spec a ndx v fr hat hndx hv
    (by omega) (room_of_small _ _ hsz hwid)
  have he := elems_of_insert a b ndx v hndx b2 b4 b5 b6
  have hmax : b.m_width = max (bit_width v) a.m_width := by
    rw [b3]
    by_cases hx : v < a.m_lbound ∨ v > a.m_ubound
    · rw [if_pos hx]
      have := bit_width_gt_of_not_fits _ h1 v hv (by rw [← h2, ← h3]; exact hx)
      omega
    · rw [if_neg hx]
      have := m4 a.m_width h1 (by rw [← h2]; omega) (by rw [← h3]; omega)
      omega
  refine ⟨b, hb, b1, b2, he, ?_, by omega, b8⟩
  rw [he, max_bit_width_insert, hmax, hinv]

theorem run_inserts_spec (ops : List (Nat × Int)) :
    ∀ (a : Array) (frs : Nat → Fresh), a.attached → a.m_width = max_bit_width a.elems →
      valid_inserts a.m_size ops → a.m_size + ops.length ≤ 2097150 →
      ∃ b, run_inserts a ops frs = some b ∧ b.attached ∧
        b.m_width = max_bit_width b.elems ∧ a.m_width ≤ b.m_width ∧
        b.m_size = a.m_size + ops.length := by
  induction ops with
  | nil =>
    intro a frs h hinv _ _
    exact ⟨a, rfl, h, hinv, le_refl _, rfl⟩
  | cons op ops ih =>
    intro a frs h hinv hval hlen
    obtain ⟨v1, v2, v3⟩ := hval
    simp only [List.length_cons] at hlen
    obtain ⟨b, hb, b1, b2, _, b4, b5, _⟩ :=
      insert_width_invariant a op.1 op.2 (frs 0) h v1 v2 (by omega) hinv
    obtain ⟨c, hc, c1, c2, c3, c4⟩ := ih b (fun k => frs (k + 1)) b1 b4 (b2 ▸ v3) (by omega)
    refine ⟨c, ?_, c1, c2, by omega, ?_⟩
    · simp only [run_inserts, hb, Option.some_bind, hc]
    · rw [c4, b2, List.length_cons]; omega

theorem run_inserts_append (xs ys : List (Nat × Int)) :
    ∀ (a : Array) (frs : Nat → Fresh),
      run_inserts a (xs ++ ys) frs =
        (run_inserts a xs frs).bind fun b => run_inserts b ys (fun k => frs (xs.length + k)) := by
  induction xs with
  | nil =>
    intro a frs
    simp [run_inserts]
  | cons x xs ih =>
    intro a frs
    simp only [List.cons_append, run_inserts, List.length_cons]
    cases h : a.insert x.1 x.2 (frs 0) with
    | none => rfl
    | some b =>
      simp only [Option.some_bind]
      have := ih b (fun k => frs (k + 1))
      simp only [List.append_eq] at this ⊢
      rw [this]
      have e : ∀ k, xs.length + k + 1 = xs.length + 1 + k := fun k => by omega
      simp only [e]

theorem valid_inserts_append (xs ys : List (Nat × Int)) :
    ∀ n, valid_inserts n (xs ++ ys) → valid_inserts n xs ∧ valid_inserts (n + xs.length) ys := by
  induction xs with
  | nil => intro n h; exact ⟨trivial, by simpa using h⟩
  | cons x xs ih =>
    intro n h
    obtain ⟨h1, h2, h3⟩ := h
    obtain ⟨i1, i2⟩ := ih (n + 1) h3
    refine ⟨⟨h1, h2, i1⟩, ?_⟩
    rw [List.length_cons, show n + (xs.length + 1) = n + 1 + xs.length by omega]
    exact i2

/-! ## Theorems: `Array::truncate` and `Array::bptree_leaf_insert` -/

/-- The function `Array::truncate` on an attached array: it succeeds, keeps the first
`n` elements, and resets the width to zero exactly when a non-empty array is
cleared. -/
theorem truncate_spec (a : Array) (n : Nat) (fr : Fresh) (h : a.attached) (hn : n ≤ a.m_size) :
    ∃ b, a.truncate n fr = some b ∧ b.attached ∧ b.m_size = n ∧
      b.elems = a.elems.take n ∧ (n = a.m_size → b = a) ∧
      b.m_width = (if n = 0 ∧ n ≠ a.m_size then 0 else a.m_width) ∧
      b.m_has_refs = a.m_has_refs := by
  have hat := h
  obtain ⟨h1, h2, h3, h4, h5, h6, h7, _⟩ := h
  unfold Array.truncate
  rw [if_neg (by omega)]
  by_cases he : n = a.m_size
  · rw [if_pos he, if_neg (by omega)]
    refine ⟨a, rfl, hat, he.symm, ?_, fun _ => rfl, rfl, rfl⟩
    rw [he, ← elems_length a, List.take_length]
  · rw [if_neg he]
    obtain ⟨c0, c1, c2, c3, c4, c5, c6, c7, c8, c9⟩ := copy_on_write_spec a (fr 0) hat
    generalize a.copy_on_write (fr 0) = c at *
    obtain ⟨k1, k2, k3, k4, k5, k6, k7, k8⟩ := c0
    obtain ⟨w1, w2, w3, w4, w5⟩ := k8 c1
    have hlen8 : 8 ≤ c.hdr_capacity := by
      rw [calc_byte_len_eq _ _ k4 (width_le_64 _ k1)] at w3
      omega
    have helems : ∀ b : Array, b.m_size = n → (∀ j, j < n → b.get j = a.get j) →
        b.elems = a.elems.take n := by
      intro b hb hg
      apply List.ext_getElem?
      intro j
      rw [elems_getElem?, hb, List.getElem?_take]
      by_cases hj : j < n
      · rw [if_pos hj, if_pos hj, elems_getElem?, if_pos (by omega), hg j hj]
      · rw [if_neg hj, if_neg hj]
    dsimp only
    by_cases h0 : n = 0
    · rw [if_pos h0, if_pos ⟨h0, he⟩]
      subst h0
      refine ⟨_, rfl, ⟨?_, rfl, rfl, ?_, rfl, rfl, ?_, fun _ => ⟨rfl, ?_, ?_, w4, w5⟩⟩, rfl,
        ?_, fun hh => absurd hh he, rfl, c7⟩
      · show 0 ∈ widths
        decide
      · show (0 : Nat) ≤ 0xFFFFFF
        decide
      · show calc_byte_len 0 0 ≤ max_array_payload
        decide
      · show 0 < calc_item_count c.hdr_capacity 0
        simp [calc_item_count, size_max]
      · show calc_byte_len 0 0 ≤ c.hdr_capacity
        have : calc_byte_len 0 0 = 8 := by decide
        omega
      · exact helems _ rfl (fun j hj => by omega)
    · rw [if_neg h0, if_neg (fun hh => h0 hh.1)]
      have hmono := calc_byte_len_mono n c.m_size c.m_width (by omega) k4 k1
      refine ⟨_, rfl, ⟨k1, k2, k3, ?_, rfl, k6, ?_, fun _ => ⟨w1, w2, ?_, w4, w5⟩⟩, rfl,
        ?_, fun hh => absurd hh he, c3, c7⟩
      · show n ≤ 0xFFFFFF
        omega
      · show calc_byte_len n c.m_width ≤ max_array_payload
        omega
      · show calc_byte_len n c.m_width ≤ c.hdr_capacity
        omega
      · exact helems _ rfl (fun j hj => c9 j (by omega))

theorem insert_elems (a : Array) (ndx : Nat) (v : Int) (fr : Fresh) (h : a.attached)
    (hndx : ndx ≤ a.m_size) (hv : is_int64 v) (hsz : a.m_size + 1 ≤ 2097150) :
    ∃ b, a.insert ndx v fr = some b ∧ b.attached ∧ b.m_size = a.m_size + 1 ∧
      b.elems = a.elems.take ndx ++ v :: a.elems.drop ndx ∧ b.m_has_refs = a.m_has_refs := by
  have hat := h
  obtain ⟨h1, _⟩ := h
  obtain ⟨m1, _⟩ := bit_width_minimal v hv
  have hwid : (if v < a.m_lbound ∨ v > a.m_ubound then bit_width v else a.m_width) ∈ widths := by
    split
    · exact m1
    · exact h1
  obtain ⟨b, hb, b1, b2, _, b4, b5, b6, _, b8, _, _⟩ := insert_spec a ndx v fr hat hndx hv
    (by omega) (room_of_small _ _ hsz hwid)
  exact ⟨b, hb, b1, b2, elems_of_insert a b ndx v hndx b2 b4 b5 b6, b8⟩

theorem add_elems (a : Array) (v : Int) (fr : Fresh) (h : a.attached)
    (hv : is_int64 v) (hsz : a.m_size + 1 ≤ 2097150) :
    ∃ b, a.add v fr = some b ∧ b.attached ∧ b.m_size = a.m_size + 1 ∧
      b.elems = a.elems ++ [v] ∧ b.m_has_refs = a.m_has_refs := by
  obtain ⟨b, hb, b1, b2, b3, b4⟩ := insert_elems a a.m_size v fr h (le_refl _) hv hsz
  refine ⟨b, hb, b1, b2, ?_, b4⟩
  rw [b3, ← elems_length a, List.take_length, List.drop_length]

theorem get_is_int64 (a : Array) (h : a.attached) (i : Nat) : is_int64 (a.get i) := by
  obtain ⟨h1, _⟩ := h
  have hf := get_direct_fits a.m_width h1 a.m_data i
  have hm := bounds_mono a.m_width 64 h1 (by decide) (width_le_64 _ h1)
  have e1 : lbound_for_width 64 = -9223372036854775808 := rfl
  have e2 : ubound_for_width 64 = 9223372036854775807 := rfl
  rw [e1, e2] at hm
  unfold is_int64 Array.get
  omega

theorem leaf_split_copy_spec (a : Array) (h : a.attached) :
    ∀ (count i : Nat) (nl : Array) (frs : Nat → Fresh), nl.attached → i + count = a.m_size →
      nl.m_size + count ≤ 2097150 →
      ∃ r, leaf_split_copy a count i nl frs = some r ∧ r.attached ∧
        r.elems = nl.elems ++ a.elems.drop i ∧ r.m_size = nl.m_size + count ∧
        r.m_has_refs = nl.m_has_refs := by
  intro count
  induction count with
  | zero =>
    intro i nl frs hnl hi _
    refine ⟨nl, rfl, hnl, ?_, rfl, rfl⟩
    rw [List.drop_of_length_le (by rw [elems_length]; omega), List.append_nil]
  | succ c ih =>
    intro i nl frs hnl hi hsz
    obtain ⟨b, hb, b1, b2, b3, b4⟩ := add_elems nl (a.get i) (frs 0) hnl (get_is_int64 a h i)
      (by omega)
    obtain ⟨r, hr, r1, r2, r3, r4⟩ := ih (i + 1) b (fun k => frs (k + 1)) b1 (by omega)
      (by omega)
    refine ⟨r, ?_, r1, ?_, by omega, r4.trans b4⟩
    · simp only [leaf_split_copy, hb, Option.some_bind, hr]
    · rw [r2, b3, List.append_assoc]
      congr 1
      have hi2 : i < a.elems.length := by rw [elems_length]; omega
      rw [List.drop_eq_getElem_cons hi2, List.singleton_append]
      congr 1
      have := elems_getElem? a i
      rw [if_pos (by omega), List.getElem?_eq_getElem hi2] at this
      exact (Option.some.inj this).symm

/-- The function `Array::bptree_leaf_insert` on a leaf that is not full: it is
`insert(ndx, value)` with `ndx` clamped to the size, and no sibling is made. -/
theorem bptree_leaf_insert_not_full (M : Nat) (a : Array) (ndx : Nat) (v : Int)
    (st : TreeInsertBase) (frs : Nat → Fresh) (h : a.attached) (hv : is_int64 v)
    (hlt : a.m_size < M) (hM : M ≤ 2097150) :
    ∃ b, a.bptree_leaf_insert M ndx v st frs = some (b, none, st) ∧
      a.insert (min ndx a.m_size) v (frs 0) = some b ∧ b.attached ∧
      b.elems = a.elems.take (min ndx a.m_size) ++ v :: a.elems.drop (min ndx a.m_size) := by
  have hk : (if a.m_size < ndx then a.m_size else ndx) = min ndx a.m_size := by
    split <;> omega
  obtain ⟨b, hb, b1, _, b3, _⟩ := insert_elems a (min ndx a.m_size) v (frs 0) h
    (Nat.min_le_right _ _) hv (by omega)
  refine ⟨b, ?_, hb, b1, b3⟩
  unfold Array.bptree_leaf_insert
  simp only [hk, hlt, if_true, hb, Option.map_some']

/-- The function `Array::bptree_leaf_insert` on a full leaf: a sibling is made; the leaf
followed by the sibling is the old sequence with `v` inserted at the clamped
index; an insertion at the end leaves the leaf alone and puts only `v` in the
sibling; any other insertion moves the old elements from the index on to the
sibling, truncates the leaf to the index and appends `v` to the leaf. -/
theorem bptree_leaf_insert_full (M : Nat) (a : Array) (ndx : Nat) (v : Int)
    (st : TreeInsertBase) (frs : Nat → Fresh) (h : a.attached) (hv : is_int64 v)
    (hfull : a.m_size = M) (hM : M + 1 ≤ 2097150) :
    ∃ b s st2, a.bptree_leaf_insert M ndx v st frs = some (b, some s, st2) ∧
      b.attached ∧ s.attached ∧
      b.elems ++ s.elems =
        a.elems.take (min ndx a.m_size) ++ v :: a.elems.drop (min ndx a.m_size) ∧
      st2.m_split_offset = b.m_size ∧ st2.m_split_size = a.m_size + 1 ∧
      (min ndx a.m_size = a.m_size → b = a ∧ s.elems = [v]) ∧
      (min ndx a.m_size < a.m_size →
        s.elems = a.elems.drop (min ndx a.m_size) ∧
        b.elems = a.elems.take (min ndx a.m_size) ++ [v] ∧
        b.m_size = min ndx a.m_size + 1) ∧
      s.m_has_refs = a.m_has_refs := by
  have hk : (if a.m_size < ndx then a.m_size else ndx) = min ndx a.m_size := by
    split <;> omega
  generalize hkk : min ndx a.m_size = k at hk
  have hkle : k ≤ a.m_size := by omega
  obtain ⟨n0, n1, n2, n3, n4⟩ := create_spec
    (if a.m_has_refs then Type_.type_HasRefs else Type_.type_Normal) false (frs 0)
  have hrefs : (Array.create (if a.m_has_refs then Type_.type_HasRefs else Type_.type_Normal)
      false (frs 0)).m_has_refs = a.m_has_refs := by
    rw [n4]
    cases a.m_has_refs <;> simp
  unfold Array.bptree_leaf_insert
  simp only [hk]
  rw [if_neg (by omega)]
  generalize Array.create (if a.m_has_refs then Type_.type_HasRefs else Type_.type_Normal)
    false (frs 0) = nl at *
  by_cases hend : k = a.m_size
  · rw [if_pos hend]
    obtain ⟨s, hs, s1, s2, s3, s4⟩ := add_elems nl v (frs 1) n0 hv (by omega)
    rw [n3, List.nil_append] at s3
    simp only [hs, Option.map_some']
    refine ⟨a, s, _, rfl, h, s1, ?_, hend, rfl, fun _ => ⟨rfl, s3⟩, fun hh => by omega,
      s4.trans hrefs⟩
    rw [s3, hend, ← elems_length a, List.take_length, List.drop_length]
  · rw [if_neg hend]
    obtain ⟨s, hs, s1, s2, s3, s4⟩ := leaf_split_copy_spec a h (a.m_size - k) k nl
      (fun i => frs (i + 1)) n0 (by omega) (by omega)
    rw [n3, List.nil_append] at s2
    obtain ⟨t, ht, t1, t2, t3, _, _, t6⟩ := truncate_spec a k (frs (a.m_size + 1)) h hkle
    obtain ⟨c, hc, c1, c2, c3, _⟩ := add_elems t v (frs (a.m_size + 2)) t1 hv (by omega)
    simp only [hs, ht, hc, Option.some_bind, Option.map_some']
    refine ⟨c, s, _, rfl, c1, s1, ?_, ?_, rfl, fun hh => absurd hh hend,
      fun _ => ⟨s2, by rw [c3, t3], by rw [c2, t2]⟩, s4.trans hrefs⟩
    · rw [c3, t3, s2]
      simp
    · show k + 1 = c.m_size
      rw [c2, t2]

/-! ## Theorems: B+-tree descent -/

theorem flatten_inner (fv : Int) (offs : List Int) (cs : List BpNode) (last : Int) :
    (BpNode.inner fv offs cs last).flatten = flatten_list cs := by
  simp [BpNode.flatten]

theorem flatten_list_cons (c : BpNode) (cs : List BpNode) :
    flatten_list (c :: cs) = c.flatten ++ flatten_list cs := by
  simp [flatten_list]

theorem flatten_list_append (xs ys : List BpNode) :
    flatten_list (xs ++ ys) = flatten_list xs ++ flatten_list ys := by
  induction xs with
  | nil => simp [flatten_list]
  | cons x xs ih => simp [flatten_list, ih]

theorem wf_list_iff (cs : List BpNode) (l : Nat) (pg : Bool) :
    wf_list cs l pg ↔ ∀ c ∈ cs, c.wf l ∧ (c.is_general = true → pg = true) := by
  induction cs with
  | nil => simp [wf_list]
  | cons x xs ih =>
    simp only [wf_list, ih, List.mem_cons, forall_eq_or_imp]
    tauto

theorem psum_zero (sizes : List Nat) : psum sizes 0 = 0 := by
  simp [psum]

theorem psum_succ (sizes : List Nat) (m : Nat) :
    psum sizes (m + 1) = psum sizes m + sizes.getD m 0 := by
  unfold psum
  induction sizes generalizing m with
  | nil => simp
  | cons s rest ih =>
    cases m with
    | zero => simp
    | succ m =>
      simp only [List.take_succ_cons, List.sum_cons, List.getD_cons_succ]
      rw [ih m]
      omega

theorem psum_mono (sizes : List Nat) (a b : Nat) (h : a ≤ b) : psum sizes a ≤ psum sizes b := by
  induction b with
  | zero =>
    have : a = 0 := by omega
    subst this
    exact le_refl _
  | succ b ih =>
    by_cases hab : a = b + 1
    · subst hab; exact le_refl _
    · have := ih (by omega)
      rw [psum_succ]
      omega

theorem psum_length (sizes : List Nat) : psum sizes sizes.length = sizes.sum := by
  simp [psum]

theorem flatten_list_length (cs : List BpNode) :
    (flatten_list cs).length = (child_sizes cs).sum := by
  induction cs with
  | nil => simp [flatten_list, child_sizes]
  | cons c cs ih =>
    simp only [flatten_list_cons, List.length_append, ih, child_sizes, List.map_cons,
      List.sum_cons]

theorem child_sizes_length (cs : List BpNode) : (child_sizes cs).length = cs.length := by
  simp [child_sizes]

theorem child_sizes_getD (cs : List BpNode) (i : Nat) (c : BpNode) (h : cs[i]? = some c) :
    (child_sizes cs).getD i 0 = c.flatten.length := by
  unfold child_sizes
  rw [List.getD_eq_getElem?_getD, List.getElem?_map, h]
  rfl

theorem psum_take_flatten (cs : List BpNode) (m : Nat) :
    psum (child_sizes cs) m = (flatten_list (cs.take m)).length := by
  rw [flatten_list_length]
  unfold psum child_sizes
  rw [List.map_take]

theorem exists_child_aux (sizes : List Nat) (k : Nat) :
    ∀ m, k < psum sizes m → ∃ c, c < m ∧ psum sizes c ≤ k ∧ k < psum sizes (c + 1) := by
  intro m
  induction m with
  | zero =>
    intro h
    rw [psum_zero] at h
    omega
  | succ m ih =>
    intro h
    by_cases hm : k < psum sizes m
    · obtain ⟨c, hc, h1, h2⟩ := ih hm
      exact ⟨c, by omega, h1, h2⟩
    · exact ⟨m, by omega, by omega, h⟩

/-- The child that holds element `k`: the one whose range of global indices
contains `k`. -/
theorem exists_child (sizes : List Nat) (k : Nat) (hk : k < sizes.sum) :
    ∃ c, c < sizes.length ∧ psum sizes c ≤ k ∧ k < psum sizes (c + 1) := by
  rw [← psum_length] at hk
  exact exists_child_aux sizes k sizes.length hk

theorem upper_bound_loop_spec (data : List Int) (value : Int)
    (hsorted : ∀ i j, i ≤ j → j < data.length → data.getD i 0 ≤ data.getD j 0) :
    ∀ fuel low size, size ≤ fuel → low + size ≤ data.length →
      (∀ i, i < low → data.getD i 0 ≤ value) →
      (∀ i, low + size ≤ i → i < data.length → value < data.getD i 0) →
      upper_bound_loop data value fuel low size ≤ data.length ∧
      (∀ i, i < upper_bound_loop data value fuel low size → data.getD i 0 ≤ value) ∧
      (∀ i, upper_bound_loop data value fuel low size ≤ i → i < data.length →
        value < data.getD i 0) := by
  intro fuel
  induction fuel with
  | zero =>
    intro low size hs hlen hlo hhi
    simp only [upper_bound_loop]
    have : size = 0 := by omega
    subst this
    exact ⟨by omega, hlo, fun i h1 h2 => hhi i (by omega) h2⟩
  | succ fuel ih =>
    intro low size hs hlen hlo hhi
    simp only [upper_bound_loop]
    by_cases hz : size > 0
    · rw [if_pos hz]
      by_cases hv : value ≥ data.getD (low + size / 2) 0
      · rw [if_pos hv]
        apply ih
        · omega
        · omega
        · intro i hi
          have := hsorted i (low + size / 2) (by omega) (by omega)
          omega
        · intro i hi1 hi2
          exact hhi i (by omega) hi2
      · rw [if_neg hv]
        apply ih
        · omega
        · omega
        · exact hlo
        · intro i hi1 hi2
          have := hsorted (low + size / 2) i (by omega) hi2
          omega
    · rw [if_neg hz]
      have : size = 0 := by omega
      subst this
      exact ⟨by omega, hlo, fun i h1 h2 => hhi i (by omega) h2⟩

/-- On a sorted array `upper_bound` returns the position that separates the
elements that are at most `value` from the greater ones. -/
theorem upper_bound_spec (data : List Int) (value : Int)
    (hsorted : ∀ i j, i ≤ j → j < data.length → data.getD i 0 ≤ data.getD j 0) :
    upper_bound data value ≤ data.length ∧
    (∀ i, i < upper_bound data value → data.getD i 0 ≤ value) ∧
    (∀ i, upper_bound data value ≤ i → i < data.length → value < data.getD i 0) := by
  unfold upper_bound
  exact upper_bound_loop_spec data value hsorted data.length 0 data.length (le_refl _)
    (by omega) (fun i h => by omega) (fun i h1 h2 => by omega)

theorem to_int64_of_small (k : Nat) (h : k < 9223372036854775808) : to_int64 (k : Int) = k := by
  unfold to_int64
  omega

theorem to_size_t_of_nat (k : Nat) (h : k < 18446744073709551616) : to_size_t (k : Int) = k := by
  unfold to_size_t to_uint64
  omega

/-- The general form: `find_child_from_offsets` finds the child that holds
element `k` and the index of `k` in that child. -/
theorem find_child_from_offsets_spec (offs : List Int) (sizes : List Nat) (k c : Nat)
    (hg : general_offsets offs sizes) (hc : c < sizes.length)
    (h1 : psum sizes c ≤ k) (h2 : k < psum sizes (c + 1)) (hk : k < 9223372036854775808) :
    find_child_from_offsets offs k = (c, k - psum sizes c) := by
  obtain ⟨g1, g2⟩ := hg
  have hsorted : ∀ i j, i ≤ j → j < offs.length → offs.getD i 0 ≤ offs.getD j 0 := by
    intro i j hij hj
    rw [g2 i (by omega), g2 j hj]
    have := psum_mono sizes (i + 1) (j + 1) (by omega)
    omega
  obtain ⟨u1, u2, u3⟩ := upper_bound_spec offs (k : Int) hsorted
  have hr : upper_bound offs (k : Int) = c := by
    by_contra hne
    rcases Nat.lt_or_gt_of_ne hne with hlt | hgt
    · have a1 := u3 (upper_bound offs (k : Int)) (le_refl _) (by omega)
      rw [g2 _ (by omega)] at a1
      have := psum_mono sizes (upper_bound offs (k : Int) + 1) c (by omega)
      omega
    · have a1 := u2 c hgt
      rw [g2 c (by omega)] at a1
      omega
  unfold find_child_from_offsets
  simp only [to_int64_of_small k hk, hr]
  congr 1
  by_cases h0 : c = 0
  · subst h0
    rw [psum_zero] at *
    simp [size_sub]
  · rw [if_neg h0, g2 (c - 1) (by omega), show c - 1 + 1 = c by omega,
      to_size_t_of_nat _ (by omega)]
    unfold size_sub
    rw [if_pos h1]

theorem compact_psum (epc : Nat) (sizes : List Nat) (hc : compact_counts epc sizes) :
    ∀ m, m < sizes.length → psum sizes m = m * epc := by
  intro m
  induction m with
  | zero => intro _; rw [psum_zero]; omega
  | succ m ih =>
    intro hm
    rw [psum_succ, ih (by omega), (hc m (by omega)).1 hm]
    ring

/-- The compact form: division by `elems_per_child` finds the child that holds
element `k` and the index of `k` in that child. -/
theorem find_compact_spec (epc : Nat) (sizes : List Nat) (k c : Nat)
    (hcc : compact_counts epc sizes) (hc : c < sizes.length)
    (h1 : psum sizes c ≤ k) (h2 : k < psum sizes (c + 1)) :
    (k / epc, k % epc) = (c, k - psum sizes c) := by
  have e1 := compact_psum epc sizes hcc c hc
  have e2 : psum sizes (c + 1) ≤ c * epc + epc := by
    rw [psum_succ, e1]
    have := (hcc c hc).2
    omega
  rw [e1] at h1 ⊢
  have hpos : 0 < epc := by
    by_contra h0
    have : epc = 0 := by omega
    subst this
    omega
  have hdiv : k / epc = c := by
    apply Nat.div_eq_of_lt_le
    · exact h1
    · have : (c + 1) * epc = c * epc + epc := by ring
      omega
  have hmod : k % epc = k - c * epc := by
    have := Nat.div_add_mod k epc
    rw [hdiv] at this
    have e3 : epc * c = c * epc := Nat.mul_comm _ _
    omega
  rw [hdiv, hmod]

theorem to_size_t_of_nonneg (v : Int) (h0 : 0 ≤ v) (h : is_int64 v) : (to_size_t v : Int) = v := by
  unfold is_int64 at h
  unfold to_size_t to_uint64
  omega

/-- The addressing step at a well-formed inner node: `find_bptree_child`
returns the child whose range of global indices contains `k`, with the index
of `k` in that child. -/
theorem find_bptree_child_spec (fv : Int) (offs : List Int) (cs : List BpNode) (last : Int)
    (level k c : Nat) (hwf : (BpNode.inner fv offs cs last).wf level)
    (hc : c < cs.length) (h1 : psum (child_sizes cs) c ≤ k)
    (h2 : k < psum (child_sizes cs) (c + 1)) :
    find_bptree_child fv offs k = (c, k - psum (child_sizes cs) c) := by
  simp only [BpNode.wf] at hwf
  obtain ⟨_, _, _, hform, hlast, _, hl64⟩ := hwf
  have hn : psum (child_sizes cs) (c + 1) ≤ (flatten_list cs).length := by
    rw [flatten_list_length, ← psum_length]
    apply psum_mono
    rw [child_sizes_length]
    omega
  have hk : k < 9223372036854775808 := by
    unfold is_int64 at hl64
    omega
  unfold find_bptree_child
  by_cases hgen : Int.tmod fv 2 = 0
  · rw [if_neg (by simpa using hgen)]
    rw [if_pos hgen] at hform
    exact find_child_from_offsets_spec offs _ k c hform (by rw [child_sizes_length]; exact hc)
      h1 h2 hk
  · rw [if_pos hgen]
    rw [if_neg hgen] at hform
    exact find_compact_spec _ _ k c hform.2 (by rw [child_sizes_length]; exact hc) h1 h2

theorem flatten_list_split (cs : List BpNode) (c : Nat) (child : BpNode)
    (h : cs[c]? = some child) :
    flatten_list cs =
      flatten_list (cs.take c) ++ child.flatten ++ flatten_list (cs.drop (c + 1)) := by
  have hc : c < cs.length := by
    rcases Nat.lt_or_ge c cs.length with h1 | h1
    · exact h1
    · rw [List.getElem?_eq_none h1] at h
      cases h
  have e : cs = cs.take c ++ child :: cs.drop (c + 1) := by
    have e1 : cs[c] = child := by
      rw [List.getElem?_eq_getElem hc] at h
      exact Option.some.inj h
    rw [← e1]
    simp
  conv_lhs => rw [e]
  rw [flatten_list_append, flatten_list_cons, List.append_assoc]

theorem psum_cons_succ (s : Nat) (sizes : List Nat) (m : Nat) :
    psum (s :: sizes) (m + 1) = s + psum sizes m := by
  simp [psum]

theorem child_sizes_cons (c : BpNode) (cs : List BpNode) :
    child_sizes (c :: cs) = c.flatten.length :: child_sizes cs := by
  simp [child_sizes]

/-- What an accepted child is: `verify_child` returns its number of elements
and its leaf level, and the child is well-formed at that level. -/
theorem verify_child_spec (verify : BpNode → Option (Nat × Int × Bool)) (gf : Bool) (F : Nat)
    (hver : ∀ c n l g, verify c = some (n, l, g) → c.int64_slots = true →
      ∃ level : Nat, l = (level : Int) ∧ level ≤ F ∧ c.wf level ∧ n = c.flatten.length ∧
        g = c.is_general)
    (child : BpNode) (s : Nat) (cl : Int) (h : verify_child verify gf child = some (s, cl))
    (hs : child.int64_slots = true) :
    s = child.flatten.length ∧
    ∃ level : Nat, cl = (level : Int) ∧ level ≤ F ∧ child.wf level ∧
      (child.is_general = true → gf = true) := by
  cases child with
  | leaf xs =>
    simp only [verify_child] at h
    split at h
    · rename_i hx
      simp only [Option.some.injEq, Prod.mk.injEq] at h
      obtain ⟨rfl, rfl⟩ := h
      refine ⟨by simp [BpNode.flatten], 0, by simp, by omega, ?_, by simp [BpNode.is_general]⟩
      simp only [BpNode.wf]
      exact ⟨trivial, hx⟩
    · cases h
  | inner fv offs cs last =>
    simp only [verify_child] at h
    split at h
    · cases h
    · rename_i n lvl g hv
      obtain ⟨level, e1, e2, e3, e4, e5⟩ := hver _ n lvl g hv hs
      split at h
      · rename_i hg
        simp only [Option.some.injEq, Prod.mk.injEq] at h
        obtain ⟨rfl, rfl⟩ := h
        refine ⟨e4, level, e1, e2, e3, ?_⟩
        intro hgen
        rw [← e5] at hgen
        rcases hg with hg | hg
        · exact hg
        · exact absurd hgen hg
      · cases h

theorem verify_children_spec (verify : BpNode → Option (Nat × Int × Bool)) (gf : Bool)
    (offs : List Int) (epc N F : Nat)
    (hver : ∀ c n l g, verify c = some (n, l, g) → c.int64_slots = true →
      ∃ level : Nat, l = (level : Int) ∧ level ≤ F ∧ c.wf level ∧ n = c.flatten.length ∧
        g = c.is_general) :
    ∀ (rest : List BpNode) (i acc : Nat) (lvl : Int) (rn : Nat) (rl : Int),
      verify_children verify gf offs epc N rest i acc lvl = some (rn, rl) →
      int64_slots_list rest = true →
      rn = acc + (flatten_list rest).length ∧
      ((i ≠ 0 ∨ rest = []) → rl = lvl) ∧
      (∀ c ∈ rest, ∃ level : Nat, rl = (level : Int) ∧ level ≤ F ∧ c.wf level ∧
        (c.is_general = true → gf = true)) ∧
      (∀ j, j < rest.length →
        (gf = true → i + j < N - 1 →
          offs.getD (i + j) 0 = ((acc + psum (child_sizes rest) (j + 1) : Nat) : Int)) ∧
        (gf = false → (i + j < N - 1 → (child_sizes rest).getD j 0 = epc) ∧
          (child_sizes rest).getD j 0 ≤ epc)) := by
  intro rest
  induction rest with
  | nil =>
    intro i acc lvl rn rl h _
    simp only [verify_children, Option.some.injEq, Prod.mk.injEq] at h
    obtain ⟨rfl, rfl⟩ := h
    refine ⟨by simp [flatten_list], fun _ => rfl, by simp, by simp⟩
  | cons child rest ih =>
    intro i acc lvl rn rl h hs
    simp only [int64_slots_list, Bool.and_eq_true] at hs
    rw [verify_children] at h
    split at h
    · cases h
    · rename_i s cl hchild
      obtain ⟨hsz, level, hl1, hl2, hl3, hl4⟩ := verify_child_spec verify gf F hver child s cl hchild hs.1
      dsimp only at h
      by_cases hlev : cl ≠ (if i = 0 then cl else lvl)
      · rw [if_pos hlev] at h
        cases h
      · rw [if_neg hlev] at h
        by_cases hov : acc + s > size_max
        · rw [if_pos hov] at h
          cases h
        · rw [if_neg hov] at h
          by_cases hok : (if gf = true then
              if i < N - 1 then decide (offs.getD i 0 = ((acc + s : Nat) : Int)) else true
              else if i < N - 1 then decide (s = epc) else decide (s ≤ epc)) = true
          · rw [if_pos hok] at h
            obtain ⟨r1, r2, r3, r4⟩ := ih (i + 1) (acc + s) _ rn rl h hs.2
            have hrl := r2 (Or.inl (by omega))
            have hcl : rl = cl := by
              rw [hrl]
              by_cases hi : i = 0
              · simp [hi]
              · simp only [hi, if_false] at hlev ⊢
                simp only [ne_eq, not_not] at hlev
                exact hlev.symm
            refine ⟨?_, ?_, ?_, ?_⟩
            · rw [r1, flatten_list_cons, List.length_append, hsz]
              omega
            · intro hi
              rcases hi with hi | hi
              · rw [hrl]; simp [hi]
              · cases hi
            · intro c hc
              rcases List.mem_cons.1 hc with rfl | hc
              · exact ⟨level, by rw [hcl, hl1], hl2, hl3, hl4⟩
              · exact r3 c hc
            · intro j hj
              cases j with
              | zero =>
                rw [child_sizes_cons, psum_cons_succ, psum_zero]
                simp only [List.getD_cons_zero, Nat.add_zero]
                constructor
                · intro hg hi
                  simp only [hg, if_true, hi] at hok
                  have := of_decide_eq_true hok
                  rw [this, hsz]
                · intro hg
                  simp only [hg] at hok
                  constructor
                  · intro hi
                    simp only [hi, if_true] at hok
                    have := of_decide_eq_true hok
                    rw [← hsz]
                    simpa using this
                  · by_cases hi : i < N - 1
                    · simp only [hi, if_true] at hok
                      have := of_decide_eq_true hok
                      rw [← hsz]
                      simp at this
                      omega
                    · simp only [hi, if_false] at hok
                      have := of_decide_eq_true hok
                      rw [← hsz]
                      simpa using this
              | succ j =>
                have hj2 : j < rest.length := by simpa using hj
                obtain ⟨q1, q2⟩ := r4 j hj2
                rw [child_sizes_cons, psum_cons_succ]
                simp only [List.getD_cons_succ]
                constructor
                · intro hg hi
                  have := q1 hg (by omega)
                  rw [show i + (j + 1) = i + 1 + j by omega, this, hsz]
                  push_cast
                  ring
                · intro hg
                  have := q2 hg
                  exact ⟨fun hi => this.1 (by omega), this.2⟩
          · rw [if_neg hok] at h
            cases h

theorem tdiv_two (a : Int) : Int.tdiv a 2 = if 0 ≤ a then a / 2 else -((-a) / 2) := by
  by_cases h : 0 ≤ a
  · rw [if_pos h, Int.tdiv_eq_ediv h (by omega)]
  · rw [if_neg h]
    have e : a = -(-a) := by omega
    conv_lhs => rw [e, Int.neg_tdiv, Int.tdiv_eq_ediv (by omega) (by omega)]

theorem tmod_two (a : Int) : Int.tmod a 2 = if 0 ≤ a then a % 2 else -((-a) % 2) := by
  rw [Int.tmod_def, tdiv_two]
  by_cases h : 0 ≤ a
  · rw [if_pos h, if_pos h]; omega
  · rw [if_neg h, if_neg h]; omega

theorem wf_flatten_pos : ∀ (level : Nat) (t : BpNode), t.wf level → 1 ≤ t.flatten.length := by
  intro level
  induction level with
  | zero =>
    intro t h
    cases t with
    | leaf xs => simp only [BpNode.wf] at h; simpa [BpNode.flatten] using h.2
    | inner fv offs cs last => simp only [BpNode.wf] at h; exact absurd rfl h.1
  | succ level ih =>
    intro t h
    cases t with
    | leaf xs => simp only [BpNode.wf] at h; omega
    | inner fv offs cs last =>
      simp only [BpNode.wf] at h
      obtain ⟨_, hn, hch, _⟩ := h
      cases cs with
      | nil => simp at hn
      | cons c cs =>
        have := ih c (((wf_list_iff _ _ _).1 hch) c (List.mem_cons_self _ _)).1
        rw [flatten_inner, flatten_list_cons, List.length_append]
        omega

/-- A tree that `verify_bptree` accepts is well-formed, at the leaf level that
is returned, and the returned number of elements and form are those of the
tree. -/
theorem verify_bptree_wf : ∀ (fuel : Nat) (t : BpNode) (n : Nat) (l : Int) (g : Bool),
    verify_bptree fuel t = some (n, l, g) → t.int64_slots = true →
    ∃ level : Nat, l = (level : Int) ∧ level ≤ fuel ∧ t.wf level ∧ n = t.flatten.length ∧
      g = t.is_general := by
  intro fuel
  induction fuel with
  | zero => intro t n l g h; simp [verify_bptree] at h
  | succ fuel ih =>
    intro t n l g h hs
    cases t with
    | leaf xs => simp [verify_bptree] at h
    | inner fv offs cs last =>
      rw [verify_bptree] at h
      dsimp only at h
      simp only [BpNode.int64_slots, Bool.and_eq_true, decide_eq_true_eq] at hs
      obtain ⟨⟨hs1, hs2⟩, hs3⟩ := hs
      by_cases c1 : cs.length < 1
      · rw [if_pos c1] at h; cases h
      rw [if_neg c1] at h
      by_cases c2 : decide (Int.tmod fv 2 = 0) = true ∧ offs.length ≠ cs.length - 1
      · rw [if_pos c2] at h; cases h
      rw [if_neg c2] at h
      by_cases c3 : ¬ decide (Int.tmod fv 2 = 0) = true ∧ Int.tdiv fv 2 < 0
      · rw [if_pos c3] at h; cases h
      rw [if_neg c3] at h
      split at h
      · cases h
      rename_i num lc hvc
      by_cases c4 : lc = -1
      · rw [if_pos c4] at h; cases h
      rw [if_neg c4] at h
      by_cases c5 : Int.tmod last 2 = 0
      · rw [if_pos c5] at h; cases h
      rw [if_neg c5] at h
      by_cases c6 : Int.tdiv last 2 < 0
      · rw [if_pos c6] at h; cases h
      rw [if_neg c6] at h
      by_cases c7 : (num : Int) ≠ Int.tdiv last 2
      · rw [if_pos c7] at h; cases h
      rw [if_neg c7] at h
      simp only [Option.some.injEq, Prod.mk.injEq] at h
      obtain ⟨rfl, rfl, rfl⟩ := h
      obtain ⟨r1, _, r3, r4⟩ := verify_children_spec (verify_bptree fuel) _ offs _ cs.length fuel
        (ih) cs 0 0 (-1) num lc hvc hs3
      have hne : cs ≠ [] := by
        intro e; rw [e] at c1; simp at c1
      obtain ⟨c0, cs0, rfl⟩ := List.exists_cons_of_ne_nil hne
      obtain ⟨level0, hl0, hl1, hl2, _⟩ := r3 c0 (List.mem_cons_self _ _)
      have hall : ∀ c ∈ c0 :: cs0, c.wf level0 ∧
          (c.is_general = true → decide (Int.tmod fv 2 = 0) = true) := by
        intro c hc
        obtain ⟨lv, e1, _, e3, e4⟩ := r3 c hc
        have : lv = level0 := by omega
        subst this
        exact ⟨e3, e4⟩
      have hpos := wf_flatten_pos level0 c0 hl2
      have hnum : 1 ≤ num := by
        rw [r1, flatten_list_cons, List.length_append]
        omega
      simp only [ne_eq, not_not] at c7
      have hlast : last = 2 * (num : Int) + 1 := by
        rw [tdiv_two] at c7
        rw [tmod_two] at c5
        split_ifs at c5 c7 <;> omega
      refine ⟨level0 + 1, by omega, by omega, ?_, ?_, ?_⟩
      · simp only [BpNode.wf]
        refine ⟨by omega, by omega, ?_, ?_, ?_, hs1, hs2⟩
        · rw [wf_list_iff]
          simpa using hall
        · by_cases hg : Int.tmod fv 2 = 0
          · rw [if_pos hg]
            have hlen : offs.length = (c0 :: cs0).length - 1 := by
              by_contra hne2
              exact c2 ⟨by simpa using hg, hne2⟩
            refine ⟨by rw [child_sizes_length, hlen]; simp, ?_⟩
            intro i hi
            have := (r4 i (by rw [hlen] at hi; omega)).1 (by simpa using hg) (by omega)
            simpa using this
          · rw [if_neg hg]
            have h0 : 0 ≤ Int.tdiv fv 2 := by
              by_contra hneg
              exact c3 ⟨by simpa using hg, by omega⟩
            refine ⟨h0, ?_⟩
            intro i hi
            rw [child_sizes_length] at hi
            have := (r4 i hi).2 (by simpa using hg)
            simp only [hg, decide_False, Bool.false_eq_true, if_false] at this
            rw [child_sizes_length]
            exact ⟨fun h2 => this.1 (by omega), this.2⟩
        · rw [hlast, r1]
          simp
      · rw [flatten_inner, r1]; simp
      · simp [BpNode.is_general]

theorem psum_set (sizes : List Nat) (c v : Nat) (hc : c < sizes.length) :
    ∀ m, psum (sizes.set c v) m + (if c < m then sizes.getD c 0 else 0) =
      psum sizes m + (if c < m then v else 0) := by
  intro m
  induction m with
  | zero => simp [psum_zero]
  | succ m ih =>
    rw [psum_succ, psum_succ]
    have e : (sizes.set c v).getD m 0 = if c = m then v else sizes.getD m 0 := by
      rw [List.getD_eq_getElem?_getD, List.getElem?_set]
      by_cases h : c = m
      · subst h; simp [hc]
      · simp [h, List.getD_eq_getElem?_getD]
    rw [e]
    by_cases h1 : c < m
    · have h3 : c < m + 1 := by omega
      have h4 : ¬ c = m := by omega
      simp only [h1, h3, h4, if_true, if_false] at ih ⊢
      omega
    · by_cases h2 : c = m
      · subst h2
        simp only [lt_irrefl, Nat.lt_succ_self, if_true, if_false] at ih ⊢
        omega
      · have h3 : ¬ c < m + 1 := by omega
        simp only [h1, h2, h3, if_false] at ih ⊢
        omega

theorem getD_eraseIdx (xs : List α) (c i : Nat) (d : α) :
    (xs.eraseIdx c).getD i d = if i < c then xs.getD i d else xs.getD (i + 1) d := by
  rw [List.getD_eq_getElem?_getD, List.getElem?_eraseIdx]
  by_cases h : i < c
  · simp [h, List.getD_eq_getElem?_getD]
  · simp [h, List.getD_eq_getElem?_getD]

theorem psum_eraseIdx (sizes : List Nat) (c : Nat) :
    ∀ m, psum (sizes.eraseIdx c) m + (if c ≤ m then sizes.getD c 0 else 0) =
      psum sizes (if c ≤ m then m + 1 else m) := by
  intro m
  induction m with
  | zero =>
    by_cases h : c = 0
    · subst h
      simp [psum_zero, psum_succ]
    · rw [if_neg (by omega), if_neg (by omega)]
      simp [psum_zero]
  | succ m ih =>
    rw [psum_succ, getD_eraseIdx]
    by_cases h1 : c ≤ m
    · have h3 : c ≤ m + 1 := by omega
      have h4 : ¬ m < c := by omega
      simp only [h1, h3, h4, if_true, if_false] at ih ⊢
      rw [psum_succ sizes (m + 1)]
      omega
    · by_cases h2 : c = m + 1
      · subst h2
        simp only [h1, le_refl, Nat.lt_succ_self, if_true, if_false] at ih ⊢
        rw [psum_succ sizes (m + 1), psum_succ sizes m]
        omega
      · have h3 : ¬ c ≤ m + 1 := by omega
        have h4 : m < c := by omega
        simp only [h1, h3, h4, if_true, if_false] at ih ⊢
        rw [psum_succ sizes m]
        omega

theorem child_sizes_set (cs : List BpNode) (c : Nat) (x : BpNode) :
    child_sizes (cs.set c x) = (child_sizes cs).set c x.flatten.length := by
  unfold child_sizes
  rw [List.map_set]

theorem child_sizes_eraseIdx (cs : List BpNode) (c : Nat) :
    child_sizes (cs.eraseIdx c) = (child_sizes cs).eraseIdx c := by
  unfold child_sizes
  induction cs generalizing c with
  | nil => simp
  | cons x xs ih =>
    cases c with
    | zero => simp
    | succ c => simp [ih]

theorem adjust_loop_length (b e : Nat) (d : Int) (xs : List Int) :
    ∀ i, (adjust_loop b e d i xs).length = xs.length := by
  induction xs with
  | nil => intro i; simp [adjust_loop]
  | cons x xs ih => intro i; simp [adjust_loop, ih]

theorem adjust_loop_getD (b e : Nat) (d : Int) (xs : List Int) :
    ∀ i j, j < xs.length → (adjust_loop b e d i xs).getD j 0 =
      (if b ≤ i + j ∧ i + j < e then xs.getD j 0 + d else xs.getD j 0) := by
  induction xs with
  | nil => intro i j hj; simp at hj
  | cons x xs ih =>
    intro i j hj
    cases j with
    | zero => simp [adjust_loop]
    | succ j =>
      simp only [adjust_loop, List.getD_cons_succ]
      rw [ih (i + 1) j (by simpa using hj)]
      have e1 : i + 1 + j = i + (j + 1) := by omega
      rw [e1]

theorem adjust_length (xs : List Int) (b e : Nat) (d : Int) :
    (adjust xs b e d).length = xs.length := adjust_loop_length b e d xs 0

theorem adjust_getD (xs : List Int) (b e : Nat) (d : Int) (j : Nat) (hj : j < xs.length) :
    (adjust xs b e d).getD j 0 = (if b ≤ j ∧ j < e then xs.getD j 0 + d else xs.getD j 0) := by
  unfold adjust
  rw [adjust_loop_getD b e d xs 0 j hj]
  simp

theorem create_loop_spec (e : Int) :
    ∀ (count : Nat) (acc : Int) (offs : List Int),
      (create_bptree_offsets_loop e count acc offs).length = offs.length + count ∧
      ∀ i, i < offs.length + count →
        (create_bptree_offsets_loop e count acc offs).getD i 0 =
          if i < offs.length then offs.getD i 0 else acc + ((i - offs.length + 1 : Nat) : Int) * e := by
  intro count
  induction count with
  | zero =>
    intro acc offs
    simp only [create_bptree_offsets_loop, Nat.add_zero, true_and]
    intro i hi
    rw [if_pos hi]
  | succ count ih =>
    intro acc offs
    simp only [create_bptree_offsets_loop]
    obtain ⟨h1, h2⟩ := ih (acc + e) (offs ++ [acc + e])
    refine ⟨by rw [h1]; simp; omega, ?_⟩
    intro i hi
    rw [h2 i (by simp; omega)]
    simp only [List.length_append, List.length_singleton]
    by_cases c1 : i < offs.length
    · rw [if_pos (by omega), if_pos c1, List.getD_eq_getElem?_getD, List.getD_eq_getElem?_getD,
        List.getElem?_append_left c1]
    · by_cases c2 : i = offs.length
      · subst c2
        rw [if_pos (by omega), if_neg (by omega), List.getD_eq_getElem?_getD,
          List.getElem?_append_right (le_refl _)]
        simp
      · rw [if_neg (by omega), if_neg c1]
        have e1 : i - (offs.length + 1) + 1 = i - offs.length := by omega
        have e2 : ((i - offs.length + 1 : Nat) : Int) = ((i - offs.length : Nat) : Int) + 1 := by
          push_cast; ring
        rw [e1, e2]
        ring

theorem general_offsets_adjust_keep (offs : List Int) (sizes : List Nat) (c : Nat)
    (hg : general_offsets offs sizes) (hc : c < sizes.length) (hpos : 1 ≤ sizes.getD c 0) :
    general_offsets (adjust offs c offs.length (-1)) (sizes.set c (sizes.getD c 0 - 1)) := by
  obtain ⟨g1, g2⟩ := hg
  refine ⟨by rw [adjust_length, List.length_set]; exact g1, ?_⟩
  intro i hi
  rw [adjust_length] at hi
  rw [adjust_getD _ _ _ _ _ hi, g2 i hi]
  have := psum_set sizes c (sizes.getD c 0 - 1) hc (i + 1)
  by_cases h : c ≤ i
  · rw [if_pos ⟨h, hi⟩]
    rw [if_pos (by omega), if_pos (by omega)] at this
    omega
  · rw [if_neg (by omega)]
    rw [if_neg (by omega), if_neg (by omega)] at this
    omega

theorem general_offsets_set_last (offs : List Int) (sizes : List Nat) (c v : Nat)
    (hg : general_offsets offs sizes) (hc : c + 1 = sizes.length) :
    general_offsets offs (sizes.set c v) := by
  obtain ⟨g1, g2⟩ := hg
  refine ⟨by rw [List.length_set]; exact g1, ?_⟩
  intro i hi
  rw [g2 i hi]
  have := psum_set sizes c v (by omega) (i + 1)
  rw [if_neg (by omega), if_neg (by omega)] at this
  omega

theorem general_offsets_destroy (offs : List Int) (sizes : List Nat) (c : Nat)
    (hg : general_offsets offs sizes) (hc : c < sizes.length) (hn : 2 ≤ sizes.length)
    (hone : sizes.getD c 0 = 1) :
    general_offsets
      (adjust (offs.eraseIdx (if c = sizes.length - 1 then c - 1 else c))
        (if c = sizes.length - 1 then c - 1 else c)
        (offs.eraseIdx (if c = sizes.length - 1 then c - 1 else c)).length (-1))
      (sizes.eraseIdx c) := by
  obtain ⟨g1, g2⟩ := hg
  have hb : (if c = sizes.length - 1 then c - 1 else c) < offs.length := by
    split_ifs <;> omega
  generalize hbdef : (if c = sizes.length - 1 then c - 1 else c) = b at hb ⊢
  have hlen : (offs.eraseIdx b).length = offs.length - 1 := List.length_eraseIdx_of_lt hb
  refine ⟨by rw [adjust_length, hlen, List.length_eraseIdx_of_lt hc]; omega, ?_⟩
  intro i hi
  rw [adjust_length] at hi
  rw [adjust_getD _ _ _ _ _ hi, getD_eraseIdx]
  have hi2 : i < offs.length - 1 := by rw [hlen] at hi; exact hi
  have hp := psum_eraseIdx sizes c (i + 1)
  rw [hone] at hp
  by_cases h1 : i < b
  · have hcond : ¬ (b ≤ i ∧ i < (offs.eraseIdx b).length) := by omega
    rw [if_neg hcond, if_pos h1, g2 i (by omega)]
    have hic : i + 1 ≤ c := by
      rw [← hbdef] at h1
      split_ifs at h1 <;> omega
    by_cases h2 : c ≤ i + 1
    · have e : c = i + 1 := by omega
      rw [if_pos h2, if_pos h2, psum_succ sizes (i + 1), ← e, hone] at hp
      rw [← e]
      omega
    · rw [if_neg h2, if_neg h2] at hp
      omega
  · have hcond : b ≤ i ∧ i < (offs.eraseIdx b).length := ⟨by omega, hi⟩
    rw [if_pos hcond, if_neg h1, g2 (i + 1) (by omega)]
    have : c ≤ i + 1 := by
      rw [← hbdef] at h1
      split_ifs at h1 <;> omega
    rw [if_pos this, if_pos this] at hp
    omega

theorem compact_counts_set_last (epc : Nat) (sizes : List Nat) (c v : Nat)
    (h : compact_counts epc sizes) (hc : c + 1 = sizes.length) (hv : v ≤ sizes.getD c 0) :
    compact_counts epc (sizes.set c v) := by
  intro i hi
  rw [List.length_set] at hi ⊢
  have e : (sizes.set c v).getD i 0 = if c = i then v else sizes.getD i 0 := by
    rw [List.getD_eq_getElem?_getD, List.getElem?_set]
    by_cases h : c = i
    · subst h; simp [hi]
    · simp [h, List.getD_eq_getElem?_getD]
  rw [e]
  by_cases h1 : c = i
  · subst h1
    rw [if_pos rfl]
    exact ⟨fun h2 => by omega, le_trans hv (h c hi).2⟩
  · rw [if_neg h1]
    exact h i hi

theorem compact_counts_erase_last (epc : Nat) (sizes : List Nat) (c : Nat)
    (h : compact_counts epc sizes) (hc : c + 1 = sizes.length) :
    compact_counts epc (sizes.eraseIdx c) := by
  intro i hi
  rw [List.length_eraseIdx_of_lt (by omega)] at hi ⊢
  rw [getD_eraseIdx, if_pos (by omega)]
  exact ⟨fun _ => (h i (by omega)).1 (by omega), (h i (by omega)).2⟩

theorem eraseIdx_middle (A B C : List Int) (j : Nat) (hj : j < B.length) :
    (A ++ B ++ C).eraseIdx (A.length + j) = A ++ B.eraseIdx j ++ C := by
  rw [List.append_assoc, List.eraseIdx_append_of_length_le (by omega),
    show A.length + j - A.length = j by omega, List.eraseIdx_append_of_lt_length hj,
    List.append_assoc]

theorem flatten_list_set (cs : List BpNode) (c : Nat) (x : BpNode) (hc : c < cs.length) :
    flatten_list (cs.set c x) =
      flatten_list (cs.take c) ++ x.flatten ++ flatten_list (cs.drop (c + 1)) := by
  rw [List.set_eq_take_append_cons_drop, if_pos hc, flatten_list_append, flatten_list_cons,
    List.append_assoc]

theorem flatten_list_eraseIdx (cs : List BpNode) (c : Nat) :
    flatten_list (cs.eraseIdx c) =
      flatten_list (cs.take c) ++ flatten_list (cs.drop (c + 1)) := by
  rw [List.eraseIdx_eq_take_drop_succ, flatten_list_append]

theorem psum_ge (sizes : List Nat) (hpos : ∀ i, i < sizes.length → 1 ≤ sizes.getD i 0) :
    ∀ m, m ≤ sizes.length → m ≤ psum sizes m := by
  intro m
  induction m with
  | zero => intro _; omega
  | succ m ih =>
    intro hm
    rw [psum_succ]
    have := ih (by omega)
    have := hpos m (by omega)
    omega

theorem wf_children (fv : Int) (offs : List Int) (cs : List BpNode) (last : Int) (level : Nat)
    (hwf : (BpNode.inner fv offs cs last).wf level) :
    ∀ c ∈ cs, c.wf (level - 1) ∧
      (c.is_general = true → Int.tmod fv 2 = 0) ∧ 1 ≤ c.flatten.length := by
  simp only [BpNode.wf] at hwf
  obtain ⟨_, _, hch, _⟩ := hwf
  intro c hc
  obtain ⟨a, b⟩ := (wf_list_iff _ _ _).1 hch c hc
  exact ⟨a, fun h => by simpa using b h, wf_flatten_pos _ _ a⟩

theorem child_sizes_pos (fv : Int) (offs : List Int) (cs : List BpNode) (last : Int)
    (level : Nat) (hwf : (BpNode.inner fv offs cs last).wf level) :
    ∀ i, i < (child_sizes cs).length → 1 ≤ (child_sizes cs).getD i 0 := by
  intro i hi
  rw [child_sizes_length] at hi
  rw [child_sizes_getD cs i cs[i] (List.getElem?_eq_getElem hi)]
  exact (wf_children fv offs cs last level hwf _ (List.getElem_mem _)).2.2

theorem to_int64_ref (r : Nat) (h : r % 8 = 0) :
    Int.tmod (to_int64 r) 2 = 0 ∧ is_int64 (to_int64 r) := by
  rw [tmod_two]
  unfold to_int64 is_int64
  refine ⟨?_, by omega, by omega⟩
  split_ifs <;> omega

/-- The conversion to the general form: `ensure_bptree_offsets` leaves a
well-formed node well-formed, on the general form. -/
theorem ensure_bptree_offsets_spec (fv : Int) (offs : List Int) (cs : List BpNode) (last : Int)
    (level oref : Nat) (horef : oref % 8 = 0)
    (hwf : (BpNode.inner fv offs cs last).wf level) :
    Int.tmod (ensure_bptree_offsets fv offs cs.length oref).1 2 = 0 ∧
    (BpNode.inner (ensure_bptree_offsets fv offs cs.length oref).1
      (ensure_bptree_offsets fv offs cs.length oref).2 cs last).wf level := by
  unfold ensure_bptree_offsets
  by_cases hg : Int.tmod fv 2 = 0
  · rw [if_pos hg]
    exact ⟨hg, hwf⟩
  · rw [if_neg hg]
    obtain ⟨p1, p2⟩ := to_int64_ref oref horef
    refine ⟨p1, ?_⟩
    have hch := wf_children fv offs cs last level hwf
    simp only [BpNode.wf] at hwf ⊢
    obtain ⟨w1, w2, _, w4, w5, w6, w7⟩ := hwf
    rw [if_neg hg] at w4
    simp only [create_bptree_offsets]
    refine ⟨w1, w2, ?_, ?_, w5, p2, w7⟩
    · rw [wf_list_iff]
      intro c hc
      exact ⟨(hch c hc).1, fun _ => by simpa using p1⟩
    · rw [if_pos p1]
      obtain ⟨l1, l2⟩ := create_loop_spec (Int.tdiv fv 2) (cs.length - 1) 0 []
      refine ⟨by rw [l1, child_sizes_length]; simp; omega, ?_⟩
      intro i hi
      rw [l1] at hi
      simp only [List.length_nil, Nat.zero_add] at hi
      rw [l2 i (by simpa using hi)]
      simp only [List.length_nil, Nat.not_lt_zero, if_false, Nat.sub_zero, Int.zero_add]
      rw [compact_psum _ _ w4.2 (i + 1) (by rw [child_sizes_length]; omega)]
      have := to_size_t_of_nonneg _ w4.1 (by
        unfold is_int64 at w6 ⊢
        rw [tdiv_two]
        split_ifs <;> omega)
      push_cast
      rw [this]

theorem eraseIdx_set_same (cs : List BpNode) (c : Nat) (x : BpNode) :
    (cs.set c x).eraseIdx c = cs.eraseIdx c := by
  induction cs generalizing c with
  | nil => simp
  | cons y ys ih =>
    cases c with
    | zero => simp
    | succ c => simp [ih]

/-- The second half of `do_erase_bptree_elem`, after the child has been dealt
with: when the child is destroyed and is the only one, the node reports that
it is to be destroyed too; otherwise the node that results is well-formed and
holds the old sequence without element `k`. -/
theorem erase_finish (f1 : Int) (o1 : List Int) (cs : List BpNode) (last : Int)
    (level c k e : Nat) (child child2 : BpNode) (dc : Bool)
    (hwf : (BpNode.inner f1 o1 cs last).wf level)
    (hget : cs[c]? = some child)
    (h1 : psum (child_sizes cs) c ≤ k) (h2 : k < psum (child_sizes cs) (c + 1))
    (hform : e ≠ npos → Int.tmod f1 2 = 0)
    (hlastc : e = npos → c + 1 = cs.length)
    (hd : dc = true ↔ child.flatten.length = 1)
    (hchild : dc = false → child2.wf (level - 1) ∧
      child2.flatten = child.flatten.eraseIdx (k - psum (child_sizes cs) c) ∧
      (e = npos → child2.is_general = child.is_general)) :
    ∃ d t2,
      (if dc = true ∧ cs.length = 1 then
          some (true, BpNode.inner f1 o1 (cs.set c child2) last)
        else
          some (false, BpNode.inner f1
            (if (decide (e ≠ npos) || (dc && decide (Int.tmod f1 2 = 0))) = true then
              if dc = true then
                adjust (o1.eraseIdx (if c = cs.length - 1 then c - 1 else c))
                  (if c = cs.length - 1 then c - 1 else c)
                  (o1.eraseIdx (if c = cs.length - 1 then c - 1 else c)).length (-1)
              else adjust o1 c o1.length (-1)
            else o1)
            (if dc = true then (cs.set c child2).eraseIdx c else cs.set c child2)
            (last - 2))) = some (d, t2) ∧
      (d = true ↔ (flatten_list cs).length = 1) ∧
      (d = false → t2.wf level ∧ t2.flatten = (flatten_list cs).eraseIdx k ∧
        t2.is_general = decide (Int.tmod f1 2 = 0)) := by
  have hc : c < cs.length := by
    rcases Nat.lt_or_ge c cs.length with h | h
    · exact h
    · rw [List.getElem?_eq_none h] at hget
      cases hget
  have hmem : child ∈ cs := List.mem_iff_getElem?.2 ⟨c, hget⟩
  have hch := wf_children f1 o1 cs last level hwf
  have hpos := child_sizes_pos f1 o1 cs last level hwf
  have hsz := child_sizes_getD cs c child hget
  have hsplit := flatten_list_split cs c child hget
  have hlenA := psum_take_flatten cs c
  have hN : (flatten_list cs).length = psum (child_sizes cs) cs.length := by
    rw [flatten_list_length, ← psum_length, child_sizes_length]
  have hge := psum_ge (child_sizes cs) hpos
  have hmono := psum_mono (child_sizes cs) (c + 1) cs.length (by omega)
  rw [psum_succ, hsz] at h2 hmono
  simp only [BpNode.wf] at hwf
  obtain ⟨w1, w2, w3, w4, w5, w6, w7⟩ := hwf
  have w7b : is_int64 (last - 2) := by
    unfold is_int64 at w7 ⊢
    have := (hch child hmem).2.2
    omega
  have hk : k = (flatten_list (cs.take c)).length + (k - psum (child_sizes cs) c) := by
    rw [← hlenA]; omega
  cases dc with
  | true =>
    have hone : child.flatten.length = 1 := hd.1 rfl
    by_cases hN1 : cs.length = 1
    · refine ⟨true, _, by rw [if_pos ⟨rfl, hN1⟩], ?_, by simp⟩
      have : c = 0 := by omega
      subst this
      have := psum_succ (child_sizes cs) 0
      rw [psum_zero, hsz] at this
      simp only [true_iff]
      rw [hN, hN1, this, hone]
    · have hcond : ¬ (true = true ∧ cs.length = 1) := fun h => hN1 h.2
      refine ⟨false, _, by rw [if_neg hcond], ?_, ?_⟩
      · have := hge cs.length (by rw [child_sizes_length])
        simp only [Bool.false_eq_true, false_iff]
        omega
      · intro _
        simp only [if_true, Bool.true_and, eraseIdx_set_same]
        have hflat : flatten_list (cs.eraseIdx c) = (flatten_list cs).eraseIdx k := by
          rw [flatten_list_eraseIdx, hk]
          conv_rhs => rw [hsplit]
          rw [eraseIdx_middle _ _ _ _ (by omega)]
          have e0 : k - psum (child_sizes cs) c = 0 := by omega
          rw [e0]
          have : child.flatten.eraseIdx 0 = [] := by
            cases hcf : child.flatten with
            | nil => rfl
            | cons a as =>
              rw [hcf] at hone
              simp at hone
              simp [hone]
          rw [this, List.append_nil]
        refine ⟨?_, by rw [flatten_inner, hflat], by simp [BpNode.is_general]⟩
        simp only [BpNode.wf]
        have hlen2 : (cs.eraseIdx c).length = cs.length - 1 := List.length_eraseIdx_of_lt hc
        refine ⟨w1, by omega, ?_, ?_, ?_, w6, w7b⟩
        · rw [wf_list_iff]
          intro x hx
          have hx2 := List.mem_of_mem_eraseIdx hx
          exact ⟨(hch x hx2).1, fun h => by simpa using (hch x hx2).2.1 h⟩
        · have hszc : (child_sizes cs).getD c 0 = 1 := by rw [hsz, hone]
          by_cases hg : Int.tmod f1 2 = 0
          · rw [if_pos hg] at w4 ⊢
            simp only [hg, decide_True, Bool.or_true, if_true]
            rw [child_sizes_eraseIdx]
            have := general_offsets_destroy o1 (child_sizes cs) c w4
              (by rw [child_sizes_length]; exact hc) (by rw [child_sizes_length]; omega) hszc
            rw [child_sizes_length] at this
            exact this
          · rw [if_neg hg] at w4 ⊢
            have he : e = npos := by
              by_contra hne
              exact hg (hform hne)
            rw [child_sizes_eraseIdx]
            exact ⟨w4.1, compact_counts_erase_last _ _ c w4.2
              (by rw [child_sizes_length]; exact hlastc he)⟩
        · rw [hflat, List.length_eraseIdx_of_lt (by rw [hN]; omega), w5]
          have := hge cs.length (by rw [child_sizes_length])
          rw [← hN] at this
          omega
  | false =>
    have hcond : ¬ (false = true ∧ cs.length = 1) := fun h => Bool.false_ne_true h.1
    obtain ⟨c1, c2, c3⟩ := hchild rfl
    have hne1 : child.flatten.length ≠ 1 := fun h => Bool.false_ne_true (hd.2 h)
    have hc1 := (hch child hmem).2.2
    refine ⟨false, _, by rw [if_neg hcond], ?_, ?_⟩
    · simp only [Bool.false_eq_true, false_iff]
      omega
    · intro _
      simp only [Bool.false_eq_true, if_false, Bool.false_and, Bool.or_false]
      have hflat : flatten_list (cs.set c child2) = (flatten_list cs).eraseIdx k := by
        rw [flatten_list_set cs c child2 hc, c2, hk]
        conv_rhs => rw [hsplit]
        rw [eraseIdx_middle _ _ _ _ (by omega)]
        congr 3
        omega
      have hlen2 : child2.flatten.length = child.flatten.length - 1 := by
        rw [c2, List.length_eraseIdx_of_lt (by omega)]
      refine ⟨?_, by rw [flatten_inner, hflat], by simp [BpNode.is_general]⟩
      simp only [BpNode.wf]
      refine ⟨w1, by rw [List.length_set]; exact w2, ?_, ?_, ?_, w6, w7b⟩
      · rw [wf_list_iff]
        intro x hx
        rcases List.mem_or_eq_of_mem_set hx with hx2 | rfl
        · exact ⟨(hch x hx2).1, fun h => by simpa using (hch x hx2).2.1 h⟩
        · refine ⟨c1, fun h => ?_⟩
          by_cases he : e = npos
          · rw [c3 he] at h
            simpa using (hch child hmem).2.1 h
          · simpa using hform he
      · rw [child_sizes_set, hlen2, ← hsz]
        by_cases hg : Int.tmod f1 2 = 0
        · rw [if_pos hg] at w4 ⊢
          by_cases he : e = npos
          · simp only [he, ne_eq, not_true_eq_false, decide_False, Bool.false_eq_true, if_false]
            exact general_offsets_set_last o1 _ c _ w4
              (by rw [child_sizes_length]; exact hlastc he)
          · simp only [he, ne_eq, not_false_eq_true, decide_True, if_true]
            exact general_offsets_adjust_keep o1 _ c w4 (by rw [child_sizes_length]; exact hc)
              (by rw [hsz]; exact hc1)
        · rw [if_neg hg] at w4 ⊢
          have he : e = npos := by
            by_contra hne
            exact hg (hform hne)
          exact ⟨w4.1, compact_counts_set_last _ _ c _ w4.2
            (by rw [child_sizes_length]; exact hlastc he) (by omega)⟩
      · rw [hflat, List.length_eraseIdx_of_lt (by rw [hN]; omega), w5]
        have := hge cs.length (by rw [child_sizes_length])
        rw [← hN] at this
        omega

/-- The recursive erase on a well-formed subtree: the call returns; it reports
`true` exactly when the subtree holds a single element, and otherwise leaves a
well-formed subtree that holds the old sequence without element `k`, on the
general form unless `npos` was passed, in which case the form is kept. -/
theorem do_erase_spec (handler : EraseHandler) (hh : handler.erases) (oref : Nat)
    (horef : oref % 8 = 0) :
    ∀ (fuel : Nat) (t : BpNode) (level e k : Nat),
      t.wf level → 1 ≤ level → level ≤ fuel → k < t.flatten.length →
      (e = k ∨ (e = npos ∧ k + 1 = t.flatten.length)) →
      ∃ d t2, do_erase_bptree_elem handler oref fuel t e = some (d, t2) ∧
        (d = true ↔ t.flatten.length = 1) ∧
        (d = false → t2.wf level ∧ t2.flatten = t.flatten.eraseIdx k ∧
          (e ≠ npos → t2.is_general = true) ∧ (e = npos → t2.is_general = t.is_general)) := by
  intro fuel
  induction fuel with
  | zero => intro t level e k _ h1 h2; omega
  | succ fuel ih =>
    intro t level e k hwf hl hf hk he
    cases t with
    | leaf xs =>
      simp only [BpNode.wf] at hwf
      omega
    | inner fv offs cs last =>
      rw [flatten_inner] at hk he ⊢
      have hk63 : k < 9223372036854775808 := by
        simp only [BpNode.wf] at hwf
        obtain ⟨_, _, _, _, w5, _, w7⟩ := hwf
        unfold is_int64 at w7
        omega
      have hknpos : k ≠ npos := by unfold npos; omega
      have hN : (flatten_list cs).length = psum (child_sizes cs) cs.length := by
        rw [flatten_list_length, ← psum_length, child_sizes_length]
      have key : ∃ f1 o1 c j child,
          (if e = npos then (fv, offs) else ensure_bptree_offsets fv offs cs.length oref)
            = (f1, o1) ∧
          (if e = npos then (cs.length - 1, npos) else find_bptree_child f1 o1 e) = (c, j) ∧
          (BpNode.inner f1 o1 cs last).wf level ∧ cs[c]? = some child ∧
          psum (child_sizes cs) c ≤ k ∧ k < psum (child_sizes cs) (c + 1) ∧
          (e ≠ npos → Int.tmod f1 2 = 0) ∧ (e = npos → c + 1 = cs.length ∧ f1 = fv) ∧
          (j = k - psum (child_sizes cs) c ∨
            (j = npos ∧ (k - psum (child_sizes cs) c) + 1 = child.flatten.length)) ∧
          (e = npos → j = npos) := by
        by_cases hn : e = npos
        · have hkn : k + 1 = (flatten_list cs).length := by
            rcases he with h | h
            · exact absurd (h ▸ hn) hknpos
            · exact h.2
          have hw := hwf
          simp only [BpNode.wf] at hw
          have hc : cs.length - 1 < cs.length := by omega
          have hget : cs[cs.length - 1]? = some cs[cs.length - 1] := List.getElem?_eq_getElem hc
          have hsz := child_sizes_getD cs _ _ hget
          have hps := psum_succ (child_sizes cs) (cs.length - 1)
          rw [show cs.length - 1 + 1 = cs.length by omega, hsz] at hps
          have hpos := (wf_children fv offs cs last level hwf _ (List.getElem_mem hc)).2.2
          refine ⟨fv, offs, cs.length - 1, npos, cs[cs.length - 1], by rw [if_pos hn],
            by rw [if_pos hn], hwf, hget, by omega, ?_, fun h => absurd hn h,
            fun _ => ⟨by omega, rfl⟩, Or.inr ⟨rfl, by omega⟩, fun _ => rfl⟩
          rw [show cs.length - 1 + 1 = cs.length by omega]
          omega
        · have hek : e = k := by
            rcases he with h | h
            · exact h
            · exact absurd h.1 hn
          subst hek
          obtain ⟨g1, g2⟩ := ensure_bptree_offsets_spec fv offs cs last level oref horef hwf
          obtain ⟨c, hc, h1, h2⟩ :=
            exists_child (child_sizes cs) e (by rw [← flatten_list_length]; exact hk)
          rw [child_sizes_length] at hc
          have hfind := find_bptree_child_spec _ _ cs last level e c g2 hc h1 h2
          refine ⟨_, _, c, e - psum (child_sizes cs) c, cs[c], by rw [if_neg hn],
            by rw [if_neg hn]; exact hfind, g2, List.getElem?_eq_getElem hc, h1, h2,
            fun _ => g1, fun h => absurd h hn, Or.inl rfl, fun h => absurd h hn⟩
      obtain ⟨f1, o1, c, j, child, hconv, hp, hwf1, hget, h1, h2, hform, hlastc, hj, hjn⟩ := key
      have hc : c < cs.length := by
        rcases Nat.lt_or_ge c cs.length with h | h
        · exact h
        · rw [List.getElem?_eq_none h] at hget
          cases hget
      have hmem : child ∈ cs := List.getElem?_mem hget
      have hcw := wf_children f1 o1 cs last level hwf1 child hmem
      have hsz := child_sizes_getD cs c child hget
      have h2b := h2
      rw [psum_succ, hsz] at h2b
      have hchild : ∃ dc child2,
          (match child with
            | .leaf xs =>
              some ((handler.erase_leaf_elem xs j).1, BpNode.leaf (handler.erase_leaf_elem xs j).2)
            | .inner _ _ _ _ => do_erase_bptree_elem handler oref fuel child j) = some (dc, child2) ∧
          (dc = true ↔ child.flatten.length = 1) ∧
          (dc = false → child2.wf (level - 1) ∧
            child2.flatten = child.flatten.eraseIdx (k - psum (child_sizes cs) c) ∧
            (e = npos → child2.is_general = child.is_general)) := by
        cases child with
        | leaf xs =>
          have hx : 1 ≤ xs.length := by simpa [BpNode.flatten] using hcw.2.2
          have hjv : j < xs.length ∨ j = npos := by
            rcases hj with h | h
            · left; rw [h]; simpa [BpNode.flatten] using (show k - psum (child_sizes cs) c < (BpNode.leaf xs).flatten.length by omega)
            · right; exact h.1
          obtain ⟨a1, a2⟩ := hh xs j hx hjv
          refine ⟨_, _, rfl, by simpa [BpNode.flatten] using a1, ?_⟩
          intro hd
          have hidx : (if j = npos then xs.length - 1 else j) = k - psum (child_sizes cs) c := by
            rcases hj with h | h
            · rw [if_neg (by rw [h]; unfold npos; omega), h]
            · rw [if_pos h.1]
              have := h.2
              simp only [BpNode.flatten] at this
              omega
          have a3 := a2 hd
          rw [hidx] at a3
          have hne : xs.length ≠ 1 := fun h => by
            have := a1.2 h
            rw [hd] at this
            cases this
          refine ⟨?_, by simp only [BpNode.flatten]; exact a3, fun _ => rfl⟩
          have hl0 := hcw.1
          simp only [BpNode.wf] at hl0 ⊢
          refine ⟨hl0.1, ?_⟩
          rw [a3, List.length_eraseIdx_of_lt (by
            have := h2b
            simp only [BpNode.flatten] at this
            omega)]
          omega
        | inner fv2 offs2 cs2 last2 =>
          have hl1 : 1 ≤ level - 1 := by
            have := hcw.1
            simp only [BpNode.wf] at this
            omega
          obtain ⟨d, t2, r1, r2, r3⟩ := ih (BpNode.inner fv2 offs2 cs2 last2) (level - 1) j
            (k - psum (child_sizes cs) c) hcw.1 hl1 (by omega) (by omega) hj
          refine ⟨d, t2, r1, r2, ?_⟩
          intro hd
          obtain ⟨q1, q2, _, q4⟩ := r3 hd
          exact ⟨q1, q2, fun hn => q4 (hjn hn)⟩
      obtain ⟨dc, child2, hr, hd, hch2⟩ := hchild
      obtain ⟨d, t2, e1, e2, e3⟩ := erase_finish f1 o1 cs last level c k e child child2 dc hwf1 hget
        h1 h2 hform (fun h => (hlastc h).1) hd
        hch2
      refine ⟨d, t2, ?_, e2, ?_⟩
      · rw [← e1]
        simp only [do_erase_bptree_elem, hconv, hp, hget]
        cases child with
        | leaf xs =>
          simp only [Option.some.injEq, Prod.mk.injEq] at hr
          obtain ⟨rfl, rfl⟩ := hr
          rfl
        | inner fv2 offs2 cs2 last2 =>
          simp only at hr ⊢
          rw [hr]
      · intro hdf
        obtain ⟨p1, p2, p3⟩ := e3 hdf
        refine ⟨p1, p2, ?_, ?_⟩
        · intro hn
          rw [p3]
          simpa using hform hn
        · intro hn
          rw [p3, (hlastc hn).2]
          simp [BpNode.is_general]

theorem nonempty_inner_list_iff (cs : List BpNode) :
    nonempty_inner_list cs ↔ ∀ c ∈ cs, c.nonempty_inner := by
  induction cs with
  | nil => simp [nonempty_inner_list]
  | cons x xs ih => simp only [nonempty_inner_list, ih, List.mem_cons, forall_eq_or_imp]

theorem leaves_nonempty_list_iff (cs : List BpNode) :
    leaves_nonempty_list cs ↔ ∀ c ∈ cs, c.leaves_nonempty := by
  induction cs with
  | nil => simp [leaves_nonempty_list]
  | cons x xs ih => simp only [leaves_nonempty_list, ih, List.mem_cons, forall_eq_or_imp]

theorem leaves_at_list_iff (cs : List BpNode) (d : Nat) :
    leaves_at_list cs d ↔ ∀ c ∈ cs, c.leaves_at d := by
  induction cs with
  | nil => simp [leaves_at_list]
  | cons x xs ih => simp only [leaves_at_list, ih, List.mem_cons, forall_eq_or_imp]

theorem node_form_list_iff (cs : List BpNode) (pg : Bool) :
    node_form_list cs pg ↔ ∀ c ∈ cs, (c.is_general = true → pg = true) ∧ c.node_form := by
  induction cs with
  | nil => simp [node_form_list]
  | cons x xs ih =>
    simp only [node_form_list, ih, List.mem_cons, forall_eq_or_imp]
    tauto

/-- A well-formed subtree satisfies the structural invariants. -/
theorem wf_invariants : ∀ (level : Nat) (t : BpNode), t.wf level →
    t.nonempty_inner ∧ t.leaves_nonempty ∧ t.leaves_at level ∧ t.node_form := by
  intro level
  induction level with
  | zero =>
    intro t h
    cases t with
    | leaf xs =>
      simp only [BpNode.wf] at h
      simp only [BpNode.nonempty_inner, BpNode.leaves_nonempty, BpNode.leaves_at,
        BpNode.node_form]
      exact ⟨trivial, h.2, trivial, trivial⟩
    | inner fv offs cs last => simp only [BpNode.wf] at h; exact absurd rfl h.1
  | succ level ih =>
    intro t h
    cases t with
    | leaf xs => simp only [BpNode.wf] at h; omega
    | inner fv offs cs last =>
      have hch := wf_children fv offs cs last (level + 1) h
      simp only [BpNode.wf] at h
      simp only [BpNode.nonempty_inner, BpNode.leaves_nonempty, BpNode.leaves_at,
        BpNode.node_form, nonempty_inner_list_iff, leaves_nonempty_list_iff, leaves_at_list_iff,
        node_form_list_iff]
      refine ⟨⟨h.2.1, fun c hc => (ih c (hch c hc).1).1⟩, fun c hc => (ih c (hch c hc).1).2.1,
        ⟨by omega, fun c hc => (ih c (hch c hc).1).2.2.1⟩,
        fun c hc => ⟨fun hg => by simpa using (hch c hc).2.1 hg, (ih c (hch c hc).1).2.2.2⟩⟩

/-- The four structural invariants of a tree whose root is well-formed, be it
an inner node or a leaf. -/
theorem wf_four_invariants (level : Nat) (t : BpNode) (h : t.wf level) :
    t.nonempty_inner ∧ t.nonempty_leaf ∧ t.leaf_depth ∧ t.node_form := by
  obtain ⟨a, b, c, d⟩ := wf_invariants level t h
  refine ⟨a, ?_, ⟨level, c⟩, d⟩
  cases t with
  | leaf xs => simp only [BpNode.nonempty_leaf]
  | inner fv offs cs last => simp only [BpNode.nonempty_leaf]; exact b

theorem empty_leaf_invariants :
    (BpNode.leaf []).nonempty_inner ∧ (BpNode.leaf []).nonempty_leaf ∧
    (BpNode.leaf []).leaf_depth ∧ (BpNode.leaf []).node_form := by
  refine ⟨?_, ?_, ⟨0, ?_⟩, ?_⟩ <;>
    simp only [BpNode.nonempty_inner, BpNode.nonempty_leaf, BpNode.leaves_at, BpNode.node_form]

/-- The elimination of a superfluous root on a well-formed chain: it returns a
well-formed node that holds the same sequence. -/
theorem elim_superfluous_bptree_root_spec : ∀ (fuel : Nat) (t : BpNode) (level : Nat),
    t.wf level → level + 1 ≤ fuel →
    ∃ r level2, elim_superfluous_bptree_root fuel t = some r ∧ r.wf level2 ∧
      r.flatten = t.flatten := by
  intro fuel
  induction fuel with
  | zero => intro t level _ h; omega
  | succ fuel ih =>
    intro t level hwf hf
    cases t with
    | leaf xs => exact ⟨_, level, rfl, hwf, rfl⟩
    | inner fv offs cs last =>
      have hch := wf_children fv offs cs last level hwf
      have hw := hwf
      simp only [BpNode.wf] at hw
      simp only [elim_superfluous_bptree_root]
      rw [if_neg (by omega)]
      by_cases h1 : cs.length > 1
      · rw [if_pos h1]
        exact ⟨_, level, rfl, hwf, rfl⟩
      · rw [if_neg h1]
        cases cs with
        | nil => simp at hw
        | cons g rest =>
          have hr : rest = [] := by
            cases rest with
            | nil => rfl
            | cons a b => simp at h1
          subst hr
          simp only [List.getElem?_cons_zero]
          obtain ⟨r, l2, e1, e2, e3⟩ := ih g (level - 1) (hch g (List.mem_cons_self _ _)).1
            (by omega)
          refine ⟨r, l2, e1, e2, ?_⟩
          rw [e3, flatten_inner, flatten_list_cons]
          simp [flatten_list]

/-- The erase on a well-formed tree rooted at an inner node: the call returns
a root that is either the empty leaf, when the tree held a single element, or
a well-formed node; the new tree holds the old sequence without element
`k`. -/
theorem erase_bptree_elem_spec (handler : EraseHandler) (hh : handler.erases) (oref : Nat)
    (horef : oref % 8 = 0) (elim_throws : Bool) (fuel : Nat) (t : BpNode) (level k : Nat)
    (hwf : t.wf level) (hl : 1 ≤ level) (hf : level ≤ fuel) (hk : k < t.flatten.length) :
    ∃ t2, erase_bptree_elem handler oref elim_throws fuel t
        (if k + 1 = t.flatten.length then npos else k) = some t2 ∧
      t2.flatten = t.flatten.eraseIdx k ∧
      (t.flatten.length = 1 → t2 = BpNode.leaf []) ∧
      (t2 = BpNode.leaf [] ∨ ∃ level2, t2.wf level2) := by
  cases t with
  | leaf xs =>
    simp only [BpNode.wf] at hwf
    omega
  | inner fv offs cs last =>
    have hw := hwf
    simp only [BpNode.wf] at hw
    obtain ⟨_, w2, _, _, w5, _, w7⟩ := hw
    have hk2 := hk
    rw [flatten_inner] at hk2
    have hn63 : (flatten_list cs).length < 4611686018427387904 := by
      unfold is_int64 at w7
      omega
    have hedge0 :
        ((if k + 1 = (BpNode.inner fv offs cs last).flatten.length then npos else k) = k ∧
          k + 1 ≠ (BpNode.inner fv offs cs last).flatten.length) ∨
        ((if k + 1 = (BpNode.inner fv offs cs last).flatten.length then npos else k) = npos ∧
          k + 1 = (BpNode.inner fv offs cs last).flatten.length) := by
      by_cases h : k + 1 = (BpNode.inner fv offs cs last).flatten.length
      · rw [if_pos h]; exact Or.inr ⟨rfl, h⟩
      · rw [if_neg h]; exact Or.inl ⟨rfl, h⟩
    generalize (if k + 1 = (BpNode.inner fv offs cs last).flatten.length then npos else k) = e
      at hedge0 ⊢
    obtain ⟨d, root2, r1, r2, r3⟩ := do_erase_spec handler hh oref horef fuel _ level e k hwf hl hf
      hk (hedge0.imp (fun h => h.1) (fun h => h))
    have hassert : ¬ ¬ (e = npos ∨ e + 1 ≠ to_size_t (Int.tdiv last 2)) := by
      rw [not_not]
      rcases hedge0 with h | h
      · right
        have e1 : Int.tdiv last 2 = ((flatten_list cs).length : Int) := by
          rw [tdiv_two, w5, if_pos (by omega)]
          omega
        rw [e1, to_size_t_of_nat _ (by omega), h.1]
        have := h.2
        rw [flatten_inner] at this
        exact this
      · exact Or.inl h.1
    simp only [erase_bptree_elem]
    rw [if_neg (by omega), if_neg hassert, r1]
    cases d with
    | true =>
      have h1 := r2.1 rfl
      simp only [if_true]
      refine ⟨_, rfl, ?_, fun _ => rfl, Or.inl rfl⟩
      have hk0 : k = 0 := by omega
      subst hk0
      cases hfl : (BpNode.inner fv offs cs last).flatten with
      | nil => rfl
      | cons a as =>
        rw [hfl] at h1
        simp at h1
        simp [BpNode.flatten, h1]
    | false =>
      obtain ⟨q1, q2, _, _⟩ := r3 rfl
      have hne : (BpNode.inner fv offs cs last).flatten.length ≠ 1 := fun h => by
        have := r2.2 h
        cases this
      simp only [Bool.false_eq_true, if_false]
      cases root2 with
      | leaf ys =>
        simp only [BpNode.wf] at q1
        omega
      | inner fv2 offs2 cs2 last2 =>
        have hch := wf_children fv2 offs2 cs2 last2 level q1
        have q1b := q1
        simp only [BpNode.wf] at q1b
        simp only []
        by_cases h1 : cs2.length > 1
        · rw [if_pos h1]
          exact ⟨_, rfl, q2, fun h => absurd h hne, Or.inr ⟨level, q1⟩⟩
        · rw [if_neg h1]
          cases elim_throws with
          | true =>
            simp only [if_true]
            exact ⟨_, rfl, q2, fun h => absurd h hne, Or.inr ⟨level, q1⟩⟩
          | false =>
            simp only [Bool.false_eq_true, if_false]
            cases cs2 with
            | nil => simp at q1b
            | cons g rest =>
              have hr : rest = [] := by
                cases rest with
                | nil => rfl
                | cons a b => simp at h1
              subst hr
              simp only [List.getElem?_cons_zero]
              obtain ⟨r, l2, e1, e2, e3⟩ := elim_superfluous_bptree_root_spec fuel g (level - 1)
                (hch g (List.mem_cons_self _ _)).1 (by omega)
              refine ⟨r, e1, ?_, fun h => absurd h hne, Or.inr ⟨l2, e2⟩⟩
              rw [e3, ← q2, flatten_inner, flatten_list_cons]
              simp [flatten_list]

/-! ## Theorems: alignment in the slab allocator -/

theorem lor_255_mod (x : Nat) : (x ||| 255) % 256 = 255 := by
  apply Nat.eq_of_testBit_eq
  intro i
  rw [show (256 : Nat) = 2 ^ 8 by norm_num, Nat.testBit_mod_two_pow, Nat.testBit_or]
  by_cases h : i < 8
  · have : Nat.testBit 255 i = true := by
      interval_cases i <;> decide
    simp [h, this]
  · have : Nat.testBit 255 i = false := by
      rw [show (255 : Nat) = 2 ^ 8 - 1 by norm_num, Nat.testBit_two_pow_sub_one]
      simpa using h
    simp [h, this]

theorem to_int64_mod8 (x : Int) (h : x % 8 = 0) : to_int64 x % 8 = 0 := by
  unfold to_int64
  omega

theorem to_size_t_mod8 (v : Int) (h : v % 8 = 0) : to_size_t v % 8 = 0 := by
  unfold to_size_t to_uint64
  omega

theorem sz_mod8 (x : Nat) (h : x % 8 = 0) : sz x % 8 = 0 := by
  unfold sz
  omega

theorem size_sub_mod8 (a b : Nat) (ha : a % 8 = 0) (hb : b % 8 = 0) : size_sub a b % 8 = 0 := by
  unfold size_sub
  split_ifs <;> omega

theorem to_uint32_mod8 (x : Nat) (h : x % 8 = 0) : to_uint32 x % 8 = 0 := by
  unfold to_uint32
  omega

/-- The size of a new slab before the doubling rule, `((size-1) | 255) + 1`,
is a multiple of 8. -/
theorem round_up_mod8 (size : Nat) : sz ((size_sub size 1 ||| 255) + 1) % 8 = 0 := by
  apply sz_mod8
  have := lor_255_mod (size_sub size 1)
  omega

theorem aligned_rows_getD (rows : List FreeRow) (i : Nat) (h : aligned_rows rows) :
    (rows.getD i ⟨0, 0⟩).ref % 8 = 0 ∧ (rows.getD i ⟨0, 0⟩).size % 8 = 0 := by
  rw [List.getD_eq_getElem?_getD]
  cases hi : rows[i]? with
  | none => exact ⟨rfl, rfl⟩
  | some r => exact h r (List.getElem?_mem hi)

theorem aligned_rows_set (rows : List FreeRow) (i : Nat) (r : FreeRow) (h : aligned_rows rows)
    (hr : r.ref % 8 = 0 ∧ r.size % 8 = 0) : aligned_rows (rows.set i r) := by
  intro x hx
  rcases List.mem_or_eq_of_mem_set hx with h1 | h1
  · exact h x h1
  · rw [h1]; exact hr

theorem aligned_rows_eraseIdx (rows : List FreeRow) (i : Nat) (h : aligned_rows rows) :
    aligned_rows (rows.eraseIdx i) :=
  fun x hx => h x (List.mem_of_mem_eraseIdx hx)

theorem aligned_rows_append (rows : List FreeRow) (r : FreeRow) (h : aligned_rows rows)
    (hr : r.ref % 8 = 0 ∧ r.size % 8 = 0) : aligned_rows (rows ++ [r]) := by
  intro x hx
  rcases List.mem_append.1 hx with h1 | h1
  · exact h x h1
  · rw [List.mem_singleton.1 h1]; exact hr

theorem slabs_getD (slabs : List SlabRow) (i : Nat) (h : ∀ s ∈ slabs, s.ref_end % 8 = 0) :
    (slabs.getD i ⟨0, 0⟩).ref_end % 8 = 0 := by
  rw [List.getD_eq_getElem?_getD]
  cases hi : slabs[i]? with
  | none => rfl
  | some r => exact h r (List.getElem?_mem hi)

/-- The function `SlabAlloc::alloc` keeps the state aligned and returns an
aligned ref, for a size that is a multiple of 8. -/
theorem alloc_aligned (a : SlabAlloc) (size : Nat) (new_slab : Option Nat) (ha : a.aligned)
    (hsize : size % 8 = 0) :
    (a.alloc size new_slab).1.aligned ∧
    ∀ ref, (a.alloc size new_slab).2 = some ref → ref % 8 = 0 := by
  obtain ⟨hb, hfs, hro, hsl⟩ := ha
  unfold SlabAlloc.alloc
  by_cases hinv : a.m_free_space_invalid = true
  · rw [if_pos hinv]
    exact ⟨⟨hb, hfs, hro, hsl⟩, fun ref h => by cases h⟩
  rw [if_neg hinv]
  cases hfind : alloc_find size a.m_free_space 0 with
  | some i =>
    dsimp only
    obtain ⟨r1, r2⟩ := aligned_rows_getD a.m_free_space i hfs
    refine ⟨⟨hb, ?_, hro, hsl⟩, ?_⟩
    · split_ifs
      · exact aligned_rows_eraseIdx _ _ hfs
      · apply aligned_rows_set _ _ _ hfs
        refine ⟨to_int64_mod8 _ ?_, to_int64_mod8 _ ?_⟩
        · have := to_uint32_mod8 size hsize
          show ((a.m_free_space.getD i ⟨0, 0⟩).ref + (to_uint32 size : Int)) % 8 = 0
          omega
        · have := to_size_t_mod8 ((a.m_free_space.getD i ⟨0, 0⟩).size - (size : Int))
            (by omega)
          omega
    · intro ref h
      simp only [Option.some.injEq] at h
      rw [← h]
      exact to_size_t_mod8 _ r1
  | none =>
    dsimp only
    have hcurr : (if a.m_slabs.isEmpty = true then a.m_baseline
        else to_size_t (a.m_slabs.getD (a.m_slabs.length - 1) ⟨0, 0⟩).ref_end) % 8 = 0 := by
      split_ifs
      · exact hb
      · exact to_size_t_mod8 _ (slabs_getD _ _ hsl)
    generalize (if a.m_slabs.isEmpty = true then a.m_baseline
        else to_size_t (a.m_slabs.getD (a.m_slabs.length - 1) ⟨0, 0⟩).ref_end) = curr at hcurr ⊢
    have hprev : (if a.m_slabs.length = 1 then a.m_baseline
        else to_size_t (a.m_slabs.getD (a.m_slabs.length - 2) ⟨0, 0⟩).ref_end) % 8 = 0 := by
      split_ifs
      · exact hb
      · exact to_size_t_mod8 _ (slabs_getD _ _ hsl)
    generalize (if a.m_slabs.length = 1 then a.m_baseline
        else to_size_t (a.m_slabs.getD (a.m_slabs.length - 2) ⟨0, 0⟩).ref_end) = prev at hprev ⊢
    have hnew : (if a.m_slabs.isEmpty = true then sz ((size_sub size 1 ||| 255) + 1)
        else if sz ((size_sub size 1 ||| 255) + 1) < sz (2 * size_sub curr prev) then
          sz (2 * size_sub curr prev)
        else sz ((size_sub size 1 ||| 255) + 1)) % 8 = 0 := by
      have h1 := round_up_mod8 size
      have h2 : sz (2 * size_sub curr prev) % 8 = 0 := by
        apply sz_mod8
        have := size_sub_mod8 curr prev hcurr hprev
        omega
      split_ifs <;> assumption
    generalize (if a.m_slabs.isEmpty = true then sz ((size_sub size 1 ||| 255) + 1)
        else if sz ((size_sub size 1 ||| 255) + 1) < sz (2 * size_sub curr prev) then
          sz (2 * size_sub curr prev)
        else sz ((size_sub size 1 ||| 255) + 1)) = new_size at hnew ⊢
    cases new_slab with
    | none => exact ⟨⟨hb, hfs, hro, hsl⟩, fun ref h => by cases h⟩
    | some slab =>
      dsimp only
      refine ⟨⟨hb, ?_, hro, ?_⟩, ?_⟩
      · split_ifs
        · apply aligned_rows_append _ _ hfs
          refine ⟨to_int64_mod8 _ ?_, to_int64_mod8 _ ?_⟩
          · have := sz_mod8 (curr + size) (by omega)
            show ((sz (curr + size) : Nat) : Int) % 8 = 0
            omega
          · have := size_sub_mod8 new_size (sz size) hnew (sz_mod8 _ hsize)
            show ((size_sub new_size (sz size) : Nat) : Int) % 8 = 0
            omega
        · exact hfs
      · intro s hs
        rcases List.mem_append.1 hs with h1 | h1
        · exact hsl s h1
        · rw [List.mem_singleton.1 h1]
          apply to_int64_mod8
          have := sz_mod8 (curr + new_size) (by omega)
          show ((sz (curr + new_size) : Nat) : Int) % 8 = 0
          omega
      · intro ref h
        simp only [Option.some.injEq] at h
        rw [← h]
        exact hcurr

theorem set_size_aligned (rows : List FreeRow) (i : Nat) (d : Int) (h : aligned_rows rows)
    (hd : d % 8 = 0) :
    aligned_rows (rows.set i { rows.getD i ⟨0, 0⟩ with
      size := to_int64 ((rows.getD i ⟨0, 0⟩).size + d) }) := by
  apply aligned_rows_set _ _ _ h
  have := aligned_rows_getD rows i h
  exact ⟨this.1, to_int64_mod8 _ (by omega)⟩

theorem free_merge_start_aligned (slabs : List SlabRow) (fs : List FreeRow)
    (ref size ref_end : Nat) (throws : Nat → Bool) (h : aligned_rows fs)
    (href : ref % 8 = 0) (hsize : size % 8 = 0) :
    aligned_rows (free_merge_start slabs fs ref size ref_end throws).1 := by
  unfold free_merge_start
  have hrow := fun n => aligned_rows_getD fs n h
  have h1 : ∀ n, aligned_rows (fs.set n { fs.getD n ⟨0, 0⟩ with ref := to_int64 ref }) := by
    intro n
    apply aligned_rows_set _ _ _ h
    exact ⟨to_int64_mod8 _ (by omega), (hrow n).2⟩
  split
  · exact h
  · rename_i n _
    split_ifs
    · exact h
    · exact h1 n
    · exact set_size_aligned _ n size (h1 n) (by omega)
    · exact h

theorem free_try_aligned (slabs : List SlabRow) (fs : List FreeRow)
    (ref size ref_end : Nat) (throws : Nat → Bool) (h : aligned_rows fs)
    (href : ref % 8 = 0) (hsize : size % 8 = 0) :
    aligned_rows (free_try slabs fs ref size ref_end throws).1 := by
  have hms := free_merge_start_aligned slabs fs ref size ref_end throws h href hsize
  unfold free_try
  generalize free_merge_start slabs fs ref size ref_end throws = ms at hms ⊢
  obtain ⟨fs2, merged_with, threw⟩ := ms
  simp only at hms
  cases threw with
  | true => exact hms
  | false =>
    simp only
    have hset : ∀ (i : Nat) (d : Nat), d % 8 = 0 →
        aligned_rows (fs2.set i { fs2.getD i ⟨0, 0⟩ with
          size := to_int64 ((fs2.getD i ⟨0, 0⟩).size + (d : Int)) }) := by
      intro i d hd
      apply aligned_rows_set _ _ _ hms
      have := aligned_rows_getD fs2 i hms
      exact ⟨this.1, to_int64_mod8 _ (by omega)⟩
    split
    · rename_i i _
      cases merged_with with
      | some m =>
        simp only
        have hs := to_size_t_mod8 _ (aligned_rows_getD fs2 m hms).2
        split_ifs
        · exact hms
        · exact hset i _ hs
        · exact aligned_rows_eraseIdx _ _ (hset i _ hs)
      | none =>
        simp only
        split_ifs
        · exact hms
        · exact hset i _ hsize
    · cases merged_with with
      | some m => exact hms
      | none =>
        simp only
        split_ifs
        · exact hms
        · exact aligned_rows_append _ _ hms
            ⟨to_int64_mod8 _ (by omega), to_int64_mod8 _ (by omega)⟩

/-- The function `SlabAlloc::free_` keeps the state aligned, for a block at an
aligned ref whose recorded size is a multiple of 8. -/
theorem free_aligned (a : SlabAlloc) (ref size : Nat) (throws : Nat → Bool) (ha : a.aligned)
    (href : ref % 8 = 0) (hsize : size % 8 = 0) : (a.free_ ref size throws).aligned := by
  obtain ⟨hb, hfs, hro, hsl⟩ := ha
  unfold SlabAlloc.free_
  dsimp only
  by_cases hinv : a.m_free_space_invalid = true
  · rw [if_pos hinv]
    exact ⟨hb, hfs, hro, hsl⟩
  rw [if_neg hinv]
  by_cases hr : ref < a.m_baseline
  · simp only [hr, decide_True, if_true]
    exact ⟨hb, hfs, free_try_aligned _ _ _ _ _ _ hro href hsize, hsl⟩
  · simp only [hr, decide_False, Bool.false_eq_true, if_false]
    exact ⟨hb, free_try_aligned _ _ _ _ _ _ hfs href hsize, hro, hsl⟩

/-- The alignment invariant along a run: from an aligned state, with aligned
refs returned so far, a valid sequence of calls ends in an aligned state, and
every ref returned is aligned. -/
theorem run_ops_aligned : ∀ (ops : List SlabOp) (a : SlabAlloc) (rets : List Nat),
    a.aligned → (∀ r ∈ rets, r % 8 = 0) → valid_ops a rets ops = true →
    (run_ops a rets ops).1.aligned ∧ ∀ r ∈ (run_ops a rets ops).2, r % 8 = 0 := by
  intro ops
  induction ops with
  | nil =>
    intro a rets ha hr _
    exact ⟨ha, hr⟩
  | cons op ops ih =>
    intro a rets ha hr hv
    cases op with
    | alloc size new_slab =>
      simp only [valid_ops, Bool.and_eq_true, decide_eq_true_eq] at hv
      obtain ⟨⟨_, hsize⟩, hv2⟩ := hv
      obtain ⟨h1, h2⟩ := alloc_aligned a size new_slab ha hsize
      simp only [run_ops]
      apply ih _ _ h1 _ hv2
      cases hres : (a.alloc size new_slab).2 with
      | none => exact hr
      | some ref =>
        intro r hmem
        rcases List.mem_append.1 hmem with h | h
        · exact hr r h
        · rw [List.mem_singleton.1 h]
          exact h2 ref hres
    | free_ ref size throws =>
      simp only [valid_ops, Bool.and_eq_true, Bool.or_eq_true, decide_eq_true_eq] at hv
      obtain ⟨⟨hsize, href⟩, hv2⟩ := hv
      have href2 : ref % 8 = 0 := by
        rcases href with h | h
        · exact hr ref h
        · exact h.2
      simp only [run_ops]
      exact ih _ _ (free_aligned a ref size throws ha href2 hsize) hr hv2

theorem fresh_slab_alloc_aligned (baseline : Nat) (h : baseline % 8 = 0) :
    (fresh_slab_alloc baseline).aligned := by
  refine ⟨h, ?_, ?_, ?_⟩ <;> intro x hx <;> simp [fresh_slab_alloc] at hx

/-! ## Theorems: translation of refs -/

theorem map_getD_ref_end (slabs : List SlabRow) (i : Nat) (hi : i < slabs.length) :
    (slabs.map fun s => s.ref_end).getD i 0 = (slabs.getD i ⟨0, 0⟩).ref_end := by
  rw [List.getD_eq_getElem?_getD, List.getD_eq_getElem?_getD, List.getElem?_map,
    List.getElem?_eq_getElem hi]
  rfl

/-- The index form of an ordered slab table. -/
theorem slabs_ordered_index (a : SlabAlloc) (h : a.slabs_ordered) :
    (∀ i, i < a.m_slabs.length → (a.m_baseline : Int) < (a.m_slabs.getD i ⟨0, 0⟩).ref_end ∧
      (a.m_slabs.getD i ⟨0, 0⟩).ref_end ≤ 9223372036854775807) ∧
    (∀ i j, i < j → j < a.m_slabs.length →
      (a.m_slabs.getD i ⟨0, 0⟩).ref_end < (a.m_slabs.getD j ⟨0, 0⟩).ref_end) := by
  obtain ⟨h1, h2⟩ := h
  rw [List.pairwise_cons] at h1
  obtain ⟨hb, hp⟩ := h1
  constructor
  · intro i hi
    have hm : a.m_slabs.getD i ⟨0, 0⟩ ∈ a.m_slabs := by
      rw [List.getD_eq_getElem?_getD, List.getElem?_eq_getElem hi]
      exact List.getElem_mem hi
    exact ⟨hb _ (List.mem_map_of_mem _ hm), h2 _ hm⟩
  · intro i j hij hj
    rw [List.pairwise_iff_getElem] at hp
    have := hp i j (by simp; omega) (by simpa using hj) hij
    simp only [List.getElem_map] at this
    rw [List.getD_eq_getElem?_getD, List.getD_eq_getElem?_getD,
      List.getElem?_eq_getElem (by omega), List.getElem?_eq_getElem hj]
    exact this

theorem ref_end_col_sorted (a : SlabAlloc) (h : a.slabs_ordered) :
    ∀ i j, i ≤ j → j < (a.m_slabs.map fun s => s.ref_end).length →
      (a.m_slabs.map fun s => s.ref_end).getD i 0 ≤ (a.m_slabs.map fun s => s.ref_end).getD j 0 := by
  intro i j hij hj
  simp only [List.length_map] at hj
  rw [map_getD_ref_end _ i (by omega), map_getD_ref_end _ j hj]
  rcases Nat.lt_or_ge i j with hlt | hge
  · exact le_of_lt ((slabs_ordered_index a h).2 i j hlt hj)
  · have : i = j := by omega
    subst this
    exact le_refl _

/-- A ref in the range of slab `i`, which starts at the baseline for the first
slab and at the `ref_end` of the slab before it for the others, is looked up
in slab `i` and translates to the address at the same offset in that slab. -/
theorem translate_slab (a : SlabAlloc) (ref i : Nat) (h : a.slabs_ordered)
    (hb : a.m_baseline ≤ ref) (hi : i < a.m_slabs.length)
    (hlo : (if i = 0 then (a.m_baseline : Int) else (a.m_slabs.getD (i - 1) ⟨0, 0⟩).ref_end)
      ≤ (ref : Int))
    (hhi : (ref : Int) < (a.m_slabs.getD i ⟨0, 0⟩).ref_end) :
    column_upper_bound (a.m_slabs.map fun s => s.ref_end) (to_int64 ref) = i ∧
    a.translate ref = some (to_size_t (a.m_slabs.getD i ⟨0, 0⟩).addr +
      (ref - (if i = 0 then a.m_baseline
        else to_size_t (a.m_slabs.getD (i - 1) ⟨0, 0⟩).ref_end))) := by
  obtain ⟨o1, o2⟩ := slabs_ordered_index a h
  have hr63 : ref < 9223372036854775808 := by
    have := (o1 i hi).2
    omega
  have hv : to_int64 (ref : Int) = ref := to_int64_of_small ref hr63
  obtain ⟨u1, u2, u3⟩ := upper_bound_spec (a.m_slabs.map fun s => s.ref_end) (ref : Int)
    (ref_end_col_sorted a h)
  simp only [List.length_map] at u1 u3
  have hub : upper_bound (a.m_slabs.map fun s => s.ref_end) (ref : Int) = i := by
    by_contra hne
    rcases Nat.lt_or_gt_of_ne hne with hlt | hgt
    · have a1 := u3 _ (le_refl _) (by omega)
      rw [map_getD_ref_end _ _ (by omega)] at a1
      have hi0 : i ≠ 0 := by omega
      rw [if_neg hi0] at hlo
      rcases Nat.lt_or_ge (upper_bound (a.m_slabs.map fun s => s.ref_end) (ref : Int)) (i - 1)
        with h3 | h3
      · have := o2 _ (i - 1) h3 (by omega)
        omega
      · have e : upper_bound (a.m_slabs.map fun s => s.ref_end) (ref : Int) = i - 1 := by omega
        rw [e] at a1
        omega
    · have a1 := u2 i hgt
      rw [map_getD_ref_end _ _ hi] at a1
      omega
  have hcu : column_upper_bound (a.m_slabs.map fun s => s.ref_end) (to_int64 ref) = i := by
    unfold column_upper_bound
    rw [hv]
    exact hub
  refine ⟨hcu, ?_⟩
  unfold SlabAlloc.translate
  rw [if_neg (by omega)]
  simp only [hcu]
  rw [if_neg (by omega)]
  have hoff : (if i = 0 then a.m_baseline
      else to_size_t (a.m_slabs.getD (i - 1) ⟨0, 0⟩).ref_end) ≤ ref := by
    by_cases h0 : i = 0
    · rw [if_pos h0]; exact hb
    · rw [if_neg h0] at hlo ⊢
      have := o1 (i - 1) (by omega)
      have e := to_size_t_of_nonneg (a.m_slabs.getD (i - 1) ⟨0, 0⟩).ref_end (by omega)
        (by unfold is_int64; omega)
      omega
  have e : size_sub ref (if i = 0 then a.m_baseline
      else to_size_t (a.m_slabs.getD (i - 1) ⟨0, 0⟩).ref_end) =
      ref - (if i = 0 then a.m_baseline
        else to_size_t (a.m_slabs.getD (i - 1) ⟨0, 0⟩).ref_end) := by
    unfold size_sub
    rw [if_pos hoff]
  rw [e]

/-- For a ref between the baseline and the end of the last slab there is a
slab whose range holds it. -/
theorem exists_slab (a : SlabAlloc) (ref : Nat)
    (hb : a.m_baseline ≤ ref) (hn : a.m_slabs ≠ [])
    (hlast : (ref : Int) < (a.m_slabs.getD (a.m_slabs.length - 1) ⟨0, 0⟩).ref_end) :
    ∃ i, i < a.m_slabs.length ∧
      (if i = 0 then (a.m_baseline : Int) else (a.m_slabs.getD (i - 1) ⟨0, 0⟩).ref_end)
        ≤ (ref : Int) ∧
      (ref : Int) < (a.m_slabs.getD i ⟨0, 0⟩).ref_end := by
  have hlen : 0 < a.m_slabs.length := List.length_pos.2 hn
  have key : ∀ m, m < a.m_slabs.length → (ref : Int) < (a.m_slabs.getD m ⟨0, 0⟩).ref_end →
      ∃ i, i ≤ m ∧
        (if i = 0 then (a.m_baseline : Int) else (a.m_slabs.getD (i - 1) ⟨0, 0⟩).ref_end)
          ≤ (ref : Int) ∧
        (ref : Int) < (a.m_slabs.getD i ⟨0, 0⟩).ref_end := by
    intro m
    induction m with
    | zero =>
      intro _ h0
      exact ⟨0, le_refl _, by simpa using hb, h0⟩
    | succ m ih =>
      intro hm h1
      by_cases h2 : (ref : Int) < (a.m_slabs.getD m ⟨0, 0⟩).ref_end
      · obtain ⟨i, i1, i2, i3⟩ := ih (by omega) h2
        exact ⟨i, by omega, i2, i3⟩
      · exact ⟨m + 1, le_refl _, by simpa using (not_lt.1 h2), h1⟩
  obtain ⟨i, i1, i2, i3⟩ := key (a.m_slabs.length - 1) (by omega) hlast
  exact ⟨i, by omega, i2, i3⟩

theorem alloc_frame (a : SlabAlloc) (size : Nat) (new_slab : Option Nat) :
    (a.alloc size new_slab).1.m_baseline = a.m_baseline ∧
    (a.alloc size new_slab).1.m_data = a.m_data ∧
    (a.alloc size new_slab).1.m_free_read_only = a.m_free_read_only ∧
    (a.alloc size new_slab).1.m_free_space_invalid = a.m_free_space_invalid ∧
    ∃ more, (a.alloc size new_slab).1.m_slabs = a.m_slabs ++ more := by
  unfold SlabAlloc.alloc
  by_cases hinv : a.m_free_space_invalid = true
  · rw [if_pos hinv]
    exact ⟨rfl, rfl, rfl, rfl, [], by simp⟩
  rw [if_neg hinv]
  cases hfind : alloc_find size a.m_free_space 0 with
  | some i => exact ⟨rfl, rfl, rfl, rfl, [], by simp⟩
  | none =>
    cases new_slab with
    | none => exact ⟨rfl, rfl, rfl, rfl, [], by simp⟩
    | some slab => exact ⟨rfl, rfl, rfl, rfl, _, rfl⟩

theorem free_frame (a : SlabAlloc) (ref size : Nat) (throws : Nat → Bool) :
    (a.free_ ref size throws).m_baseline = a.m_baseline ∧
    (a.free_ ref size throws).m_data = a.m_data ∧
    (a.free_ ref size throws).m_slabs = a.m_slabs := by
  unfold SlabAlloc.free_
  dsimp only
  split_ifs <;> exact ⟨rfl, rfl, rfl⟩

/-- A run keeps the baseline and the buffer, and only appends to the slab
table. -/
theorem run_ops_frame : ∀ (ops : List SlabOp) (a : SlabAlloc) (rets : List Nat),
    (run_ops a rets ops).1.m_baseline = a.m_baseline ∧
    (run_ops a rets ops).1.m_data = a.m_data ∧
    ∃ more, (run_ops a rets ops).1.m_slabs = a.m_slabs ++ more := by
  intro ops
  induction ops with
  | nil => intro a rets; exact ⟨rfl, rfl, [], by simp [run_ops]⟩
  | cons op ops ih =>
    intro a rets
    cases op with
    | alloc size new_slab =>
      obtain ⟨f1, f2, _, _, m2, f3⟩ := alloc_frame a size new_slab
      generalize hX : (a.alloc size new_slab).1 = X at f1 f2 f3
      have key : ∀ r, (run_ops X r ops).1.m_baseline = a.m_baseline ∧
          (run_ops X r ops).1.m_data = a.m_data ∧
          ∃ more, (run_ops X r ops).1.m_slabs = a.m_slabs ++ more := by
        intro r
        obtain ⟨h1, h2, m, h3⟩ := ih X r
        exact ⟨h1.trans f1, h2.trans f2, m2 ++ m, by rw [h3, f3, List.append_assoc]⟩
      rw [run_ops, hX]
      exact key _
    | free_ ref size throws =>
      simp only [run_ops]
      obtain ⟨h1, h2, m, h3⟩ := ih (a.free_ ref size throws) rets
      obtain ⟨f1, f2, f3⟩ := free_frame a ref size throws
      exact ⟨by rw [h1, f1], by rw [h2, f2], m, by rw [h3, f3]⟩

theorem slabs_ordered_prefix (a b : SlabAlloc) (more : List SlabRow)
    (hb : b.m_baseline = a.m_baseline) (hs : b.m_slabs = a.m_slabs ++ more)
    (h : b.slabs_ordered) : a.slabs_ordered := by
  obtain ⟨h1, h2⟩ := h
  rw [hs, hb, List.map_append, ← List.cons_append] at h1
  exact ⟨(List.pairwise_append.1 h1).1, fun s hs2 => h2 s (by rw [hs]; exact List.mem_append_left _ hs2)⟩

theorem getD_append_left (xs ys : List SlabRow) (i : Nat) (hi : i < xs.length) :
    (xs ++ ys).getD i ⟨0, 0⟩ = xs.getD i ⟨0, 0⟩ := by
  rw [List.getD_eq_getElem?_getD, List.getD_eq_getElem?_getD, List.getElem?_append_left hi]

/-- Translation does not change when slabs are appended to an ordered slab
table. -/
theorem translate_prefix (a b : SlabAlloc) (more : List SlabRow) (ref addr : Nat)
    (hb : b.m_baseline = a.m_baseline) (hd : b.m_data = a.m_data)
    (hs : b.m_slabs = a.m_slabs ++ more) (h : b.slabs_ordered)
    (ht : a.translate ref = some addr) : b.translate ref = some addr := by
  have ha := slabs_ordered_prefix a b more hb hs h
  unfold SlabAlloc.translate at ht ⊢
  rw [hb, hd]
  by_cases hlt : ref < a.m_baseline
  · rw [if_pos hlt] at ht ⊢
    exact ht
  rw [if_neg hlt] at ht ⊢
  dsimp only at ht ⊢
  unfold column_upper_bound at ht ⊢
  obtain ⟨u1, u2, u3⟩ := upper_bound_spec (a.m_slabs.map fun s => s.ref_end) (to_int64 ref)
    (ref_end_col_sorted a ha)
  obtain ⟨v1, v2, v3⟩ := upper_bound_spec (b.m_slabs.map fun s => s.ref_end) (to_int64 ref)
    (ref_end_col_sorted b h)
  simp only [List.length_map] at u1 u3 v1 v3
  have hcol : ∀ i, i < a.m_slabs.length →
      (b.m_slabs.map fun s => s.ref_end).getD i 0 = (a.m_slabs.map fun s => s.ref_end).getD i 0 := by
    intro i hi
    have hi2 : i < b.m_slabs.length := by rw [hs, List.length_append]; omega
    rw [map_getD_ref_end _ i hi2, map_getD_ref_end _ i hi, hs, getD_append_left _ _ _ hi]
  have hlen : a.m_slabs.length ≤ b.m_slabs.length := by
    rw [hs, List.length_append]; omega
  generalize upper_bound (a.m_slabs.map fun s => s.ref_end) (to_int64 ref) = ua at ht u1 u2 u3
  generalize upper_bound (b.m_slabs.map fun s => s.ref_end) (to_int64 ref) = ub at v1 v2 v3 ⊢
  by_cases hnd : ua = a.m_slabs.length
  · rw [if_pos hnd] at ht
    cases ht
  rw [if_neg hnd] at ht
  have hna : ua < a.m_slabs.length := by omega
  have heq : ub = ua := by
    by_contra hne
    rcases Nat.lt_or_gt_of_ne hne with hl | hg
    · have x1 := v3 ub (le_refl _) (by omega)
      have x2 := u2 ub hl
      rw [hcol ub (by omega)] at x1
      exact absurd x1 (not_lt.2 x2)
    · have x1 := u3 ua (le_refl _) hna
      have x2 := v2 ua hg
      rw [hcol ua hna] at x2
      exact absurd x1 (not_lt.2 x2)
  rw [heq, if_neg (by omega)]
  rw [← ht, hs, getD_append_left _ _ _ hna]
  by_cases h0 : ua = 0
  · rw [if_pos h0, if_pos h0]
  · rw [if_neg h0, if_neg h0, getD_append_left _ _ _ (by omega)]

/-- The function `SlabAlloc.alloc` is the projection of `SlabAlloc.alloc_mem`
to the state and the ref. -/
theorem alloc_mem_alloc (a a2 : SlabAlloc) (size : Nat) (new_slab : Option Nat)
    (r : Except SlabError MemRef) (h : a.alloc_mem size new_slab = some (a2, r)) :
    (a.alloc size new_slab).1 = a2 ∧
    (a.alloc size new_slab).2 =
      (match r with
        | .ok mem => some mem.m_ref
        | .error _ => none) := by
  unfold SlabAlloc.alloc_mem at h
  unfold SlabAlloc.alloc
  by_cases hinv : a.m_free_space_invalid = true
  · rw [if_pos hinv] at h ⊢
    simp only [Option.some.injEq, Prod.mk.injEq] at h
    obtain ⟨rfl, rfl⟩ := h
    exact ⟨rfl, rfl⟩
  rw [if_neg hinv] at h ⊢
  cases hfind : alloc_find size a.m_free_space 0 with
  | some i =>
    rw [hfind] at h
    dsimp only at h ⊢
    split at h
    · cases h
    · simp only [Option.some.injEq, Prod.mk.injEq] at h
      obtain ⟨rfl, rfl⟩ := h
      exact ⟨rfl, rfl⟩
  | none =>
    rw [hfind] at h
    dsimp only at h ⊢
    cases new_slab with
    | none =>
      simp only [Option.some.injEq, Prod.mk.injEq] at h
      obtain ⟨rfl, rfl⟩ := h
      exact ⟨rfl, rfl⟩
    | some slab =>
      simp only [Option.some.injEq, Prod.mk.injEq] at h
      obtain ⟨rfl, rfl⟩ := h
      exact ⟨rfl, rfl⟩

/-! ## Theorems: the free lists, the header and truncation -/

theorem read_le_lt (d : Mem) (a k : Nat) : read_le d a k < 256 ^ k := by
  induction k generalizing a with
  | zero => simp [read_le]
  | succ k ih =>
    simp only [read_le]
    have := ih (a + 1)
    have h1 : d a % 256 < 256 := Nat.mod_lt _ (by norm_num)
    rw [pow_succ]
    omega

theorem to_ref_word (d : Mem) (a : Nat) :
    to_ref (to_int64 (read_le d a 8)) = read_le d a 8 := by
  have h := read_le_lt d a 8
  have e : (256 : Nat) ^ 8 = 18446744073709551616 := by norm_num
  rw [e] at h
  generalize read_le d a 8 = w at h ⊢
  unfold to_ref to_size_t to_uint64 to_int64
  omega

theorem find_first_none (col : List Int) (v : Int) (h : ∀ x ∈ col, x ≠ v) :
    find_first col v = none := by
  unfold find_first
  rw [List.findIdx?_eq_none_iff]
  intro x hx
  simpa using h x hx

theorem free_find_end_none (ref : Nat) (rows : List FreeRow) :
    ∀ i, (∀ r ∈ rows, to_ref (to_int64 (r.ref + r.size)) ≠ ref) →
      free_find_end ref rows i = none := by
  induction rows with
  | nil => intro i _; rfl
  | cons c rest ih =>
    intro i h
    simp only [free_find_end]
    rw [if_neg (fun e => h c (List.mem_cons_self _ _) e.symm)]
    exact ih (i + 1) (fun r hr => h r (List.mem_cons_of_mem _ hr))

/-- The `try` block of `free_` on a free list that holds no entry adjacent to
the freed block: the block is added at the end. -/
theorem free_try_no_neighbour (slabs : List SlabRow) (fs : List FreeRow)
    (ref size ref_end : Nat) (throws : Nat → Bool) (h6 : throws 6 = false)
    (hstart : ∀ r ∈ fs, r.ref ≠ to_int64 ref_end)
    (hend : ∀ r ∈ fs, to_ref (to_int64 (r.ref + r.size)) ≠ ref) :
    free_try slabs fs ref size ref_end throws = (fs ++ [⟨to_int64 ref, to_int64 size⟩], false) := by
  have h1 : free_merge_start slabs fs ref size ref_end throws = (fs, none, false) := by
    unfold free_merge_start
    rw [find_first_none _ _ (by
      intro x hx
      obtain ⟨r, hr, rfl⟩ := List.mem_map.1 hx
      exact hstart r hr)]
  unfold free_try
  rw [h1]
  simp only
  have h2 : (if find_first (slabs.map fun s => s.ref_end) (to_int64 ref) = none then
      free_find_end ref fs 0 else none) = none := by
    split_ifs
    · exact free_find_end_none ref fs 0 hend
    · rfl
  rw [h2]
  simp only [h6, Bool.false_eq_true, if_false]

/-- A throw inside the `try` block of `free_` comes from one of the six
statements marked `Throws`. -/
theorem free_try_threw (slabs : List SlabRow) (fs : List FreeRow)
    (ref size ref_end : Nat) (throws : Nat → Bool)
    (h : (free_try slabs fs ref size ref_end throws).2 = true) :
    ∃ k, 1 ≤ k ∧ k ≤ 6 ∧ throws k = true := by
  by_contra hno
  have hk : ∀ k, 1 ≤ k → k ≤ 6 → throws k = false := by
    intro k h1 h2
    by_contra hc
    exact hno ⟨k, h1, h2, by simpa using hc⟩
  have t1 := hk 1 (by omega) (by omega)
  have t2 := hk 2 (by omega) (by omega)
  have t3 := hk 3 (by omega) (by omega)
  have t4 := hk 4 (by omega) (by omega)
  have t5 := hk 5 (by omega) (by omega)
  have t6 := hk 6 (by omega) (by omega)
  have hms : (free_merge_start slabs fs ref size ref_end throws).2.2 = false := by
    unfold free_merge_start
    simp only [t1, t2, Bool.false_eq_true, if_false]
    split
    · rfl
    · split_ifs <;> rfl
  unfold free_try at h
  generalize free_merge_start slabs fs ref size ref_end throws = ms at hms h
  obtain ⟨fs2, merged_with, threw⟩ := ms
  simp only at hms
  subst hms
  simp only [t3, t4, t5, t6, Bool.false_eq_true, if_false] at h
  split at h
  · cases merged_with <;> simp at h
  · cases merged_with <;> simp at h

/-- The function `SlabAlloc::free_` on a state whose latch is set does
nothing. -/
theorem free_latched (a : SlabAlloc) (ref size : Nat) (throws : Nat → Bool)
    (h : a.m_free_space_invalid = true) : a.free_ ref size throws = a := by
  unfold SlabAlloc.free_
  dsimp only
  rw [if_pos h]

/-- The latch after `SlabAlloc::free_`: it is set when it was set before or a
statement of the `try` block threw, and only then. -/
theorem free_latch (a : SlabAlloc) (ref size : Nat) (throws : Nat → Bool)
    (h : (a.free_ ref size throws).m_free_space_invalid = true) :
    a.m_free_space_invalid = true ∨ ∃ k, 1 ≤ k ∧ k ≤ 6 ∧ throws k = true := by
  by_cases hinv : a.m_free_space_invalid = true
  · exact Or.inl hinv
  right
  unfold SlabAlloc.free_ at h
  dsimp only at h
  rw [if_neg hinv] at h
  split_ifs at h
  · exact free_try_threw _ _ _ _ _ _ h
  · exact free_try_threw _ _ _ _ _ _ h

/-- The function `SlabAlloc::free_` on a block of the read-only segment
leaves the free list of the slabs as it is. -/
theorem free_read_only_frame (a : SlabAlloc) (ref size : Nat) (throws : Nat → Bool)
    (href : ref < a.m_baseline) :
    (a.free_ ref size throws).m_free_space = a.m_free_space := by
  unfold SlabAlloc.free_
  dsimp only
  have hd : decide (ref < a.m_baseline) = true := by simpa using href
  simp only [hd, if_true]
  split_ifs <;> rfl

theorem tadc_eq_truncate (a : Array) (n : Nat) (fr : Fresh) :
    a.truncate_and_destroy_children n fr = a.truncate n fr := rfl

/-- The widths along a sequence of `add` calls are the running maximum of
`bit_width`. -/
theorem add_widths_spec : ∀ (vs : List Int) (a : Array) (frs : Nat → Fresh),
    a.attached → a.m_width = max_bit_width a.elems → (∀ v ∈ vs, is_int64 v) →
    a.m_size + vs.length ≤ 2097150 →
    add_widths a vs frs = some (width_trace a.m_width vs) := by
  intro vs
  induction vs with
  | nil => intro a frs _ _ _ _; rfl
  | cons v vs ih =>
    intro a frs h hinv hv hlen
    simp only [List.length_cons] at hlen
    obtain ⟨b, hb, b1, b2, b3, b4, _⟩ := insert_width_invariant a a.m_size v (frs 0) h
      (le_refl _) (hv v (List.mem_cons_self _ _)) (by omega) hinv
    have hbw : b.m_width = max (bit_width v) a.m_width := by
      rw [b4, b3, max_bit_width_insert, hinv]
    simp only [add_widths, Array.add, hb, Option.some_bind, width_trace]
    rw [ih b (fun k => frs (k + 1)) b1 b4 (fun x hx => hv x (List.mem_cons_of_mem _ hx))
      (by omega), hbw]
    rfl

theorem getD_append_last (xs : List SlabRow) (x : SlabRow) :
    (xs ++ [x]).getD xs.length ⟨0, 0⟩ = x := by
  rw [List.getD_eq_getElem?_getD, List.getElem?_append_right (le_refl _)]
  simp

theorem to_size_t_to_int64 (p : Nat) (h : p < 18446744073709551616) :
    to_size_t (to_int64 (p : Int)) = p := by
  unfold to_size_t to_uint64 to_int64
  omega

/-- The start of a slab that has just been appended to an ordered slab table
translates to the address of that slab. -/
theorem translate_new_slab (a2 : SlabAlloc) (old : List SlabRow) (new : SlabRow)
    (curr slab : Nat) (hsl : a2.m_slabs = old ++ [new]) (haddr : new.addr = to_int64 slab)
    (hslab : slab < 18446744073709551616)
    (hcurr : curr = if old.isEmpty = true then a2.m_baseline
      else to_size_t (old.getD (old.length - 1) ⟨0, 0⟩).ref_end)
    (hord : a2.slabs_ordered) : a2.translate curr = some slab := by
  obtain ⟨o1, o2⟩ := slabs_ordered_index a2 hord
  have hlen : a2.m_slabs.length = old.length + 1 := by
    rw [hsl, List.length_append, List.length_singleton]
  have hlastnew : a2.m_slabs.getD old.length ⟨0, 0⟩ = new := by
    rw [hsl, getD_append_last]
  have hprev : ∀ j, j < old.length → a2.m_slabs.getD j ⟨0, 0⟩ = old.getD j ⟨0, 0⟩ := by
    intro j hj
    rw [hsl, getD_append_left _ _ _ hj]
  have hnew := o1 old.length (by omega)
  rw [hlastnew] at hnew
  have e := to_size_t_to_int64 slab hslab
  by_cases hemp : old = []
  · subst hemp
    have hc : curr = a2.m_baseline := by rw [hcurr]; rfl
    simp only [List.length_nil] at hlastnew hnew
    obtain ⟨_, t2⟩ := translate_slab a2 curr 0 hord (by omega) (by omega)
      (by rw [if_pos rfl, hc])
      (by rw [hlastnew, hc]; exact hnew.1)
    rw [t2, if_pos rfl, hlastnew, haddr, e, hc]
    simp
  · have hpos : 0 < old.length := List.length_pos.2 hemp
    have hne : old.isEmpty = false := by
      cases old with
      | nil => exact absurd rfl hemp
      | cons x xs => rfl
    have hlast := o1 (old.length - 1) (by omega)
    have hlt := o2 (old.length - 1) old.length (by omega) (by omega)
    rw [hprev _ (by omega)] at hlast
    rw [hprev _ (by omega), hlastnew] at hlt
    have hc : curr = to_size_t (old.getD (old.length - 1) ⟨0, 0⟩).ref_end := by
      rw [hcurr, hne]
      rfl
    have hcv := to_size_t_of_nonneg (old.getD (old.length - 1) ⟨0, 0⟩).ref_end
      (by omega) (by unfold is_int64; omega)
    have hn0 : old.length ≠ 0 := by omega
    have hpl : a2.m_slabs.getD (old.length - 1) ⟨0, 0⟩ = old.getD (old.length - 1) ⟨0, 0⟩ :=
      hprev _ (by omega)
    generalize old.getD (old.length - 1) ⟨0, 0⟩ = last at hlast hlt hc hcv hpl
    generalize old.length = n at hlen hlastnew hn0 hpl
    obtain ⟨_, t2⟩ := translate_slab a2 curr n hord (by omega) (by omega)
      (by rw [if_neg hn0, hpl]; omega)
      (by rw [hlastnew]; omega)
    rw [t2, if_neg hn0, hlastnew, haddr, e, hpl, ← hc]
    simp

/-- The address in the `MemRef` that `alloc` returns is the translation of its
ref in the state that the call leaves, when the slab table of that state is
ordered. -/
theorem alloc_mem_translate (a a2 : SlabAlloc) (size : Nat) (new_slab : Option Nat)
    (mem : MemRef) (h : a.alloc_mem size new_slab = some (a2, .ok mem))
    (hptr : ∀ p, new_slab = some p → p < 18446744073709551616) (hord : a2.slabs_ordered) :
    a2.translate mem.m_ref = some mem.m_addr := by
  unfold SlabAlloc.alloc_mem at h
  by_cases hinv : a.m_free_space_invalid = true
  · rw [if_pos hinv] at h
    simp only [Option.some.injEq, Prod.mk.injEq] at h
    cases h.2
  rw [if_neg hinv] at h
  cases hfind : alloc_find size a.m_free_space 0 with
  | some i =>
    rw [hfind] at h
    dsimp only at h
    split at h
    · cases h
    · rename_i addr ht
      simp only [Option.some.injEq, Prod.mk.injEq, Except.ok.injEq] at h
      obtain ⟨rfl, rfl⟩ := h
      exact ht
  | none =>
    rw [hfind] at h
    cases new_slab with
    | none =>
      simp only [Option.some.injEq, Prod.mk.injEq] at h
      cases h.2
    | some slab =>
      have hslab := hptr slab rfl
      simp only [Option.some.injEq, Prod.mk.injEq, Except.ok.injEq] at h
      obtain ⟨h1, h2⟩ := h
      subst h1
      subst h2
      exact translate_new_slab _ a.m_slabs _ _ slab rfl rfl hslab rfl hord

theorem to_int64_small (x : Nat) (h : x ≤ 9223372036854775807) : to_int64 (x : Int) = x := by
  unfold to_int64; omega

theorem to_size_t_small (x : Nat) (h : x < 18446744073709551616) : to_size_t (x : Int) = x := by
  unfold to_size_t to_uint64; omega

theorem sz_small (x : Nat) (h : x < 18446744073709551616) : sz x = x := by
  unfold sz; omega

theorem to_int32_small (x : Nat) (h : x ≤ 2147483647) : to_int32 x = x := by
  unfold to_int32; omega

theorem round_1024 : sz ((size_sub 1024 1 ||| 255) + 1) = 1024 := by decide
theorem round_2048 : sz ((size_sub 2048 1 ||| 255) + 1) = 2048 := by decide

theorem reuse_step1 (b p1 : Nat) (hb : b + 7168 ≤ 9223372036854775807) :
    (fresh_slab_alloc b).alloc 1024 (some p1) =
      ({ fresh_slab_alloc b with m_slabs := [⟨((b + 1024 : Nat) : Int), to_int64 p1⟩] }, some b) := by
  unfold SlabAlloc.alloc fresh_slab_alloc
  simp only [alloc_find, List.isEmpty_nil, if_true, round_1024, Bool.false_eq_true, if_false]
  have e1 : sz (b + 1024) = b + 1024 := sz_small _ (by omega)
  have e2 : to_int64 ((b + 1024 : Nat) : Int) = ((b + 1024 : Nat) : Int) := to_int64_small _ (by omega)
  have e3 : size_sub 1024 (sz 1024) = 0 := by decide
  simp only [e1, e2, e3, List.nil_append, lt_irrefl, if_false]

theorem reuse_step2 (b p1 p2 : Nat) (hb : b + 7168 ≤ 9223372036854775807) :
    ({ m_baseline := b, m_slabs := [⟨((b + 1024 : Nat) : Int), to_int64 p1⟩],
       m_free_space := [], m_free_read_only := [], m_free_space_invalid := false } :
        SlabAlloc).alloc 2048 (some p2) =
      ({ m_baseline := b,
         m_slabs := [⟨((b + 1024 : Nat) : Int), to_int64 p1⟩,
                     ⟨((b + 3072 : Nat) : Int), to_int64 p2⟩],
         m_free_space := [], m_free_read_only := [], m_free_space_invalid := false },
       some (b + 1024)) := by
  unfold SlabAlloc.alloc
  have e0 : to_size_t ((b + 1024 : Nat) : Int) = b + 1024 := to_size_t_small _ (by omega)
  have e1 : sz (b + 1024 + 2048) = b + 3072 := by rw [sz_small _ (by omega)]
  have e2 : to_int64 ((b + 3072 : Nat) : Int) = ((b + 3072 : Nat) : Int) :=
    to_int64_small _ (by omega)
  have e3 : size_sub 2048 (sz 2048) = 0 := by decide
  have e4 : sz (2 * size_sub (b + 1024) b) = 2048 := by
    unfold sz size_sub; rw [if_pos (by omega)]; omega
  simp only [alloc_find, List.isEmpty_cons, Bool.false_eq_true, if_false, round_2048,
    List.length_singleton, if_true, List.getD_cons_zero, Nat.sub_self, e0, e1, e2, e3, e4,
    lt_irrefl, List.singleton_append]

theorem reuse_step3 (b p1 p2 p3 : Nat) (hb : b + 7168 ≤ 9223372036854775807) :
    ({ m_baseline := b,
       m_slabs := [⟨((b + 1024 : Nat) : Int), to_int64 p1⟩,
                   ⟨((b + 3072 : Nat) : Int), to_int64 p2⟩],
       m_free_space := [], m_free_read_only := [], m_free_space_invalid := false } :
        SlabAlloc).alloc 1024 (some p3) =
      ({ m_baseline := b,
         m_slabs := [⟨((b + 1024 : Nat) : Int), to_int64 p1⟩,
                     ⟨((b + 3072 : Nat) : Int), to_int64 p2⟩,
                     ⟨((b + 7168 : Nat) : Int), to_int64 p3⟩],
         m_free_space := [⟨((b + 4096 : Nat) : Int), 3072⟩], m_free_read_only := [],
         m_free_space_invalid := false },
       some (b + 3072)) := by
  unfold SlabAlloc.alloc
  have e0 : to_size_t ((b + 1024 : Nat) : Int) = b + 1024 := to_size_t_small _ (by omega)
  have e0b : to_size_t ((b + 3072 : Nat) : Int) = b + 3072 := to_size_t_small _ (by omega)
  have e1 : sz (b + 3072 + 4096) = b + 7168 := by rw [sz_small _ (by omega)]
  have e2 : to_int64 ((b + 7168 : Nat) : Int) = ((b + 7168 : Nat) : Int) :=
    to_int64_small _ (by omega)
  have e3 : size_sub 4096 (sz 1024) = 3072 := by decide
  have e4 : sz (2 * size_sub (b + 3072) (b + 1024)) = 4096 := by
    unfold sz size_sub; rw [if_pos (by omega)]; omega
  have e5 : sz (b + 3072 + 1024) = b + 4096 := by rw [sz_small _ (by omega)]
  have e6 : to_int64 ((b + 4096 : Nat) : Int) = ((b + 4096 : Nat) : Int) :=
    to_int64_small _ (by omega)
  have e7 : to_int64 ((3072 : Nat) : Int) = 3072 := by decide
  have e8 : (1024 : Nat) < 4096 := by decide
  have e9 : (0 : Nat) < 3072 := by decide
  have e10 : ¬ ((2 : Nat) = 1) := by decide
  simp only [alloc_find, List.isEmpty_cons, Bool.false_eq_true, if_false, round_1024,
    List.length_cons, List.length_nil, Nat.zero_add, Nat.reduceAdd, Nat.reduceSub,
    List.getD_cons_zero, List.getD_cons_succ, e0, e0b, e1, e2, e3, e4, e5, e6, e7, e8, e9, e10,
    if_true, List.cons_append, List.nil_append]

theorem reuse_step4 (b : Nat) (slabs : List SlabRow) (hb : b + 7168 ≤ 9223372036854775807) :
    ({ m_baseline := b, m_slabs := slabs,
       m_free_space := [⟨((b + 4096 : Nat) : Int), 3072⟩], m_free_read_only := [],
       m_free_space_invalid := false } : SlabAlloc).free_ (b + 1024) 2048 (fun _ => false) =
      { m_baseline := b, m_slabs := slabs,
        m_free_space := [⟨((b + 4096 : Nat) : Int), 3072⟩, ⟨((b + 1024 : Nat) : Int), 2048⟩],
        m_free_read_only := [], m_free_space_invalid := false } := by
  unfold SlabAlloc.free_
  have hro : decide (b + 1024 < b) = false := by simp
  have e1 : to_int64 ((b + 1024 : Nat) : Int) = ((b + 1024 : Nat) : Int) :=
    to_int64_small _ (by omega)
  have e2 : to_int64 ((2048 : Nat) : Int) = 2048 := by decide
  have hfree := free_try_no_neighbour slabs [⟨((b + 4096 : Nat) : Int), 3072⟩] (b + 1024) 2048
    (sz (b + 1024 + 2048)) (fun _ => false) rfl
    (by
      intro r hr
      rw [List.mem_singleton] at hr
      subst hr
      rw [sz_small _ (by omega), to_int64_small _ (by omega)]
      simp only [ne_eq, Nat.cast_inj]
      omega)
    (by
      intro r hr
      rw [List.mem_singleton] at hr
      subst hr
      unfold to_ref to_size_t to_uint64 to_int64
      simp only [ne_eq]
      omega)
  simp only [hro, Bool.false_eq_true, if_false, hfree, e1, e2, List.singleton_append]

theorem reuse_step5 (b : Nat) (slabs : List SlabRow) (hb : b + 7168 ≤ 9223372036854775807) :
    ({ m_baseline := b, m_slabs := slabs,
       m_free_space := [⟨((b + 4096 : Nat) : Int), 3072⟩, ⟨((b + 1024 : Nat) : Int), 2048⟩],
       m_free_read_only := [], m_free_space_invalid := false } : SlabAlloc).alloc 2048 none =
      ({ m_baseline := b, m_slabs := slabs,
         m_free_space := [⟨((b + 6144 : Nat) : Int), 1024⟩, ⟨((b + 1024 : Nat) : Int), 2048⟩],
         m_free_read_only := [], m_free_space_invalid := false }, some (b + 4096)) := by
  unfold SlabAlloc.alloc
  have e0 : to_int32 2048 ≤ (3072 : Int) := by decide
  have e1 : to_ref ((b + 4096 : Nat) : Int) = b + 4096 := to_size_t_small _ (by omega)
  have e2 : to_size_t ((3072 : Int) - ((2048 : Nat) : Int)) = 1024 := by decide
  have e3 : to_int64 (((b + 4096 : Nat) : Int) + ((to_uint32 2048 : Nat) : Int)) =
      ((b + 6144 : Nat) : Int) := by
    have : to_uint32 2048 = 2048 := by decide
    rw [this, ← to_int64_small (b + 6144) (by omega)]
    push_cast
    ring_nf
  have e4 : to_int64 ((1024 : Nat) : Int) = 1024 := by decide
  have e5 : ¬ ((1024 : Nat) = 0) := by decide
  simp only [alloc_find, e0, if_true, Bool.false_eq_true, if_false, List.getD_cons_zero, e1, e2,
    e3, e4, e5, List.set_cons_zero]

theorem reuse_step6 (b : Nat) (slabs : List SlabRow) (hb : b + 7168 ≤ 9223372036854775807) :
    ({ m_baseline := b, m_slabs := slabs,
       m_free_space := [⟨((b + 6144 : Nat) : Int), 1024⟩, ⟨((b + 1024 : Nat) : Int), 2048⟩],
       m_free_read_only := [], m_free_space_invalid := false } : SlabAlloc).alloc 2048 none =
      ({ m_baseline := b, m_slabs := slabs,
         m_free_space := [⟨((b + 6144 : Nat) : Int), 1024⟩],
         m_free_read_only := [], m_free_space_invalid := false }, some (b + 1024)) := by
  unfold SlabAlloc.alloc
  have e0 : ¬ (to_int32 2048 ≤ (1024 : Int)) := by decide
  have e0b : to_int32 2048 ≤ (2048 : Int) := by decide
  have e1 : to_ref ((b + 1024 : Nat) : Int) = b + 1024 := to_size_t_small _ (by omega)
  have e2 : to_size_t ((2048 : Int) - ((2048 : Nat) : Int)) = 0 := by decide
  simp only [alloc_find, e0, e0b, if_true, Bool.false_eq_true, if_false, List.getD_cons_zero,
    List.getD_cons_succ, Nat.zero_add, e1, e2, List.eraseIdx_cons_succ, List.eraseIdx_cons_zero]

theorem slab_reuse_spec (b p1 p2 p3 : Nat) (hb : b + 7168 ≤ 9223372036854775807) :
    (run_ops (fresh_slab_alloc b) [] (slab_reuse_ops b p1 p2 p3 2)).2 =
      [b, b + 1024, b + 3072, b + 4096, b + 1024] := by
  have s1 := reuse_step1 b p1 hb
  have s2 := reuse_step2 b p1 p2 hb
  have s3 := reuse_step3 b p1 p2 p3 hb
  have s4 := reuse_step4 b [⟨((b + 1024 : Nat) : Int), to_int64 p1⟩,
    ⟨((b + 3072 : Nat) : Int), to_int64 p2⟩, ⟨((b + 7168 : Nat) : Int), to_int64 p3⟩] hb
  have s5 := reuse_step5 b [⟨((b + 1024 : Nat) : Int), to_int64 p1⟩,
    ⟨((b + 3072 : Nat) : Int), to_int64 p2⟩, ⟨((b + 7168 : Nat) : Int), to_int64 p3⟩] hb
  have s6 := reuse_step6 b [⟨((b + 1024 : Nat) : Int), to_int64 p1⟩,
    ⟨((b + 3072 : Nat) : Int), to_int64 p2⟩, ⟨((b + 7168 : Nat) : Int), to_int64 p3⟩] hb
  unfold fresh_slab_alloc at s1
  simp only [slab_reuse_ops, List.replicate, List.cons_append, List.nil_append, run_ops,
    fresh_slab_alloc, s1, s2, s3, s4, s5, s6]

/-! ## Theorems: `Array::get_chunk` -/

/-- Bit `t` of a little-endian word of `n` bytes read at byte `q` is payload
bit `q * 8 + t`. -/
theorem read_le_bit (d : Mem) :
    ∀ (n q t : Nat), t < 8 * n → read_le d q n / 2 ^ t % 2 = mbit d (q * 8 + t) := by
  intro n
  induction n with
  | zero => intro q t ht; omega
  | succ n ih =>
    intro q t ht
    simp only [read_le]
    by_cases h8 : t < 8
    · rw [mbit_byte d q t h8]
      generalize read_le d (q + 1) n = R
      generalize d q = x
      interval_cases t <;> omega
    · obtain ⟨s, rfl⟩ : ∃ s, t = 8 + s := ⟨t - 8, by omega⟩
      have e : (d q % 256 + 256 * read_le d (q + 1) n) / 2 ^ (8 + s) =
          read_le d (q + 1) n / 2 ^ s := by
        rw [pow_add, ← Nat.div_div_eq_div_mul]
        congr 1
        omega
      rw [e, ih (q + 1) s (by omega)]
      congr 1
      omega

theorem field_shift_eq (x y s s2 w : Nat)
    (h : ∀ t, t < w → x / 2 ^ (s + t) % 2 = y / 2 ^ (s2 + t) % 2) :
    x / 2 ^ s % 2 ^ w = y / 2 ^ s2 % 2 ^ w := by
  apply mod_two_pow_eq_of_bits
  intro t ht
  rw [Nat.div_div_eq_div_mul, Nat.div_div_eq_div_mul, ← pow_add, ← pow_add]
  exact h t ht

/-- The fast path of `get_chunk` at width 1 reads element `ndx + j`. -/
theorem get_chunk_fast_1 (d : Mem) (ndx j : Nat) (hj : j < 8) :
    read_le d (ndx / 8) 2 / 2 ^ (ndx - ndx / 8 * 8) / 2 ^ j % 2 =
      d ((ndx + j) / 8) / 2 ^ ((ndx + j) % 8) % 2 := by
  rw [Nat.div_div_eq_div_mul, ← pow_add]
  have := field_shift_eq (read_le d (ndx / 8) 2) (d ((ndx + j) / 8)) (ndx - ndx / 8 * 8 + j)
    ((ndx + j) % 8) 1 (fun t ht => by
      rw [read_le_bit d 2 _ _ (by omega), ← mbit_byte d _ _ (by omega)]
      congr 1
      omega)
  simpa using this

/-- The fast path of `get_chunk` at width 2 reads element `ndx + j`. -/
theorem get_chunk_fast_2 (d : Mem) (ndx j : Nat) (hj : j < 8) :
    read_le d (ndx / 4) 4 / 2 ^ ((ndx - ndx / 4 * 4) * 2) / 2 ^ (j * 2) % 4 =
      d ((ndx + j) / 4) / 2 ^ (2 * ((ndx + j) % 4)) % 4 := by
  rw [Nat.div_div_eq_div_mul, ← pow_add]
  have := field_shift_eq (read_le d (ndx / 4) 4) (d ((ndx + j) / 4))
    ((ndx - ndx / 4 * 4) * 2 + j * 2) (2 * ((ndx + j) % 4)) 2 (fun t ht => by
      rw [read_le_bit d 4 _ _ (by omega), ← mbit_byte d _ _ (by omega)]
      congr 1
      omega)
  simpa using this

/-- The fast path of `get_chunk` at width 4 reads element `ndx + j`. -/
theorem get_chunk_fast_4 (d : Mem) (ndx j : Nat) (hj : j < 8) :
    read_le d (ndx / 2) 8 / 2 ^ ((ndx - ndx / 2 * 2) * 4) / 2 ^ (j * 4) % 16 =
      d ((ndx + j) / 2) / 2 ^ (4 * ((ndx + j) % 2)) % 16 := by
  rw [Nat.div_div_eq_div_mul, ← pow_add]
  have := field_shift_eq (read_le d (ndx / 2) 8) (d ((ndx + j) / 2))
    ((ndx - ndx / 2 * 2) * 4 + j * 4) (4 * ((ndx + j) % 2)) 4 (fun t ht => by
      rw [read_le_bit d 8 _ _ (by omega), ← mbit_byte d _ _ (by omega)]
      congr 1
      omega)
  simpa using this

theorem list_length_8 (res : List Int) (h : res.length = 8) :
    ∃ r0 r1 r2 r3 r4 r5 r6 r7, res = [r0, r1, r2, r3, r4, r5, r6, r7] := by
  match res, h with
  | [r0, r1, r2, r3, r4, r5, r6, r7], _ => exact ⟨r0, r1, r2, r3, r4, r5, r6, r7, rfl⟩

theorem getD_set_int (res : List Int) (i j : Nat) (v : Int) (hi : i < res.length) :
    (res.set i v).getD j 0 = if j = i then v else res.getD j 0 := by
  simp only [List.getD_eq_getElem?_getD, List.getElem?_set]
  by_cases h : i = j
  · subst h
    simp [hi]
  · rw [if_neg h, if_neg (fun e => h e.symm)]

/-- The reading loop of `get_chunk`: it stops at the first position that is
past the end of the array or at 8, and has read every position before. -/
theorem get_chunk_read_loop_spec (w : Nat) (d : Mem) (m ndx : Nat)
    (hn : ndx + 8 < 18446744073709551616) :
    ∀ (fuel i : Nat) (res : List Int), i + fuel = 8 → res.length = 8 →
      i ≤ (get_chunk_read_loop w d m ndx fuel i res).1 ∧
      (get_chunk_read_loop w d m ndx fuel i res).1 ≤ 8 ∧
      (get_chunk_read_loop w d m ndx fuel i res).2.length = 8 ∧
      ((get_chunk_read_loop w d m ndx fuel i res).1 < 8 →
        ¬ (get_chunk_read_loop w d m ndx fuel i res).1 + ndx < m) ∧
      (∀ j, i ≤ j → j < (get_chunk_read_loop w d m ndx fuel i res).1 →
        j + ndx < m ∧
        (get_chunk_read_loop w d m ndx fuel i res).2.getD j 0 = get_direct w d (ndx + j)) ∧
      (∀ j, j < i → (get_chunk_read_loop w d m ndx fuel i res).2.getD j 0 = res.getD j 0) := by
  intro fuel
  induction fuel with
  | zero =>
    intro i res hi hres
    simp only [get_chunk_read_loop]
    refine ⟨le_refl _, by omega, hres, fun h => by omega, fun j h1 h2 => by omega, ?_⟩
    first | trivial | (intros; first | rfl | trivial)
  | succ fuel ih =>
    intro i res hi hres
    simp only [get_chunk_read_loop]
    have hsz : sz (i + ndx) = i + ndx := sz_small _ (by omega)
    have hsz2 : sz (ndx + i) = ndx + i := sz_small _ (by omega)
    rw [hsz, hsz2]
    by_cases hc : i + ndx < m ∧ i < 8
    · rw [if_pos hc]
      obtain ⟨h1, h2, h3, h4, h5, h6⟩ := ih (i + 1) (res.set i (get_direct w d (ndx + i)))
        (by omega) (by rw [List.length_set]; exact hres)
      refine ⟨by omega, h2, h3, h4, fun j hj1 hj2 => ?_, fun j hj => ?_⟩
      · by_cases hji : j = i
        · subst hji
          refine ⟨hc.1, ?_⟩
          rw [h6 j (by omega), getD_set_int _ _ _ _ (by omega), if_pos rfl]
        · exact h5 j (by omega) hj2
      · rw [h6 j (by omega), getD_set_int _ _ _ _ (by omega), if_neg (by omega)]
    · rw [if_neg hc]
      refine ⟨le_refl _, by omega, hres, fun h => ?_, fun j h1 h2 => by omega, ?_⟩
      · intro hlt
        exact hc ⟨hlt, h⟩
      · exact fun _ _ => rfl

/-- The zeroing loop of `get_chunk`: every position from `i` on is set to 0. -/
theorem get_chunk_zero_loop_spec :
    ∀ (fuel i : Nat) (res : List Int), 8 ≤ i + fuel → res.length = 8 →
      (get_chunk_zero_loop fuel i res).length = 8 ∧
      ∀ j, j < 8 → (get_chunk_zero_loop fuel i res).getD j 0 = if i ≤ j then 0 else res.getD j 0 := by
  intro fuel
  induction fuel with
  | zero =>
    intro i res hi hres
    simp only [get_chunk_zero_loop]
    refine ⟨hres, fun j hj => ?_⟩
    rw [if_neg (by omega)]
  | succ fuel ih =>
    intro i res hi hres
    simp only [get_chunk_zero_loop]
    by_cases h8 : i < 8
    · rw [if_pos h8]
      obtain ⟨h1, h2⟩ := ih (i + 1) (res.set i 0) (by omega) (by rw [List.length_set]; exact hres)
      refine ⟨h1, fun j hj => ?_⟩
      rw [h2 j hj, getD_set_int _ _ _ _ (by omega)]
      by_cases hji : j = i
      · subst hji
        simp
      · by_cases hle : i + 1 ≤ j
        · rw [if_pos hle, if_pos (by omega)]
        · rw [if_neg hle, if_neg hji, if_neg (by omega)]
    · rw [if_neg h8]
      refine ⟨hres, fun j hj => ?_⟩
      rw [if_neg (by omega)]

/-- The element-wise path of `get_chunk`. -/
theorem get_chunk_slow_spec (w : Nat) (d : Mem) (m ndx : Nat) (res : List Int)
    (hn : ndx + 8 < 18446744073709551616) (hres : res.length = 8) :
    (get_chunk_zero_loop 8 (get_chunk_read_loop w d m ndx 8 0 res).1
      (get_chunk_read_loop w d m ndx 8 0 res).2).length = 8 ∧
    ∀ j, j < 8 →
      (get_chunk_zero_loop 8 (get_chunk_read_loop w d m ndx 8 0 res).1
        (get_chunk_read_loop w d m ndx 8 0 res).2).getD j 0 =
        if ndx + j < m then get_direct w d (ndx + j) else 0 := by
  obtain ⟨_, h2, h3, h4, h5, _⟩ := get_chunk_read_loop_spec w d m ndx hn 8 0 res (by omega) hres
  generalize get_chunk_read_loop w d m ndx 8 0 res = r at h2 h3 h4 h5
  obtain ⟨z1, z2⟩ := get_chunk_zero_loop_spec 8 r.1 r.2 (by omega) h3
  refine ⟨z1, fun j hj => ?_⟩
  rw [z2 j hj]
  by_cases hle : r.1 ≤ j
  · rw [if_pos hle, if_neg]
    intro hlt
    have := h4 (by omega)
    omega
  · rw [if_neg hle]
    obtain ⟨g1, g2⟩ := h5 j (by omega) (by omega)
    rw [g2, if_pos (by omega)]

/-- The word-read-and-shift path of `get_chunk`, for widths 1, 2 and 4: the
eight values are those of eight element-wise reads. -/
theorem get_chunk_fast_spec (w : Nat) (hw : w = 1 ∨ w = 2 ∨ w = 4) (a : Array) (ndx : Nat)
    (res : List Int) (hndx : ndx < a.m_size) (hres : res.length = 8)
    (hbig : sz (ndx + 32) < a.m_size) (hn : ndx + 32 < 18446744073709551616) :
    a.get_chunk w ndx res true =
      some ((List.range 8).map fun j => get_direct w a.m_data (ndx + j)) := by
  obtain ⟨r0, r1, r2, r3, r4, r5, r6, r7, rfl⟩ := list_length_8 res hres
  unfold Array.get_chunk
  rw [if_neg (by omega), if_pos ⟨rfl, hw, hbig⟩]
  have hm1 : sub64 (1 <<< 1) 1 = 1 := by decide
  have hm2 : sub64 (1 <<< 2) 1 = 3 := by decide
  have hm4 : sub64 (1 <<< 4) 1 = 15 := by decide
  have a3 : ∀ x : Nat, x &&& 3 = x % 4 := fun x => Nat.and_pow_two_sub_one_eq_mod x 2
  have a15 : ∀ x : Nat, x &&& 15 = x % 16 := fun x => Nat.and_pow_two_sub_one_eq_mod x 4
  have hr : List.range 8 = [0, 1, 2, 3, 4, 5, 6, 7] := by decide
  have hss : ∀ k, k = 8 ∨ k = 4 ∨ k = 2 →
      size_sub ndx (sz (ndx / k * k)) = ndx - ndx / k * k := by
    intro k hk
    have : ndx / k * k ≤ ndx := Nat.div_mul_le_self ndx k
    rw [sz_small _ (by omega)]
    unfold size_sub
    rw [if_pos this]
  rcases hw with rfl | rfl | rfl
  · simp only [hm1, Nat.shiftRight_eq_div_pow, Nat.and_one_is_mod, List.set_cons_zero,
      List.set_cons_succ, show no0 1 = 1 by decide, if_true, if_false,
      Nat.reduceDiv, Nat.div_one, Nat.reduceEqDiff, Nat.reduceGT, Nat.reduceLT, Nat.reduceMul,
      Nat.mul_one, Nat.one_mul, Nat.zero_mul, hss 8 (Or.inl rfl), hr, List.map, get_direct,
      Option.some.injEq, List.cons.injEq, and_true, Nat.cast_inj, Nat.add_zero]
    have f := get_chunk_fast_1 a.m_data ndx
    refine ⟨?_, ?_, ?_, ?_, ?_, ?_, ?_, ?_⟩
    · simpa using f 0 (by omega)
    · simpa using f 1 (by omega)
    · simpa using f 2 (by omega)
    · simpa using f 3 (by omega)
    · simpa using f 4 (by omega)
    · simpa using f 5 (by omega)
    · simpa using f 6 (by omega)
    · simpa using f 7 (by omega)
  · simp only [hm2, a3, Nat.shiftRight_eq_div_pow, List.set_cons_zero,
      List.set_cons_succ, show no0 2 = 2 by decide, if_true, if_false,
      Nat.reduceDiv, Nat.div_one, Nat.reduceEqDiff, Nat.reduceGT, Nat.reduceLT, Nat.reduceMul,
      Nat.mul_one, Nat.one_mul, Nat.zero_mul, hss 4 (Or.inr (Or.inl rfl)), hr, List.map,
      get_direct, Option.some.injEq, List.cons.injEq, and_true, Nat.cast_inj, Nat.add_zero]
    have f := get_chunk_fast_2 a.m_data ndx
    refine ⟨?_, ?_, ?_, ?_, ?_, ?_, ?_, ?_⟩
    · simpa using f 0 (by omega)
    · simpa using f 1 (by omega)
    · simpa using f 2 (by omega)
    · simpa using f 3 (by omega)
    · simpa using f 4 (by omega)
    · simpa using f 5 (by omega)
    · simpa using f 6 (by omega)
    · simpa using f 7 (by omega)
  · simp only [hm4, a15, Nat.shiftRight_eq_div_pow, List.set_cons_zero,
      List.set_cons_succ, show no0 4 = 4 by decide, if_true, if_false,
      Nat.reduceDiv, Nat.div_one, Nat.reduceEqDiff, Nat.reduceGT, Nat.reduceLT, Nat.reduceMul,
      Nat.mul_one, Nat.one_mul, Nat.zero_mul, hss 2 (Or.inr (Or.inr rfl)), hr, List.map,
      get_direct, Option.some.injEq, List.cons.injEq, and_true, Nat.cast_inj, Nat.add_zero]
    have f := get_chunk_fast_4 a.m_data ndx
    refine ⟨?_, ?_, ?_, ?_, ?_, ?_, ?_, ?_⟩
    · simpa using f 0 (by omega)
    · simpa using f 1 (by omega)
    · simpa using f 2 (by omega)
    · simpa using f 3 (by omega)
    · simpa using f 4 (by omega)
    · simpa using f 5 (by omega)
    · simpa using f 6 (by omega)
    · simpa using f 7 (by omega)

/-! ## Theorems: `Array::adjust_ge` -/

theorem to_int64_is_int64 (x : Int) : is_int64 (to_int64 x) := by
  unfold is_int64 to_int64
  omega

theorem to_int64_of_is_int64 (x : Int) (h : is_int64 x) : to_int64 x = x := by
  unfold is_int64 at h
  unfold to_int64
  omega

/-- The function `Array::ensure_minimum_width`: the width grows to `bit_width(v)`
when `v` lies outside the bounds, and the elements are kept. -/
theorem ensure_minimum_width_spec (a : Array) (v : Int) (fr : Fresh) (h : a.attached)
    (hv : is_int64 v) (hpos : 1 ≤ a.m_size)
    (hroom : calc_byte_len a.m_size (bit_width v) ≤ max_array_payload) :
    ∃ b, a.ensure_minimum_width v fr = some b ∧ b.attached ∧ b.m_size = a.m_size ∧
      b.m_width = (if v < a.m_lbound ∨ v > a.m_ubound then bit_width v else a.m_width) ∧
      (∀ j, j < a.m_size → b.get j = a.get j) ∧
      b.m_is_inner_bptree_node = a.m_is_inner_bptree_node ∧ b.m_has_refs = a.m_has_refs ∧
      b.m_context_flag = a.m_context_flag := by
  have hat := h
  obtain ⟨k1, k2, k3, k4, k5, k6, k7, k8⟩ := h
  obtain ⟨m1, m2, m3, _⟩ := bit_width_minimal v hv
  unfold Array.ensure_minimum_width
  by_cases hin : v ≥ a.m_lbound ∧ v ≤ a.m_ubound
  · rw [if_pos hin, if_neg (by omega)]
    exact ⟨a, rfl, hat, rfl, rfl, fun _ _ => rfl, rfl, rfl, rfl⟩
  · rw [if_neg hin]
    have hout : v < a.m_lbound ∨ v > a.m_ubound := by omega
    rw [if_pos hout]
    have hlt : a.m_width < bit_width v :=
      bit_width_gt_of_not_fits _ k1 v hv (by rw [← k2, ← k3]; omega)
    unfold Array.do_ensure_minimum_width
    rw [if_neg (by omega)]
    obtain ⟨b0, hb0, r1, r2, r3, r4, r5, r6, r7, r8, r9, r10, r11, r12, r13, r14, r15, r16⟩ :=
      alloc_spec a a.m_size (bit_width v) fr hat m1 k4 hpos hroom
    simp only [hb0, Option.map_some', Array.set_width]
    obtain ⟨_, eb⟩ := expand_loop_spec a.m_width (bit_width v) k1 m1 (by omega) b0.m_size
      b0.m_data
    refine ⟨_, rfl, ⟨m1, rfl, rfl, ?_, ?_, r7, ?_, fun _ => ⟨r11, r12, ?_, r14, ?_⟩⟩,
      r2, rfl, fun j hj => ?_, r8, r9, r10⟩
    · show b0.m_size ≤ 0xFFFFFF
      omega
    · show b0.hdr_size = b0.m_size
      omega
    · show calc_byte_len b0.m_size (bit_width v) ≤ max_array_payload
      rw [r2]; exact hroom
    · show calc_byte_len b0.m_size (bit_width v) ≤ b0.hdr_capacity
      rw [r2]; exact r13
    · show b0.hdr_capacity ≤ max_array_payload + 1
      simp only [max_array_payload]; omega
    · show get_direct (bit_width v) (expand_loop a.m_width (bit_width v) b0.m_size b0.m_data) j =
        a.get j
      rw [eb j (by omega), get_direct_alloc_kept a b0 hat r16 j hj]
      rfl

theorem width_rank_lt (w w2 : Nat) (hw : w ∈ widths) (hw2 : w2 ∈ widths) (h : w < w2) :
    width_rank w2 < width_rank w := by
  rw [mem_widths] at hw hw2
  rcases hw with rfl | rfl | rfl | rfl | rfl | rfl | rfl | rfl <;>
    rcases hw2 with rfl | rfl | rfl | rfl | rfl | rfl | rfl | rfl <;>
    first | omega | decide

theorem width_rank_le (w : Nat) : width_rank w ≤ 7 := by
  unfold width_rank widths
  have := List.length_filter_le (fun x => decide (w < x)) [0, 1, 2, 4, 8, 16, 32, 64]
  by_cases h0 : w < 0
  · omega
  · simp only [List.filter_cons, h0, decide_False, Bool.false_eq_true, if_false]
    have := List.length_filter_le (fun x => decide (w < x)) [1, 2, 4, 8, 16, 32, 64]
    simp only [List.length_cons, List.length_nil] at this
    simp only [List.filter_cons] at this
    omega

/-- Storing a value that fits the width at position `i` of an attached
writable array. -/
theorem set_data_attached (c : Array) (d : Mem) (h : c.attached) :
    ({ c with m_data := d } : Array).attached := h

/-- One pass of the template `adjust_ge<w>` over the last `k` positions: the
positions it has gone over are adjusted, the others are as before, and it
stops early only after the width has grown. -/
theorem adjust_ge_w_spec (limit diff : Int) (n : Nat) (frs : Nat → Fresh) :
    ∀ (k : Nat) (a : Array) (w : Nat), a.m_width = w → a.attached → a.m_size = n → k ≤ n →
      (∀ j, n - k ≤ j → j < n → a.get j ≥ limit →
        calc_byte_len n (bit_width (to_int64 (a.get j + diff))) ≤ max_array_payload) →
      ∃ b p, adjust_ge_w w limit diff n frs k a = some (b, p) ∧ b.attached ∧
        b.m_size = n ∧ n - k ≤ p ∧ p ≤ n ∧
        (∀ t, t < n → b.get t =
          if n - k ≤ t ∧ t < p ∧ a.get t ≥ limit then to_int64 (a.get t + diff) else a.get t) ∧
        (p < n → w < b.m_width) := by
  intro k
  induction k with
  | zero =>
    intro a w _ hat hn _ _
    refine ⟨a, n, rfl, hat, hn, by omega, le_refl _, fun t ht => ?_, fun h => by omega⟩
    rw [if_neg (by omega)]
  | succ k ih =>
    intro a w hwa hat hn hk hroom
    subst hwa
    simp only [adjust_ge_w]
    have hi : n - (k + 1) < n := by omega
    generalize hidef : n - (k + 1) = i at hi
    have hnk : n - k = i + 1 := by omega
    have hgi : get_direct a.m_width a.m_data i = a.get i := rfl
    rw [hgi]
    by_cases hge : a.get i ≥ limit
    · rw [if_pos hge]
      have hsh := to_int64_is_int64 (a.get i + diff)
      generalize hshd : to_int64 (a.get i + diff) = shifted at hsh
      have hr := hroom i (by omega) hi hge
      rw [hshd] at hr
      obtain ⟨b, hb, b1, b2, b3, b4, _⟩ :=
        ensure_minimum_width_spec a shifted (frs i) hat hsh (by omega) (by rw [hn]; exact hr)
      rw [hb]
      dsimp only
      obtain ⟨c1, c2, c3, c4, c5, c6, _, _, _, c10⟩ :=
        copy_on_write_spec b ((frs i).drop 2 0) b1
      generalize b.copy_on_write ((frs i).drop 2 0) = c at c1 c2 c3 c4 c5 c6 c10
      by_cases hw : c.m_width ≠ a.m_width
      · rw [if_pos hw]
        refine ⟨c, i, rfl, c1, by omega, by omega, by omega, fun t ht => ?_, fun _ => ?_⟩
        · rw [if_neg (by omega), c10 t (by omega), b4 t (by omega)]
        · rw [c4, b3] at hw ⊢
          by_cases hout : shifted < a.m_lbound ∨ shifted > a.m_ubound
          · rw [if_pos hout]
            obtain ⟨k1, k2, k3, _⟩ := hat
            exact bit_width_gt_of_not_fits _ k1 shifted hsh (by rw [← k2, ← k3]; exact hout)
          · rw [if_neg hout] at hw
            exact absurd rfl hw
      · rw [if_neg hw]
        have hweq : c.m_width = a.m_width := by
          by_contra hne
          exact hw hne
        have hfit : ¬ (shifted < a.m_lbound ∨ shifted > a.m_ubound) := by
          intro hout
          rw [c4, b3, if_pos hout] at hweq
          obtain ⟨k1, k2, k3, _⟩ := hat
          have := bit_width_gt_of_not_fits _ k1 shifted hsh (by rw [← k2, ← k3]; exact hout)
          omega
        obtain ⟨k1, k2, k3, _⟩ := hat
        have hg := get_set_direct a.m_width k1 c.m_data i
        have hcget : ∀ t, t < n → c.get t = a.get t := fun t ht => by
          rw [c10 t (by omega), b4 t (by omega)]
        have hc2get : ∀ t, ({ c with m_data := set_direct a.m_width c.m_data i shifted } :
            Array).get t = if t = i then shifted else c.get t := by
          intro t
          show get_direct c.m_width (set_direct a.m_width c.m_data i shifted) t = _
          rw [hweq, hg t shifted (by rw [← k2]; omega) (by rw [← k3]; omega)]
          unfold Array.get
          rw [hweq]
        have hc2at := set_data_attached c (set_direct a.m_width c.m_data i shifted) c1
        obtain ⟨r, p, hr1, hr2, hr3, hr4, hr5, hr6, hr7⟩ :=
          ih { c with m_data := set_direct a.m_width c.m_data i shifted } a.m_width hweq hc2at
            (by show c.m_size = n; omega) (by omega)
            (fun j hj1 hj2 hj3 => by
              rw [hc2get j, if_neg (by omega), hcget j hj2] at hj3 ⊢
              exact hroom j (by omega) hj2 hj3)
        refine ⟨r, p, hr1, hr2, hr3, by omega, hr5, fun t ht => ?_, hr7⟩
        rw [hr6 t ht, hc2get t]
        by_cases hti : t = i
        · subst hti
          rw [if_pos rfl, if_neg (by omega), if_pos ⟨by omega, by omega, hge⟩, hshd]
        · rw [if_neg hti, hcget t ht]
          by_cases hc : n - k ≤ t ∧ t < p ∧ a.get t ≥ limit
          · rw [if_pos hc, if_pos ⟨by omega, hc.2.1, hc.2.2⟩]
          · rw [if_neg hc, if_neg]
            intro hc2
            exact hc ⟨by omega, hc2.2.1, hc2.2.2⟩
    · rw [if_neg hge]
      obtain ⟨r, p, hr1, hr2, hr3, hr4, hr5, hr6, hr7⟩ :=
        ih a a.m_width rfl hat hn (by omega) (fun j hj1 hj2 hj3 => hroom j (by omega) hj2 hj3)
      refine ⟨r, p, hr1, hr2, hr3, by omega, hr5, fun t ht => ?_, hr7⟩
      rw [hr6 t ht]
      by_cases hc : n - k ≤ t ∧ t < p ∧ a.get t ≥ limit
      · rw [if_pos hc, if_pos ⟨by omega, hc.2.1, hc.2.2⟩]
      · rw [if_neg hc, if_neg]
        intro hc2
        by_cases hti : t = i
        · subst hti
          exact hge hc2.2.2
        · exact hc ⟨by omega, hc2.2.1, hc2.2.2⟩

/-- The re-dispatch loop of `adjust_ge` ends within one pass more than there
are widths above the current one, with every position from `i` on adjusted. -/
theorem adjust_ge_loop_spec (limit diff : Int) (n : Nat) :
    ∀ (fuel i : Nat) (a : Array) (frs : Nat → Nat → Fresh), a.attached → a.m_size = n → i ≤ n →
      width_rank a.m_width + 2 ≤ fuel →
      (∀ j, i ≤ j → j < n → a.get j ≥ limit →
        calc_byte_len n (bit_width (to_int64 (a.get j + diff))) ≤ max_array_payload) →
      ∃ b, adjust_ge_loop limit diff n fuel i a frs = some b ∧ b.attached ∧ b.m_size = n ∧
        ∀ t, t < n → b.get t =
          if i ≤ t ∧ a.get t ≥ limit then to_int64 (a.get t + diff) else a.get t := by
  intro fuel
  induction fuel with
  | zero => intro i a frs _ _ _ hf _; omega
  | succ fuel ih =>
    intro i a frs hat hn hi hf hroom
    simp only [adjust_ge_loop]
    by_cases hin : i = n
    · rw [if_pos hin]
      refine ⟨a, rfl, hat, hn, fun t ht => ?_⟩
      rw [if_neg (by omega)]
    · rw [if_neg hin]
      obtain ⟨b, p, hb, b1, b2, b3, b4, b5, b6⟩ :=
        adjust_ge_w_spec limit diff n (frs 0) (n - i) a a.m_width rfl hat hn (by omega)
          (fun j hj1 hj2 hj3 => hroom j (by omega) hj2 hj3)
      rw [hb]
      dsimp only
      have hni : n - (n - i) = i := by omega
      rw [hni] at b3 b5
      by_cases hp : p = n
      · subst hp
        cases fuel with
        | zero => omega
        | succ f =>
          simp only [adjust_ge_loop, if_true]
          refine ⟨b, rfl, b1, b2, fun t ht => ?_⟩
          rw [b5 t ht]
          by_cases hc : i ≤ t ∧ a.get t ≥ limit
          · rw [if_pos hc, if_pos ⟨hc.1, by omega, hc.2⟩]
          · rw [if_neg hc, if_neg]
            intro hc2
            exact hc ⟨hc2.1, hc2.2.2⟩
      · have hlt := b6 (by omega)
        have hrank := width_rank_lt a.m_width b.m_width hat.1 b1.1 hlt
        have hbget : ∀ t, p ≤ t → t < n → b.get t = a.get t := fun t h1 h2 => by
          rw [b5 t h2, if_neg (by omega)]
        obtain ⟨r, hr1, hr2, hr3, hr4⟩ := ih p b (fun k => frs (k + 1)) b1 b2 b4 (by omega)
          (fun j hj1 hj2 hj3 => by
            rw [hbget j hj1 hj2] at hj3 ⊢
            exact hroom j (by omega) hj2 hj3)
        refine ⟨r, hr1, hr2, hr3, fun t ht => ?_⟩
        rw [hr4 t ht]
        by_cases hpt : p ≤ t
        · rw [hbget t hpt ht]
          by_cases hc : a.get t ≥ limit
          · rw [if_pos ⟨hpt, hc⟩, if_pos ⟨by omega, hc⟩]
          · rw [if_neg (fun h => hc h.2), if_neg (fun h => hc h.2)]
        · rw [if_neg (fun h => hpt h.1), b5 t ht]
          by_cases hc : i ≤ t ∧ a.get t ≥ limit
          · rw [if_pos hc, if_pos ⟨hc.1, by omega, hc.2⟩]
          · rw [if_neg hc, if_neg]
            intro hc2
            exact hc ⟨hc2.1, hc2.2.2⟩

/-- The function `Array::adjust_ge`: the call returns, the size is unchanged and every
element that is at least `limit` is shifted by `diff`, once. -/
theorem adjust_ge_spec (a : Array) (limit diff : Int) (frs : Nat → Nat → Fresh)
    (h : a.attached)
    (hroom : ∀ j, j < a.m_size → a.get j ≥ limit →
      calc_byte_len a.m_size (bit_width (to_int64 (a.get j + diff))) ≤ max_array_payload) :
    ∃ b, a.adjust_ge limit diff frs = some b ∧ b.attached ∧ b.m_size = a.m_size ∧
      ∀ i, i < a.m_size → b.get i =
        if a.get i ≥ limit then to_int64 (a.get i + diff) else a.get i := by
  unfold Array.adjust_ge
  by_cases hd : diff ≠ 0
  · rw [if_pos hd]
    obtain ⟨b, hb, b1, b2, b3⟩ := adjust_ge_loop_spec limit diff a.m_size 9 0 a frs h rfl
      (by omega) (by have := width_rank_le a.m_width; omega)
      (fun j _ hj2 hj3 => hroom j hj2 hj3)
    refine ⟨b, hb, b1, b2, fun i hi => ?_⟩
    rw [b3 i hi]
    by_cases hc : a.get i ≥ limit
    · rw [if_pos ⟨by omega, hc⟩, if_pos hc]
    · rw [if_neg (fun h => hc h.2), if_neg hc]
  · rw [if_neg hd]
    have hd0 : diff = 0 := by
      by_contra hne
      exact hd hne
    subst hd0
    refine ⟨a, rfl, h, rfl, fun i hi => ?_⟩
    rw [Int.add_zero, to_int64_of_is_int64 _ (get_is_int64 a h i)]
    simp

/-! ## Theorems: `Array::find_gte` -/

theorem size_sub_small (a b : Nat) (h : b ≤ a) : size_sub a b = a - b := by
  unfold size_sub
  rw [if_pos h]

/-- The probing loop of `find_gte` ends before `fuel` runs out; on exit the
element at `start` is below the target unless `start` has not moved, and the
element at `start + test_ndx`, if there is one, is not below the target. -/
theorem find_gte_probe_spec (w : Nat) (d : Mem) (target : Int) (e : Nat)
    (he : e ≤ 0xFFFFFF) :
    ∀ (fuel st tn : Nat), st < e → 1 ≤ tn → tn ≤ st + 1 → e - st ≤ fuel →
      ∃ st2 tn2, find_gte_probe w d target e fuel st tn = some (st2, tn2) ∧ st ≤ st2 ∧
        st2 < e ∧ 1 ≤ tn2 ∧ tn2 ≤ st2 + 1 ∧ (st2 = st ∨ get_direct w d st2 < target) ∧
        ¬ (st2 + tn2 < e ∧ get_direct w d (st2 + tn2) < target) := by
  intro fuel
  induction fuel with
  | zero => intro st tn h1 _ _ h4; omega
  | succ fuel ih =>
    intro st tn h1 h2 h3 h4
    simp only [find_gte_probe]
    have e1 : sz (st + tn) = st + tn := sz_small _ (by omega)
    have e2 : sz (tn * 2) = tn * 2 := sz_small _ (by omega)
    rw [e1, e2]
    by_cases hc : st + tn < e ∧ get_direct w d (st + tn) < target
    · rw [if_pos hc]
      obtain ⟨st2, tn2, r1, r2, r3, r4, r5, r6, r7⟩ :=
        ih (st + tn) (tn * 2) hc.1 (by omega) (by omega) (by omega)
      refine ⟨st2, tn2, r1, by omega, r3, r4, r5, ?_, r7⟩
      rcases r6 with r6 | r6
      · right
        rw [r6]
        exact hc.2
      · exact Or.inr r6
    · rw [if_neg hc]
      exact ⟨st, tn, rfl, le_refl _, h1, h2, h3, Or.inl rfl, hc⟩

/-- The bisection loop of `find_gte`, in terms of the first candidate position
`c = start + 1` (which is 0 when `start` has wrapped around to
`size_t(-1)`): the loop ends before `fuel` runs out with the least position in
`[c, high)` whose element is not below the target, or with `high` when there
is none. -/
theorem find_gte_bisect_spec (w : Nat) (d : Mem) (target : Int) (e : Nat)
    (he : e ≤ 0xFFFFFF) :
    ∀ (fuel st high c : Nat), c = sz (st + 1) → st < 18446744073709551616 → c ≤ high →
      high ≤ e → high - c < fuel →
      (∀ i j, c ≤ i → i ≤ j → j < high → get_direct w d i ≤ get_direct w d j) →
      ∃ h, find_gte_bisect w d target fuel st high = some h ∧ c ≤ h ∧ h ≤ high ∧
        (∀ i, c ≤ i → i < h → get_direct w d i < target) ∧
        (h < high → get_direct w d h ≥ target) := by
  intro fuel
  induction fuel with
  | zero => intro st high c _ _ _ _ h5; omega
  | succ fuel ih =>
    intro st high c hc hst hle hhe hf hs
    simp only [find_gte_bisect]
    have hcond : size_sub high st > 1 ↔ c < high := by
      unfold size_sub
      unfold sz at hc
      by_cases hh : st ≤ high
      · rw [if_pos hh]
        omega
      · rw [if_neg hh]
        omega
    by_cases hlt : c < high
    · rw [if_pos (hcond.2 hlt)]
      have hprobe : sz (st + high) / 2 = (c + high - 1) / 2 := by
        unfold sz at hc ⊢
        omega
      rw [hprobe]
      generalize hp : (c + high - 1) / 2 = probe
      have hp1 : c ≤ probe := by omega
      have hp2 : probe < high := by omega
      by_cases hv : get_direct w d probe < target
      · rw [if_pos hv]
        obtain ⟨h, r1, r2, r3, r4, r5⟩ := ih probe high (probe + 1)
          (by rw [sz_small _ (by omega)]) (by omega) (by omega) hhe (by omega)
          (fun i j h1 h2 h3 => hs i j (by omega) h2 h3)
        refine ⟨h, r1, by omega, r3, fun i hi1 hi2 => ?_, r5⟩
        by_cases hip : i ≤ probe
        · have := hs i probe hi1 hip hp2
          omega
        · exact r4 i (by omega) hi2
      · rw [if_neg hv]
        obtain ⟨h, r1, r2, r3, r4, r5⟩ := ih st probe c hc hst hp1 (by omega) (by omega)
          (fun i j h1 h2 h3 => hs i j h1 h2 (by omega))
        refine ⟨h, r1, r2, by omega, r4, fun hh => ?_⟩
        by_cases hhp : h < probe
        · exact r5 hhp
        · have : h = probe := by omega
          rw [this]
          omega
    · rw [if_neg (fun h => hlt (hcond.1 h))]
      exact ⟨high, rfl, hle, le_refl _, fun i h1 h2 => by omega, fun h => by omega⟩

/-- The template `find_gte<w>` on data that is non-decreasing on
`[start, min(end, size))`: it returns, and the result is the least position of
that range whose element is at least `target`, or `not_found` when there is
none. -/
theorem find_gte_w_spec (w : Nat) (hw : w ∈ widths) (a : Array) (target : Int)
    (start end_ : Nat) (hsize : a.m_size ≤ 0xFFFFFF) (hstart : start < a.m_size)
    (hsorted : ∀ i j, start ≤ i → i ≤ j → j < min end_ a.m_size →
      get_direct w a.m_data i ≤ get_direct w a.m_data j) :
    ∃ r, a.find_gte_w w target start end_ = some r ∧
      ((r = not_found ∧
          ∀ i, start ≤ i → i < min end_ a.m_size → get_direct w a.m_data i < target) ∨
        (start ≤ r ∧ r < min end_ a.m_size ∧ get_direct w a.m_data r ≥ target ∧
          ∀ i, start ≤ i → i < r → get_direct w a.m_data i < target)) := by
  unfold Array.find_gte_w
  rw [if_neg (by omega)]
  have he : (if end_ > a.m_size then a.m_size else end_) = min end_ a.m_size := by
    by_cases h : end_ > a.m_size
    · rw [if_pos h]; omega
    · rw [if_neg h]; omega
  simp only [he]
  generalize hedef : min end_ a.m_size = e at hsorted
  have hele : e ≤ 0xFFFFFF := by omega
  by_cases h1 : start ≥ e ∨ target > ubound_for_width w
  · rw [if_pos h1]
    refine ⟨not_found, rfl, Or.inl ⟨rfl, fun i hi1 hi2 => ?_⟩⟩
    rcases h1 with h1 | h1
    · omega
    · have := (get_direct_fits w hw a.m_data i).2
      omega
  · rw [if_neg h1]
    have hse : start < e := by omega
    have z1 : sz (start + 2) = start + 2 := sz_small _ (by omega)
    have z2 : sz (start + 1) = start + 1 := sz_small _ (by omega)
    have z3 : sz (start + 1 + 1) = start + 2 := sz_small _ (by omega)
    rw [z1, z2, z3]
    -- the two leading probes
    by_cases hA : start + 2 < e ∧ get_direct w a.m_data start ≥ target
    · rw [if_pos hA.1, if_pos hA.2]
      exact ⟨start, rfl, Or.inr ⟨le_refl _, hse, hA.2, fun i h1 h2 => by omega⟩⟩
    by_cases hB : start + 2 < e ∧ get_direct w a.m_data (start + 1) ≥ target
    · have hA2 : ¬ get_direct w a.m_data start ≥ target := fun h => hA ⟨hB.1, h⟩
      rw [if_pos hB.1, if_neg hA2, if_pos hB.2]
      refine ⟨start + 1, rfl, Or.inr ⟨by omega, by omega, hB.2, fun i h1 h2 => ?_⟩⟩
      have : i = start := by omega
      rw [this]
      omega
    -- the search proper, from `s`
    have key : ∀ s, start ≤ s → s < e → (∀ i, start ≤ i → i < s → get_direct w a.m_data i < target) →
        ∃ r, (if target > get_direct w a.m_data (size_sub e 1) then some not_found
          else
            match find_gte_probe w a.m_data target e (a.m_size + 1) s 1 with
            | none => none
            | some (start, test_ndx) =>
              match find_gte_bisect w a.m_data target (a.m_size + 1) (size_sub start 1)
                (if sz (sz (start + test_ndx) + 1) > e then e
                  else sz (sz (start + test_ndx) + 1)) with
              | none => none
              | some high =>
                if high = (if sz (sz (start + test_ndx) + 1) > e then e
                  else sz (sz (start + test_ndx) + 1)) then some not_found else some high) =
            some r ∧
          ((r = not_found ∧ ∀ i, start ≤ i → i < e → get_direct w a.m_data i < target) ∨
            (start ≤ r ∧ r < e ∧ get_direct w a.m_data r ≥ target ∧
              ∀ i, start ≤ i → i < r → get_direct w a.m_data i < target)) := by
      intro s hs1 hs2 hbelow
      rw [size_sub_small e 1 (by omega)]
      by_cases hlast : target > get_direct w a.m_data (e - 1)
      · rw [if_pos hlast]
        refine ⟨not_found, rfl, Or.inl ⟨rfl, fun i hi1 hi2 => ?_⟩⟩
        have := hsorted i (e - 1) hi1 (by omega) (by omega)
        omega
      · rw [if_neg hlast]
        obtain ⟨st, tn, p1, p2, p3, p4, p5, p6, p7⟩ :=
          find_gte_probe_spec w a.m_data target e hele (a.m_size + 1) s 1 hs2 (le_refl _)
            (by omega) (by omega)
        rw [p1]
        dsimp only
        have y1 : sz (sz (st + tn) + 1) = st + tn + 1 := by
          rw [sz_small (st + tn) (by omega), sz_small _ (by omega)]
        rw [y1]
        generalize hhigh : (if st + tn + 1 > e then e else st + tn + 1) = high
        have hh1 : high ≤ e := by
          rw [← hhigh]
          by_cases h : st + tn + 1 > e
          · rw [if_pos h]
          · rw [if_neg h]; omega
        have hh2 : st < high := by
          rw [← hhigh]
          by_cases h : st + tn + 1 > e
          · rw [if_pos h]; omega
          · rw [if_neg h]; omega
        -- everything before `st` is below the target
        have hbelow2 : ∀ i, start ≤ i → i < st → get_direct w a.m_data i < target := by
          intro i hi1 hi2
          rcases p6 with p6 | p6
          · exact hbelow i hi1 (by omega)
          · have := hsorted i st hi1 (by omega) (by omega)
            omega
        -- some element below `high` is not below the target
        have hexists : ∃ x, st ≤ x ∧ x < high ∧ get_direct w a.m_data x ≥ target := by
          by_cases h : st + tn + 1 > e
          · rw [if_pos h] at hhigh
            exact ⟨e - 1, by omega, by omega, by omega⟩
          · rw [if_neg h] at hhigh
            have : ¬ get_direct w a.m_data (st + tn) < target := fun hh => p7 ⟨by omega, hh⟩
            exact ⟨st + tn, by omega, by omega, by omega⟩
        have hsub : sz (size_sub st 1 + 1) = st := by
          unfold size_sub sz
          by_cases h0 : 1 ≤ st
          · rw [if_pos h0]; omega
          · rw [if_neg h0]; omega
        have hsub2 : size_sub st 1 < 18446744073709551616 := by
          unfold size_sub
          by_cases h0 : 1 ≤ st
          · rw [if_pos h0]; omega
          · rw [if_neg h0]; omega
        obtain ⟨h, b1, b2, b3, b4, b5⟩ :=
          find_gte_bisect_spec w a.m_data target e hele (a.m_size + 1) (size_sub st 1) high st
            hsub.symm hsub2 (by omega) hh1 (by omega)
            (fun i j h1 h2 h3 => hsorted i j (by omega) h2 (by omega))
        rw [b1]
        dsimp only
        obtain ⟨x, x1, x2, x3⟩ := hexists
        have hne : h ≠ high := by
          intro heq
          have := b4 x x1 (by omega)
          omega
        rw [if_neg hne]
        refine ⟨h, rfl, Or.inr ⟨by omega, by omega, b5 (by omega), fun i hi1 hi2 => ?_⟩⟩
        by_cases his : i < st
        · exact hbelow2 i hi1 his
        · exact b4 i (by omega) hi2
    by_cases hC : start + 2 < e
    · have hA2 : ¬ get_direct w a.m_data start ≥ target := fun h => hA ⟨hC, h⟩
      have hB2 : ¬ get_direct w a.m_data (start + 1) ≥ target := fun h => hB ⟨hC, h⟩
      rw [if_pos hC, if_neg hA2, if_neg hB2]
      dsimp only
      exact key (start + 2) (by omega) hC (fun i hi1 hi2 => by
        by_cases h : i = start
        · rw [h]; omega
        · have : i = start + 1 := by omega
          rw [this]; omega)
    · rw [if_neg hC]
      dsimp only
      exact key start (le_refl _) hse (fun i hi1 hi2 => by omega)

/-- The function `Array::find_gte` on an attached array whose elements are
non-decreasing on `[start, min(end, size))`: the call returns the least
position of that range whose element is at least `target`, or `not_found`
when there is none. -/
theorem find_gte_sorted_spec (a : Array) (target : Int) (start end_ : Nat) (h : a.attached)
    (hstart : start < a.m_size)
    (hsorted : ∀ i j, start ≤ i → i ≤ j → j < min end_ a.m_size → a.get i ≤ a.get j) :
    ∃ r, a.find_gte target start end_ = some r ∧
      ((r = not_found ∧ ∀ i, start ≤ i → i < min end_ a.m_size → a.get i < target) ∨
        (start ≤ r ∧ r < min end_ a.m_size ∧ a.get r ≥ target ∧
          ∀ i, start ≤ i → i < r → a.get i < target)) := by
  unfold Array.find_gte
  rw [if_pos h.1]
  exact find_gte_w_spec a.m_width h.1 a target start end_ h.2.2.2.1 hstart hsorted

/-! ## Theorems: `Array::move`, `Array::move_backward`, `Array::move_rotate` -/

/-- The element-wise loop of `move`, copying towards lower positions: the
destination range receives the source range, everything else stays. -/
theorem move_loop_spec (w : Nat) (hw : w ∈ widths) :
    ∀ (n i dst : Nat) (d : Mem), dst < i →
      ∀ j, get_direct w (move_loop w n i dst d) j =
        if dst ≤ j ∧ j < dst + n then get_direct w d (j + (i - dst)) else get_direct w d j := by
  intro n
  induction n with
  | zero =>
    intro i dst d _ j
    simp only [move_loop]
    rw [if_neg (by omega)]
  | succ n ih =>
    intro i dst d hlt j
    simp only [move_loop]
    have hf := get_direct_fits w hw d i
    have hg := get_set_direct w hw d dst
    rw [ih (i + 1) (dst + 1) _ (by omega) j]
    by_cases h1 : dst + 1 ≤ j ∧ j < dst + 1 + n
    · rw [if_pos h1, if_pos ⟨by omega, by omega⟩, hg _ _ hf.1 hf.2, if_neg (by omega)]
      congr 1
      omega
    · rw [if_neg h1, hg _ _ hf.1 hf.2]
      by_cases h2 : j = dst
      · subst h2
        rw [if_pos rfl, if_pos ⟨le_refl _, by omega⟩]
        congr 1
        omega
      · rw [if_neg h2, if_neg (by omega)]

/-- The element-wise loop of `move_backward`, copying towards higher
positions. -/
theorem move_backward_loop_spec (w : Nat) (hw : w ∈ widths) (begin_ : Nat) :
    ∀ (n dest_end : Nat) (d : Mem), begin_ + n < dest_end →
      ∀ j, get_direct w (move_backward_loop w begin_ n dest_end d) j =
        if dest_end - n ≤ j ∧ j < dest_end then get_direct w d (j - (dest_end - (begin_ + n)))
        else get_direct w d j := by
  intro n
  induction n with
  | zero =>
    intro dest_end d _ j
    simp only [move_backward_loop]
    rw [if_neg (by omega)]
  | succ n ih =>
    intro dest_end d hlt j
    simp only [move_backward_loop]
    have hf := get_direct_fits w hw d (begin_ + n)
    have hg := get_set_direct w hw d (dest_end - 1)
    rw [ih (dest_end - 1) _ (by omega) j]
    by_cases h1 : dest_end - 1 - n ≤ j ∧ j < dest_end - 1
    · rw [if_pos h1, if_pos ⟨by omega, by omega⟩, hg _ _ hf.1 hf.2, if_neg (by omega)]
      congr 1
      omega
    · rw [if_neg h1, hg _ _ hf.1 hf.2]
      by_cases h2 : j = dest_end - 1
      · subst h2
        rw [if_pos rfl, if_pos ⟨by omega, by omega⟩]
        congr 1
        omega
      · rw [if_neg h2, if_neg (by omega)]

/-- An element of a width of whole bytes depends only on its bytes. -/
theorem get_direct_bytes (w : Nat) (hw : w = 8 ∨ w = 16 ∨ w = 32 ∨ w = 64) (d e : Mem)
    (j j2 : Nat) (h : ∀ t, t < w / 8 → d (j * (w / 8) + t) = e (j2 * (w / 8) + t)) :
    get_direct w d j = get_direct w e j2 := by
  rcases hw with rfl | rfl | rfl | rfl
  · simp only [get_direct]
    rw [read_le_congr d e j j2 1 (fun t ht => by
      have := h t (by omega)
      simp only [Nat.reduceDiv, Nat.mul_one] at this
      rw [this])]
  · simp only [get_direct]
    rw [read_le_congr d e (j * 2) (j2 * 2) 2 (fun t ht => by rw [h t (by omega)])]
  · simp only [get_direct]
    rw [read_le_congr d e (j * 4) (j2 * 4) 4 (fun t ht => by rw [h t (by omega)])]
  · simp only [get_direct]
    rw [read_le_congr d e (j * 8) (j2 * 8) 8 (fun t ht => by rw [h t (by omega)])]

/-- The byte rotation of `move_rotate` for widths of whole bytes, read
element-wise: position `j` of `[lo, hi)` receives the element `mid - lo`
positions further on, or the one `hi - mid` positions further back. -/
theorem get_direct_rotate (w : Nat) (hw : w = 8 ∨ w = 16 ∨ w = 32 ∨ w = 64) (d : Mem)
    (lo mid hi j : Nat) (h1 : lo ≤ mid) (h2 : mid ≤ hi) :
    get_direct w (rotate d (lo * (w / 8)) (mid * (w / 8)) (hi * (w / 8))) j =
      if lo ≤ j ∧ j < hi then
        if j < lo + (hi - mid) then get_direct w d (j + (mid - lo))
        else get_direct w d (j - (hi - mid))
      else get_direct w d j := by
  have hk : ∃ k, w / 8 = k ∧ 1 ≤ k := by
    rcases hw with rfl | rfl | rfl | rfl <;> exact ⟨_, rfl, by decide⟩
  obtain ⟨k, hk1, hk2⟩ := hk
  have m1 : lo * k ≤ mid * k := Nat.mul_le_mul_right k h1
  have m2 : mid * k ≤ hi * k := Nat.mul_le_mul_right k h2
  by_cases hin : lo ≤ j ∧ j < hi
  · rw [if_pos hin]
    have n1 : lo * k ≤ j * k := Nat.mul_le_mul_right k hin.1
    have n2 : (j + 1) * k ≤ hi * k := Nat.mul_le_mul_right k (by omega)
    by_cases hlow : j < lo + (hi - mid)
    · rw [if_pos hlow]
      apply get_direct_bytes w hw
      intro t ht
      rw [hk1] at ht ⊢
      unfold rotate
      have n3 : (j + 1) * k ≤ (lo + (hi - mid)) * k := Nat.mul_le_mul_right k (by omega)
      have e1 : (lo + (hi - mid)) * k = lo * k + (hi * k - mid * k) := by
        rw [Nat.add_mul, Nat.sub_mul]
      have e2 : (j + (mid - lo)) * k = j * k + (mid * k - lo * k) := by
        rw [Nat.add_mul, Nat.sub_mul]
      have e3 : (j + 1) * k = j * k + k := by rw [Nat.add_mul, Nat.one_mul]
      rw [if_pos ⟨by omega, by omega⟩, if_pos (by omega), e2]
      congr 1
      omega
    · rw [if_neg hlow]
      apply get_direct_bytes w hw
      intro t ht
      rw [hk1] at ht ⊢
      unfold rotate
      have n3 : (lo + (hi - mid)) * k ≤ j * k := Nat.mul_le_mul_right k (by omega)
      have e1 : (lo + (hi - mid)) * k = lo * k + (hi * k - mid * k) := by
        rw [Nat.add_mul, Nat.sub_mul]
      have e2 : (j - (hi - mid)) * k = j * k - (hi * k - mid * k) := by
        rw [Nat.sub_mul, Nat.sub_mul]
      have e3 : (j + 1) * k = j * k + k := by rw [Nat.add_mul, Nat.one_mul]
      rw [if_pos ⟨by omega, by omega⟩, if_neg (by omega), e2]
      congr 1
      omega
  · rw [if_neg hin]
    apply get_direct_bytes w hw
    intro t ht
    rw [hk1] at ht ⊢
    unfold rotate
    have e3 : (j + 1) * k = j * k + k := by rw [Nat.add_mul, Nat.one_mul]
    by_cases hj : j < lo
    · have n1 : (j + 1) * k ≤ lo * k := Nat.mul_le_mul_right k (by omega)
      rw [if_neg (by omega)]
    · have n1 : hi * k ≤ j * k := Nat.mul_le_mul_right k (by omega)
      rw [if_neg (by omega)]

theorem copy_on_write_writable (a : Array) (fresh : Mem) (h : a.read_only = false) :
    a.copy_on_write fresh = a := by
  unfold Array.copy_on_write
  rw [h]
  rfl

theorem fits_is_int64 (w : Nat) (hw : w ∈ widths) (v : Int)
    (h : lbound_for_width w ≤ v ∧ v ≤ ubound_for_width w) : is_int64 v := by
  have hb := bounds_mono w 64 hw (by decide) (width_le_64 w hw)
  have e1 : lbound_for_width 64 = -9223372036854775808 := by decide
  have e2 : ubound_for_width 64 = 9223372036854775807 := by decide
  unfold is_int64
  omega

/-- The restoring loop of `move_rotate`: the saved elements are written to
the positions from `to + i` on, and nothing else changes. -/
theorem move_rotate_restore_spec (to_ : Nat) :
    ∀ (save : List Int) (i : Nat) (a : Array) (frs : Nat → Fresh), a.attached →
      to_ + i + save.length ≤ a.m_size →
      (∀ v ∈ save, lbound_for_width a.m_width ≤ v ∧ v ≤ ubound_for_width a.m_width) →
      ∃ b, move_rotate_restore to_ save i a frs = some b ∧ b.attached ∧
        b.m_size = a.m_size ∧ b.m_width = a.m_width ∧
        ∀ j, j < a.m_size → b.get j =
          if to_ + i ≤ j ∧ j < to_ + i + save.length then save.getD (j - (to_ + i)) 0
          else a.get j := by
  intro save
  induction save with
  | nil =>
    intro i a frs hat _ _
    refine ⟨a, rfl, hat, rfl, rfl, fun j hj => ?_⟩
    rw [if_neg]
    simp only [List.length_nil]
    omega
  | cons v save ih =>
    intro i a frs hat hlen hfits
    simp only [List.length_cons] at hlen
    simp only [move_rotate_restore]
    have hv := hfits v (List.mem_cons_self _ _)
    have hin : ¬ (v < a.m_lbound ∨ v > a.m_ubound) := by
      rw [hat.2.1, hat.2.2.1]
      omega
    obtain ⟨b, hb, b1, b2, b3, b4, b5, _⟩ := set_spec a (to_ + i) v (frs 0) hat (by omega)
      (fits_is_int64 a.m_width hat.1 v hv) (by rw [if_neg hin]; exact hat.2.2.2.2.2.2.1)
    rw [if_neg hin] at b3
    rw [hb]
    dsimp only
    obtain ⟨r, hr, r1, r2, r3, r4⟩ := ih (i + 1) b (fun k => frs (k + 1)) b1
      (by rw [b2]; omega)
      (fun x hx => by rw [b3]; exact hfits x (List.mem_cons_of_mem _ hx))
    refine ⟨r, hr, r1, by omega, by omega, fun j hj => ?_⟩
    rw [r4 j (by omega)]
    simp only [List.length_cons]
    by_cases h1 : to_ + (i + 1) ≤ j ∧ j < to_ + (i + 1) + save.length
    · rw [if_pos h1, if_pos ⟨by omega, by omega⟩]
      have : j - (to_ + i) = (j - (to_ + (i + 1))) + 1 := by omega
      rw [this, List.getD_cons_succ]
    · rw [if_neg h1]
      by_cases h2 : j = to_ + i
      · subst h2
        rw [b4, if_pos ⟨le_refl _, by omega⟩, Nat.sub_self, List.getD_cons_zero]
      · rw [b5 j hj h2, if_neg (by omega)]

theorem move_rotate_save_getD (a : Array) (from_ n k : Nat) (hk : k < n) :
    (move_rotate_save a from_ n).getD k 0 = a.get (from_ + k) := by
  unfold move_rotate_save
  rw [List.getD_eq_getElem?_getD, List.getElem?_map, List.getElem?_range hk]
  rfl

theorem move_rotate_save_fits (a : Array) (h : a.attached) (from_ n : Nat) :
    ∀ v ∈ move_rotate_save a from_ n,
      lbound_for_width a.m_width ≤ v ∧ v ≤ ubound_for_width a.m_width := by
  intro v hv
  unfold move_rotate_save at hv
  rw [List.mem_map] at hv
  obtain ⟨i, _, rfl⟩ := hv
  exact get_direct_fits a.m_width h.1 a.m_data _

theorem width_lt_8 (w : Nat) (hw : w ∈ widths) (h : ¬ w < 8) :
    w = 8 ∨ w = 16 ∨ w = 32 ∨ w = 64 := by
  rw [mem_widths] at hw
  omega

/-- The function `Array::move_rotate`: the call returns, and the element found at index
`j` afterwards is the old element at index `rotate_source from to num_elems j`,
on the path for widths below 8 and on the byte path alike. -/
theorem move_rotate_spec (a : Array) (from_ to_ n : Nat) (frs : Nat → Fresh) (h : a.attached)
    (hne : from_ ≠ to_) (hn : 1 ≤ n) (hfrom : from_ + n ≤ a.m_size)
    (hto : to_ + n ≤ a.m_size) :
    ∃ b, a.move_rotate from_ to_ n frs = some b ∧ b.attached ∧ b.m_size = a.m_size ∧
      b.m_width = a.m_width ∧
      ∀ j, j < a.m_size → b.get j = a.get (rotate_source from_ to_ n j) := by
  unfold Array.move_rotate
  rw [if_neg hne]
  obtain ⟨c1, c2, c3, c4, _, _, _, _, _, c10⟩ := copy_on_write_spec a (frs 0 0) h
  generalize a.copy_on_write (frs 0 0) = c at c1 c2 c3 c4 c10
  dsimp only
  by_cases hw8 : c.m_width < 8
  · rw [if_pos hw8]
    by_cases hft : from_ < to_
    · rw [if_pos hft]
      unfold Array.move
      rw [if_neg (by omega), if_neg (by omega), if_neg (by omega), if_neg (by omega),
        if_neg (by omega), copy_on_write_writable c _ c2]
      dsimp only
      rw [if_pos hw8]
      dsimp only
      have hm := move_loop_spec c.m_width c1.1 (to_ + n - (from_ + n)) (from_ + n) from_
        c.m_data (by omega)
      generalize move_loop c.m_width (to_ + n - (from_ + n)) (from_ + n) from_ c.m_data = d2
        at hm
      have hat2 := set_data_attached c d2 c1
      obtain ⟨r, hr, r1, r2, r3, r4⟩ := move_rotate_restore_spec to_
        (move_rotate_save c from_ n) 0 { c with m_data := d2 } (fun k => frs (k + 1)) hat2
        (by
          show to_ + 0 + (move_rotate_save c from_ n).length ≤ c.m_size
          unfold move_rotate_save
          rw [List.length_map, List.length_range]
          omega)
        (move_rotate_save_fits c c1 from_ n)
      have hlen : (move_rotate_save c from_ n).length = n := by
        unfold move_rotate_save
        rw [List.length_map, List.length_range]
      refine ⟨r, hr, r1, by rw [r2]; exact c3, by rw [r3]; exact c4, fun j hj => ?_⟩
      rw [r4 j (by show j < c.m_size; omega), hlen]
      unfold rotate_source
      rw [if_pos hft]
      by_cases h1 : to_ + 0 ≤ j ∧ j < to_ + 0 + n
      · rw [if_pos h1, move_rotate_save_getD c from_ n _ (by omega), if_neg (by omega),
          if_pos ⟨by omega, by omega⟩, c10 _ (by omega)]
        congr 1
        omega
      · rw [if_neg h1]
        show get_direct c.m_width d2 j = _
        rw [hm j]
        by_cases h2 : from_ ≤ j ∧ j < to_
        · rw [if_pos ⟨h2.1, by omega⟩, if_pos h2]
          have : j + (from_ + n - from_) = j + n := by omega
          rw [this]
          exact c10 _ (by omega)
        · rw [if_neg (by omega), if_neg h2, if_neg (by omega)]
          exact c10 _ hj
    · rw [if_neg hft]
      unfold Array.move_backward
      rw [if_neg (by omega), if_neg (by omega), if_neg (by omega), if_neg (by omega),
        if_neg (by omega), copy_on_write_writable c _ c2]
      dsimp only
      rw [if_pos hw8]
      dsimp only
      have hm := move_backward_loop_spec c.m_width c1.1 to_ (from_ - to_) (from_ + n)
        c.m_data (by omega)
      generalize move_backward_loop c.m_width to_ (from_ - to_) (from_ + n) c.m_data = d2 at hm
      have hat2 := set_data_attached c d2 c1
      obtain ⟨r, hr, r1, r2, r3, r4⟩ := move_rotate_restore_spec to_
        (move_rotate_save c from_ n) 0 { c with m_data := d2 } (fun k => frs (k + 1)) hat2
        (by
          show to_ + 0 + (move_rotate_save c from_ n).length ≤ c.m_size
          unfold move_rotate_save
          rw [List.length_map, List.length_range]
          omega)
        (move_rotate_save_fits c c1 from_ n)
      have hlen : (move_rotate_save c from_ n).length = n := by
        unfold move_rotate_save
        rw [List.length_map, List.length_range]
      refine ⟨r, hr, r1, by rw [r2]; exact c3, by rw [r3]; exact c4, fun j hj => ?_⟩
      rw [r4 j (by show j < c.m_size; omega), hlen]
      unfold rotate_source
      rw [if_neg hft]
      by_cases h1 : to_ + 0 ≤ j ∧ j < to_ + 0 + n
      · rw [if_pos h1, move_rotate_save_getD c from_ n _ (by omega),
          if_pos ⟨by omega, by omega⟩, c10 _ (by omega)]
        congr 1
        omega
      · rw [if_neg h1]
        show get_direct c.m_width d2 j = _
        rw [hm j]
        by_cases h2 : to_ + n ≤ j ∧ j < from_ + n
        · rw [if_pos ⟨by omega, h2.2⟩, if_neg (by omega), if_pos h2]
          have : j - (from_ + n - (to_ + (from_ - to_))) = j - n := by omega
          rw [this]
          exact c10 _ (by omega)
        · rw [if_neg (by omega), if_neg (by omega), if_neg h2]
          exact c10 _ hj
  · rw [if_neg hw8]
    have hw := width_lt_8 c.m_width c1.1 hw8
    refine ⟨_, rfl, set_data_attached c _ c1, c3, c4, fun j hj => ?_⟩
    unfold rotate_source
    by_cases hft : from_ < to_
    · simp only [if_pos hft]
      show get_direct c.m_width (rotate c.m_data _ _ _) j = _
      rw [get_direct_rotate c.m_width hw c.m_data from_ (from_ + n) (to_ + n) j (by omega) (by omega)]
      by_cases h2 : from_ ≤ j ∧ j < to_
      · rw [if_pos ⟨h2.1, by omega⟩, if_pos (by omega), if_pos h2]
        have : j + (from_ + n - from_) = j + n := by omega
        rw [this]
        exact c10 _ (by omega)
      · rw [if_neg h2]
        by_cases h3 : to_ ≤ j ∧ j < to_ + n
        · rw [if_pos ⟨by omega, h3.2⟩, if_neg (by omega), if_pos h3]
          have : j - (to_ + n - (from_ + n)) = j - to_ + from_ := by omega
          rw [this]
          exact c10 _ (by omega)
        · rw [if_neg (by omega), if_neg h3]
          exact c10 _ hj
    · simp only [if_neg hft]
      show get_direct c.m_width (rotate c.m_data _ _ _) j = _
      rw [get_direct_rotate c.m_width hw c.m_data to_ from_ (from_ + n) j (by omega) (by omega)]
      by_cases h2 : to_ ≤ j ∧ j < to_ + n
      · rw [if_pos ⟨h2.1, by omega⟩, if_pos (by omega), if_pos h2]
        have : j + (from_ - to_) = j - to_ + from_ := by omega
        rw [this]
        exact c10 _ (by omega)
      · rw [if_neg h2]
        by_cases h3 : to_ + n ≤ j ∧ j < from_ + n
        · rw [if_pos ⟨by omega, h3.2⟩, if_neg (by omega), if_pos h3]
          have : j - (from_ + n - from_) = j - n := by omega
          rw [this]
          exact c10 _ (by omega)
        · rw [if_neg (by omega), if_neg h3]
          exact c10 _ hj

/-! ## Theorems: slices, clones and destroyed children -/

theorem is_subarray_iff (v : Int) : is_subarray v = true ↔ v ≠ 0 ∧ v % 2 = 0 := by
  unfold is_subarray
  rw [Bool.and_eq_true, decide_eq_true_iff, decide_eq_true_iff, Nat.and_one_is_mod]
  unfold to_uint64
  omega

theorem is_subarray_from_ref (r : Nat) (h0 : 0 < r) (h8 : r % 8 = 0)
    (hr : r < 18446744073709551616) : is_subarray (from_ref r) = true := by
  rw [is_subarray_iff]
  unfold from_ref to_int64
  omega

/-- The function `Array::add` under the precondition that the node fits the largest
payload at the width that holds the new value: the value is appended, the
flags stay, and the width stays the largest `bit_width` of the elements. -/
theorem add_spec_room (a : Array) (v : Int) (fr : Fresh) (h : a.attached) (hv : is_int64 v)
    (hsz : a.m_size + 1 ≤ 0xFFFFFF)
    (hroom : calc_byte_len (a.m_size + 1) (max (bit_width v) a.m_width) ≤ max_array_payload)
    (hinv : a.m_width = max_bit_width a.elems) :
    ∃ b, a.add v fr = some b ∧ b.attached ∧ b.m_size = a.m_size + 1 ∧
      b.get a.m_size = v ∧ (∀ j, j < a.m_size → b.get j = a.get j) ∧
      b.elems = a.elems ++ [v] ∧
      b.m_width = max (bit_width v) a.m_width ∧ b.m_width = max_bit_width b.elems ∧
      b.m_is_inner_bptree_node = a.m_is_inner_bptree_node ∧ b.m_has_refs = a.m_has_refs ∧
      b.m_context_flag = a.m_context_flag ∧ b.read_only = false := by
  have hat := h
  obtain ⟨h1, h2, h3, _⟩ := h
  obtain ⟨m1, m2, m3, m4⟩ := bit_width_minimal v hv
  have hmax : (if v < a.m_lbound ∨ v > a.m_ubound then bit_width v else a.m_width) =
      max (bit_width v) a.m_width := by
    by_cases hx : v < a.m_lbound ∨ v > a.m_ubound
    · rw [if_pos hx]
      have := bit_width_gt_of_not_fits _ h1 v hv (by rw [← h2, ← h3]; exact hx)
      omega
    · rw [if_neg hx]
      have := m4 a.m_width h1 (by rw [← h2]; omega) (by rw [← h3]; omega)
      omega
  unfold Array.add
  obtain ⟨b, hb, b1, b2, b3, b4, b5, b6, b7, b8, b9, b10⟩ := insert_spec a a.m_size v fr hat
    (le_refl _) hv hsz (by rw [hmax]; exact hroom)
  have he := elems_of_insert a b a.m_size v (le_refl _) b2 b4 b5 b6
  have he2 : b.elems = a.elems ++ [v] := by
    rw [he, ← elems_length a, List.take_length, List.drop_length]
  refine ⟨b, hb, b1, b2, b4, b5, he2, by rw [b3, hmax], ?_, b7, b8, b9, b10⟩
  rw [b3, hmax, he2, max_bit_width_append, hinv]
  unfold max_bit_width
  simp only [List.map_cons, List.map_nil, List.foldr_cons, List.foldr_nil]
  omega

theorem calc_byte_len_mono2 (n m w w2 : Nat) (hnm : n ≤ m) (hm : m ≤ 0xFFFFFF)
    (hw : w ≤ w2) (hw2 : w2 ≤ 64) : calc_byte_len n w ≤ calc_byte_len m w2 := by
  rw [calc_byte_len_eq n w (by omega) (by omega), calc_byte_len_eq m w2 hm hw2]
  have : n * w ≤ m * w2 := Nat.mul_le_mul hnm hw
  omega

theorem bit_width_le_of_fits (w : Nat) (hw : w ∈ widths) (v : Int)
    (h : lbound_for_width w ≤ v ∧ v ≤ ubound_for_width w) : bit_width v ≤ w := by
  obtain ⟨_, _, _, m4⟩ := bit_width_minimal v (fits_is_int64 w hw v h)
  exact m4 w hw h.1 h.2

theorem create_flags (type : Type_) (context_flag : Bool) (fr : Fresh) :
    (Array.create type context_flag fr).get_type = type ∧
    (Array.create type context_flag fr).m_context_flag = context_flag ∧
    (Array.create type context_flag fr).read_only = false := by
  cases type <;> exact ⟨rfl, rfl, rfl⟩

theorem get_type_congr (a b : Array) (h1 : b.m_is_inner_bptree_node = a.m_is_inner_bptree_node)
    (h2 : b.m_has_refs = a.m_has_refs) : b.get_type = a.get_type := by
  unfold Array.get_type
  rw [h1, h2]

theorem create_width_invariant (type : Type_) (context_flag : Bool) (fr : Fresh) :
    (Array.create type context_flag fr).m_width =
      max_bit_width (Array.create type context_flag fr).elems := by
  obtain ⟨_, _, n2, n3, _⟩ := create_spec type context_flag fr
  rw [n2, n3]
  rfl

/-- The node of an attached accessor, read back through a new accessor. -/
theorem init_from_mem_get_mem (b : Array) (h : b.attached) :
    (Array.init_from_mem b.get_mem).m_size = b.m_size ∧
    (Array.init_from_mem b.get_mem).m_width = b.m_width ∧
    (Array.init_from_mem b.get_mem).m_has_refs = b.m_has_refs ∧
    b.get_mem.valid ∧ b.get_mem.size = b.m_size ∧ b.get_mem.width = b.m_width ∧
    (∀ j, (Array.init_from_mem b.get_mem).get j = b.get j) ∧
    (Array.init_from_mem b.get_mem).elems = b.elems := by
  obtain ⟨h1, h2, h3, h4, h5, h6, h7, _⟩ := h
  have e1 : (Array.init_from_mem b.get_mem).m_size = b.m_size := h5
  have e2 : (Array.init_from_mem b.get_mem).m_width = b.m_width := h6
  have e3 : ∀ j, (Array.init_from_mem b.get_mem).get j = b.get j := by
    intro j
    show get_direct b.hdr_width b.m_data j = get_direct b.m_width b.m_data j
    rw [h6]
  refine ⟨e1, e2, rfl, ?_, h5, h6, e3, ?_⟩
  · unfold Node.valid
    show b.hdr_width ∈ widths ∧ b.hdr_size ≤ 0xFFFFFF ∧
      calc_byte_len b.hdr_size b.hdr_width ≤ max_array_payload
    rw [h5, h6]
    exact ⟨h1, h4, h7⟩
  · unfold Array.elems
    rw [e1]
    exact List.map_congr_left (fun j _ => e3 j)

/-- The copying loop of `slice`: every call of `add` succeeds, and the new
array receives the elements of the source from `i` on. -/
theorem slice_loop_spec (a : Array)
    (h : a.m_width ∈ widths ∧ a.m_size ≤ 0xFFFFFF ∧
      calc_byte_len a.m_size a.m_width ≤ max_array_payload) :
    ∀ (count i : Nat) (ns : Array) (frs : Nat → Fresh), ns.attached →
      ns.m_width = max_bit_width ns.elems → ns.m_width ≤ a.m_width → i + count ≤ a.m_size →
      ns.m_size ≤ i →
      ∃ r, slice_loop a count i ns frs = some r ∧ r.attached ∧
        r.m_size = ns.m_size + count ∧ r.m_width = max_bit_width r.elems ∧
        r.m_width ≤ a.m_width ∧ (∀ j, j < ns.m_size → r.get j = ns.get j) ∧
        (∀ j, j < count → r.get (ns.m_size + j) = a.get (i + j)) ∧
        r.m_is_inner_bptree_node = ns.m_is_inner_bptree_node ∧ r.m_has_refs = ns.m_has_refs ∧
        r.m_context_flag = ns.m_context_flag ∧ (count = 0 → r = ns) ∧
        (1 ≤ count → r.read_only = false) := by
  intro count
  induction count with
  | zero =>
    intro i ns frs hns hinv hw _ _
    exact ⟨ns, rfl, hns, rfl, hinv, hw, fun _ _ => rfl, fun j hj => by omega, rfl, rfl, rfl,
      fun _ => rfl, fun h => by omega⟩
  | succ count ih =>
    intro i ns frs hns hinv hw hi hsz
    simp only [slice_loop]
    have hfit := get_direct_fits a.m_width h.1 a.m_data i
    have hbw := bit_width_le_of_fits a.m_width h.1 (a.get i) hfit
    have hsize := h.2.1
    obtain ⟨b, hb, b1, b2, b3, b4, b5, b6, b7, b8, b9, b10, b11⟩ :=
      add_spec_room ns (a.get i) (frs 0) hns (fits_is_int64 a.m_width h.1 _ hfit) (by omega)
        (le_trans (calc_byte_len_mono2 (ns.m_size + 1) a.m_size _ a.m_width (by omega) hsize
          (by omega) (width_le_64 _ h.1)) h.2.2) hinv
    rw [hb]
    dsimp only
    obtain ⟨r, hr, r1, r2, r3, r4, r5, r6, r7, r8, r9, r10, r11⟩ :=
      ih (i + 1) b (fun k => frs (k + 1)) b1 b7 (by omega) (by omega) (by omega)
    refine ⟨r, hr, r1, by omega, r3, r4, fun j hj => ?_, fun j hj => ?_, r7.trans b8,
      r8.trans b9, r9.trans b10, fun h => by omega, fun _ => ?_⟩
    · rw [r5 j (by omega), b4 j hj]
    · by_cases hj0 : j = 0
      · subst hj0
        rw [Nat.add_zero, Nat.add_zero, r5 _ (by omega), b3]
      · have := r6 (j - 1) (by omega)
        rw [b2] at this
        rw [show ns.m_size + j = ns.m_size + 1 + (j - 1) by omega, this]
        congr 1
        omega
    · by_cases hc : 1 ≤ count
      · exact r11 hc
      · rw [r10 (by omega)]
        exact b11

/-- The function `Array::slice`: the call returns a node of the type and with the context
flag of the source, whose elements are those of the range, at the least width
that holds them. -/
theorem slice_spec (a : Array) (offset n : Nat) (frs : Nat → Fresh)
    (h : a.m_width ∈ widths ∧ a.m_size ≤ 0xFFFFFF ∧
      calc_byte_len a.m_size a.m_width ≤ max_array_payload)
    (hon : offset + n ≤ a.m_size) :
    ∃ node, a.slice offset n frs = some node ∧ node.valid ∧ node.get_type = a.get_type ∧
      node.context_flag = a.m_context_flag ∧ node.size = n ∧
      node.width = max_bit_width (Array.init_from_mem node).elems ∧ node.width ≤ a.m_width ∧
      (∀ k, k < n → (Array.init_from_mem node).get k = a.get (offset + k)) ∧
      (Array.init_from_mem node).elems = (a.elems.drop offset).take n := by
  unfold Array.slice
  have hsize := h.2.1
  have e1 : sz (offset + n) = offset + n := sz_small _ (by omega)
  have e2 : size_sub (offset + n) offset = n := by
    rw [size_sub_small _ _ (by omega)]
    omega
  rw [e1]
  dsimp only
  rw [e2]
  obtain ⟨n0, n1, n2, n3, _⟩ := create_spec a.get_type a.m_context_flag (frs 0)
  obtain ⟨f1, f2, _⟩ := create_flags a.get_type a.m_context_flag (frs 0)
  have hinv := create_width_invariant a.get_type a.m_context_flag (frs 0)
  generalize Array.create a.get_type a.m_context_flag (frs 0) = ns at n0 n1 n2 n3 f1 f2 hinv
  obtain ⟨r, hr, r1, r2, r3, r4, r5, r6, r7, r8, r9, _⟩ :=
    slice_loop_spec a h n offset ns (fun k => frs (k + 1)) n0 hinv (by omega) hon (by omega)
  rw [hr]
  obtain ⟨g1, g2, g3, g4, g5, g6, g7, g8⟩ := init_from_mem_get_mem r r1
  have hget : ∀ k, k < n → (Array.init_from_mem r.get_mem).get k = a.get (offset + k) := by
    intro k hk
    rw [g7 k]
    have := r6 k hk
    rw [n1, Nat.zero_add] at this
    exact this
  refine ⟨r.get_mem, rfl, g4, ?_, r9.trans f2, by rw [g5, r2, n1]; omega, ?_, ?_, hget, ?_⟩
  · show r.get_type = a.get_type
    rw [get_type_congr ns r r7 r8]
    exact f1
  · rw [g6, g8]
    exact r3
  · rw [g6]
    exact r4
  · apply List.ext_getElem?
    intro k
    rw [elems_getElem?, g1, r2, n1, Nat.zero_add, List.getElem?_take]
    by_cases hk : k < n
    · rw [if_pos hk, if_pos hk, List.getElem?_drop, elems_getElem?, if_pos (by omega), hget k hk]
    · rw [if_neg hk, if_neg hk]

theorem max_mem_widths (w w2 : Nat) (hw : w ∈ widths) (hw2 : w2 ∈ widths) :
    max w w2 ∈ widths := by
  by_cases h : w ≤ w2
  · rw [Nat.max_eq_right h]; exact hw2
  · rw [Nat.max_eq_left (by omega)]; exact hw

theorem getD_cons_succ_tree (c : MemTree) (cs : List MemTree) (j : Nat) :
    (c :: cs).getD (j + 1) MemTree.null = cs.getD j MemTree.null := by
  simp [List.getD]

/-- The loop over the slots in `clone` and `slice_and_clone_children`, given
that the node trees the slots refer to can be cloned: every call of `add`
succeeds, a slot without a ref is copied as it is, a slot with a ref receives
the ref of the clone of its node tree, and the new slots have the structure
of the old ones. -/
theorem clone_children_spec (refs : Nat → Nat) (frs : Nat → Nat → Fresh)
    (hrefs : valid_refs refs) (array : Array) (hw : array.m_width ∈ widths) (end_ : Nat)
    (hend : end_ ≤ array.m_size) (fr : Nat → Fresh) :
    ∀ (cs : List MemTree) (i : Nat) (na : Array) (k : Nat),
      (∀ c ∈ cs, c.wf = true → ∀ k, ∃ y k2, c.clone refs frs k = some (y, refs k, k2) ∧
        k < k2 ∧ y.wf = true ∧
        ∀ (lay lay2 : Node → Option (Nat × Nat)),
          (∀ (n : Node) (d : Mem),
            lay { n with data := d, capacity := n.byte_size, read_only := false } = lay2 n) →
          y.shape lay = c.shape lay2) →
      wf_slots array cs i = true → i ≤ end_ → na.attached →
      na.m_width = max_bit_width na.elems → na.m_size + (end_ - i) ≤ 2097150 →
      ∃ r ncs k2, clone_children refs frs array end_ fr cs i na k = some (r, ncs, k2) ∧
        r.attached ∧ r.m_size = na.m_size + (end_ - i) ∧ r.m_width = max_bit_width r.elems ∧
        ncs.length = end_ - i ∧ k ≤ k2 ∧
        r.m_is_inner_bptree_node = na.m_is_inner_bptree_node ∧
        r.m_has_refs = na.m_has_refs ∧ r.m_context_flag = na.m_context_flag ∧
        (∀ j, j < na.m_size → r.get j = na.get j) ∧
        (∀ j, j < end_ - i →
          (is_subarray (array.get (i + j)) = false →
            r.get (na.m_size + j) = array.get (i + j) ∧
            ncs.getD j MemTree.null = MemTree.null) ∧
          (is_subarray (array.get (i + j)) = true →
            ∃ kj y kj2, (cs.getD j MemTree.null).clone refs frs kj = some (y, refs kj, kj2) ∧
              r.get (na.m_size + j) = from_ref (refs kj) ∧ ncs.getD j MemTree.null = y)) ∧
        (∀ (R : Array) (lay lay2 : Node → Option (Nat × Nat)),
          (∀ (n : Node) (d : Mem),
            lay { n with data := d, capacity := n.byte_size, read_only := false } = lay2 n) →
          (∀ j, j < end_ - i → R.get (na.m_size + j) = r.get (na.m_size + j)) →
          shape_children lay R ncs na.m_size =
            (shape_children lay2 array cs i).take (end_ - i)) ∧
        (∀ (R : Array), R.m_size = na.m_size + (end_ - i) →
          (∀ j, j < end_ - i → R.get (na.m_size + j) = r.get (na.m_size + j)) →
          wf_slots R ncs na.m_size = true) := by
  intro cs
  induction cs with
  | nil =>
    intro i na k _ hwf hi hna hinv _
    simp only [wf_slots, decide_eq_true_iff] at hwf
    have hie : i = end_ := by omega
    subst hie
    simp only [clone_children, if_true]
    refine ⟨na, [], k, rfl, hna, by omega, hinv, by simp, le_refl _, rfl, rfl, rfl,
      fun _ _ => rfl, fun j hj => by omega, fun R lay lay2 _ _ => ?_, fun R hR _ => ?_⟩
    · simp [shape_children]
    · simp only [wf_slots, decide_eq_true_iff]
      omega
  | cons c cs ih =>
    intro i na k hch hwf hi hna hinv hroom
    simp only [clone_children]
    by_cases hie : i = end_
    · subst hie
      rw [if_pos rfl]
      refine ⟨na, [], k, rfl, hna, by omega, hinv, by simp, le_refl _, rfl, rfl, rfl,
        fun _ _ => rfl, fun j hj => by omega, fun R lay lay2 _ _ => ?_, fun R hR _ => ?_⟩
      · simp [shape_children]
      · simp only [wf_slots, decide_eq_true_iff]
        omega
    · rw [if_neg hie]
      simp only [wf_slots, Bool.and_eq_true, decide_eq_true_iff, Bool.or_eq_true,
        Bool.not_eq_true'] at hwf
      obtain ⟨⟨hlt, hsub⟩, hwfcs⟩ := hwf
      have hcnt : end_ - i = (end_ - (i + 1)) + 1 := by omega
      have hfit := get_direct_fits array.m_width hw array.m_data i
      have hint : is_int64 (array.get i) := fits_is_int64 array.m_width hw _ hfit
      have hch2 : ∀ c2 ∈ cs, c2.wf = true → ∀ k, ∃ y k2,
          c2.clone refs frs k = some (y, refs k, k2) ∧ k < k2 ∧ y.wf = true ∧
          ∀ (lay lay2 : Node → Option (Nat × Nat)),
            (∀ (n : Node) (d : Mem),
              lay { n with data := d, capacity := n.byte_size, read_only := false } = lay2 n) →
            y.shape lay = c2.shape lay2 :=
        fun c2 hc2 => hch c2 (List.mem_cons_of_mem _ hc2)
      cases hs : is_subarray (array.get i)
      · -- the slot holds no ref
        simp only [Bool.false_eq_true, not_false_eq_true, if_true]
        obtain ⟨b, hb, b1, b2, b3, b4, b5, b6, b7, b8, b9, b10, _⟩ :=
          add_spec_room na (array.get i) (fr i) hna hint (by omega)
            (room_of_small _ _ (by omega)
              (max_mem_widths _ _ (bit_width_minimal _ hint).1 hna.1)) hinv
        rw [hb]
        dsimp only
        obtain ⟨r, ncs, k2, hr, r1, r2, r3, r4, r5, r6, r7, r8, r9, r10, r11, r12⟩ :=
          ih (i + 1) b k hch2 hwfcs (by omega) b1 b7 (by omega)
        rw [hr]
        dsimp only
        have hr0 : r.get na.m_size = array.get i := by rw [r9 _ (by omega), b3]
        refine ⟨r, MemTree.null :: ncs, k2, rfl, r1, by omega, r3,
          by rw [List.length_cons, r4]; omega, r5, r6.trans b8, r7.trans b9, r8.trans b10,
          fun j hj => by rw [r9 j (by omega), b4 j hj], fun j hj => ?_,
          fun R lay lay2 hl hR => ?_, fun R hR1 hR2 => ?_⟩
        · by_cases hj0 : j = 0
          · subst hj0
            simp only [Nat.add_zero, hs, Bool.false_eq_true, false_implies, and_true,
              true_implies]
            exact ⟨hr0, rfl⟩
          · obtain ⟨j2, rfl⟩ : ∃ j2, j = j2 + 1 := ⟨j - 1, by omega⟩
            have := r10 j2 (by omega)
            rw [b2, show i + 1 + j2 = i + (j2 + 1) by omega,
              show na.m_size + 1 + j2 = na.m_size + (j2 + 1) by omega] at this
            rw [getD_cons_succ_tree, getD_cons_succ_tree]
            exact this
        · have hR0 : R.get na.m_size = array.get i := by
            have := hR 0 (by omega)
            rw [Nat.add_zero] at this
            rw [this, hr0]
          rw [hcnt]
          simp only [shape_children, hR0, hs, Bool.false_eq_true, if_false, List.take_succ_cons]
          congr 1
          have := r11 R lay lay2 hl (fun j hj => by
            have := hR (j + 1) (by omega)
            rw [b2, show na.m_size + 1 + j = na.m_size + (j + 1) by omega]
            exact this)
          rw [b2] at this
          exact this
        · have hR0 : R.get na.m_size = array.get i := by
            have := hR2 0 (by omega)
            rw [Nat.add_zero] at this
            rw [this, hr0]
          simp only [wf_slots, Bool.and_eq_true, decide_eq_true_iff, Bool.or_eq_true,
            Bool.not_eq_true', hR0, hs, true_or, and_true]
          refine ⟨by omega, ?_⟩
          have := r12 R (by rw [b2]; omega) (fun j hj => by
            have := hR2 (j + 1) (by omega)
            rw [b2, show na.m_size + 1 + j = na.m_size + (j + 1) by omega]
            exact this)
          rw [b2] at this
          exact this
      · -- the slot holds a ref
        simp only [not_true_eq_false, if_false]
        have hcwf : c.wf = true := by
          rcases hsub with h | h
          · rw [hs] at h
            exact absurd h (by decide)
          · exact h
        obtain ⟨y, ky, hy, hy1, hy2, hy3⟩ := hch c (List.mem_cons_self _ _) hcwf k
        rw [hy]
        dsimp only
        have hrf := hrefs k
        have hsr : is_subarray (from_ref (refs k)) = true :=
          is_subarray_from_ref _ hrf.1 hrf.2.1 hrf.2.2
        have hint2 : is_int64 (from_ref (refs k)) := to_int64_is_int64 _
        obtain ⟨b, hb, b1, b2, b3, b4, b5, b6, b7, b8, b9, b10, _⟩ :=
          add_spec_room na (from_ref (refs k)) (fr i) hna hint2 (by omega)
            (room_of_small _ _ (by omega)
              (max_mem_widths _ _ (bit_width_minimal _ hint2).1 hna.1)) hinv
        rw [hb]
        dsimp only
        obtain ⟨r, ncs, k2, hr, r1, r2, r3, r4, r5, r6, r7, r8, r9, r10, r11, r12⟩ :=
          ih (i + 1) b ky hch2 hwfcs (by omega) b1 b7 (by omega)
        rw [hr]
        dsimp only
        have hr0 : r.get na.m_size = from_ref (refs k) := by rw [r9 _ (by omega), b3]
        refine ⟨r, y :: ncs, k2, rfl, r1, by omega, r3,
          by rw [List.length_cons, r4]; omega, by omega, r6.trans b8, r7.trans b9,
          r8.trans b10, fun j hj => by rw [r9 j (by omega), b4 j hj], fun j hj => ?_,
          fun R lay lay2 hl hR => ?_, fun R hR1 hR2 => ?_⟩
        · by_cases hj0 : j = 0
          · subst hj0
            simp only [Nat.add_zero, hs, Bool.true_eq_false, false_implies, true_and,
              true_implies]
            exact ⟨k, y, ky, hy, hr0, rfl⟩
          · obtain ⟨j2, rfl⟩ : ∃ j2, j = j2 + 1 := ⟨j - 1, by omega⟩
            have := r10 j2 (by omega)
            rw [b2, show i + 1 + j2 = i + (j2 + 1) by omega,
              show na.m_size + 1 + j2 = na.m_size + (j2 + 1) by omega] at this
            rw [getD_cons_succ_tree, getD_cons_succ_tree]
            exact this
        · have hR0 : R.get na.m_size = from_ref (refs k) := by
            have := hR 0 (by omega)
            rw [Nat.add_zero] at this
            rw [this, hr0]
          rw [hcnt]
          simp only [shape_children, hR0, hs, hsr, if_true, List.take_succ_cons]
          rw [hy3 lay lay2 hl]
          refine congrArg _ ?_
          have := r11 R lay lay2 hl (fun j hj => by
            have := hR (j + 1) (by omega)
            rw [b2, show na.m_size + 1 + j = na.m_size + (j + 1) by omega]
            exact this)
          rw [b2] at this
          exact this
        · have hR0 : R.get na.m_size = from_ref (refs k) := by
            have := hR2 0 (by omega)
            rw [Nat.add_zero] at this
            rw [this, hr0]
          simp only [wf_slots, Bool.and_eq_true, decide_eq_true_iff, Bool.or_eq_true,
            Bool.not_eq_true', hR0, hy2, or_true, and_true]
          refine ⟨by omega, ?_⟩
          have := r12 R (by rw [b2]; omega) (fun j hj => by
            have := hR2 (j + 1) (by omega)
            rw [b2, show na.m_size + 1 + j = na.m_size + (j + 1) by omega]
            exact this)
          rw [b2] at this
          exact this

theorem mem_depth_list (c : MemTree) : ∀ (cs : List MemTree), c ∈ cs → c.depth ≤ depth_list cs := by
  intro cs
  induction cs with
  | nil => intro h; cases h
  | cons x xs ih =>
    intro h
    simp only [depth_list]
    rcases List.mem_cons.mp h with rfl | h2
    · exact Nat.le_max_left _ _
    · exact le_trans (ih h2) (Nat.le_max_right _ _)

theorem shape_children_length (lay : Node → Option (Nat × Nat)) (array : Array) :
    ∀ (cs : List MemTree) (i : Nat), (shape_children lay array cs i).length = cs.length := by
  intro cs
  induction cs with
  | nil => intro i; simp [shape_children]
  | cons c cs ih => intro i; simp [shape_children, ih]

theorem wf_slots_length (array : Array) :
    ∀ (cs : List MemTree) (i : Nat), wf_slots array cs i = true → i + cs.length = array.m_size := by
  intro cs
  induction cs with
  | nil =>
    intro i h
    simp only [wf_slots, decide_eq_true_iff] at h
    simp [h]
  | cons c cs ih =>
    intro i h
    simp only [wf_slots, Bool.and_eq_true] at h
    have := ih (i + 1) h.2
    rw [List.length_cons]
    omega

theorem byte_size_eq (n : Node) (hv : n.valid) :
    n.byte_size = ((n.size * n.width + 7) / 8 + 7) / 8 * 8 + 8 := by
  obtain ⟨h1, h2, _⟩ := hv
  have hw := width_le_64 n.width h1
  have h : n.size * n.width ≤ 0xFFFFFF * 64 := Nat.mul_le_mul h2 hw
  unfold Node.byte_size sz header_size
  simp only []
  omega

/-- The byte-for-byte copy of a node holds the elements of the node. -/
theorem leaf_clone_elems (hdr : Node) (hv : hdr.valid) (g : Mem) :
    (Array.init_from_mem
      { hdr with
        data := fun p => if p + header_size < hdr.byte_size then hdr.data p else g p,
        capacity := hdr.byte_size, read_only := false }).elems =
    (Array.init_from_mem hdr).elems := by
  have hb := byte_size_eq hdr hv
  unfold Array.elems
  show (List.range hdr.size).map _ = (List.range hdr.size).map _
  apply List.map_congr_left
  intro j hj
  have hj2 : j < hdr.size := List.mem_range.mp hj
  show get_direct hdr.width
    (fun p => if p + header_size < hdr.byte_size then hdr.data p else g p) j =
    get_direct hdr.width hdr.data j
  apply get_direct_congr hdr.width hv.1
  intro b hb1 hb2
  have hjw : j * hdr.width + hdr.width ≤ hdr.size * hdr.width := by
    have : (j + 1) * hdr.width ≤ hdr.size * hdr.width := Nat.mul_le_mul_right _ hj2
    rw [Nat.add_mul, Nat.one_mul] at this
    exact this
  have hlt : b / 8 + header_size < hdr.byte_size := by
    rw [hb]
    unfold header_size
    generalize hdr.size * hdr.width = sw at *
    generalize j * hdr.width = jw at *
    omega
  unfold mbit
  simp only [hlt, if_true]

theorem create_node_flags (hdr : Node) (h : hdr.has_refs = true) (fr : Fresh) :
    (Array.create hdr.get_type hdr.context_flag fr).m_is_inner_bptree_node =
      hdr.is_inner_bptree_node ∧
    (Array.create hdr.get_type hdr.context_flag fr).m_has_refs = true ∧
    (Array.create hdr.get_type hdr.context_flag fr).m_context_flag = hdr.context_flag := by
  unfold Node.get_type
  rw [h]
  cases hi : hdr.is_inner_bptree_node <;> exact ⟨rfl, rfl, rfl⟩

/-- What `clone` does on a well-formed node tree when the target allocator
hands out valid refs: it returns the ref of the first node placed, the new
node tree is well formed and has the structure of the old one, a node without
refs keeps width and elements and has its byte size as capacity, and a node
with refs is rebuilt at the least width that holds its new slots. -/
theorem clone_spec (refs : Nat → Nat) (frs : Nat → Nat → Fresh) (hrefs : valid_refs refs) :
    ∀ (d : Nat) (t : MemTree) (k : Nat), t.depth ≤ d → t.wf = true →
      ∃ y k2, t.clone refs frs k = some (y, refs k, k2) ∧ k < k2 ∧ y.wf = true ∧
        (∀ (lay lay2 : Node → Option (Nat × Nat)),
          (∀ (n : Node) (d : Mem),
            lay { n with data := d, capacity := n.byte_size, read_only := false } = lay2 n) →
          y.shape lay = t.shape lay2) ∧
        ∃ th tc yh yc, t = MemTree.node th tc ∧ y = MemTree.node yh yc ∧
          yh.is_inner_bptree_node = th.is_inner_bptree_node ∧ yh.has_refs = th.has_refs ∧
          yh.context_flag = th.context_flag ∧ yh.size = th.size ∧ yh.valid ∧
          (th.has_refs = false → yh.width = th.width ∧ yh.capacity = th.byte_size ∧
            (Array.init_from_mem yh).elems = (Array.init_from_mem th).elems) ∧
          (th.has_refs = true →
            yh.width = max_bit_width (Array.init_from_mem yh).elems ∧ yc.length = th.size ∧
            ∀ j, j < th.size →
              (is_subarray ((Array.init_from_mem th).get j) = false →
                (Array.init_from_mem yh).get j = (Array.init_from_mem th).get j ∧
                yc.getD j MemTree.null = MemTree.null) ∧
              (is_subarray ((Array.init_from_mem th).get j) = true →
                ∃ kj y2 kj2, (tc.getD j MemTree.null).clone refs frs kj =
                    some (y2, refs kj, kj2) ∧
                  (Array.init_from_mem yh).get j = from_ref (refs kj) ∧
                  yc.getD j MemTree.null = y2)) := by
  intro d
  induction d with
  | zero =>
    intro t k hd hwf
    cases t with
    | null => simp [MemTree.wf] at hwf
    | node hdr children => simp [MemTree.depth] at hd
  | succ d ih =>
    intro t k hd hwf
    cases t with
    | null => simp [MemTree.wf] at hwf
    | node hdr children =>
      simp only [MemTree.depth] at hd
      simp only [MemTree.wf, Bool.and_eq_true, decide_eq_true_iff, Bool.or_eq_true,
        Bool.not_eq_true'] at hwf
      obtain ⟨hv, hrest⟩ := hwf
      by_cases hr : hdr.has_refs = true
      swap
      · -- a node without refs: the byte copy
        simp only [MemTree.clone]
        rw [if_pos hr]
        have he := leaf_clone_elems hdr hv (frs k 0 0)
        refine ⟨_, _, rfl, by omega, ?_, ?_, hdr, children, _, _, rfl, rfl, rfl, rfl, rfl, rfl,
          hv, fun _ => ⟨rfl, rfl, he⟩, fun h => absurd h hr⟩
        · simp only [MemTree.wf, Bool.and_eq_true, decide_eq_true_iff, Bool.or_eq_true,
            Bool.not_eq_true']
          exact ⟨hv, Or.inl (by simpa using hr)⟩
        · intro lay lay2 hl
          simp only [MemTree.shape]
          rw [if_neg hr, if_neg hr, if_neg hr, if_neg hr, hl hdr, he]
      · -- a node with refs: the rebuilt node
        rcases hrest with hx | hx
        · rw [hr] at hx
          cases hx
        obtain ⟨hsz, hslots⟩ := hx
        simp only [MemTree.clone]
        rw [if_neg (not_not.mpr hr)]
        have hch : ∀ c ∈ children, c.wf = true → ∀ k, ∃ y k2,
            c.clone refs frs k = some (y, refs k, k2) ∧ k < k2 ∧ y.wf = true ∧
            ∀ (lay lay2 : Node → Option (Nat × Nat)),
              (∀ (n : Node) (d : Mem),
                lay { n with data := d, capacity := n.byte_size, read_only := false } = lay2 n) →
              y.shape lay = c.shape lay2 := by
          intro c hc hcwf k
          have hcd := mem_depth_list c children hc
          obtain ⟨y, k2, e1, e2, e3, e4, _⟩ := ih c k (by omega) hcwf
          exact ⟨y, k2, e1, e2, e3, e4⟩
        obtain ⟨n0, n1, n2, n3, _⟩ := create_spec hdr.get_type hdr.context_flag (frs k 0)
        obtain ⟨f1, f2, f3⟩ := create_node_flags hdr hr (frs k 0)
        have hms : (Array.init_from_mem hdr).m_size = hdr.size := rfl
        obtain ⟨r, ncs, k2, hrr, r1, r2, r3, r4, r5, r6, r7, r8, r9, r10, r11, r12⟩ :=
          clone_children_spec refs frs hrefs (Array.init_from_mem hdr) hv.1 hdr.size
            (le_refl _) (fun j => frs k (j + 1)) children 0
            (Array.create hdr.get_type hdr.context_flag (frs k 0)) (k + 1) hch hslots
            (Nat.zero_le _) n0 (create_width_invariant _ _ _) (by rw [n1]; omega)
        rw [hms, hrr]
        dsimp only
        simp only [n1, Nat.zero_add, Nat.sub_zero] at r2 r4 r10 r11 r12
        obtain ⟨g1, g2, g3, g4, g5, g6, g7, g8⟩ := init_from_mem_get_mem r r1
        have hlen := wf_slots_length _ _ _ hslots
        rw [Nat.zero_add, hms] at hlen
        have hyr : r.get_mem.has_refs = true := r7.trans f2
        refine ⟨_, _, rfl, by omega, ?_, ?_, hdr, children, _, _, rfl, rfl, r6.trans f1,
          hyr.trans hr.symm, r8.trans f3, g5.trans r2, g4, fun h => (by rw [hr] at h; cases h),
          fun _ => ⟨?_, r4, fun j hj => ?_⟩⟩
        · simp only [MemTree.wf, Bool.and_eq_true, decide_eq_true_iff, Bool.or_eq_true,
            Bool.not_eq_true']
          refine ⟨g4, Or.inr ⟨by rw [g5, r2]; exact hsz, ?_⟩⟩
          exact r12 _ (by rw [g1, r2]) (fun j _ => g7 j)
        · intro lay lay2 hl
          simp only [MemTree.shape, hr, hyr, if_true]
          have e := r11 (Array.init_from_mem r.get_mem) lay lay2 hl (fun j _ => g7 j)
          rw [e, List.take_of_length_le (by rw [shape_children_length, hlen])]
          rw [g5, r2]
          exact congrArg₂ (fun a b => Shape.node a true b hdr.size none _)
            (r6.trans f1) (r8.trans f3)
        · rw [g6, g8]
          exact r3
        · have := r10 j hj
          rw [g7 j]
          exact this

theorem wf_slots_drop (array : Array) :
    ∀ (cs : List MemTree) (i m : Nat), wf_slots array cs i = true → m ≤ cs.length →
      wf_slots array (cs.drop m) (i + m) = true := by
  intro cs
  induction cs with
  | nil =>
    intro i m h hm
    simp only [List.length_nil, Nat.le_zero] at hm
    subst hm
    exact h
  | cons c cs ih =>
    intro i m h hm
    cases m with
    | zero => exact h
    | succ m =>
      simp only [wf_slots, Bool.and_eq_true] at h
      rw [List.drop_succ_cons, show i + (m + 1) = i + 1 + m by omega]
      exact ih (i + 1) m h.2 (by simpa using hm)

theorem getD_drop_tree (cs : List MemTree) (m j : Nat) :
    (cs.drop m).getD j MemTree.null = cs.getD (m + j) MemTree.null := by
  rw [List.getD_eq_getElem?_getD, List.getD_eq_getElem?_getD, List.getElem?_drop]

theorem init_from_mem_get_type (hdr : Node) :
    (Array.init_from_mem hdr).get_type = hdr.get_type := rfl

/-- The function `Array::slice_and_clone_children` on a node with refs: the new node has
the type and the context flag of the source and one slot per slot of the
range; a slot that holds no ref is copied, and a slot that holds a ref
receives the ref of the clone of the node tree it refers to. -/
theorem slice_and_clone_children_spec (refs : Nat → Nat) (frs : Nat → Nat → Fresh)
    (hrefs : valid_refs refs) (hdr : Node) (children : List MemTree) (offset n k : Nat)
    (hwf : (MemTree.node hdr children).wf = true) (hr : hdr.has_refs = true)
    (hon : offset + n ≤ hdr.size) :
    ∃ yh yc k2, (MemTree.node hdr children).slice_and_clone_children refs frs offset n k =
        some (MemTree.node yh yc, refs k, k2) ∧ k < k2 ∧
      (MemTree.node yh yc).wf = true ∧ yh.get_type = hdr.get_type ∧
      yh.is_inner_bptree_node = hdr.is_inner_bptree_node ∧ yh.has_refs = true ∧
      yh.context_flag = hdr.context_flag ∧ yh.size = n ∧ yc.length = n ∧
      ∀ j, j < n →
        (is_subarray ((Array.init_from_mem hdr).get (offset + j)) = false →
          (Array.init_from_mem yh).get j = (Array.init_from_mem hdr).get (offset + j) ∧
          yc.getD j MemTree.null = MemTree.null) ∧
        (is_subarray ((Array.init_from_mem hdr).get (offset + j)) = true →
          ∃ kj y2 kj2, (children.getD (offset + j) MemTree.null).clone refs frs kj =
              some (y2, refs kj, kj2) ∧ y2.wf = true ∧
            y2.shape no_layout = (children.getD (offset + j) MemTree.null).shape no_layout ∧
            (Array.init_from_mem yh).get j = from_ref (refs kj) ∧
            yc.getD j MemTree.null = y2) := by
  simp only [MemTree.wf, Bool.and_eq_true, decide_eq_true_iff, Bool.or_eq_true,
    Bool.not_eq_true'] at hwf
  obtain ⟨hv, hrest⟩ := hwf
  rcases hrest with hx | hx
  · rw [hr] at hx
    cases hx
  obtain ⟨hsz, hslots⟩ := hx
  have hms : (Array.init_from_mem hdr).m_size = hdr.size := rfl
  have hmr : (Array.init_from_mem hdr).m_has_refs = hdr.has_refs := rfl
  have hmc : (Array.init_from_mem hdr).m_context_flag = hdr.context_flag := rfl
  simp only [MemTree.slice_and_clone_children]
  rw [if_neg (by rw [hmr, hr]; decide), init_from_mem_get_type, hmc,
    sz_small _ (by have := hv.2.1; omega)]
  have hch : ∀ c ∈ children.drop offset, c.wf = true → ∀ k, ∃ y k2,
      c.clone refs frs k = some (y, refs k, k2) ∧ k < k2 ∧ y.wf = true ∧
      ∀ (lay lay2 : Node → Option (Nat × Nat)),
        (∀ (n : Node) (d : Mem),
          lay { n with data := d, capacity := n.byte_size, read_only := false } = lay2 n) →
        y.shape lay = c.shape lay2 := by
    intro c _ hcwf k
    obtain ⟨y, k2, e1, e2, e3, e4, _⟩ := clone_spec refs frs hrefs c.depth c k (le_refl _) hcwf
    exact ⟨y, k2, e1, e2, e3, e4⟩
  have hlen := wf_slots_length _ _ _ hslots
  rw [Nat.zero_add, hms] at hlen
  have hsl := wf_slots_drop _ _ 0 offset hslots (by omega)
  rw [Nat.zero_add] at hsl
  obtain ⟨n0, n1, n2, n3, _⟩ := create_spec hdr.get_type hdr.context_flag (frs k 0)
  obtain ⟨f1, f2, f3⟩ := create_node_flags hdr hr (frs k 0)
  obtain ⟨r, ncs, k2, hrr, r1, r2, r3, r4, r5, r6, r7, r8, r9, r10, r11, r12⟩ :=
    clone_children_spec refs frs hrefs (Array.init_from_mem hdr) hv.1 (offset + n)
      (by rw [hms]; exact hon) (fun j => frs k (j + 1)) (children.drop offset) offset
      (Array.create hdr.get_type hdr.context_flag (frs k 0)) (k + 1) hch hsl
      (by omega) n0 (create_width_invariant _ _ _) (by rw [n1]; omega)
  rw [hrr]
  dsimp only
  simp only [n1, Nat.zero_add, Nat.add_sub_cancel_left] at r2 r4 r10 r11 r12
  obtain ⟨g1, g2, g3, g4, g5, g6, g7, g8⟩ := init_from_mem_get_mem r r1
  have hyr : r.get_mem.has_refs = true := r7.trans f2
  have hyi : r.get_mem.is_inner_bptree_node = hdr.is_inner_bptree_node := r6.trans f1
  refine ⟨_, _, _, rfl, by omega, ?_, ?_, hyi, hyr, r8.trans f3, g5.trans r2, r4,
    fun j hj => ?_⟩
  · simp only [MemTree.wf, Bool.and_eq_true, decide_eq_true_iff, Bool.or_eq_true,
      Bool.not_eq_true']
    refine ⟨g4, Or.inr ⟨by rw [g5, r2]; omega, ?_⟩⟩
    exact r12 _ (by rw [g1, r2]) (fun j _ => g7 j)
  · unfold Node.get_type
    rw [hyi, hyr, hr]
  · obtain ⟨s1, s2⟩ := r10 j hj
    rw [g7 j]
    refine ⟨s1, fun hs => ?_⟩
    obtain ⟨kj, y2, kj2, q1, q2, q3⟩ := s2 hs
    rw [getD_drop_tree] at q1
    have hcwf : (children.getD (offset + j) MemTree.null).wf = true := by
      cases hc : (children.getD (offset + j) MemTree.null).clone refs frs kj with
      | none => rw [hc] at q1; cases q1
      | some v =>
        have hsl2 := wf_slots_drop _ _ 0 (offset + j) hslots (by omega)
        rw [Nat.zero_add] at hsl2
        have hne : children.drop (offset + j) ≠ [] := by
          intro hnil
          have := congrArg List.length hnil
          rw [List.length_drop, List.length_nil] at this
          omega
        obtain ⟨c, cs, hcs⟩ := List.exists_cons_of_ne_nil hne
        have hcg : children.getD (offset + j) MemTree.null = c := by
          have := getD_drop_tree children (offset + j) 0
          rw [hcs, Nat.add_zero] at this
          rw [← this]
          rfl
        rw [hcs] at hsl2
        simp only [wf_slots, Bool.and_eq_true, decide_eq_true_iff, Bool.or_eq_true,
          Bool.not_eq_true'] at hsl2
        rcases hsl2.1.2 with h1 | h1
        · rw [hs] at h1
          cases h1
        · rw [hcg]
          exact h1
    obtain ⟨y3, k3, e1, e2, e3, e4, _⟩ := clone_spec refs frs hrefs _ _ kj (le_refl _) hcwf
    rw [e1] at q1
    have hy : y3 = y2 := by
      have := Option.some.inj q1
      exact congrArg Prod.fst this
    subst hy
    exact ⟨kj, y3, kj2, by rw [e1, q1], e3, e4 no_layout no_layout (fun _ _ => rfl), q2, q3⟩

theorem example_refs_valid : valid_refs example_refs := by
  intro k
  unfold example_refs
  omega

/-- The loop of `destroy_children` hands to `destroy_deep` the slots that are
not zero and whose low bit is clear, in order. -/
theorem destroy_children_loop_spec (a : Array) :
    ∀ (count i : Nat), destroy_children_loop a count i =
      (((List.range count).map fun j => a.get (i + j)).filter
        fun v => decide (v ≠ 0 ∧ v % 2 = 0)).map to_ref := by
  intro count
  induction count with
  | zero => intro i; rfl
  | succ count ih =>
    intro i
    have hr : (List.range (count + 1)).map (fun j => a.get (i + j)) =
        a.get i :: (List.range count).map fun j => a.get (i + 1 + j) := by
      rw [List.range_succ_eq_map, List.map_cons, List.map_map]
      refine congrArg₂ List.cons rfl (List.map_congr_left fun j _ => ?_)
      show a.get (i + (j + 1)) = a.get (i + 1 + j)
      rw [show i + (j + 1) = i + 1 + j by omega]
    rw [hr, List.filter_cons]
    simp only [destroy_children_loop]
    rw [ih (i + 1)]
    have hlow : ∀ v : Int, to_uint64 v &&& 1 = 0 ↔ v % 2 = 0 := by
      intro v
      rw [Nat.and_one_is_mod]
      unfold to_uint64
      omega
    by_cases h0 : a.get i = 0
    · rw [if_pos h0, if_neg (by simp [h0])]
    · rw [if_neg h0]
      by_cases h1 : to_uint64 (a.get i) &&& 1 = 0
      · rw [if_neg (not_not.mpr h1), if_pos (by
          rw [decide_eq_true_iff]
          exact ⟨h0, (hlow _).mp h1⟩), List.map_cons]
      · rw [if_pos h1, if_neg (by
          rw [decide_eq_true_iff]
          intro hx
          exact h1 ((hlow _).mpr hx.2))]

theorem destroy_children_spec (a : Array) (offset : Nat) (h : offset ≤ a.m_size) :
    a.destroy_children offset = some (a.ref_slots offset) := by
  unfold Array.destroy_children Array.ref_slots
  rw [if_pos h, destroy_children_loop_spec]

theorem ref_slots_congr (a b : Array) (offset : Nat) (hs : b.m_size = a.m_size)
    (hg : ∀ j, j < a.m_size → b.get j = a.get j) : b.ref_slots offset = a.ref_slots offset := by
  unfold Array.ref_slots
  rw [hs]
  refine congrArg _ (congrArg _ (List.map_congr_left fun j hj => ?_))
  have := List.mem_range.mp hj
  exact hg _ (by omega)

/-- The refs that `truncate_and_destroy_children` destroys. -/
theorem truncate_destroyed_spec (a : Array) (n : Nat) (fr : Fresh) (h : a.attached)
    (hn : n ≤ a.m_size) :
    a.truncate_destroyed n fr = some (if a.m_has_refs then a.ref_slots n else []) := by
  obtain ⟨c1, c2, c3, c4, c5, c6, c7, c8, c9, c10⟩ := copy_on_write_spec a (fr 0) h
  unfold Array.truncate_destroyed
  rw [if_neg (not_not.mpr hn)]
  by_cases hs : n = a.m_size
  · rw [if_pos hs]
    subst hs
    have : a.ref_slots a.m_size = [] := by
      unfold Array.ref_slots
      rw [Nat.sub_self]
      rfl
    rw [this]
    simp
  · rw [if_neg hs]
    dsimp only
    rw [c8]
    cases hr : a.m_has_refs
    · rfl
    · simp only [if_true]
      rw [destroy_children_spec _ _ (by rw [c3]; exact hn), ref_slots_congr a _ n c3 c10]

/-- A second `clone` leaves the structure as the first one made it, the
layout of the nodes without refs included. -/
theorem clone_clone_spec (refs : Nat → Nat) (frs : Nat → Nat → Fresh) (hrefs : valid_refs refs)
    (t : MemTree) (k k2 : Nat) (hwf : t.wf = true) :
    ∃ y n1 z n2, t.clone refs frs k = some (y, refs k, n1) ∧
      y.clone refs frs k2 = some (z, refs k2, n2) ∧
      z.shape Node.layout = y.shape Node.layout ∧
      y.shape no_layout = t.shape no_layout := by
  obtain ⟨y, n1, e1, _, e3, e4, _⟩ := clone_spec refs frs hrefs t.depth t k (le_refl _) hwf
  obtain ⟨z, n2, g1, _, _, g4, _⟩ := clone_spec refs frs hrefs y.depth y k2 (le_refl _) e3
  refine ⟨y, n1, z, n2, e1, g1, ?_, e4 no_layout no_layout (fun _ _ => rfl)⟩
  have s1 : z.shape Node.layout = y.shape Node.copy_layout :=
    g4 Node.layout Node.copy_layout (fun _ _ => rfl)
  have s3 : y.shape Node.layout = t.shape Node.copy_layout :=
    e4 Node.layout Node.copy_layout (fun _ _ => rfl)
  have s4 : y.shape Node.copy_layout = t.shape Node.copy_layout :=
    e4 Node.copy_layout Node.copy_layout (fun _ _ => rfl)
  rw [s1, s4, s3]

theorem get_type_normal (n : Node) (h : n.get_type = Type_.type_Normal) :
    n.is_inner_bptree_node = false ∧ n.has_refs = false := by
  unfold Node.get_type at h
  cases hi : n.is_inner_bptree_node
  · cases hr : n.has_refs
    · exact ⟨rfl, rfl⟩
    · rw [hi, hr] at h
      simp at h
  · rw [hi] at h
    simp at h

/-- A slice of the whole array next to a clone of it: on a node with refs
the two calls do the same; on a node without refs the slice is rebuilt at the
least width that holds the elements, and the clone keeps the width. -/
theorem full_slice_spec (refs : Nat → Nat) (frs : Nat → Nat → Fresh) (hrefs : valid_refs refs)
    (hdr : Node) (children : List MemTree) (k : Nat)
    (hwf : (MemTree.node hdr children).wf = true)
    (htyped : hdr.is_inner_bptree_node = true → hdr.has_refs = true) :
    ∃ s c k2,
      (MemTree.node hdr children).slice_and_clone_children refs frs 0 hdr.size k =
        some (s, refs k, k2) ∧
      (MemTree.node hdr children).clone refs frs k = some (c, refs k, k2) ∧
      s.shape no_layout = c.shape no_layout ∧
      (hdr.has_refs = true → s = c) ∧
      (hdr.has_refs = false → ∃ sh sc ch cc, s = MemTree.node sh sc ∧ c = MemTree.node ch cc ∧
        sh.width = max_bit_width (Array.init_from_mem ch).elems ∧ ch.width = hdr.width ∧
        sh.width ≤ ch.width) := by
  obtain ⟨c, k2, e1, _, _, e4, th, tc, ch, cc, q1, q2, q3, q4, q5, q6, q7, q8, _⟩ :=
    clone_spec refs frs hrefs _ _ k (le_refl _) hwf
  have hv : hdr.valid := by
    simp only [MemTree.wf, Bool.and_eq_true, decide_eq_true_iff] at hwf
    exact hwf.1
  obtain ⟨rfl, rfl⟩ : hdr = th ∧ children = tc := by
    injection q1 with a b
    exact ⟨a, b⟩
  subst q2
  by_cases hr : hdr.has_refs = true
  · have hs : (MemTree.node hdr children).slice_and_clone_children refs frs 0 hdr.size k =
        (MemTree.node hdr children).clone refs frs k := by
      have hmr : (Array.init_from_mem hdr).m_has_refs = hdr.has_refs := rfl
      have hmc : (Array.init_from_mem hdr).m_context_flag = hdr.context_flag := rfl
      have hms : (Array.init_from_mem hdr).m_size = hdr.size := rfl
      simp only [MemTree.slice_and_clone_children, MemTree.clone]
      rw [if_neg (by rw [hmr, hr]; decide), if_neg (not_not.mpr hr), init_from_mem_get_type,
        hmc, hms, Nat.zero_add, sz_small _ (by have := hv.2.1; omega), List.drop_zero]
    refine ⟨_, _, k2, hs.trans e1, e1, rfl, fun _ => rfl, fun h => ?_⟩
    rw [hr] at h
    cases h
  · have hr2 : hdr.has_refs = false := by simpa using hr
    have hi : hdr.is_inner_bptree_node = false := by
      cases h : hdr.is_inner_bptree_node
      · rfl
      · exact absurd (htyped h) hr
    have hcl : (MemTree.node hdr children).clone refs frs k =
        some (MemTree.node ch cc, refs k, k + 1) := by
      have : ∃ y, (MemTree.node hdr children).clone refs frs k = some (y, refs k, k + 1) := by
        simp only [MemTree.clone]
        rw [if_pos hr]
        exact ⟨_, rfl⟩
      obtain ⟨y, hy⟩ := this
      rw [hy] at e1
      rw [hy, Option.some.inj e1]
      have := congrArg (fun p => p.2.2) (Option.some.inj e1)
      simp only at this
      rw [this]
    obtain ⟨w1, w2, w3⟩ := q8 hr2
    obtain ⟨node, n1, n2, n3, n4, n5, n6, n7, n8, n9⟩ :=
      slice_spec (Array.init_from_mem hdr) 0 hdr.size (frs k) ⟨hv.1, hv.2.1, hv.2.2⟩
        (by rw [Nat.zero_add]; exact le_refl _)
    have hs : (MemTree.node hdr children).slice_and_clone_children refs frs 0 hdr.size k =
        some (MemTree.node node (List.replicate hdr.size MemTree.null), refs k, k + 1) := by
      have hmr : (Array.init_from_mem hdr).m_has_refs = hdr.has_refs := rfl
      simp only [MemTree.slice_and_clone_children]
      rw [if_pos (by rw [hmr]; exact hr), n1]
    have hty : node.get_type = Type_.type_Normal := by
      rw [n3, init_from_mem_get_type]
      unfold Node.get_type
      rw [hi, hr2]
      rfl
    obtain ⟨t1, t2⟩ := get_type_normal node hty
    have hel : (Array.init_from_mem node).elems = (Array.init_from_mem ch).elems := by
      rw [n9, w3, List.drop_zero, List.take_of_length_le (by rw [elems_length]; exact le_refl _)]
    have hcr : ch.has_refs = false := q4.trans hr2
    have hmc : (Array.init_from_mem hdr).m_context_flag = hdr.context_flag := rfl
    have hmw : (Array.init_from_mem hdr).m_width = hdr.width := rfl
    have e5 : k2 = k + 1 := by
      rw [hcl] at e1
      have := congrArg (fun p => p.2.2) (Option.some.inj e1)
      exact this.symm
    subst e5
    refine ⟨_, _, k + 1, hs, hcl, ?_, fun h => absurd h hr, fun _ =>
      ⟨node, _, ch, cc, rfl, rfl, by rw [n6, hel], w1, by rw [w1, ← hmw]; exact n7⟩⟩
    simp only [MemTree.shape]
    rw [if_neg (by rw [t2]; decide), if_neg (by rw [t2]; decide), if_neg (by rw [hcr]; decide),
      if_neg (by rw [hcr]; decide), hel, t1, t2, n4, n5, hmc, q3, hi, hcr, q5, q6]
    rfl

/-! ## Claims about the array node -/

theorem max_bit_width_le (xs : List Int) (w : Nat) (h : ∀ x ∈ xs, bit_width x ≤ w) :
    max_bit_width xs ≤ w := by
  unfold max_bit_width
  induction xs with
  | nil => simp
  | cons x xs ih =>
    simp only [List.map_cons, List.foldr_cons]
    have h1 := h x (List.mem_cons_self _ _)
    have h2 := ih (fun y hy => h y (List.mem_cons_of_mem _ hy))
    omega

theorem mem_elems (a : Array) (x : Int) (hx : x ∈ a.elems) : ∃ i, i < a.m_size ∧ x = a.get i := by
  unfold Array.elems at hx
  rw [List.mem_map] at hx
  obtain ⟨i, hi, rfl⟩ := hx
  exact ⟨i, List.mem_range.mp hi, rfl⟩

/-- The width of an attached array holds every element, and an array whose
width is the largest `bit_width` of its elements has the least such width. -/
theorem width_least (a : Array) (h : a.attached) (hinv : a.m_width = max_bit_width a.elems) :
    (∀ x ∈ a.elems, lbound_for_width a.m_width ≤ x ∧ x ≤ ubound_for_width a.m_width) ∧
    (∀ w ∈ widths, (∀ x ∈ a.elems, lbound_for_width w ≤ x ∧ x ≤ ubound_for_width w) →
      a.m_width ≤ w) := by
  have hat := h
  obtain ⟨h1, _⟩ := h
  refine ⟨fun x hx => ?_, fun w hw hall => ?_⟩
  · obtain ⟨i, _, rfl⟩ := mem_elems a x hx
    exact get_direct_fits a.m_width h1 a.m_data i
  · rw [hinv]
    apply max_bit_width_le
    intro x hx
    obtain ⟨i, _, rfl⟩ := mem_elems a x hx
    obtain ⟨_, _, _, m4⟩ := bit_width_minimal (a.get i) (get_is_int64 a hat i)
    exact m4 w hw (hall _ hx).1 (hall _ hx).2

/-- Claim C2. For an attached array, `ndx < size` and a 64-bit value `v`
(`INT64_MIN`, `INT64_MAX` and `-1` included), `Array::set` succeeds; afterwards
`get(ndx)` is exactly `v`, the size is unchanged, and the width is
`bit_width(v)` when `v` lies outside the current bounds and unchanged
otherwise. When `get(ndx)` already equals `v` the array is returned as it
was: no copy on write and no width change. -/
theorem set_get_contract (a : Array) (ndx : Nat) (v : Int) (fr : Fresh) (h : a.attached)
    (hndx : ndx < a.m_size) (hv : is_int64 v)
    (hroom : calc_byte_len a.m_size
      (if v < a.m_lbound ∨ v > a.m_ubound then bit_width v else a.m_width) ≤
        max_array_payload) :
    ∃ b, a.set ndx v fr = some b ∧ b.attached ∧ b.get ndx = v ∧ b.m_size = a.m_size ∧
      b.m_width = (if v < a.m_lbound ∨ v > a.m_ubound then bit_width v else a.m_width) ∧
      lbound_for_width b.m_width ≤ v ∧ v ≤ ubound_for_width b.m_width ∧
      (a.get ndx = v → b = a) := by
  obtain ⟨b, hb, b1, b2, b3, b4, _, b6, _⟩ := set_spec a ndx v fr h hndx hv hroom
  have hf := get_direct_fits b.m_width b1.1 b.m_data ndx
  unfold Array.get at b4
  rw [b4] at hf
  exact ⟨b, hb, b1, b4, b2, b3, hf.1, hf.2, b6⟩

/-- Witness for `set_get_contract`: storing `INT64_MIN` at index 1 of the leaf
1, 2, 3, 4 of width 8. -/
theorem set_get_contract_witness :
    example_leaf.attached ∧ 1 < example_leaf.m_size ∧ is_int64 (-9223372036854775808) ∧
    ∃ b, example_leaf.set 1 (-9223372036854775808) zero_fresh = some b ∧ b.attached ∧
      b.get 1 = -9223372036854775808 ∧ b.m_size = example_leaf.m_size ∧
      b.m_width = (if (-9223372036854775808 : Int) < example_leaf.m_lbound ∨
        (-9223372036854775808 : Int) > example_leaf.m_ubound
        then bit_width (-9223372036854775808) else example_leaf.m_width) ∧
      lbound_for_width b.m_width ≤ -9223372036854775808 ∧
      -9223372036854775808 ≤ ubound_for_width b.m_width ∧
      (example_leaf.get 1 = -9223372036854775808 → b = example_leaf) :=
  ⟨by decide, by decide, by decide,
    set_get_contract example_leaf 1 (-9223372036854775808) zero_fresh (by decide) (by decide)
      (by decide) (by decide)⟩

/-- Claim C3. For every 64-bit signed `v`, `Array::bit_width(v)` is one of the
widths 0, 1, 2, 4, 8, 16, 32, 64, its range `[lbound_for_width, ubound_for_width]`
contains `v`, and no smaller width has a range that contains `v`. Widths 0, 1,
2 and 4 have the unsigned ranges `[0, 2^w - 1]`, widths 8 to 64 the
two's-complement ranges `[-2^(w-1), 2^(w-1) - 1]`. -/
theorem bit_width_minimal_fitting_width (v : Int) (hv : is_int64 v) :
    bit_width v ∈ widths ∧
    lbound_for_width (bit_width v) ≤ v ∧ v ≤ ubound_for_width (bit_width v) ∧
    (∀ w ∈ widths, lbound_for_width w ≤ v → v ≤ ubound_for_width w → bit_width v ≤ w) ∧
    (∀ w ∈ [0, 1, 2, 4], lbound_for_width w = 0 ∧ ubound_for_width w = 2 ^ w - 1) ∧
    (∀ w ∈ [8, 16, 32, 64],
      lbound_for_width w = -2 ^ (w - 1) ∧ ubound_for_width w = 2 ^ (w - 1) - 1) := by
  obtain ⟨m1, m2, m3, m4⟩ := bit_width_minimal v hv
  exact ⟨m1, m2, m3, m4, by decide, by decide⟩

/-- Witness for `bit_width_minimal_fitting_width` at `v = 70000`. -/
theorem bit_width_minimal_fitting_width_witness :
    is_int64 70000 ∧ bit_width 70000 ∈ widths ∧
    lbound_for_width (bit_width 70000) ≤ 70000 ∧ 70000 ≤ ubound_for_width (bit_width 70000) ∧
    (∀ w ∈ widths, lbound_for_width w ≤ 70000 → 70000 ≤ ubound_for_width w →
      bit_width 70000 ≤ w) ∧
    (∀ w ∈ [0, 1, 2, 4], lbound_for_width w = 0 ∧ ubound_for_width w = 2 ^ w - 1) ∧
    (∀ w ∈ [8, 16, 32, 64],
      lbound_for_width w = -2 ^ (w - 1) ∧ ubound_for_width w = 2 ^ (w - 1) - 1) :=
  ⟨by decide, bit_width_minimal_fitting_width 70000 (by decide)⟩

/-- Claim C4. Starting from an array created empty (width 0), after any
sequence `pre` of valid `add`/`insert` calls and after any longer sequence
`pre ++ post` the width equals the largest `bit_width` of the elements
present, it is the least of the eight widths whose range holds every element,
and the width after `pre ++ post` is at least the width after `pre`. The
sequences are short enough for the node to fit the largest payload at width
64. -/
theorem width_invariant_under_insertion (type : Type_) (context_flag : Bool) (fr : Fresh)
    (frs : Nat → Fresh) (pre post : List (Nat × Int))
    (hval : valid_inserts 0 (pre ++ post)) (hlen : (pre ++ post).length ≤ 2097150) :
    ∃ b c, run_inserts (Array.create type context_flag fr) pre frs = some b ∧
      run_inserts (Array.create type context_flag fr) (pre ++ post) frs = some c ∧
      b.m_width = max_bit_width b.elems ∧ c.m_width = max_bit_width c.elems ∧
      b.m_width ≤ c.m_width ∧ c.m_width ∈ widths ∧
      (∀ x ∈ c.elems, lbound_for_width c.m_width ≤ x ∧ x ≤ ubound_for_width c.m_width) ∧
      (∀ w ∈ widths, (∀ x ∈ c.elems, lbound_for_width w ≤ x ∧ x ≤ ubound_for_width w) →
        c.m_width ≤ w) := by
  obtain ⟨n0, n1, n2, n3, _⟩ := create_spec type context_flag fr
  obtain ⟨v1, v2⟩ := valid_inserts_append pre post 0 hval
  rw [List.length_append] at hlen
  obtain ⟨b, hb, b1, b2, _, b4⟩ := run_inserts_spec pre (Array.create type context_flag fr) frs
    n0 (by rw [n2, n3]; rfl) (by rw [n1]; exact v1) (by rw [n1]; omega)
  obtain ⟨c, hc, c1, c2, c3, _⟩ := run_inserts_spec post b (fun k => frs (pre.length + k))
    b1 b2 (by rw [b4, n1]; exact v2) (by rw [b4, n1]; omega)
  obtain ⟨l1, l2⟩ := width_least c c1 c2
  refine ⟨b, c, hb, ?_, b2, c2, c3, c1.1, l1, l2⟩
  rw [run_inserts_append, hb, Option.some_bind, hc]

/-- Witness for `width_invariant_under_insertion`: the widths after
`add(1); add(3); add(127)` and after the further `add(128); add(-1);
add(70000)`. -/
theorem width_invariant_under_insertion_witness :
    valid_inserts 0 (example_ops.take 3 ++ example_ops.drop 3) ∧
    (example_ops.take 3 ++ example_ops.drop 3).length ≤ 2097150 ∧
    ∃ b c, run_inserts (Array.create Type_.type_Normal false zero_fresh) (example_ops.take 3)
        (fun _ => zero_fresh) = some b ∧
      run_inserts (Array.create Type_.type_Normal false zero_fresh)
        (example_ops.take 3 ++ example_ops.drop 3) (fun _ => zero_fresh) = some c ∧
      b.m_width = max_bit_width b.elems ∧ c.m_width = max_bit_width c.elems ∧
      b.m_width ≤ c.m_width ∧ c.m_width ∈ widths ∧
      (∀ x ∈ c.elems, lbound_for_width c.m_width ≤ x ∧ x ≤ ubound_for_width c.m_width) ∧
      (∀ w ∈ widths, (∀ x ∈ c.elems, lbound_for_width w ≤ x ∧ x ≤ ubound_for_width w) →
        c.m_width ≤ w) :=
  ⟨by decide, by decide,
    width_invariant_under_insertion Type_.type_Normal false zero_fresh (fun _ => zero_fresh)
      (example_ops.take 3) (example_ops.drop 3) (by decide) (by decide)⟩

/-- Claim C8. For a leaf of `REALM_MAX_BPNODE_SIZE` elements `xs`, a value `v`
and any index (an index above the size is clamped to the size),
`Array::bptree_leaf_insert` returns a sibling; the original leaf followed by
the sibling is `xs` with `v` inserted at the index, `m_split_offset` is the new
size of the original leaf and `m_split_size` is the old size plus one; when
the index is the size the original leaf is unchanged and the sibling holds
only `v`. When the leaf is not full the function is `insert(ndx, v)` and
returns the null ref. -/
theorem leaf_split_preserves_sequence (M : Nat) (a : Array) (ndx : Nat) (v : Int)
    (st : TreeInsertBase) (frs : Nat → Fresh) (h : a.attached) (hv : is_int64 v)
    (hM : M + 1 ≤ 2097150) :
    (a.m_size = M →
      ∃ b s st2, a.bptree_leaf_insert M ndx v st frs = some (b, some s, st2) ∧
        b.elems ++ s.elems =
          a.elems.take (min ndx a.m_size) ++ v :: a.elems.drop (min ndx a.m_size) ∧
        st2.m_split_offset = b.m_size ∧ st2.m_split_size = a.m_size + 1 ∧
        (a.m_size ≤ ndx → b = a ∧ s.elems = [v])) ∧
    (a.m_size < M →
      ∃ b, a.bptree_leaf_insert M ndx v st frs = some (b, none, st) ∧
        a.insert (min ndx a.m_size) v (frs 0) = some b ∧
        b.elems = a.elems.take (min ndx a.m_size) ++ v :: a.elems.drop (min ndx a.m_size)) := by
  refine ⟨fun hfull => ?_, fun hlt => ?_⟩
  · obtain ⟨b, s, st2, hr, _, _, e1, e2, e3, e4, _⟩ :=
      bptree_leaf_insert_full M a ndx v st frs h hv hfull hM
    exact ⟨b, s, st2, hr, e1, e2, e3, fun hh => e4 (by omega)⟩
  · obtain ⟨b, hr, hi, _, he⟩ := bptree_leaf_insert_not_full M a ndx v st frs h hv hlt (by omega)
    exact ⟨b, hr, hi, he⟩

/-- Witness for `leaf_split_preserves_sequence`: the full leaf 1, 2, 3, 4 with
`REALM_MAX_BPNODE_SIZE = 4`, value 9 inserted at index 1. -/
theorem leaf_split_preserves_sequence_witness :
    example_leaf.attached ∧ is_int64 9 ∧ 4 + 1 ≤ 2097150 ∧
    (example_leaf.m_size = 4 →
      ∃ b s st2, example_leaf.bptree_leaf_insert 4 1 9 ⟨0, 0⟩ (fun _ => zero_fresh) =
          some (b, some s, st2) ∧
        b.elems ++ s.elems =
          example_leaf.elems.take (min 1 example_leaf.m_size) ++
            9 :: example_leaf.elems.drop (min 1 example_leaf.m_size) ∧
        st2.m_split_offset = b.m_size ∧ st2.m_split_size = example_leaf.m_size + 1 ∧
        (example_leaf.m_size ≤ 1 → b = example_leaf ∧ s.elems = [9])) ∧
    (example_leaf.m_size < 4 →
      ∃ b, example_leaf.bptree_leaf_insert 4 1 9 ⟨0, 0⟩ (fun _ => zero_fresh) =
          some (b, none, ⟨0, 0⟩) ∧
        example_leaf.insert (min 1 example_leaf.m_size) 9 zero_fresh = some b ∧
        b.elems = example_leaf.elems.take (min 1 example_leaf.m_size) ++
          9 :: example_leaf.elems.drop (min 1 example_leaf.m_size)) :=
  ⟨by decide, by decide, by decide,
    leaf_split_preserves_sequence 4 example_leaf 1 9 ⟨0, 0⟩ (fun _ => zero_fresh) (by decide)
      (by decide) (by decide)⟩

/-- Counterexample to claim C9 as stated: splitting the full leaf 1, 2, 3, 4
(`REALM_MAX_BPNODE_SIZE = 4`) at position 1 with the new value 9 leaves the
original leaf holding 1, 9 (size 2, not 1) and gives the sibling 2, 3, 4,
without the new value. -/
theorem leaf_split_placement_counterexample :
    (example_leaf.bptree_leaf_insert 4 1 9 ⟨0, 0⟩ (fun _ => zero_fresh)).map
        (fun r => (r.1.elems, r.1.m_size, r.2.1.map Array.elems)) =
      some ([1, 9], 2, some [2, 3, 4]) ∧
    ¬ ∃ b s st2, example_leaf.bptree_leaf_insert 4 1 9 ⟨0, 0⟩ (fun _ => zero_fresh) =
        some (b, some s, st2) ∧ 9 ∈ s.elems ∧ b.elems = example_leaf.elems.take 1 := by
  have hres : (example_leaf.bptree_leaf_insert 4 1 9 ⟨0, 0⟩ (fun _ => zero_fresh)).map
      (fun r => (r.1.elems, r.1.m_size, r.2.1.map Array.elems)) =
      some ([1, 9], 2, some [2, 3, 4]) := by decide
  refine ⟨hres, ?_⟩
  rintro ⟨b, s, st2, hr, h9, _⟩
  rw [hr] at hres
  simp only [Option.map_some', Option.some.injEq, Prod.mk.injEq] at hres
  obtain ⟨_, _, hs⟩ := hres
  rw [hs] at h9
  revert h9
  decide

/-- Claim C9, amended. When `Array::bptree_leaf_insert` splits a full leaf at
a position `k` below the leaf size, the new sibling receives exactly the old
elements `[k..end)`, and the original leaf is left holding the old elements
`[0..k)` followed by the new value (size `k + 1`). -/
theorem leaf_split_placement (M : Nat) (a : Array) (k : Nat) (v : Int)
    (st : TreeInsertBase) (frs : Nat → Fresh) (h : a.attached) (hv : is_int64 v)
    (hfull : a.m_size = M) (hk : k < a.m_size) (hM : M + 1 ≤ 2097150) :
    ∃ b s st2, a.bptree_leaf_insert M k v st frs = some (b, some s, st2) ∧
      s.elems = a.elems.drop k ∧ b.elems = a.elems.take k ++ [v] ∧ b.m_size = k + 1 := by
  obtain ⟨b, s, st2, hr, _, _, _, _, _, _, e5, _⟩ :=
    bptree_leaf_insert_full M a k v st frs h hv hfull hM
  have hmin : min k a.m_size = k := by omega
  rw [hmin] at e5
  obtain ⟨f1, f2, f3⟩ := e5 hk
  exact ⟨b, s, st2, hr, f1, f2, f3⟩

/-- Witness for `leaf_split_placement`: the full leaf 1, 2, 3, 4 split at
position 1. -/
theorem leaf_split_placement_witness :
    example_leaf.attached ∧ is_int64 9 ∧ example_leaf.m_size = 4 ∧ 1 < example_leaf.m_size ∧
    4 + 1 ≤ 2097150 ∧
    ∃ b s st2, example_leaf.bptree_leaf_insert 4 1 9 ⟨0, 0⟩ (fun _ => zero_fresh) =
        some (b, some s, st2) ∧
      s.elems = example_leaf.elems.drop 1 ∧ b.elems = example_leaf.elems.take 1 ++ [9] ∧
      b.m_size = 1 + 1 :=
  ⟨by decide, by decide, by decide, by decide, by decide,
    leaf_split_placement 4 example_leaf 1 9 ⟨0, 0⟩ (fun _ => zero_fresh) (by decide) (by decide)
      (by decide) (by decide) (by decide)⟩

/-! ## The B+-tree claims -/

/-- The example handler meets the handler contract. -/
theorem example_erase_handler_erases : example_erase_handler.erases := by
  intro xs i hx _
  simp only [example_erase_handler]
  by_cases h : xs.length - 1 = 0
  · rw [if_pos h]
    exact ⟨⟨fun _ => by omega, fun _ => rfl⟩, fun hf => by cases hf⟩
  · rw [if_neg h]
    exact ⟨⟨fun hf => (by cases hf), fun h1 => by omega⟩, fun _ => rfl⟩

/-- Claim C6. For a tree rooted at an inner node that `verify_bptree` accepts,
with `n` elements, and `k < n` (passed as `npos` when `k = n - 1`),
`Array::erase_bptree_elem`, with a handler that meets the handler contract and
an aligned ref for the offsets arrays it creates, returns a tree whose
flattened element sequence is the old sequence with element `k` removed and
whose size is `n - 1`; when `n = 1` the root is replaced by an empty leaf. -/
theorem bptree_erase_removes_element (handler : EraseHandler) (oref : Nat)
    (elim_throws : Bool) (fuel : Nat) (t : BpNode) (n : Nat) (l : Int) (g : Bool) (k : Nat)
    (hh : handler.erases) (horef : oref % 8 = 0) (hs : t.int64_slots = true)
    (hv : verify_bptree fuel t = some (n, l, g)) (hk : k < n) :
    ∃ t2, erase_bptree_elem handler oref elim_throws fuel t (if k + 1 = n then npos else k)
        = some t2 ∧
      t2.flatten = t.flatten.eraseIdx k ∧ t2.flatten.length = n - 1 ∧
      (n = 1 → t2 = BpNode.leaf []) := by
  obtain ⟨level, e1, e2, e3, e4, _⟩ := verify_bptree_wf fuel t n l g hv hs
  have hl : 1 ≤ level := by
    cases t with
    | leaf xs => cases fuel <;> simp [verify_bptree] at hv
    | inner fv offs cs last =>
      simp only [BpNode.wf] at e3
      omega
  subst e4
  obtain ⟨t2, r1, r2, r3, _⟩ := erase_bptree_elem_spec handler hh oref horef elim_throws fuel t
    level k e3 hl e2 hk
  exact ⟨t2, r1, r2, by rw [r2, List.length_eraseIdx_of_lt hk], r3⟩

/-- Witness for `bptree_erase_removes_element`: erasing element 2 of
`example_tree2` with the example handler. -/
theorem bptree_erase_removes_element_witness :
    example_erase_handler.erases ∧ 8 % 8 = 0 ∧ example_tree2.int64_slots = true ∧
    verify_bptree 5 example_tree2 = some (6, 2, true) ∧ 2 < 6 ∧
    ∃ t2, erase_bptree_elem example_erase_handler 8 false 5 example_tree2
        (if 2 + 1 = 6 then npos else 2) = some t2 ∧
      t2.flatten = example_tree2.flatten.eraseIdx 2 ∧ t2.flatten.length = 6 - 1 ∧
      (6 = 1 → t2 = BpNode.leaf []) :=
  ⟨example_erase_handler_erases, by decide, by decide, by decide, by decide,
    bptree_erase_removes_element example_erase_handler 8 false 5 example_tree2 6 2 true 2
      example_erase_handler_erases (by decide) (by decide) (by decide) (by decide)⟩

/-- Claim C7. A tree rooted at an inner node that `verify_bptree` accepts
satisfies nonempty-inner, nonempty-leaf, leaf-depth and node-form, and the
tree that `Array::erase_bptree_elem` returns for any of its elements (`npos`
being passed for the last one), with a handler that meets the handler
contract, satisfies all four again: whether an emptied child is removed,
emptiness propagates to the root, or the erase at a non-end position converts
the nodes on the path from the compact to the general form. -/
theorem bptree_erase_preserves_invariants (handler : EraseHandler) (oref : Nat)
    (elim_throws : Bool) (fuel : Nat) (t : BpNode) (n : Nat) (l : Int) (g : Bool) (k : Nat)
    (hh : handler.erases) (horef : oref % 8 = 0) (hs : t.int64_slots = true)
    (hv : verify_bptree fuel t = some (n, l, g)) (hk : k < n) :
    (t.nonempty_inner ∧ t.nonempty_leaf ∧ t.leaf_depth ∧ t.node_form) ∧
    ∃ t2, erase_bptree_elem handler oref elim_throws fuel t (if k + 1 = n then npos else k)
        = some t2 ∧
      t2.nonempty_inner ∧ t2.nonempty_leaf ∧ t2.leaf_depth ∧ t2.node_form := by
  obtain ⟨level, e1, e2, e3, e4, _⟩ := verify_bptree_wf fuel t n l g hv hs
  have hl : 1 ≤ level := by
    cases t with
    | leaf xs => cases fuel <;> simp [verify_bptree] at hv
    | inner fv offs cs last =>
      simp only [BpNode.wf] at e3
      omega
  subst e4
  obtain ⟨t2, r1, _, _, r4⟩ := erase_bptree_elem_spec handler hh oref horef elim_throws fuel t
    level k e3 hl e2 hk
  refine ⟨wf_four_invariants level t e3, t2, r1, ?_⟩
  rcases r4 with h | ⟨level2, h⟩
  · rw [h]
    exact empty_leaf_invariants
  · exact wf_four_invariants level2 t2 h

/-- Witness for `bptree_erase_preserves_invariants`: erasing element 3 of
`example_tree2`, which converts the compact node on the path to the general
form. -/
theorem bptree_erase_preserves_invariants_witness :
    example_erase_handler.erases ∧ 8 % 8 = 0 ∧ example_tree2.int64_slots = true ∧
    verify_bptree 5 example_tree2 = some (6, 2, true) ∧ 3 < 6 ∧
    ((example_tree2.nonempty_inner ∧ example_tree2.nonempty_leaf ∧ example_tree2.leaf_depth ∧
      example_tree2.node_form) ∧
    ∃ t2, erase_bptree_elem example_erase_handler 8 false 5 example_tree2
        (if 3 + 1 = 6 then npos else 3) = some t2 ∧
      t2.nonempty_inner ∧ t2.nonempty_leaf ∧ t2.leaf_depth ∧ t2.node_form) :=
  ⟨example_erase_handler_erases, by decide, by decide, by decide, by decide,
    bptree_erase_preserves_invariants example_erase_handler 8 false 5 example_tree2 6 2 true 3
      example_erase_handler_erases (by decide) (by decide) (by decide) (by decide)⟩

/-! ## The allocator claim -/

/-- Claim C10. For a `SlabAlloc` whose baseline is a multiple of 8, after any
sequence of `alloc` calls, each for a size that is a positive multiple of 8,
and `free_` calls on blocks whose recorded size is a multiple of 8 (blocks
that `alloc` returned earlier, or blocks at aligned refs of the read-only
segment), whatever allocations fail and whatever statements throw: every ref
that `alloc` returned is a multiple of 8, and the ref and size of every entry
of both free lists and the `ref_end` of every slab are multiples of 8. -/
theorem slab_alloc_refs_aligned (baseline : Nat) (ops : List SlabOp)
    (hb : baseline % 8 = 0) (hv : valid_ops (fresh_slab_alloc baseline) [] ops = true) :
    (∀ ref ∈ (run_ops (fresh_slab_alloc baseline) [] ops).2, ref % 8 = 0) ∧
    (∀ r ∈ (run_ops (fresh_slab_alloc baseline) [] ops).1.m_free_space,
      r.ref % 8 = 0 ∧ r.size % 8 = 0) ∧
    (∀ r ∈ (run_ops (fresh_slab_alloc baseline) [] ops).1.m_free_read_only,
      r.ref % 8 = 0 ∧ r.size % 8 = 0) ∧
    (∀ s ∈ (run_ops (fresh_slab_alloc baseline) [] ops).1.m_slabs, s.ref_end % 8 = 0) := by
  obtain ⟨⟨_, h1, h2, h3⟩, h4⟩ := run_ops_aligned ops (fresh_slab_alloc baseline) []
    (fresh_slab_alloc_aligned baseline hb) (fun r hr => by cases hr) hv
  exact ⟨h4, h1, h2, h3⟩

/-- Witness for `slab_alloc_refs_aligned`: the run `example_slab_ops` from a
baseline of 1024, in which `alloc` returns the refs 1024, 1040, 1064 and
1088. -/
theorem slab_alloc_refs_aligned_witness :
    1024 % 8 = 0 ∧ valid_ops (fresh_slab_alloc 1024) [] example_slab_ops = true ∧
    (run_ops (fresh_slab_alloc 1024) [] example_slab_ops).2 = [1024, 1040, 1064, 1088] ∧
    ((∀ ref ∈ (run_ops (fresh_slab_alloc 1024) [] example_slab_ops).2, ref % 8 = 0) ∧
    (∀ r ∈ (run_ops (fresh_slab_alloc 1024) [] example_slab_ops).1.m_free_space,
      r.ref % 8 = 0 ∧ r.size % 8 = 0) ∧
    (∀ r ∈ (run_ops (fresh_slab_alloc 1024) [] example_slab_ops).1.m_free_read_only,
      r.ref % 8 = 0 ∧ r.size % 8 = 0) ∧
    (∀ s ∈ (run_ops (fresh_slab_alloc 1024) [] example_slab_ops).1.m_slabs,
      s.ref_end % 8 = 0)) :=
  ⟨by decide, by decide, by decide,
    slab_alloc_refs_aligned 1024 example_slab_ops (by decide) (by decide)⟩

/-! ## The allocator claims -/

/-- Claim C11, evaluated at a failing input. After the run
`example_large_ops` the latch is clear and the free list holds entries of 248,
8 and `2^31 + 8` bytes, in this order. A request for `2^31` bytes is not
served from the third entry, the first one of at least `2^31` bytes, but from
the first entry, of 248 bytes: `int(size)` is negative and passes the test
`int(size) <= r.size`. That entry is left with a negative size. -/
theorem alloc_first_fit_large_request :
    (run_ops (fresh_slab_alloc 1024) [] example_large_ops).1.m_free_space_invalid = false ∧
    (run_ops (fresh_slab_alloc 1024) [] example_large_ops).1.m_free_space =
      [⟨1032, 248⟩, ⟨2147484920, 8⟩, ⟨4294968568, 2147483656⟩] ∧
    ((run_ops (fresh_slab_alloc 1024) [] example_large_ops).1.alloc 2147483648 none).2 =
      some 1032 ∧
    ((run_ops (fresh_slab_alloc 1024) [] example_large_ops).1.alloc 2147483648 none).1.m_free_space
      = [⟨2147484680, -2147483400⟩, ⟨2147484920, 8⟩, ⟨4294968568, 2147483656⟩] := by
  decide

/-- Claim C12. With slabs of strictly increasing `ref_end` above the baseline,
`SlabAlloc::translate` returns `data + ref` for `ref < baseline`, and for a
ref from the baseline up to the last slab's `ref_end` (exclusive) the lookup
stays in the slab table and finds the unique slab `i` with
`start_i <= ref < ref_end_i`, where `start_0` is the baseline and `start_i` is
`ref_end_(i-1)`; the result is `addr_i + (ref - start_i)`. -/
theorem translate_piecewise_linear (a : SlabAlloc) (ref : Nat) (h : a.slabs_ordered) :
    (ref < a.m_baseline → a.translate ref = some (a.m_data + ref)) ∧
    (a.m_baseline ≤ ref → a.m_slabs ≠ [] →
      (ref : Int) < (a.m_slabs.getD (a.m_slabs.length - 1) ⟨0, 0⟩).ref_end →
      ∃ i, i < a.m_slabs.length ∧
        (if i = 0 then (a.m_baseline : Int) else (a.m_slabs.getD (i - 1) ⟨0, 0⟩).ref_end)
          ≤ (ref : Int) ∧
        (ref : Int) < (a.m_slabs.getD i ⟨0, 0⟩).ref_end ∧
        (∀ j, j < a.m_slabs.length →
          (if j = 0 then (a.m_baseline : Int) else (a.m_slabs.getD (j - 1) ⟨0, 0⟩).ref_end)
            ≤ (ref : Int) →
          (ref : Int) < (a.m_slabs.getD j ⟨0, 0⟩).ref_end → j = i) ∧
        column_upper_bound (a.m_slabs.map fun s => s.ref_end) (to_int64 ref) = i ∧
        a.translate ref = some (to_size_t (a.m_slabs.getD i ⟨0, 0⟩).addr +
          (ref - (if i = 0 then a.m_baseline
            else to_size_t (a.m_slabs.getD (i - 1) ⟨0, 0⟩).ref_end)))) := by
  constructor
  · intro hlt
    unfold SlabAlloc.translate
    rw [if_pos hlt]
  · intro hb hn hlast
    obtain ⟨i, i1, i2, i3⟩ := exists_slab a ref hb hn hlast
    obtain ⟨t1, t2⟩ := translate_slab a ref i h hb i1 i2 i3
    refine ⟨i, i1, i2, i3, ?_, t1, t2⟩
    intro j j1 j2 j3
    have := (translate_slab a ref j h hb j1 j2 j3).1
    rw [t1] at this
    exact this.symm

/-- Witness for `translate_piecewise_linear`: in `example_slab_alloc` the ref
1300 lies in the second slab, which starts at 1280 at address 8192. -/
theorem translate_piecewise_linear_witness :
    example_slab_alloc.slabs_ordered ∧ example_slab_alloc.translate 1300 = some 8212 ∧
    ((1300 < example_slab_alloc.m_baseline →
      example_slab_alloc.translate 1300 = some (example_slab_alloc.m_data + 1300)) ∧
    (example_slab_alloc.m_baseline ≤ 1300 → example_slab_alloc.m_slabs ≠ [] →
      ((1300 : Nat) : Int) <
        (example_slab_alloc.m_slabs.getD (example_slab_alloc.m_slabs.length - 1) ⟨0, 0⟩).ref_end →
      ∃ i, i < example_slab_alloc.m_slabs.length ∧
        (if i = 0 then (example_slab_alloc.m_baseline : Int)
          else (example_slab_alloc.m_slabs.getD (i - 1) ⟨0, 0⟩).ref_end) ≤ ((1300 : Nat) : Int) ∧
        ((1300 : Nat) : Int) < (example_slab_alloc.m_slabs.getD i ⟨0, 0⟩).ref_end ∧
        (∀ j, j < example_slab_alloc.m_slabs.length →
          (if j = 0 then (example_slab_alloc.m_baseline : Int)
            else (example_slab_alloc.m_slabs.getD (j - 1) ⟨0, 0⟩).ref_end)
              ≤ ((1300 : Nat) : Int) →
          ((1300 : Nat) : Int) < (example_slab_alloc.m_slabs.getD j ⟨0, 0⟩).ref_end → j = i) ∧
        column_upper_bound (example_slab_alloc.m_slabs.map fun s => s.ref_end)
          (to_int64 ((1300 : Nat) : Int)) = i ∧
        example_slab_alloc.translate 1300 =
          some (to_size_t (example_slab_alloc.m_slabs.getD i ⟨0, 0⟩).addr +
            (1300 - (if i = 0 then example_slab_alloc.m_baseline
              else to_size_t (example_slab_alloc.m_slabs.getD (i - 1) ⟨0, 0⟩).ref_end))))) :=
  ⟨by decide, by decide, translate_piecewise_linear example_slab_alloc 1300 (by decide)⟩

/-- Claim C13. For every `MemRef (addr, ref)` that `SlabAlloc::alloc` returns,
`translate(ref)` is `addr` right after the call, and `translate(ref)` is still
`addr` after any further sequence of `alloc` and `free_` calls. The slab table
at the end of the sequence is taken to be ordered, which it is as long as the
ref space of 63 bits is not used up, and the address of a new slab is a
64-bit address. -/
theorem translate_stable (a a2 : SlabAlloc) (size : Nat) (new_slab : Option Nat)
    (mem : MemRef) (ops : List SlabOp)
    (h : a.alloc_mem size new_slab = some (a2, .ok mem))
    (hptr : ∀ p, new_slab = some p → p < 18446744073709551616)
    (hord : (run_ops a2 [] ops).1.slabs_ordered) :
    a2.translate mem.m_ref = some mem.m_addr ∧
    (run_ops a2 [] ops).1.translate mem.m_ref = some mem.m_addr := by
  obtain ⟨f1, f2, more, f3⟩ := run_ops_frame ops a2 []
  have hord2 := slabs_ordered_prefix a2 _ more f1 f3 hord
  have ht := alloc_mem_translate a a2 size new_slab mem h hptr hord2
  exact ⟨ht, translate_prefix a2 _ more _ _ f1 f2 f3 hord ht⟩

/-- Witness for `translate_stable`: a block of 16 bytes taken from the free
list of `example_slab_alloc`, at ref 1040 and address 4112, followed by an
allocation that adds a slab and by the release of the block. -/
theorem translate_stable_witness :
    example_slab_alloc.alloc_mem 16 none =
      some ({ example_slab_alloc with m_free_space := [⟨1056, 224⟩, ⟨1280, 512⟩] },
        .ok ⟨4112, 1040⟩) ∧
    (run_ops { example_slab_alloc with m_free_space := [⟨1056, 224⟩, ⟨1280, 512⟩] } []
      [.alloc 1024 (some 16384), .free_ 1040 16 (fun _ => false)]).1.slabs_ordered ∧
    ({ example_slab_alloc with m_free_space := [⟨1056, 224⟩, ⟨1280, 512⟩] }.translate
        (MemRef.mk 4112 1040).m_ref = some (MemRef.mk 4112 1040).m_addr ∧
      (run_ops { example_slab_alloc with m_free_space := [⟨1056, 224⟩, ⟨1280, 512⟩] } []
        [.alloc 1024 (some 16384), .free_ 1040 16 (fun _ => false)]).1.translate
        (MemRef.mk 4112 1040).m_ref = some (MemRef.mk 4112 1040).m_addr) :=
  ⟨rfl, by decide,
    translate_stable example_slab_alloc
      { example_slab_alloc with m_free_space := [⟨1056, 224⟩, ⟨1280, 512⟩] } 16 none
      ⟨4112, 1040⟩ [.alloc 1024 (some 16384), .free_ 1040 16 (fun _ => false)]
      rfl (fun p hp => by cases hp) (by decide)⟩

/-- Claim C14, evaluated at a failing input. From a fresh allocator with a
baseline of 1024, `alloc(8)` creates the slab of the refs 1024 to 1279 and
`alloc(2^31)` is served from the free entry of 248 bytes that is left, since
`int(size)` is negative. Neither call throws. The free list then holds the
entry `(1032 + 2^31, 248 - 2^31)`, which lies in no slab: the assertions of
`SlabAlloc::Verify` fail. -/
theorem free_range_outside_slab :
    (run_ops (fresh_slab_alloc 1024) []
      [.alloc 8 (some 4096), .alloc 2147483648 none]).2 = [1024, 1032] ∧
    (run_ops (fresh_slab_alloc 1024) []
      [.alloc 8 (some 4096), .alloc 2147483648 none]).1.m_free_space_invalid = false ∧
    (run_ops (fresh_slab_alloc 1024) []
      [.alloc 8 (some 4096), .alloc 2147483648 none]).1.m_slabs = [⟨1280, 4096⟩] ∧
    (run_ops (fresh_slab_alloc 1024) []
      [.alloc 8 (some 4096), .alloc 2147483648 none]).1.m_free_space =
        [⟨2147484680, -2147483400⟩] ∧
    (run_ops (fresh_slab_alloc 1024) []
      [.alloc 8 (some 4096), .alloc 2147483648 none]).1.Verify = false := by
  decide

/-- Counterexample to claim C15 as stated: in `example_slab_alloc` the latch
is clear and the read-only free list holds the entry `(24, 8)`. Freeing the
read-only block at ref 8 of 16 bytes does not append the entry `(8, 16)`: the
block is coalesced with the entry that starts where it ends, and the list
becomes the single entry `(8, 24)`. -/
theorem free_read_only_coalesces :
    example_slab_alloc.m_free_space_invalid = false ∧ 8 < example_slab_alloc.m_baseline ∧
    example_slab_alloc.m_free_read_only = [⟨24, 8⟩] ∧
    (example_slab_alloc.free_ 8 16 (fun _ => false)).m_free_read_only = [⟨8, 24⟩] ∧
    (example_slab_alloc.free_ 8 16 (fun _ => false)).m_free_read_only ≠
      example_slab_alloc.m_free_read_only ++ [⟨8, 16⟩] := by
  decide

/-- Claim C15, amended. `SlabAlloc::free_(ref, addr)` with `ref < baseline`,
the latch clear and no statement throwing, leaves `free_space` unchanged; and
when no entry of `free_read_only` starts at `ref + size` or ends at `ref`, it
appends exactly one new entry `(ref, size)` to `free_read_only`, `size` being
the byte size of the node, and leaves the entries already there unchanged. -/
theorem free_read_only_block (a : SlabAlloc) (ref size : Nat) (throws : Nat → Bool)
    (hlatch : a.m_free_space_invalid = false) (href : ref < a.m_baseline)
    (h6 : throws 6 = false)
    (hstart : ∀ r ∈ a.m_free_read_only, r.ref ≠ to_int64 (sz (ref + size)))
    (hend : ∀ r ∈ a.m_free_read_only, to_ref (to_int64 (r.ref + r.size)) ≠ ref) :
    (a.free_ ref size throws).m_free_space = a.m_free_space ∧
    (a.free_ ref size throws).m_free_read_only =
      a.m_free_read_only ++ [⟨to_int64 ref, to_int64 size⟩] ∧
    (a.free_ ref size throws).m_free_space_invalid = false := by
  refine ⟨free_read_only_frame a ref size throws href, ?_⟩
  have ht := free_try_no_neighbour a.m_slabs a.m_free_read_only ref size (sz (ref + size))
    throws h6 hstart hend
  have hd : decide (ref < a.m_baseline) = true := by simpa using href
  unfold SlabAlloc.free_
  dsimp only
  rw [if_neg (by rw [hlatch]; exact Bool.false_ne_true)]
  simp only [hd, if_true, ht]
  exact ⟨trivial, trivial⟩

/-- Witness for `free_read_only_block`: freeing the read-only block at ref 40
of 8 bytes in `example_slab_alloc`, whose read-only free list holds the entry
`(24, 8)` only. -/
theorem free_read_only_block_witness :
    example_slab_alloc.m_free_space_invalid = false ∧ 40 < example_slab_alloc.m_baseline ∧
    (∀ r ∈ example_slab_alloc.m_free_read_only, r.ref ≠ to_int64 (sz (40 + 8))) ∧
    (∀ r ∈ example_slab_alloc.m_free_read_only, to_ref (to_int64 (r.ref + r.size)) ≠ 40) ∧
    ((example_slab_alloc.free_ 40 8 (fun _ => false)).m_free_space =
      example_slab_alloc.m_free_space ∧
    (example_slab_alloc.free_ 40 8 (fun _ => false)).m_free_read_only =
      example_slab_alloc.m_free_read_only ++ [⟨to_int64 (40 : Nat), to_int64 (8 : Nat)⟩] ∧
    (example_slab_alloc.free_ 40 8 (fun _ => false)).m_free_space_invalid = false) :=
  ⟨by decide, by decide, by decide, by decide,
    free_read_only_block example_slab_alloc 40 8 (fun _ => false) (by decide) (by decide) rfl
      (by decide) (by decide)⟩

/-- Claim C16. While `m_free_space_invalid` is set, `SlabAlloc::alloc(size)`
throws `InvalidFreeSpace` for every size and leaves the state, with the slabs
and both free lists, unchanged, and `free_` leaves the state unchanged. In any
state, `alloc` and `attach_buffer` leave the latch as it is, `free_` sets it
only when a statement of its `try` block throws, and `free_all` clears it. -/
theorem free_space_invalid_latch (a : SlabAlloc) (h : a.m_free_space_invalid = true) :
    (∀ size new_slab, a.alloc_mem size new_slab = some (a, .error SlabError.InvalidFreeSpace)) ∧
    (∀ ref size throws, a.free_ ref size throws = a) ∧
    (∀ (b b2 : SlabAlloc) size new_slab r, b.alloc_mem size new_slab = some (b2, r) →
      b2.m_free_space_invalid = b.m_free_space_invalid) ∧
    (∀ (b : SlabAlloc) ref size throws, (b.free_ ref size throws).m_free_space_invalid = true →
      b.m_free_space_invalid = true ∨ ∃ k, 1 ≤ k ∧ k ≤ 6 ∧ throws k = true) ∧
    (∀ (b : SlabAlloc) mem data size take_ownership,
      (b.attach_buffer mem data size take_ownership).1.m_free_space_invalid =
        b.m_free_space_invalid) ∧
    (∀ b : SlabAlloc, b.free_all.m_free_space_invalid = false) := by
  refine ⟨?_, fun ref size throws => free_latched a ref size throws h, ?_,
    fun b ref size throws => free_latch b ref size throws, ?_, fun b => rfl⟩
  · intro size new_slab
    unfold SlabAlloc.alloc_mem
    rw [if_pos h]
  · intro b b2 size new_slab r hr
    obtain ⟨e1, _⟩ := alloc_mem_alloc b b2 size new_slab r hr
    rw [← e1]
    exact (alloc_frame b size new_slab).2.2.2.1
  · intro b mem data size take_ownership
    unfold SlabAlloc.attach_buffer
    split_ifs <;> rfl

/-- Witness for `free_space_invalid_latch`: `example_slab_alloc` with the
latch set. -/
theorem free_space_invalid_latch_witness :
    ({ example_slab_alloc with m_free_space_invalid := true } : SlabAlloc).m_free_space_invalid
      = true ∧
    ({ example_slab_alloc with m_free_space_invalid := true } : SlabAlloc).alloc_mem 16 none =
      some ({ example_slab_alloc with m_free_space_invalid := true },
        .error SlabError.InvalidFreeSpace) ∧
    ({ example_slab_alloc with m_free_space_invalid := true } : SlabAlloc).free_ 1024 16
      (fun _ => false) = { example_slab_alloc with m_free_space_invalid := true } :=
  ⟨rfl,
    (free_space_invalid_latch { example_slab_alloc with m_free_space_invalid := true } rfl).1
      16 none,
    (free_space_invalid_latch { example_slab_alloc with m_free_space_invalid := true } rfl).2.1
      1024 16 (fun _ => false)⟩

/-- Claim C17. `SlabAlloc::validate_buffer(data, len)` returns true if and
only if `len >= 24`, `len` is a multiple of 8, the bytes 16 to 19 are `T`,
`-`, `D`, `B`, the version byte at offset `20 + (data[23] & 1)` is 0 and the
64-bit top-ref at offset `8 * (data[23] & 1)` is below `len`.
`attach_buffer` throws `InvalidDatabase` exactly when `validate_buffer`
returns false, and then leaves the allocator as it is; otherwise it sets the
data, the baseline and the free mode. -/
theorem validate_buffer_exact (a : SlabAlloc) (mem : Mem) (data len : Nat)
    (take_ownership : Bool) :
    (validate_buffer mem data len = true ↔
      24 ≤ len ∧ len % 8 = 0 ∧
      mem (data + 16) % 256 = 84 ∧ mem (data + 17) % 256 = 45 ∧
      mem (data + 18) % 256 = 68 ∧ mem (data + 19) % 256 = 66 ∧
      mem (data + 20 + mem (data + 23) % 256 % 2) % 256 = 0 ∧
      read_le mem (data + 8 * (mem (data + 23) % 256 % 2)) 8 < len) ∧
    ((a.attach_buffer mem data len take_ownership).2 = some SlabError.InvalidDatabase ↔
      validate_buffer mem data len = false) ∧
    (validate_buffer mem data len = false →
      (a.attach_buffer mem data len take_ownership).1 = a) ∧
    (validate_buffer mem data len = true →
      (a.attach_buffer mem data len take_ownership).2 = none ∧
      (a.attach_buffer mem data len take_ownership).1 =
        { a with
          m_data := data,
          m_baseline := len,
          m_free_mode :=
            if take_ownership = true then FreeMode.free_Unalloc else FreeMode.free_Noop }) := by
  refine ⟨?_, ?_, ?_, ?_⟩
  · unfold validate_buffer
    simp only [to_ref_word, Nat.add_assoc, Nat.reduceAdd]
    constructor
    · intro h
      split_ifs at h with c1 c2 c3 c4
      simp only [not_not] at c2 c3
      exact ⟨by omega, by omega, c2.1, c2.2.1, c2.2.2.1, c2.2.2.2, c3, by omega⟩
    · rintro ⟨h1, h2, h3, h4, h5, h6, h7, h8⟩
      rw [if_neg (by omega), if_neg (by simp [h3, h4, h5, h6]), if_neg (by simp [h7]),
        if_neg (by omega)]
  · unfold SlabAlloc.attach_buffer
    cases validate_buffer mem data len <;> simp
  · intro h
    unfold SlabAlloc.attach_buffer
    simp [h]
  · intro h
    unfold SlabAlloc.attach_buffer
    simp [h]

/-- Claim C18. `SlabAlloc::get_top_ref` returns the 64-bit word at offset 0
when bit 0 of header byte 23 is 0 and the word at offset 8 when it is 1.
Overwriting the word that is not selected with a new ref `x` leaves
`get_top_ref` unchanged, and flipping bit 0 of byte 23 afterwards makes
`get_top_ref` return `x`. -/
theorem top_ref_selection (a : SlabAlloc) (mem : Mem) (x : Nat)
    (hx : x < 18446744073709551616) :
    (mem (a.m_data + 23) % 256 % 2 = 0 → a.get_top_ref mem = read_le mem a.m_data 8) ∧
    (mem (a.m_data + 23) % 256 % 2 = 1 → a.get_top_ref mem = read_le mem (a.m_data + 8) 8) ∧
    a.get_top_ref
      (write_le mem (a.m_data + 8 * (1 - mem (a.m_data + 23) % 256 % 2)) 8 x) =
        a.get_top_ref mem ∧
    a.get_top_ref (fun p =>
      if p = a.m_data + 23 then
        flip_bit0 (write_le mem (a.m_data + 8 * (1 - mem (a.m_data + 23) % 256 % 2)) 8 x p)
      else write_le mem (a.m_data + 8 * (1 - mem (a.m_data + 23) % 256 % 2)) 8 x p) = x := by
  have hsel : mem (a.m_data + 23) % 256 % 2 = 0 ∨ mem (a.m_data + 23) % 256 % 2 = 1 := by
    omega
  unfold SlabAlloc.get_top_ref
  simp only [to_ref_word, Nat.add_assoc, Nat.reduceAdd]
  have hw23 : ∀ s, s ≤ 1 →
      write_le mem (a.m_data + 8 * (1 - s)) 8 x (a.m_data + 23) = mem (a.m_data + 23) := by
    intro s hs
    unfold write_le
    rw [if_neg (by omega)]
  refine ⟨?_, ?_, ?_, ?_⟩
  · intro h0
    rw [h0]
    rfl
  · intro h1
    rw [h1]
  · rw [hw23 _ (by omega)]
    apply read_le_congr
    intro t ht
    unfold write_le
    rw [if_neg (by omega)]
  · rw [if_pos trivial, hw23 _ (by omega)]
    have hflip : flip_bit0 (mem (a.m_data + 23)) % 256 % 2 =
        1 - mem (a.m_data + 23) % 256 % 2 := by
      unfold flip_bit0
      split_ifs <;> omega
    rw [hflip]
    have e := read_write_le mem (a.m_data + 8 * (1 - mem (a.m_data + 23) % 256 % 2)) 8 x
    have e256 : (256 : Nat) ^ 8 = 18446744073709551616 := by norm_num
    rw [e256, Nat.mod_eq_of_lt hx] at e
    refine Eq.trans (read_le_congr _ _ _ _ 8 ?_) e
    intro t ht
    dsimp only
    rw [if_neg (by omega)]

/-- Witness for `top_ref_selection`: the header `example_header`, whose
top-refs are 24 and 32 with the first one selected, and the new ref 4096. -/
theorem top_ref_selection_witness :
    (4096 : Nat) < 18446744073709551616 ∧
    example_slab_alloc.get_top_ref (fun p => example_header (p - 65536)) = 24 ∧
    (((fun p => example_header (p - 65536)) (example_slab_alloc.m_data + 23) % 256 % 2 = 0 →
      example_slab_alloc.get_top_ref (fun p => example_header (p - 65536)) =
        read_le (fun p => example_header (p - 65536)) example_slab_alloc.m_data 8) ∧
    ((fun p => example_header (p - 65536)) (example_slab_alloc.m_data + 23) % 256 % 2 = 1 →
      example_slab_alloc.get_top_ref (fun p => example_header (p - 65536)) =
        read_le (fun p => example_header (p - 65536)) (example_slab_alloc.m_data + 8) 8) ∧
    example_slab_alloc.get_top_ref
      (write_le (fun p => example_header (p - 65536)) (example_slab_alloc.m_data + 8 *
        (1 - (fun p => example_header (p - 65536)) (example_slab_alloc.m_data + 23) % 256 % 2))
        8 4096) =
        example_slab_alloc.get_top_ref (fun p => example_header (p - 65536)) ∧
    example_slab_alloc.get_top_ref (fun p =>
      if p = example_slab_alloc.m_data + 23 then
        flip_bit0 (write_le (fun p => example_header (p - 65536)) (example_slab_alloc.m_data + 8 *
          (1 - (fun p => example_header (p - 65536))
            (example_slab_alloc.m_data + 23) % 256 % 2)) 8 4096 p)
      else write_le (fun p => example_header (p - 65536)) (example_slab_alloc.m_data + 8 *
          (1 - (fun p => example_header (p - 65536))
            (example_slab_alloc.m_data + 23) % 256 % 2)) 8 4096 p) = 4096) :=
  ⟨by decide, by decide,
    top_ref_selection example_slab_alloc (fun p => example_header (p - 65536)) 4096
      (by decide)⟩

/-! ## The width scenario and truncation to zero -/

/-- Counterexample to claim C19 as stated: starting from an empty array, the
widths after `add(1); add(3); add(127); add(128); add(-1); add(70000)` are 1,
2, 8, 16, 16, 32, not 1, 2, 8, 8, 8, 32: the value 128 does not fit the signed
range of width 8. -/
theorem width_promotion_scenario_counterexample :
    add_widths (Array.create Type_.type_Normal false zero_fresh) [1, 3, 127, 128, -1, 70000]
      (fun _ => zero_fresh) = some [1, 2, 8, 16, 16, 32] ∧
    add_widths (Array.create Type_.type_Normal false zero_fresh) [1, 3, 127, 128, -1, 70000]
      (fun _ => zero_fresh) ≠ some [1, 2, 8, 8, 8, 32] := by
  obtain ⟨c1, c2, c3, c4, _⟩ := create_spec Type_.type_Normal false zero_fresh
  have h := add_widths_spec [1, 3, 127, 128, -1, 70000]
    (Array.create Type_.type_Normal false zero_fresh) (fun _ => zero_fresh) c1
    (by rw [c3, c4]; rfl) (by decide) (by rw [c2]; decide)
  rw [c3] at h
  rw [h]
  decide

/-- Claim C19, amended. Starting from an empty array (width 0) and performing
`add(1)`, `add(3)`, `add(127)`, `add(128)`, `add(-1)`, `add(70000)` in that
order, the width of the array after the respective steps is 1, 2, 8, 16, 16,
32. -/
theorem width_promotion_scenario (type : Type_) (context_flag : Bool) (fr : Fresh)
    (frs : Nat → Fresh) :
    add_widths (Array.create type context_flag fr) [1, 3, 127, 128, -1, 70000] frs =
      some [1, 2, 8, 16, 16, 32] := by
  obtain ⟨c1, c2, c3, c4, _⟩ := create_spec type context_flag fr
  have h := add_widths_spec [1, 3, 127, 128, -1, 70000] (Array.create type context_flag fr) frs
    c1 (by rw [c3, c4]; rfl) (by decide) (by rw [c2]; decide)
  rw [c3] at h
  rw [h]
  decide

/-- Counterexample to claim C20 as stated: `example_empty_wide` is an
attached array with no elements and width 8, and `truncate(0)` as well as
`truncate_and_destroy_children(0)` return at once, since the new size is the
old one: the width stays 8. -/
theorem truncate_zero_counterexample :
    example_empty_wide.attached ∧ example_empty_wide.m_size = 0 ∧
    (example_empty_wide.truncate 0 zero_fresh).map (fun b => (b.m_size, b.m_width, b.hdr_width))
      = some (0, 8, 8) ∧
    (example_empty_wide.truncate_and_destroy_children 0 zero_fresh).map
      (fun b => (b.m_size, b.m_width, b.hdr_width)) = some (0, 8, 8) := by
  decide

/-- Claim C20, amended. For every attached array that holds at least one
element, whatever its width, after `truncate(0)` the size is 0 and the width
is 0, so that the bounds are 0 and the header width is 0; the same holds for
`truncate_and_destroy_children(0)`. An array that is empty already is left as
it is by both. -/
theorem truncate_zero_resets_width (a : Array) (fr : Fresh) (h : a.attached) :
    (0 < a.m_size →
      ∃ b, a.truncate 0 fr = some b ∧ a.truncate_and_destroy_children 0 fr = some b ∧
        b.m_size = 0 ∧ b.m_width = 0 ∧ b.m_lbound = 0 ∧ b.m_ubound = 0 ∧
        b.hdr_width = 0 ∧ b.hdr_size = 0) ∧
    (a.m_size = 0 →
      a.truncate 0 fr = some a ∧ a.truncate_and_destroy_children 0 fr = some a) := by
  constructor
  · intro hpos
    obtain ⟨b, hb, b1, b2, _, _, b5, _⟩ := truncate_spec a 0 fr h (by omega)
    rw [if_pos ⟨rfl, by omega⟩] at b5
    obtain ⟨_, a2, a3, _, a5, a6, _⟩ := b1
    refine ⟨b, hb, by rw [tadc_eq_truncate]; exact hb, b2, b5, ?_, ?_, ?_, ?_⟩
    · rw [a2, b5]; rfl
    · rw [a3, b5]; rfl
    · rw [a6, b5]
    · rw [a5, b2]
  · intro h0
    obtain ⟨b, hb, _, _, _, b4, _⟩ := truncate_spec a 0 fr h (by omega)
    have e := b4 h0.symm
    rw [e] at hb
    exact ⟨hb, by rw [tadc_eq_truncate]; exact hb⟩

/-- Witness for `truncate_zero_resets_width`: the leaf `example_leaf` of width
8, which holds four elements. -/
theorem truncate_zero_resets_width_witness :
    example_leaf.attached ∧ 0 < example_leaf.m_size ∧
    ((0 < example_leaf.m_size →
      ∃ b, example_leaf.truncate 0 zero_fresh = some b ∧
        example_leaf.truncate_and_destroy_children 0 zero_fresh = some b ∧
        b.m_size = 0 ∧ b.m_width = 0 ∧ b.m_lbound = 0 ∧ b.m_ubound = 0 ∧
        b.hdr_width = 0 ∧ b.hdr_size = 0) ∧
    (example_leaf.m_size = 0 →
      example_leaf.truncate 0 zero_fresh = some example_leaf ∧
      example_leaf.truncate_and_destroy_children 0 zero_fresh = some example_leaf)) :=
  ⟨by decide, by decide, truncate_zero_resets_width example_leaf zero_fresh (by decide)⟩

/-! ## Claims about scans, moves, slices, clones and the slab reuse scenario -/

/-- Claim C23, evaluated on the code at two inputs. On the leaf of width 8 that
holds eight times -1, `Array::count(-1)` returns 1, while eight elements equal
-1: the chunk loop compares with the word `~0ULL / 0xFF * value`, which for a
negative `value` repeats the byte `0xFF` only in the lowest position. On the
leaf 5, 6, 5 of width 32, `count(4294967301)` returns 2, while no element
equals that value: the comparison is with `int32_t(value)`. -/
theorem count_negative_value :
    example_minus_ones.attached ∧ example_minus_ones.elems = [-1, -1, -1, -1, -1, -1, -1, -1] ∧
    example_minus_ones.count (-1) = 1 ∧ example_minus_ones.count_spec (-1) = 8 ∧
    example_int32_leaf.attached ∧ example_int32_leaf.elems = [5, 6, 5] ∧
    example_int32_leaf.count 4294967301 = 2 ∧ example_int32_leaf.count_spec 4294967301 = 0 := by
  decide

/-- Counterexample to claim C30 as stated: on an allocator with baseline 1024
and no slabs, after `alloc(1024)`, `alloc(2048)`, `alloc(1024)` and the release
of the second block, the next `alloc(2048)` returns ref 5120, which lies in
the unused tail of the slab that the third allocation created, and not the
ref 2048 of the second allocation. -/
theorem slab_reuse_counterexample :
    (run_ops (fresh_slab_alloc 1024) [] (slab_reuse_ops 1024 65536 131072 262144 1)).2 =
      [1024, 2048, 4096, 5120] ∧
    ((run_ops (fresh_slab_alloc 1024) [] (slab_reuse_ops 1024 65536 131072 262144 1)).2.getD 3 0 ≠
      (run_ops (fresh_slab_alloc 1024) [] (slab_reuse_ops 1024 65536 131072 262144 1)).2.getD 1 0) := by
  decide

/-- Claim C21. On an attached array whose node fits the largest payload at
the width of every adjusted value, `Array::adjust_ge(limit, diff)` returns (the
re-dispatch loop ends within one pass per width), leaves the size as it is,
and afterwards element `i` is `xs[i] + diff`, wrapped to 64 bits, if
`xs[i] >= limit`, and `xs[i]` otherwise. One pass of the template
`adjust_ge<w>` from position `i` returns a position `p`: the elements of
`[i, p)` are adjusted once, all others are as before, and `p` is short of the
end only when the width has grown, in which case the element at `p` is still
to be adjusted by the next pass. -/
theorem adjust_ge_adjusts_once (a : Array) (limit diff : Int) (frs : Nat → Nat → Fresh)
    (h : a.attached)
    (hroom : ∀ j, j < a.m_size → a.get j ≥ limit →
      calc_byte_len a.m_size (bit_width (to_int64 (a.get j + diff))) ≤ max_array_payload) :
    (∃ b, a.adjust_ge limit diff frs = some b ∧ b.attached ∧ b.m_size = a.m_size ∧
      ∀ i, i < a.m_size → b.get i =
        if a.get i ≥ limit then to_int64 (a.get i + diff) else a.get i) ∧
    (∀ i, i ≤ a.m_size → ∃ b p,
      adjust_ge_w a.m_width limit diff a.m_size (frs 0) (a.m_size - i) a = some (b, p) ∧
      b.m_size = a.m_size ∧ i ≤ p ∧ p ≤ a.m_size ∧
      (∀ t, t < a.m_size → b.get t =
        if i ≤ t ∧ t < p ∧ a.get t ≥ limit then to_int64 (a.get t + diff) else a.get t) ∧
      (p < a.m_size → a.m_width < b.m_width)) := by
  refine ⟨adjust_ge_spec a limit diff frs h hroom, fun i hi => ?_⟩
  obtain ⟨b, p, e, _, b2, b3, b4, b5, b6⟩ :=
    adjust_ge_w_spec limit diff a.m_size (frs 0) (a.m_size - i) a a.m_width rfl h rfl
      (by omega) (fun j _ hj2 hj3 => hroom j hj2 hj3)
  have hi2 : a.m_size - (a.m_size - i) = i := by omega
  rw [hi2] at b3 b5
  exact ⟨b, p, e, b2, b3, b4, b5, b6⟩

/-- Witness for `adjust_ge_adjusts_once`: the leaf 1, 2, 3, 4 of width 8 with
`limit = 3` and `diff = 200`, where 203 forces the width 16 in the middle of
the scan. -/
theorem adjust_ge_adjusts_once_witness :
    example_leaf.attached ∧
    (∃ b, example_leaf.adjust_ge 3 200 example_blocks = some b ∧ b.attached ∧
      b.m_size = example_leaf.m_size ∧
      ∀ i, i < example_leaf.m_size → b.get i =
        if example_leaf.get i ≥ 3 then to_int64 (example_leaf.get i + 200)
        else example_leaf.get i) :=
  ⟨by decide,
    (adjust_ge_adjusts_once example_leaf 3 200 example_blocks (by decide)
      (fun _ _ _ => room_of_small _ _ (by decide)
        (bit_width_minimal _ (to_int64_is_int64 _)).1)).1⟩

/-- Claim C22, evaluated on the code at a failing input. On the leaf 1, 2, 3, 4,
`find_gte(0, 1, 0)` has `start < size` and an empty range, and the search
returns `not_found`, as the least-index reading says; the reference scan of
the debug block leaves `ref = 0`, since its loop does not run and `idx == end`
does not hold, so that `REALM_ASSERT_DEBUG(ref == ret)` fails. -/
theorem find_gte_reference_scan_mismatch :
    example_leaf.attached ∧ example_leaf.elems = [1, 2, 3, 4] ∧ 1 < example_leaf.m_size ∧
    example_leaf.find_gte 0 1 0 = some not_found ∧
    example_leaf.find_gte_spec 0 1 0 = not_found ∧
    example_leaf.find_gte_ref 0 1 0 = 0 ∧ not_found ≠ 0 := by
  decide

/-- Claim C24. For an attached array of any width and `ndx < size`,
`Array::get_chunk<w>(ndx, res)` returns with `res[j] = get(ndx + j)` for each `j < 8` with
`ndx + j < size` and `res[j] = 0` for the other `j`. On the path taken for
the widths 1, 2 and 4 when `ndx + 32 < size`, which reads a word of the
little-endian payload and shifts it, the eight values are those of eight
element-wise reads. -/
theorem get_chunk_reads_eight (a : Array) (ndx : Nat) (res : List Int) (x86_or_x64 : Bool)
    (h : a.attached) (hndx : ndx < a.m_size) (hres : res.length = 8) :
    (∃ out, a.get_chunk a.m_width ndx res x86_or_x64 = some out ∧ out.length = 8 ∧
      ∀ j, j < 8 → out.getD j 0 = if ndx + j < a.m_size then a.get (ndx + j) else 0) ∧
    ((a.m_width = 1 ∨ a.m_width = 2 ∨ a.m_width = 4) → ndx + 32 < a.m_size →
      a.get_chunk a.m_width ndx res true = some ((List.range 8).map fun j => a.get (ndx + j))) := by
  have hsize := h.2.2.2.1
  have hfast : (a.m_width = 1 ∨ a.m_width = 2 ∨ a.m_width = 4) → sz (ndx + 32) < a.m_size →
      a.get_chunk a.m_width ndx res true =
        some ((List.range 8).map fun j => a.get (ndx + j)) :=
    fun hw hbig => get_chunk_fast_spec a.m_width hw a ndx res hndx hres hbig (by omega)
  refine ⟨?_, fun hw hbig => hfast hw (by rw [sz_small _ (by omega)]; exact hbig)⟩
  by_cases hc : x86_or_x64 = true ∧ (a.m_width = 1 ∨ a.m_width = 2 ∨ a.m_width = 4) ∧
      sz (ndx + 32) < a.m_size
  · obtain ⟨hx, hw, hbig⟩ := hc
    subst hx
    rw [hfast hw hbig]
    rw [sz_small _ (by omega)] at hbig
    refine ⟨_, rfl, by simp, fun j hj => ?_⟩
    rw [if_pos (by omega), List.getD_eq_getElem?_getD, List.getElem?_map,
      List.getElem?_range (by omega)]
    rfl
  · obtain ⟨s1, s2⟩ := get_chunk_slow_spec a.m_width a.m_data a.m_size ndx res (by omega) hres
    unfold Array.get_chunk
    rw [if_neg (not_not.mpr hndx), if_neg hc]
    exact ⟨_, rfl, s1, s2⟩

/-- Witness for `get_chunk_reads_eight`: the leaf of width 1 with 48 elements,
read from position 3 on, where the word path is taken. -/
theorem get_chunk_reads_eight_witness :
    example_bits.attached ∧ 3 < example_bits.m_size ∧ (List.replicate 8 (0 : Int)).length = 8 ∧
    ((∃ out, example_bits.get_chunk example_bits.m_width 3 (List.replicate 8 0) true = some out ∧
      out.length = 8 ∧
      ∀ j, j < 8 → out.getD j 0 =
        if 3 + j < example_bits.m_size then example_bits.get (3 + j) else 0) ∧
    ((example_bits.m_width = 1 ∨ example_bits.m_width = 2 ∨ example_bits.m_width = 4) →
      3 + 32 < example_bits.m_size →
      example_bits.get_chunk example_bits.m_width 3 (List.replicate 8 0) true =
        some ((List.range 8).map fun j => example_bits.get (3 + j)))) :=
  ⟨by decide, by decide, by decide,
    get_chunk_reads_eight example_bits 3 (List.replicate 8 0) true (by decide) (by decide)
      (by decide)⟩

/-- Claim C25. For `from != to`, `num_elems >= 1`, `from + num_elems <= size`
and `to + num_elems <= size`, `Array::move_rotate(from, to, num_elems)` on an attached
array returns and keeps size and width; the elements formerly at
`[from, from + num_elems)` are at `[to, to + num_elems)` in the same order,
the elements formerly between the two blocks are shifted by `num_elems` in
the same order, and the elements outside the affected range are as before.
The statement is the same for every width: the path for widths below 8
(save, `move` or `move_backward`, restore) and the `std::rotate` byte path
give the same sequence. -/
theorem move_rotate_is_rotation (a : Array) (from_ to_ num_elems : Nat) (frs : Nat → Fresh)
    (h : a.attached) (hne : from_ ≠ to_) (hn : 1 ≤ num_elems)
    (hfrom : from_ + num_elems ≤ a.m_size) (hto : to_ + num_elems ≤ a.m_size) :
    ∃ b, a.move_rotate from_ to_ num_elems frs = some b ∧ b.attached ∧
      b.m_size = a.m_size ∧ b.m_width = a.m_width ∧
      (∀ j, j < a.m_size → b.get j = a.get (rotate_source from_ to_ num_elems j)) ∧
      (∀ j, j < num_elems → b.get (to_ + j) = a.get (from_ + j)) ∧
      (from_ < to_ → ∀ j, from_ ≤ j → j < to_ → b.get j = a.get (j + num_elems)) ∧
      (to_ < from_ → ∀ j, to_ + num_elems ≤ j → j < from_ + num_elems →
        b.get j = a.get (j - num_elems)) ∧
      (∀ j, j < a.m_size → j < min from_ to_ ∨ max from_ to_ + num_elems ≤ j →
        b.get j = a.get j) := by
  obtain ⟨b, hb, b1, b2, b3, b4⟩ := move_rotate_spec a from_ to_ num_elems frs h hne hn hfrom hto
  refine ⟨b, hb, b1, b2, b3, b4, fun j hj => ?_, fun hlt j hj1 hj2 => ?_,
    fun hlt j hj1 hj2 => ?_, fun j hj hout => ?_⟩
  · rw [b4 _ (by omega)]
    unfold rotate_source
    by_cases hlt : from_ < to_
    · rw [if_pos hlt, if_neg (by omega), if_pos (by omega)]
      congr 1
      omega
    · rw [if_neg hlt, if_pos (by omega)]
      congr 1
      omega
  · rw [b4 _ (by omega)]
    unfold rotate_source
    rw [if_pos hlt, if_pos ⟨hj1, hj2⟩]
  · rw [b4 _ (by omega)]
    unfold rotate_source
    rw [if_neg (by omega), if_neg (by omega), if_pos ⟨hj1, hj2⟩]
  · rw [b4 _ hj]
    unfold rotate_source
    by_cases hlt : from_ < to_
    · rw [if_pos hlt, if_neg (by omega), if_neg (by omega)]
    · rw [if_neg hlt, if_neg (by omega), if_neg (by omega)]

/-- Witness for `move_rotate_is_rotation`: the element at position 0 of the
leaf 1, 2, 3, 4 is moved to position 2. -/
theorem move_rotate_is_rotation_witness :
    example_leaf.attached ∧ (0 : Nat) ≠ 2 ∧ 1 ≤ 1 ∧ 0 + 1 ≤ example_leaf.m_size ∧
    2 + 1 ≤ example_leaf.m_size ∧
    ∃ b, example_leaf.move_rotate 0 2 1 (fun _ => zero_fresh) = some b ∧ b.attached ∧
      b.m_size = example_leaf.m_size ∧ b.m_width = example_leaf.m_width ∧
      (∀ j, j < example_leaf.m_size → b.get j = example_leaf.get (rotate_source 0 2 1 j)) ∧
      (∀ j, j < 1 → b.get (2 + j) = example_leaf.get (0 + j)) ∧
      (0 < 2 → ∀ j, 0 ≤ j → j < 2 → b.get j = example_leaf.get (j + 1)) ∧
      (2 < 0 → ∀ j, 2 + 1 ≤ j → j < 0 + 1 → b.get j = example_leaf.get (j - 1)) ∧
      (∀ j, j < example_leaf.m_size → j < min 0 2 ∨ max 0 2 + 1 ≤ j →
        b.get j = example_leaf.get j) :=
  ⟨by decide, by decide, by decide, by decide, by decide,
    move_rotate_is_rotation example_leaf 0 2 1 (fun _ => zero_fresh) (by decide) (by decide)
      (by decide) (by decide) (by decide)⟩

/-- Claim C26. For an attached array and `offset + n <= size`,
`Array::slice(offset, n, target)` returns a new node with the type and the context flag of
the source, of size `n`, whose element `k` is `get(offset + k)`; the source
is an argument that the function only reads. On the root of a well-formed
node tree with refs, `slice_and_clone_children` returns such a node in which
a slot that holds no ref (zero, or low bit set) is copied and a slot that
holds a ref holds the ref of a clone of the node tree that the slot refers
to, the clone having the structure of that tree. -/
theorem slice_copies_range (a : Array) (offset n : Nat) (fr : Nat → Fresh)
    (refs : Nat → Nat) (frs : Nat → Nat → Fresh) (hdr : Node) (children : List MemTree)
    (offset2 n2 k : Nat)
    (h : a.attached) (hon : offset + n ≤ a.m_size)
    (hrefs : valid_refs refs) (hwf : (MemTree.node hdr children).wf = true)
    (hr : hdr.has_refs = true) (hon2 : offset2 + n2 ≤ hdr.size) :
    (∃ node, a.slice offset n fr = some node ∧ node.get_type = a.get_type ∧
      node.context_flag = a.m_context_flag ∧ node.size = n ∧
      ∀ j, j < n → (Array.init_from_mem node).get j = a.get (offset + j)) ∧
    (∃ yh yc k2,
      (MemTree.node hdr children).slice_and_clone_children refs frs offset2 n2 k =
        some (MemTree.node yh yc, refs k, k2) ∧
      yh.get_type = hdr.get_type ∧ yh.context_flag = hdr.context_flag ∧ yh.size = n2 ∧
      ∀ j, j < n2 →
        (is_subarray ((Array.init_from_mem hdr).get (offset2 + j)) = false →
          (Array.init_from_mem yh).get j = (Array.init_from_mem hdr).get (offset2 + j) ∧
          yc.getD j MemTree.null = MemTree.null) ∧
        (is_subarray ((Array.init_from_mem hdr).get (offset2 + j)) = true →
          ∃ kj y2 kj2, (children.getD (offset2 + j) MemTree.null).clone refs frs kj =
              some (y2, refs kj, kj2) ∧
            y2.shape no_layout = (children.getD (offset2 + j) MemTree.null).shape no_layout ∧
            (Array.init_from_mem yh).get j = from_ref (refs kj) ∧
            yc.getD j MemTree.null = y2)) := by
  constructor
  · obtain ⟨node, e, _, e3, e4, e5, _, _, e8, _⟩ :=
      slice_spec a offset n fr ⟨h.1, h.2.2.2.1, h.2.2.2.2.2.2.1⟩ hon
    exact ⟨node, e, e3, e4, e5, e8⟩
  · obtain ⟨yh, yc, k2, e, _, _, e4, _, _, e7, e8, _, e10⟩ :=
      slice_and_clone_children_spec refs frs hrefs hdr children offset2 n2 k hwf hr hon2
    refine ⟨yh, yc, k2, e, e4, e7, e8, fun j hj => ⟨(e10 j hj).1, fun hs => ?_⟩⟩
    obtain ⟨kj, y2, kj2, q1, _, q3, q4, q5⟩ := (e10 j hj).2 hs
    exact ⟨kj, y2, kj2, q1, q3, q4, q5⟩

/-- Witness for `slice_copies_range`: the range `[1, 3)` of the leaf 1, 2, 3, 4
and the range `[1, 3)` of the node with the slots 0, 11, 16. -/
theorem slice_copies_range_witness :
    example_leaf.attached ∧ 1 + 2 ≤ example_leaf.m_size ∧ valid_refs example_refs ∧
    example_node_tree.wf = true ∧ example_parent.has_refs = true ∧
    1 + 2 ≤ example_parent.size ∧
    (∃ node, example_leaf.slice 1 2 (fun _ => zero_fresh) = some node ∧
      node.get_type = example_leaf.get_type ∧
      node.context_flag = example_leaf.m_context_flag ∧ node.size = 2 ∧
      ∀ j, j < 2 → (Array.init_from_mem node).get j = example_leaf.get (1 + j)) :=
  ⟨by decide, by decide, example_refs_valid, by decide, by decide, by decide,
    (slice_copies_range example_leaf 1 2 (fun _ => zero_fresh) example_refs example_blocks
      example_parent [.null, .null, .node example_child []] 1 2 0 (by decide) (by decide)
      example_refs_valid (by decide) (by decide) (by decide)).1⟩

/-- Counterexample to claim C27 as stated: the full slice of the leaf 1, 2, 3, 4
of width 8 is a node of width 4, the least width that holds the elements,
while the clone of the leaf is a byte copy of width 8. -/
theorem full_slice_counterexample :
    (MemTree.node example_child []).wf = true ∧
    (((MemTree.node example_child []).slice_and_clone_children example_refs example_blocks
      0 example_child.size 0).bind fun r => r.1.hdr.map Node.width) = some 4 ∧
    (((MemTree.node example_child []).clone example_refs example_blocks 0).bind
      fun r => r.1.hdr.map Node.width) = some 8 := by
  decide

/-- Claim C27, amended. On a well-formed node tree whose root has one of the
three array types, `slice_and_clone_children(0, size, alloc)` and `Array::clone` both
return, with the same ref, and the two node trees agree node for node in the
header flags, the size and the element values, ref children recursively. On
a root with refs the two node trees are the same, widths included. On a root
without refs the clone keeps the width of the source, and the slice has the
least width that holds the elements, which is at most that width. -/
theorem full_slice_equals_clone (refs : Nat → Nat) (frs : Nat → Nat → Fresh)
    (hdr : Node) (children : List MemTree) (k : Nat) (hrefs : valid_refs refs)
    (hwf : (MemTree.node hdr children).wf = true)
    (htyped : hdr.is_inner_bptree_node = true → hdr.has_refs = true) :
    ∃ s c k2,
      (MemTree.node hdr children).slice_and_clone_children refs frs 0 hdr.size k =
        some (s, refs k, k2) ∧
      (MemTree.node hdr children).clone refs frs k = some (c, refs k, k2) ∧
      s.shape no_layout = c.shape no_layout ∧
      (hdr.has_refs = true → s = c) ∧
      (hdr.has_refs = false → ∃ sh sc ch cc, s = MemTree.node sh sc ∧ c = MemTree.node ch cc ∧
        sh.width = max_bit_width (Array.init_from_mem ch).elems ∧ ch.width = hdr.width ∧
        sh.width ≤ ch.width) :=
  full_slice_spec refs frs hrefs hdr children k hwf htyped

/-- Witness for `full_slice_equals_clone`: the node tree of the node with the
slots 0, 11, 16. -/
theorem full_slice_equals_clone_witness :
    valid_refs example_refs ∧ example_node_tree.wf = true ∧
    (example_parent.is_inner_bptree_node = true → example_parent.has_refs = true) ∧
    ∃ s c k2,
      example_node_tree.slice_and_clone_children example_refs example_blocks 0
        example_parent.size 0 = some (s, example_refs 0, k2) ∧
      example_node_tree.clone example_refs example_blocks 0 = some (c, example_refs 0, k2) ∧
      s.shape no_layout = c.shape no_layout ∧
      (example_parent.has_refs = true → s = c) ∧
      (example_parent.has_refs = false → ∃ sh sc ch cc, s = MemTree.node sh sc ∧
        c = MemTree.node ch cc ∧
        sh.width = max_bit_width (Array.init_from_mem ch).elems ∧
        ch.width = example_parent.width ∧ sh.width ≤ ch.width) :=
  ⟨example_refs_valid, by decide, by decide,
    full_slice_equals_clone example_refs example_blocks example_parent
      [.null, .null, .node example_child []] 0 example_refs_valid (by decide) (by decide)⟩

/-- Counterexample to claim C28 as stated: the node with refs whose slot
refers to the leaf 1, 2, 3, 4 is cloned into a target allocator that places
node number `k` at ref `104 + 16 * k`. The first clone stores the ref 120 of
the new leaf and has width 8; the second clone stores the ref 152 and has
width 16. -/
theorem clone_twice_counterexample :
    example_ref_tree.wf = true ∧
    ((example_ref_tree.clone example_refs example_blocks 0).bind fun r =>
      r.1.hdr.map Node.width) = some 8 ∧
    ((example_ref_tree.clone example_refs example_blocks 0).bind fun r =>
      (r.1.clone example_refs example_blocks r.2.2).bind fun r2 =>
        r2.1.hdr.map Node.width) = some 16 := by
  decide

/-- Claim C28, amended. For a well-formed node tree `x` and a target allocator
that hands out valid refs, `clone(x)` and `clone(clone(x))` both return, and
the two clones are structurally equal: at every node the same flags, the same
size and the same element values, with child refs corresponding, and at every
node without refs (the byte-copy path) also the same width and the same
capacity field. The width and the capacity of a node with refs, which is
rebuilt from its slots, are left out; the first clone has the structure of
`x`. -/
theorem clone_idempotent_structure (refs : Nat → Nat) (frs : Nat → Nat → Fresh)
    (t : MemTree) (k k2 : Nat) (hrefs : valid_refs refs) (hwf : t.wf = true) :
    ∃ y n1 z n2, t.clone refs frs k = some (y, refs k, n1) ∧
      y.clone refs frs k2 = some (z, refs k2, n2) ∧
      z.shape Node.layout = y.shape Node.layout ∧
      y.shape no_layout = t.shape no_layout :=
  clone_clone_spec refs frs hrefs t k k2 hwf

/-- Witness for `clone_idempotent_structure`: the node tree of the node with
the slots 0, 11, 16. -/
theorem clone_idempotent_structure_witness :
    valid_refs example_refs ∧ example_node_tree.wf = true ∧
    ∃ y n1 z n2, example_node_tree.clone example_refs example_blocks 0 =
        some (y, example_refs 0, n1) ∧
      y.clone example_refs example_blocks 2 = some (z, example_refs 2, n2) ∧
      z.shape Node.layout = y.shape Node.layout ∧
      y.shape no_layout = example_node_tree.shape no_layout :=
  ⟨example_refs_valid, by decide,
    clone_idempotent_structure example_refs example_blocks example_node_tree 0 2
      example_refs_valid (by decide)⟩

/-- Claim C29. The test for a ref holds of an element exactly when the element
is not zero and its low bit is 0. `Array::clone` of a well-formed node tree with refs
copies every slot that fails the test as it is, and stores in every slot that
passes it the ref of the clone of the node tree the slot refers to.
`destroy_children(offset)` hands to `destroy_deep` the slots at the indices
from `offset` on that pass the test, each once and in order, and nothing
else, and so does `truncate_and_destroy_children(offset)` on an array with
refs. -/
theorem ref_disambiguation (refs : Nat → Nat) (frs : Nat → Nat → Fresh) (hdr : Node)
    (children : List MemTree) (k : Nat) (a : Array) (offset : Nat) (fr : Fresh)
    (hrefs : valid_refs refs) (hwf : (MemTree.node hdr children).wf = true)
    (hr : hdr.has_refs = true) (ha : a.attached) (hra : a.m_has_refs = true)
    (hoff : offset ≤ a.m_size) :
    (∀ v, is_subarray v = true ↔ v ≠ 0 ∧ v % 2 = 0) ∧
    (∃ yh yc k2, (MemTree.node hdr children).clone refs frs k =
        some (MemTree.node yh yc, refs k, k2) ∧ yh.size = hdr.size ∧
      ∀ j, j < hdr.size →
        (is_subarray ((Array.init_from_mem hdr).get j) = false →
          (Array.init_from_mem yh).get j = (Array.init_from_mem hdr).get j ∧
          yc.getD j MemTree.null = MemTree.null) ∧
        (is_subarray ((Array.init_from_mem hdr).get j) = true →
          ∃ kj y2 kj2, (children.getD j MemTree.null).clone refs frs kj =
              some (y2, refs kj, kj2) ∧
            (Array.init_from_mem yh).get j = from_ref (refs kj) ∧
            yc.getD j MemTree.null = y2)) ∧
    a.destroy_children offset = some (a.ref_slots offset) ∧
    a.truncate_destroyed offset fr = some (a.ref_slots offset) := by
  refine ⟨is_subarray_iff, ?_, destroy_children_spec a offset hoff, ?_⟩
  · obtain ⟨y, k2, e1, _, _, _, th, tc, yh, yc, q1, q2, _, _, _, q6, _, _, q9⟩ :=
      clone_spec refs frs hrefs _ _ k (le_refl _) hwf
    obtain ⟨rfl, rfl⟩ : hdr = th ∧ children = tc := by
      injection q1 with a b
      exact ⟨a, b⟩
    subst q2
    exact ⟨yh, yc, k2, e1, q6, (q9 hr).2.2⟩
  · rw [truncate_destroyed_spec a offset fr ha hoff, hra]
    rfl

/-- Witness for `ref_disambiguation`: the node with the slots 0, the tagged
integer 11 and the ref 16, of which `destroy_children(0)` destroys the ref 16
only. -/
theorem ref_disambiguation_witness :
    valid_refs example_refs ∧ example_node_tree.wf = true ∧
    example_parent.has_refs = true ∧ (Array.init_from_mem example_parent).attached ∧
    (Array.init_from_mem example_parent).m_has_refs = true ∧
    0 ≤ (Array.init_from_mem example_parent).m_size ∧
    (Array.init_from_mem example_parent).elems = [0, 11, 16] ∧
    (Array.init_from_mem example_parent).ref_slots 0 = [16] ∧
    (Array.init_from_mem example_parent).destroy_children 0 =
      some ((Array.init_from_mem example_parent).ref_slots 0) ∧
    (Array.init_from_mem example_parent).truncate_destroyed 0 zero_fresh =
      some ((Array.init_from_mem example_parent).ref_slots 0) :=
  ⟨example_refs_valid, by decide, by decide, by decide, by decide, by decide, by decide,
    by decide,
    (ref_disambiguation example_refs example_blocks example_parent
      [.null, .null, .node example_child []] 0 (Array.init_from_mem example_parent) 0
      zero_fresh example_refs_valid (by decide) (by decide) (by decide) (by decide)
      (by decide)).2.2⟩

/-- Claim C30, amended. Starting from an allocator with baseline `b` and no
slabs, after `alloc(1024)`, `alloc(2048)`, `alloc(1024)`, each of which
creates a slab, and `free_` of the second block, the refs returned are `b`,
`b + 1024` and `b + 3072`; the next `alloc(2048)` returns `b + 4096`, which
lies in the unused tail of the third slab, and the `alloc(2048)` after it
returns `b + 1024`, the ref of the second allocation. -/
theorem slab_reuse_scenario (b p1 p2 p3 : Nat) (hb : b + 7168 ≤ 9223372036854775807) :
    (run_ops (fresh_slab_alloc b) [] (slab_reuse_ops b p1 p2 p3 2)).2 =
      [b, b + 1024, b + 3072, b + 4096, b + 1024] :=
  slab_reuse_spec b p1 p2 p3 hb

/-- Witness for `slab_reuse_scenario`: the baseline 1024 and slabs at the
addresses 65536, 131072 and 262144. -/
theorem slab_reuse_scenario_witness :
    1024 + 7168 ≤ 9223372036854775807 ∧
    (run_ops (fresh_slab_alloc 1024) [] (slab_reuse_ops 1024 65536 131072 262144 2)).2 =
      [1024, 1024 + 1024, 1024 + 3072, 1024 + 4096, 1024 + 1024] :=
  ⟨by decide, slab_reuse_scenario 1024 65536 131072 262144 (by decide)⟩

/-! ## Theorems: byte sizes, extrema and the conversion to the general form -/

theorem lor_7 (x : Nat) : x ||| 7 = x / 8 * 8 + 7 := by
  have hr : x % 8 < 2 ^ 3 := by norm_num; omega
  have e : x = 2 ^ 3 * (x / 8) + x % 8 := by norm_num; omega
  have e7 : (7 : Nat) < 2 ^ 3 := by norm_num
  have h1 : 2 ^ 3 * (x / 8) + x % 8 = 2 ^ 3 * (x / 8) ||| x % 8 := Nat.mul_add_lt_is_or hr _
  have h2 : 2 ^ 3 * (x / 8) + 7 = 2 ^ 3 * (x / 8) ||| 7 := Nat.mul_add_lt_is_or e7 _
  have h3 : x % 8 ||| 7 = 7 := by
    have : x % 8 < 8 := by omega
    interval_cases (x % 8) <;> rfl
  calc x ||| 7 = (2 ^ 3 * (x / 8) ||| x % 8) ||| 7 := by rw [← h1, ← e]
    _ = 2 ^ 3 * (x / 8) ||| 7 := by rw [Nat.lor_assoc, h3]
    _ = x / 8 * 8 + 7 := by rw [← h2]; norm_num; omega

theorem max_2_eq : size_max &&& not64 7 = 18446744073709551608 := by decide

/-- The last steps of `calc_aligned_byte_size` when nothing overflows. -/
theorem calc_aligned_finish (b : Nat) (hb : b ≤ 18446744073709551600) :
    sz (header_size + b) > 0 ∧
    sz ((size_sub (sz (header_size + b)) 1 ||| 7) + 1) = (8 + b + 7) / 8 * 8 := by
  have e1 : sz (header_size + b) = 8 + b := by unfold sz header_size; omega
  have e2 : size_sub (8 + b) 1 = 7 + b := by unfold size_sub; split_ifs <;> omega
  have e3 : sz ((7 + b) / 8 * 8 + 7 + 1) = (8 + b + 7) / 8 * 8 := by unfold sz; omega
  rw [e1, e2, lor_7, e3]
  exact ⟨by omega, rfl⟩

/-- The branch of `calc_aligned_byte_size` for the widths below 8. -/
theorem calc_aligned_low (size epb width : Nat) (hs : size < 18446744073709551616)
    (h : (epb = 8 ∧ width = 1) ∨ (epb = 4 ∧ width = 2) ∨ (epb = 2 ∧ width = 4)) :
    (if size % epb ≠ 0 then sz (size / epb + 1) else size / epb) = (size * width + 7) / 8 ∧
    (size * width + 7) / 8 ≤ 18446744073709551600 := by
  unfold sz
  rcases h with ⟨rfl, rfl⟩ | ⟨rfl, rfl⟩ | ⟨rfl, rfl⟩ <;> (constructor <;> [split_ifs <;> omega; omega])

/-- The branch of `calc_aligned_byte_size` for the widths from 8 on. -/
theorem calc_aligned_high (size bpe width : Nat) (hs : size < 18446744073709551616)
    (h : (bpe = 1 ∧ width = 8) ∨ (bpe = 2 ∧ width = 16) ∨ (bpe = 4 ∧ width = 32) ∨
      (bpe = 8 ∧ width = 64)) :
    (size > 18446744073709551600 / bpe ↔ 8 + (size * width + 7) / 8 > 18446744073709551608) ∧
    (¬ size > 18446744073709551600 / bpe → sz (size * bpe) = (size * width + 7) / 8 ∧
      (size * width + 7) / 8 ≤ 18446744073709551600) := by
  unfold sz
  rcases h with ⟨rfl, rfl⟩ | ⟨rfl, rfl⟩ | ⟨rfl, rfl⟩ | ⟨rfl, rfl⟩ <;>
    (refine ⟨by omega, fun _ => ⟨by omega, by omega⟩⟩)

/-- The function `Array::calc_aligned_byte_size` computes `8 + ceil(size * width / 8)` without
wrapping, throws exactly when that exceeds the largest multiple of 8 of
`size_t`, and otherwise rounds it up to a multiple of 8. -/
theorem calc_aligned_byte_size_spec (size width : Nat) (hw : width ∈ [1, 2, 4, 8, 16, 32, 64])
    (hs : size < 18446744073709551616) :
    calc_aligned_byte_size size width =
      some (if 8 + (size * width + 7) / 8 > 18446744073709551608
        then .error ByteSizeError.byte_size_overflow
        else .ok ((8 + (size * width + 7) / 8 + 7) / 8 * 8)) := by
  have e2 : size_sub 18446744073709551608 header_size = 18446744073709551600 := by decide
  have hassert : ¬ ¬ (width ≠ 0 ∧ width &&& (width - 1) = 0) := by
    simp only [List.mem_cons, List.mem_singleton, List.mem_nil_iff, or_false] at hw
    rcases hw with rfl | rfl | rfl | rfl | rfl | rfl | rfl <;> decide
  unfold calc_aligned_byte_size
  rw [if_neg hassert]
  dsimp only
  rw [max_2_eq, e2]
  by_cases hlt : width < 8
  · rw [if_pos hlt]
    dsimp only
    have hcase : (8 / width = 8 ∧ width = 1) ∨ (8 / width = 4 ∧ width = 2) ∨
        (8 / width = 2 ∧ width = 4) := by
      simp only [List.mem_cons, List.mem_singleton, List.mem_nil_iff, or_false] at hw
      rcases hw with rfl | rfl | rfl | rfl | rfl | rfl | rfl <;> simp at hlt ⊢
    obtain ⟨l1, l2⟩ := calc_aligned_low size (8 / width) width hs hcase
    rw [l1]
    generalize (size * width + 7) / 8 = b at l2 ⊢
    have hd : decide (b > 18446744073709551600) = false := by
      rw [decide_eq_false_iff_not]; omega
    obtain ⟨f1, f2⟩ := calc_aligned_finish b l2
    have hno : ¬ 8 + b > 18446744073709551608 := by omega
    rw [hd, if_neg hno]
    simp only [Bool.false_eq_true, if_false, f1, not_true_eq_false, f2]
  · rw [if_neg hlt]
    dsimp only
    have hcase : (width / 8 = 1 ∧ width = 8) ∨ (width / 8 = 2 ∧ width = 16) ∨
        (width / 8 = 4 ∧ width = 32) ∨ (width / 8 = 8 ∧ width = 64) := by
      simp only [List.mem_cons, List.mem_singleton, List.mem_nil_iff, or_false] at hw
      rcases hw with rfl | rfl | rfl | rfl | rfl | rfl | rfl <;> simp at hlt ⊢
    obtain ⟨h1, h2⟩ := calc_aligned_high size (width / 8) width hs hcase
    by_cases ho : size > 18446744073709551600 / (width / 8)
    · have hd : decide (size > 18446744073709551600 / (width / 8)) = true := by
        rw [decide_eq_true_iff]; exact ho
      rw [hd, if_pos rfl, if_pos (h1.mp ho)]
    · have hd : decide (size > 18446744073709551600 / (width / 8)) = false := by
        rw [decide_eq_false_iff_not]; exact ho
      obtain ⟨h3, h4⟩ := h2 ho
      rw [hd, h3, if_neg (fun hx => ho (h1.mpr hx))]
      generalize (size * width + 7) / 8 = b at h4 ⊢
      obtain ⟨f1, f2⟩ := calc_aligned_finish b h4
      simp only [Bool.false_eq_true, if_false, f1, not_true_eq_false, f2]

theorem psum_replicate (N c : Nat) : ∀ m, m ≤ N → psum (List.replicate N c) m = m * c := by
  intro m
  induction m with
  | zero => intro _; rw [psum_zero]; omega
  | succ m ih =>
    intro hm
    rw [psum_succ, ih (by omega)]
    have : (List.replicate N c).getD m 0 = c := by
      rw [List.getD_eq_getElem?_getD, List.getElem?_replicate, if_pos (by omega)]
      rfl
    rw [this]
    ring

/-- The offsets array that `create_bptree_offsets` builds for a compact node
with `N` children of `c` elements each, and the addressing on the converted
node. -/
theorem create_bptree_offsets_spec (fv : Int) (offs0 : List Int) (N c oref k : Nat)
    (hfv : fv = 2 * (c : Int) + 1) (hfv64 : is_int64 fv) (hc : 1 ≤ c) (hN : 1 ≤ N)
    (hb : N * c ≤ 9223372036854775807) (horef : oref % 8 = 0) (hk : k < N * c) :
    (create_bptree_offsets fv N oref).1 = to_int64 oref ∧
    Int.tmod (create_bptree_offsets fv N oref).1 2 = 0 ∧
    (create_bptree_offsets fv N oref).2 =
      (List.range (N - 1)).map (fun i => (((i + 1) * c : Nat) : Int)) ∧
    find_bptree_child fv offs0 k = (k / c, k % c) ∧
    find_bptree_child (create_bptree_offsets fv N oref).1 (create_bptree_offsets fv N oref).2 k =
      find_bptree_child fv offs0 k := by
  have hodd : Int.tmod fv 2 ≠ 0 := by
    rw [tmod_two]
    split_ifs <;> omega
  have hdiv : Int.tdiv fv 2 = (c : Int) := by
    rw [tdiv_two]
    split_ifs <;> omega
  have hcs : to_size_t (Int.tdiv fv 2) = c := by
    rw [hdiv]
    unfold is_int64 at hfv64
    exact to_size_t_of_nat c (by omega)
  obtain ⟨p1, _⟩ := to_int64_ref oref horef
  obtain ⟨l1, l2⟩ := create_loop_spec (Int.tdiv fv 2) (N - 1) 0 []
  simp only [List.length_nil, Nat.zero_add] at l1 l2
  have hlist : (create_bptree_offsets fv N oref).2 =
      (List.range (N - 1)).map (fun i => (((i + 1) * c : Nat) : Int)) := by
    simp only [create_bptree_offsets]
    apply List.ext_getElem?
    intro i
    by_cases hi : i < N - 1
    · rw [List.getElem?_eq_getElem (by rw [l1]; exact hi),
        List.getElem?_eq_getElem (by simpa using hi)]
      have := l2 i hi
      rw [List.getD_eq_getElem?_getD, List.getElem?_eq_getElem (by rw [l1]; exact hi)] at this
      simp only [Option.getD_some, Nat.not_lt_zero, if_false, Nat.sub_zero, Int.zero_add] at this
      rw [this, hdiv]
      simp
    · rw [List.getElem?_eq_none (by rw [l1]; omega), List.getElem?_eq_none (by simp; omega)]
  have hcomp : find_bptree_child fv offs0 k = (k / c, k % c) := by
    unfold find_bptree_child
    rw [if_pos hodd]
    dsimp only
    rw [hcs]
  refine ⟨rfl, p1, hlist, hcomp, ?_⟩
  rw [hcomp, hlist]
  have hq : k / c < N := (Nat.div_lt_iff_lt_mul (by omega)).mpr hk
  have hg : general_offsets ((List.range (N - 1)).map (fun i => (((i + 1) * c : Nat) : Int)))
      (List.replicate N c) := by
    refine ⟨by simp; omega, fun i hi => ?_⟩
    have hi2 : i < N - 1 := by simpa using hi
    rw [psum_replicate N c (i + 1) (by omega), List.getD_eq_getElem?_getD,
      List.getElem?_eq_getElem hi]
    simp
  have h1 : psum (List.replicate N c) (k / c) ≤ k := by
    rw [psum_replicate N c _ (by omega)]
    exact Nat.div_mul_le_self k c
  have h2 : k < psum (List.replicate N c) (k / c + 1) := by
    rw [psum_replicate N c _ (by omega), Nat.add_mul, Nat.one_mul]
    have hm := Nat.mod_lt k (show c > 0 by omega)
    have hd := Nat.div_add_mod k c
    have := Nat.mul_comm c (k / c)
    omega
  have e := find_child_from_offsets_spec _ (List.replicate N c) k (k / c) hg (by simpa using hq)
    h1 h2 (by omega)
  unfold find_bptree_child
  have hmod : k - k / c * c = k % c := by
    have := Nat.div_add_mod k c
    have := Nat.mul_comm c (k / c)
    omega
  rw [if_neg (by simpa using p1), e, psum_replicate N c _ (by omega), hmod]

/-! ## Theorems: counts along the erase path and the superfluous root -/

/-- One step of the recursive erase, read off the function: the child that the
call descends into, what the call on that child returned, and how the node is
put together again. When the call returns false the last slot is the old one
minus 2. -/
theorem do_erase_step (handler : EraseHandler) (oref fuel : Nat) (fv : Int) (offs : List Int)
    (cs : List BpNode) (last : Int) (e : Nat) (d : Bool) (t2 : BpNode)
    (h : do_erase_bptree_elem handler oref (fuel + 1) (.inner fv offs cs last) e = some (d, t2)) :
    ∃ c j child dc child2 f o cs2,
      (if e = npos then (cs.length - 1, npos)
        else find_bptree_child
          (if e = npos then (fv, offs) else ensure_bptree_offsets fv offs cs.length oref).1
          (if e = npos then (fv, offs) else ensure_bptree_offsets fv offs cs.length oref).2 e)
        = (c, j) ∧
      cs[c]? = some child ∧
      (e = npos → c = cs.length - 1 ∧ j = npos) ∧
      ((∃ xs, child = .leaf xs ∧ dc = (handler.erase_leaf_elem xs j).1 ∧
          child2 = .leaf (handler.erase_leaf_elem xs j).2) ∨
        ((∃ cfv coffs ccs clast, child = .inner cfv coffs ccs clast) ∧
          do_erase_bptree_elem handler oref fuel child j = some (dc, child2))) ∧
      t2 = .inner f o cs2 (if d then last else last - 2) ∧
      (d = true ↔ (dc = true ∧ cs.length = 1)) ∧
      (d = false → cs2 = if dc then (cs.set c child2).eraseIdx c else cs.set c child2) := by
  simp only [do_erase_bptree_elem] at h
  generalize hconv : (if e = npos then (fv, offs)
    else ensure_bptree_offsets fv offs cs.length oref) = conv at h ⊢
  generalize hp : (if e = npos then (cs.length - 1, npos)
    else find_bptree_child conv.1 conv.2 e) = p at h ⊢
  have hnp : e = npos → p.1 = cs.length - 1 ∧ p.2 = npos := by
    intro he
    rw [if_pos he] at hp
    rw [← hp]
    exact ⟨rfl, rfl⟩
  cases hc : cs[p.1]? with
  | none => rw [hc] at h; cases h
  | some child =>
    rw [hc] at h
    dsimp only at h
    have key : ∀ (dc : Bool) (child2 : BpNode),
        (if dc = true ∧ cs.length = 1 then
            some (true, BpNode.inner conv.1 conv.2 (cs.set p.1 child2) last)
          else
            some (false, BpNode.inner conv.1
              (if (decide (e ≠ npos) || (dc && decide (Int.tmod conv.1 2 = 0))) = true then
                if dc = true then
                  adjust (conv.2.eraseIdx (if p.1 = cs.length - 1 then p.1 - 1 else p.1))
                    (if p.1 = cs.length - 1 then p.1 - 1 else p.1)
                    (conv.2.eraseIdx (if p.1 = cs.length - 1 then p.1 - 1 else p.1)).length (-1)
                else adjust conv.2 p.1 conv.2.length (-1)
              else conv.2)
              (if dc = true then (cs.set p.1 child2).eraseIdx p.1 else cs.set p.1 child2)
              (last - 2))) = some (d, t2) →
        ∃ f o cs2, t2 = .inner f o cs2 (if d then last else last - 2) ∧
          (d = true ↔ (dc = true ∧ cs.length = 1)) ∧
          (d = false → cs2 = if dc then (cs.set p.1 child2).eraseIdx p.1 else cs.set p.1 child2) := by
      intro dc child2 hr
      by_cases hcond : dc = true ∧ cs.length = 1
      · rw [if_pos hcond] at hr
        have := Option.some.inj hr
        have hd : d = true := (congrArg Prod.fst this).symm
        have ht : t2 = _ := (congrArg Prod.snd this).symm
        subst hd
        exact ⟨_, _, _, ht, ⟨fun _ => hcond, fun _ => rfl⟩, fun hx => by cases hx⟩
      · rw [if_neg hcond] at hr
        have := Option.some.inj hr
        have hd : d = false := (congrArg Prod.fst this).symm
        have ht : t2 = _ := (congrArg Prod.snd this).symm
        subst hd
        exact ⟨_, _, _, ht, ⟨fun hx => (by cases hx), fun hx => absurd hx hcond⟩, fun _ => rfl⟩
    cases child with
    | leaf xs =>
      dsimp only at h
      obtain ⟨f, o, cs2, k1, k2, k3⟩ := key _ _ h
      exact ⟨p.1, p.2, _, _, _, f, o, cs2, rfl, hc, hnp, Or.inl ⟨xs, rfl, rfl, rfl⟩, k1, k2, k3⟩
    | inner cfv coffs ccs clast =>
      dsimp only at h
      cases hrec : do_erase_bptree_elem handler oref fuel (.inner cfv coffs ccs clast) p.2 with
      | none => rw [hrec] at h; cases h
      | some r =>
        rw [hrec] at h
        obtain ⟨dc, child2⟩ := r
        dsimp only at h
        obtain ⟨f, o, cs2, k1, k2, k3⟩ := key _ _ h
        exact ⟨p.1, p.2, _, dc, child2, f, o, cs2, rfl, hc, hnp,
          Or.inr ⟨⟨cfv, coffs, ccs, clast, rfl⟩, hrec⟩, k1, k2, k3⟩

/-- The elimination of a superfluous root, from a well-formed inner node with
a single child: the new root is the first node below it that is a leaf or has
at least two children, the nodes freed are those of the chain down to it, from
the lowest one up, each with its offsets array when it has one, and the new
root holds the same sequence. -/
theorem elim_chain_spec : ∀ (fuel : Nat) (fv : Int) (offs : List Int) (g : BpNode) (last : Int)
    (level : Nat), (BpNode.inner fv offs [g] last).wf level → level ≤ fuel →
    ∃ chain r, chain ≠ [] ∧ single_child_chain chain (BpNode.inner fv offs [g] last) r ∧
      ((∃ xs, r = BpNode.leaf xs) ∨ 2 ≤ r.children.length) ∧
      elim_superfluous_bptree_root fuel g = some r ∧
      elim_superfluous_bptree_root_frees fuel (BpNode.inner fv offs [g] last) =
        some ((chain.reverse.map freed_with).flatten) ∧
      r.flatten = (BpNode.inner fv offs [g] last).flatten ∧ ∃ level2, r.wf level2 := by
  intro fuel
  induction fuel with
  | zero =>
    intro fv offs g last level hwf hf
    simp only [BpNode.wf] at hwf
    omega
  | succ fuel ih =>
    intro fv offs g last level hwf hf
    have hg := (wf_children fv offs [g] last level hwf g (List.mem_cons_self _ _)).1
    have hfl : (BpNode.inner fv offs [g] last).flatten = g.flatten := by
      rw [flatten_inner, flatten_list_cons]
      simp [flatten_list]
    have hl1 : level ≠ 0 := by
      simp only [BpNode.wf] at hwf
      exact hwf.1
    cases g with
    | leaf xs =>
      refine ⟨[BpNode.inner fv offs [BpNode.leaf xs] last], BpNode.leaf xs, by simp,
        ⟨rfl, fv, offs, _, last, rfl, rfl⟩, Or.inl ⟨xs, rfl⟩, rfl, ?_, hfl.symm, level - 1, hg⟩
      simp [elim_superfluous_bptree_root_frees]
    | inner gfv goffs gcs glast =>
      have hgw := hg
      simp only [BpNode.wf] at hgw
      by_cases h1 : gcs.length > 1
      · refine ⟨[BpNode.inner fv offs [BpNode.inner gfv goffs gcs glast] last],
          BpNode.inner gfv goffs gcs glast, by simp, ⟨rfl, fv, offs, _, last, rfl, rfl⟩,
          Or.inr (by simp only [BpNode.children]; omega), ?_, ?_, hfl.symm, level - 1, hg⟩
        · simp only [elim_superfluous_bptree_root]
          rw [if_neg (by omega), if_pos h1]
        · simp only [elim_superfluous_bptree_root_frees, List.getElem?_cons_zero]
          rw [if_neg (by omega), if_pos h1]
          simp
      · cases gcs with
        | nil => simp at hgw
        | cons g2 rest =>
          have hr : rest = [] := by
            cases rest with
            | nil => rfl
            | cons a b => simp at h1
          subst hr
          obtain ⟨chain, r, c1, c2, c3, c4, c5, c6, c7⟩ :=
            ih gfv goffs g2 glast (level - 1) hg (by omega)
          refine ⟨BpNode.inner fv offs [BpNode.inner gfv goffs [g2] glast] last :: chain, r,
            by simp, ⟨rfl, fv, offs, _, last, rfl, c2⟩, c3, ?_, ?_, by rw [c6, hfl], c7⟩
          · simp only [elim_superfluous_bptree_root, List.length_singleton,
              List.getElem?_cons_zero]
            rw [if_neg (by omega), if_neg (by omega)]
            exact c4
          · simp only [elim_superfluous_bptree_root_frees, List.getElem?_cons_zero,
              List.length_singleton]
            rw [if_neg (by omega), if_neg (by omega)]
            rw [c5]
            simp

/-- The function `Array::erase_bptree_elem` after the recursive erase has returned false with
a root that has a single child: the elimination of the superfluous root is
attempted, and the root stays when the attempt throws. -/
theorem erase_bptree_elem_single_child (handler : EraseHandler) (oref : Nat) (elim_throws : Bool)
    (fuel : Nat) (fv : Int) (offs : List Int) (cs : List BpNode) (last : Int) (e : Nat)
    (fv2 : Int) (offs2 : List Int) (g : BpNode) (last2 : Int)
    (hcs : 1 ≤ cs.length)
    (hassert : e = npos ∨ e + 1 ≠ to_size_t (Int.tdiv last 2))
    (hd : do_erase_bptree_elem handler oref fuel (.inner fv offs cs last) e =
      some (false, .inner fv2 offs2 [g] last2)) :
    erase_bptree_elem handler oref elim_throws fuel (.inner fv offs cs last) e =
      if elim_throws then some (.inner fv2 offs2 [g] last2)
      else elim_superfluous_bptree_root fuel g := by
  simp only [erase_bptree_elem]
  rw [if_neg (by omega), if_neg (not_not.mpr hassert), hd]
  simp only [Bool.false_eq_true, if_false, List.length_singleton, gt_iff_lt, Nat.lt_irrefl,
    List.getElem?_cons_zero]

/-! ## Theorems: visiting the leaves -/

theorem handle_leaves_append {σ : Type} (handler : σ → NodeInfo → Bool × σ) :
    ∀ (A B : List NodeInfo) (s : σ),
      handle_leaves handler (A ++ B) s =
        if (handle_leaves handler A s).1 then handle_leaves handler B (handle_leaves handler A s).2
        else (false, (handle_leaves handler A s).2) := by
  intro A
  induction A with
  | nil => intro B s; simp [handle_leaves]
  | cons x xs ih =>
    intro B s
    simp only [List.cons_append, handle_leaves]
    by_cases h : (handler s x).1 = true
    · rw [if_pos h, if_pos h]
      exact ih B _
    · rw [if_neg h, if_neg h]
      simp

theorem leaf_infos_inner (fv : Int) (offs : List Int) (cs : List BpNode) (last : Int)
    (parent : BpNode) (ndx off : Nat) :
    (BpNode.inner fv offs cs last).leaf_infos parent ndx off =
      leaf_infos_list (BpNode.inner fv offs cs last) cs 0 off := by
  simp [BpNode.leaf_infos]

theorem leaf_infos_list_cons (parent c : BpNode) (cs : List BpNode) (i off : Nat) :
    leaf_infos_list parent (c :: cs) i off =
      c.leaf_infos parent (1 + i) off ++
        leaf_infos_list parent cs (i + 1) (off + c.flatten.length) := by
  simp [leaf_infos_list]

/-- The leaves listed for the children of a node lie, one after the other,
in the range of global indices of those children. -/
theorem leaf_infos_list_bounds (parent : BpNode) :
    ∀ (cs : List BpNode),
      (∀ c ∈ cs, ∀ p ndx off x, x ∈ c.leaf_infos p ndx off →
        off ≤ x.m_offset ∧ x.m_offset + x.m_size ≤ off + c.flatten.length ∧ 1 ≤ x.m_size) →
      ∀ i off x, x ∈ leaf_infos_list parent cs i off →
        off ≤ x.m_offset ∧ x.m_offset + x.m_size ≤ off + (flatten_list cs).length ∧
          1 ≤ x.m_size := by
  intro cs
  induction cs with
  | nil =>
    intro _ i off x hx
    simp [leaf_infos_list] at hx
  | cons c cs ih =>
    intro hc i off x hx
    rw [leaf_infos_list_cons, List.mem_append] at hx
    rw [flatten_list_cons, List.length_append]
    rcases hx with hx | hx
    · have := hc c (List.mem_cons_self _ _) _ _ _ x hx
      omega
    · have := ih (fun c2 h2 => hc c2 (List.mem_cons_of_mem _ h2)) _ _ x hx
      omega

theorem leaf_infos_bounds : ∀ (level : Nat) (t : BpNode), t.wf level →
    ∀ p ndx off x, x ∈ t.leaf_infos p ndx off →
      off ≤ x.m_offset ∧ x.m_offset + x.m_size ≤ off + t.flatten.length ∧ 1 ≤ x.m_size := by
  intro level
  induction level with
  | zero =>
    intro t hwf p ndx off x hx
    cases t with
    | leaf xs =>
      simp only [BpNode.wf] at hwf
      simp only [BpNode.leaf_infos, List.mem_singleton] at hx
      subst hx
      simp only [BpNode.flatten]
      omega
    | inner fv offs cs last =>
      simp only [BpNode.wf] at hwf
      omega
  | succ level ih =>
    intro t hwf p ndx off x hx
    cases t with
    | leaf xs =>
      simp only [BpNode.wf] at hwf
      omega
    | inner fv offs cs last =>
      rw [leaf_infos_inner] at hx
      rw [flatten_inner]
      have hch := wf_children fv offs cs last (level + 1) hwf
      exact leaf_infos_list_bounds _ cs (fun c hc => ih c (hch c hc).1) 0 off x hx

/-- The leaves below the children split at any child. -/
theorem leaf_infos_list_split (parent : BpNode) :
    ∀ (pre rest : List BpNode) (i off : Nat),
      leaf_infos_list parent (pre ++ rest) i off =
        leaf_infos_list parent pre i off ++
          leaf_infos_list parent rest (i + pre.length) (off + (flatten_list pre).length) := by
  intro pre
  induction pre with
  | nil => intro rest i off; simp [leaf_infos_list, flatten_list]
  | cons c pre ih =>
    intro rest i off
    rw [List.cons_append, leaf_infos_list_cons, leaf_infos_list_cons, ih, flatten_list_cons,
      List.length_append, List.length_cons, List.append_assoc]
    rw [show i + 1 + pre.length = i + (pre.length + 1) by omega,
      show off + c.flatten.length + (flatten_list pre).length =
        off + (c.flatten.length + (flatten_list pre).length) by omega]

theorem filter_ends_before (start : Nat) (L : List NodeInfo)
    (h : ∀ x ∈ L, x.m_offset + x.m_size ≤ start) :
    L.filter (fun x => decide (start < x.m_offset + x.m_size)) = [] := by
  rw [List.filter_eq_nil_iff]
  intro x hx
  have := h x hx
  simp only [decide_eq_true_eq]
  omega

theorem filter_ends_after (start : Nat) (L : List NodeInfo)
    (h : ∀ x ∈ L, start < x.m_offset + x.m_size) :
    L.filter (fun x => decide (start < x.m_offset + x.m_size)) = L := by
  rw [List.filter_eq_self]
  intro x hx
  simpa using h x hx

theorem handle_leaves_single {σ : Type} (handler : σ → NodeInfo → Bool × σ) (x : NodeInfo)
    (s : σ) : handle_leaves handler [x] s = handler s x := by
  simp only [handle_leaves]
  cases h : handler s x with
  | mk b s2 => cases b <;> rfl

theorem flatten_list_snoc_length (pre : List BpNode) (c : BpNode) :
    (flatten_list (pre ++ [c])).length = (flatten_list pre).length + c.flatten.length := by
  rw [flatten_list_append, List.length_append, flatten_list_cons]
  simp [flatten_list]

/-- The loop over the children in `foreach_bptree_leaf`, entered at a child
that ends after `start_offset`: the handler is called on the leaves below the
children from that child on that end after `start_offset`, in order, until a
call returns false. -/
theorem foreach_children_spec {σ : Type} (handler : σ → NodeInfo → Bool × σ)
    (start fuel : Nat) (node : BpNode) (cs : List BpNode) (node_offset epc : Nat)
    (offs : List Int) (flag : Bool)
    (hb : node_offset + (flatten_list cs).length < 9223372036854775808)
    (hflag : ∀ c ∈ cs, (flag = true ↔ ∃ xs, c = BpNode.leaf xs))
    (hsize : ∀ pre c rest, cs = pre ++ c :: rest → rest ≠ [] →
      (if epc ≠ 0 then epc
        else size_sub (sz (node_offset + to_size_t (offs.getD pre.length 0)))
          (node_offset + (flatten_list pre).length)) = c.flatten.length)
    (hrec : ∀ c ∈ cs, flag = false → ∀ p ndx off s,
      off + c.flatten.length < 9223372036854775808 → start < off + c.flatten.length →
      foreach_bptree_leaf handler start fuel c off c.flatten.length s =
        some (handle_leaves handler
          ((c.leaf_infos p ndx off).filter fun x => decide (start < x.m_offset + x.m_size)) s)) :
    ∀ (rest : List BpNode) (c : BpNode) (pre : List BpNode) (s : σ), cs = pre ++ c :: rest →
      start < node_offset + (flatten_list pre).length + c.flatten.length →
      foreach_children (foreach_bptree_leaf handler start fuel) handler node node_offset
          (flatten_list cs).length epc offs cs.length flag (c :: rest) pre.length
          (node_offset + (flatten_list pre).length) s =
        some (handle_leaves handler
          ((leaf_infos_list node (c :: rest) pre.length
            (node_offset + (flatten_list pre).length)).filter
              fun x => decide (start < x.m_offset + x.m_size)) s) := by
  intro rest
  induction rest with
  | nil =>
    intro c pre s hcs hstart
    have hlen : cs.length = pre.length + 1 := by rw [hcs]; simp
    have htot : (flatten_list cs).length = (flatten_list pre).length + c.flatten.length := by
      rw [hcs]; exact flatten_list_snoc_length pre c
    have hc : c ∈ cs := by rw [hcs]; simp
    simp only [foreach_children]
    have hlast : decide (pre.length = cs.length - 1) = true := by
      rw [decide_eq_true_iff]; omega
    rw [hlast]
    simp only [not_true_eq_false, if_false, if_true]
    have hms : size_sub (sz (node_offset + (flatten_list cs).length))
        (node_offset + (flatten_list pre).length) = c.flatten.length := by
      unfold sz size_sub
      rw [Nat.mod_eq_of_lt (by omega), if_pos (by omega)]
      omega
    rw [hms, leaf_infos_list_cons, List.filter_append]
    have hnil : leaf_infos_list node [] (pre.length + 1)
        (node_offset + (flatten_list pre).length + c.flatten.length) = [] := by
      simp [leaf_infos_list]
    rw [hnil, List.filter_nil, List.append_nil]
    have hr : (if flag = true then
          some (handler s
            { m_mem := c, m_parent := node, m_ndx_in_parent := 1 + pre.length,
              m_offset := node_offset + (flatten_list pre).length,
              m_size := c.flatten.length })
        else foreach_bptree_leaf handler start fuel c (node_offset + (flatten_list pre).length)
          c.flatten.length s) =
        some (handle_leaves handler
          ((c.leaf_infos node (1 + pre.length) (node_offset + (flatten_list pre).length)).filter
            fun x => decide (start < x.m_offset + x.m_size)) s) := by
      cases hf : flag with
      | true =>
        obtain ⟨xs, rfl⟩ := (hflag c hc).mp hf
        simp only [if_true, BpNode.leaf_infos, BpNode.flatten]
        rw [List.filter_cons_of_pos (by
          simp only [decide_eq_true_eq]
          simp only [BpNode.flatten] at hstart
          exact hstart), List.filter_nil, handle_leaves_single]
      | false =>
        simp only [Bool.false_eq_true, if_false]
        exact hrec c hc hf node (1 + pre.length) _ s (by omega) hstart
    rw [hr]
    generalize handle_leaves handler
      ((c.leaf_infos node (1 + pre.length) (node_offset + (flatten_list pre).length)).filter
        fun x => decide (start < x.m_offset + x.m_size)) s = q
    obtain ⟨g, s2⟩ := q
    cases g <;> rfl
  | cons c2 rest2 ih =>
    intro c pre s hcs hstart
    have hlen : cs.length = pre.length + 1 + (rest2.length + 1) := by
      rw [hcs]; simp; omega
    have htot : (flatten_list pre).length + c.flatten.length + c2.flatten.length ≤
        (flatten_list cs).length := by
      rw [hcs, flatten_list_append, flatten_list_cons, flatten_list_cons]
      simp only [List.length_append]
      omega
    have hc : c ∈ cs := by rw [hcs]; simp
    have hc2 : c2 ∈ cs := by rw [hcs]; simp
    simp only [foreach_children]
    have hlast : decide (pre.length = cs.length - 1) = false := by
      rw [decide_eq_false_iff_not]; omega
    rw [hlast]
    simp only [Bool.false_eq_true, not_false_eq_true, if_true, if_false]
    rw [hsize pre c (c2 :: rest2) hcs (by simp), leaf_infos_list_cons, List.filter_append]
    have hr : (if flag = true then
          some (handler s
            { m_mem := c, m_parent := node, m_ndx_in_parent := 1 + pre.length,
              m_offset := node_offset + (flatten_list pre).length,
              m_size := c.flatten.length })
        else foreach_bptree_leaf handler start fuel c (node_offset + (flatten_list pre).length)
          c.flatten.length s) =
        some (handle_leaves handler
          ((c.leaf_infos node (1 + pre.length) (node_offset + (flatten_list pre).length)).filter
            fun x => decide (start < x.m_offset + x.m_size)) s) := by
      cases hf : flag with
      | true =>
        obtain ⟨xs, rfl⟩ := (hflag c hc).mp hf
        simp only [if_true, BpNode.leaf_infos, BpNode.flatten]
        rw [List.filter_cons_of_pos (by
          simp only [decide_eq_true_eq]
          simp only [BpNode.flatten] at hstart
          exact hstart), List.filter_nil, handle_leaves_single]
      | false =>
        simp only [Bool.false_eq_true, if_false]
        exact hrec c hc hf node (1 + pre.length) _ s (by omega) hstart
    rw [hr, handle_leaves_append]
    have hsz : sz (node_offset + (flatten_list pre).length + c.flatten.length) =
        node_offset + (flatten_list pre).length + c.flatten.length := sz_small _ (by omega)
    have hih := fun s2 => ih c2 (pre ++ [c]) s2 (by rw [hcs]; simp)
      (by rw [flatten_list_snoc_length]; omega)
    rw [flatten_list_snoc_length, List.length_append, List.length_singleton,
      ← Nat.add_assoc] at hih
    rw [hsz]
    generalize handle_leaves handler
      ((c.leaf_infos node (1 + pre.length) (node_offset + (flatten_list pre).length)).filter
        fun x => decide (start < x.m_offset + x.m_size)) s = q
    obtain ⟨g, s2⟩ := q
    cases g
    · rfl
    · simp only [Bool.true_eq_false, not_false_eq_true, not_true_eq_false, if_false, if_true]
      exact hih s2

/-- The child at which `foreach_bptree_leaf` enters a compact node. -/
theorem foreach_entry_compact (epc : Nat) (sizes : List Nat) (loc : Nat)
    (hcc : compact_counts epc sizes)
    (hpos : ∀ i, i < sizes.length → 1 ≤ sizes.getD i 0) (hloc : loc < sizes.sum) :
    epc ≠ 0 ∧ loc / epc < sizes.length ∧ loc / epc * epc = psum sizes (loc / epc) ∧
    psum sizes (loc / epc) ≤ loc ∧ loc < psum sizes (loc / epc + 1) := by
  obtain ⟨c, hc, h1, h2⟩ := exists_child sizes loc hloc
  have e := find_compact_spec epc sizes loc c hcc hc h1 h2
  have e1 : loc / epc = c := congrArg Prod.fst e
  have hne : epc ≠ 0 := by
    have a1 := (hcc c hc).2
    have a2 := hpos c hc
    omega
  rw [e1]
  exact ⟨hne, hc, (compact_psum epc sizes hcc c hc).symm, h1, h2⟩

/-- The child at which `foreach_bptree_leaf` enters a node on the general form. -/
theorem foreach_entry_general (offs : List Int) (sizes : List Nat) (loc : Nat)
    (hg : general_offsets offs sizes) (hloc : loc < sizes.sum)
    (hb : sizes.sum < 9223372036854775808) :
    upper_bound offs (to_int64 loc) < sizes.length ∧
    (upper_bound offs (to_int64 loc) > 0 →
      to_size_t (offs.getD (upper_bound offs (to_int64 loc) - 1) 0) =
        psum sizes (upper_bound offs (to_int64 loc))) ∧
    psum sizes (upper_bound offs (to_int64 loc)) ≤ loc ∧
    loc < psum sizes (upper_bound offs (to_int64 loc) + 1) := by
  obtain ⟨c, hc, h1, h2⟩ := exists_child sizes loc hloc
  have e := find_child_from_offsets_spec offs sizes loc c hg hc h1 h2 (by omega)
  have e1 : upper_bound offs (to_int64 loc) = c := congrArg Prod.fst e
  rw [e1]
  refine ⟨hc, fun hpos => ?_, h1, h2⟩
  obtain ⟨g1, g2⟩ := hg
  have := g2 (c - 1) (by omega)
  rw [show c - 1 + 1 = c by omega] at this
  rw [this]
  have hle : psum sizes c ≤ sizes.sum := by
    rw [← psum_length]
    exact psum_mono sizes c sizes.length (by omega)
  exact to_size_t_of_nat _ (by omega)

theorem wf_leaf_iff (c : BpNode) (l : Nat) (h : c.wf l) : (∃ xs, c = BpNode.leaf xs) ↔ l = 0 := by
  cases c with
  | leaf xs =>
    simp only [BpNode.wf] at h
    exact ⟨fun _ => h.1, fun _ => ⟨xs, rfl⟩⟩
  | inner fv offs cs last =>
    simp only [BpNode.wf] at h
    exact ⟨fun ⟨xs, hx⟩ => (by cases hx), fun h0 => absurd h0 h.1⟩

/-- The per-child size that the loop of `foreach_bptree_leaf` computes for a child
that is not the last one. -/
theorem foreach_child_size (fv : Int) (offs : List Int) (cs : List BpNode) (last : Int)
    (level off : Nat) (hwf : (BpNode.inner fv offs cs last).wf level)
    (hb : off + (flatten_list cs).length < 9223372036854775808)
    (pre : List BpNode) (c : BpNode) (rest : List BpNode) (hcs : cs = pre ++ c :: rest)
    (hrest : rest ≠ []) :
    (if (if decide (Int.tmod fv 2 ≠ 0) = true then to_size_t (Int.tdiv fv 2) else 0) ≠ 0 then
        (if decide (Int.tmod fv 2 ≠ 0) = true then to_size_t (Int.tdiv fv 2) else 0)
      else size_sub (sz (off + to_size_t (offs.getD pre.length 0)))
        (off + (flatten_list pre).length)) = c.flatten.length := by
  have hpos := child_sizes_pos fv offs cs last level hwf
  have hw := hwf
  simp only [BpNode.wf] at hw
  obtain ⟨_, _, _, hform, _, _, _⟩ := hw
  have hrl : 1 ≤ rest.length := by
    cases rest with
    | nil => exact absurd rfl hrest
    | cons a b => simp
  have hlen : cs.length = pre.length + 1 + rest.length := by rw [hcs]; simp; omega
  have hget : cs[pre.length]? = some c := by
    rw [hcs, List.getElem?_append_right (le_refl _), Nat.sub_self, List.getElem?_cons_zero]
  have hsz := child_sizes_getD cs pre.length c hget
  have hpre : psum (child_sizes cs) pre.length = (flatten_list pre).length := by
    rw [psum_take_flatten, hcs, List.take_left']
    rfl
  have hsum : psum (child_sizes cs) (pre.length + 1) ≤ (flatten_list cs).length := by
    rw [flatten_list_length, ← psum_length]
    exact psum_mono _ _ _ (by rw [child_sizes_length]; omega)
  by_cases hgen : Int.tmod fv 2 = 0
  · rw [if_pos hgen] at hform
    have hd : decide (Int.tmod fv 2 ≠ 0) = false := by
      rw [decide_eq_false_iff_not]; exact not_not.mpr hgen
    rw [hd]
    simp only [Bool.false_eq_true, if_false, ne_eq, not_true_eq_false]
    obtain ⟨g1, g2⟩ := hform
    rw [child_sizes_length] at g1
    rw [g2 pre.length (by omega), psum_succ, hsz, hpre,
      to_size_t_of_nat _ (by rw [psum_succ, hsz, hpre] at hsum; omega)]
    rw [psum_succ, hsz, hpre] at hsum
    unfold sz size_sub
    rw [Nat.mod_eq_of_lt (by omega), if_pos (by omega)]
    omega
  · rw [if_neg hgen] at hform
    have hd : decide (Int.tmod fv 2 ≠ 0) = true := by
      rw [decide_eq_true_iff]; exact hgen
    rw [hd]
    simp only [if_true]
    have hcc := hform.2 pre.length (by rw [child_sizes_length]; omega)
    have he := hcc.1 (by rw [child_sizes_length]; omega)
    have hp := hpos pre.length (by rw [child_sizes_length]; omega)
    rw [if_pos (by omega), ← he, hsz]

/-- The function `foreach_bptree_leaf` on a well-formed subtree that ends after
`start_offset`: it returns, and the handler has been called on the leaves of
the subtree that end after `start_offset`, from left to right, until a call
returned false; the value returned says whether every call returned true. -/
theorem foreach_bptree_leaf_spec {σ : Type} (handler : σ → NodeInfo → Bool × σ) (start : Nat) :
    ∀ (fuel : Nat) (t : BpNode) (level off : Nat) (s : σ) (p : BpNode) (ndx : Nat),
      t.wf level → 1 ≤ level → level ≤ fuel →
      off + t.flatten.length < 9223372036854775808 → start < off + t.flatten.length →
      foreach_bptree_leaf handler start fuel t off t.flatten.length s =
        some (handle_leaves handler
          ((t.leaf_infos p ndx off).filter fun x => decide (start < x.m_offset + x.m_size)) s) := by
  intro fuel
  induction fuel with
  | zero => intro t level off s p ndx _ h1 h2; omega
  | succ fuel ih =>
    intro t level off s p ndx hwf hl hf hb hstart
    cases t with
    | leaf xs =>
      simp only [BpNode.wf] at hwf
      omega
    | inner fv offs cs last =>
      rw [flatten_inner] at hb hstart ⊢
      rw [leaf_infos_inner]
      have hch := wf_children fv offs cs last level hwf
      have hpos := child_sizes_pos fv offs cs last level hwf
      have hw := hwf
      simp only [BpNode.wf] at hw
      obtain ⟨_, w2, _, hform, _, _, _⟩ := hw
      have htotal : (flatten_list cs).length = (child_sizes cs).sum := flatten_list_length cs
      have tail : ∀ c0, c0 < cs.length → (off + psum (child_sizes cs) c0 ≤ start ∨ c0 = 0) →
          start < off + psum (child_sizes cs) (c0 + 1) →
          (match cs[c0]? with
            | none => none
            | some first_child =>
              foreach_children (foreach_bptree_leaf handler start fuel) handler
                (BpNode.inner fv offs cs last) off (flatten_list cs).length
                (if decide (Int.tmod fv 2 ≠ 0) = true then to_size_t (Int.tdiv fv 2) else 0)
                offs cs.length
                (match first_child with
                  | BpNode.leaf _ => true
                  | BpNode.inner _ _ _ _ => false)
                (cs.drop c0) c0 (off + psum (child_sizes cs) c0) s) =
            some (handle_leaves handler
              ((leaf_infos_list (BpNode.inner fv offs cs last) cs 0 off).filter
                fun x => decide (start < x.m_offset + x.m_size)) s) := by
        intro c0 hc0 h1 h2
        have hget : cs[c0]? = some cs[c0] := List.getElem?_eq_getElem hc0
        rw [hget]
        dsimp only
        have hdrop : cs.drop c0 = cs[c0] :: cs.drop (c0 + 1) := List.drop_eq_getElem_cons hc0
        have hcs : cs = cs.take c0 ++ cs[c0] :: cs.drop (c0 + 1) := by
          rw [← hdrop, List.take_append_drop]
        have hprelen : (cs.take c0).length = c0 := by
          rw [List.length_take]; omega
        have hpreflat : (flatten_list (cs.take c0)).length = psum (child_sizes cs) c0 :=
          (psum_take_flatten cs c0).symm
        have hfc := child_sizes_getD cs c0 cs[c0] hget
        have hflag : ∀ c ∈ cs, ((match cs[c0] with
              | BpNode.leaf _ => true
              | BpNode.inner _ _ _ _ => false) = true ↔ ∃ xs, c = BpNode.leaf xs) := by
          intro c hc
          have a1 := wf_leaf_iff c (level - 1) (hch c hc).1
          have a2 := wf_leaf_iff cs[c0] (level - 1) (hch _ (List.getElem_mem _)).1
          rw [a1, ← a2]
          cases cs[c0] with
          | leaf xs => simp
          | inner a b c d => simp
        have hrec : ∀ c ∈ cs, (match cs[c0] with
              | BpNode.leaf _ => true
              | BpNode.inner _ _ _ _ => false) = false → ∀ p ndx off s,
            off + c.flatten.length < 9223372036854775808 → start < off + c.flatten.length →
            foreach_bptree_leaf handler start fuel c off c.flatten.length s =
              some (handle_leaves handler
                ((c.leaf_infos p ndx off).filter
                  fun x => decide (start < x.m_offset + x.m_size)) s) := by
          intro c hc hfl p2 ndx2 off2 s2 hb2 hs2
          have a1 := wf_leaf_iff c (level - 1) (hch c hc).1
          have a3 := hflag c hc
          have hl1 : level - 1 ≠ 0 := by
            intro h0
            have := a3.mpr (a1.mpr h0)
            rw [hfl] at this
            cases this
          exact ih c (level - 1) off2 s2 p2 ndx2 (hch c hc).1 (by omega) (by omega) hb2 hs2
        have hmain := foreach_children_spec handler start fuel (BpNode.inner fv offs cs last) cs
          off (if decide (Int.tmod fv 2 ≠ 0) = true then to_size_t (Int.tdiv fv 2) else 0) offs
          _ hb hflag
          (fun pre c rest h1 h2 => foreach_child_size fv offs cs last level off hwf hb pre c rest
            h1 h2)
          hrec (cs.drop (c0 + 1)) cs[c0] (cs.take c0) s hcs
          (by rw [hpreflat]; rw [psum_succ, hfc] at h2; omega)
        rw [hprelen, hpreflat] at hmain
        rw [hdrop, hmain]
        have hsplit := leaf_infos_list_split (BpNode.inner fv offs cs last) (cs.take c0)
          (cs[c0] :: cs.drop (c0 + 1)) 0 off
        rw [← hcs, hprelen, hpreflat, Nat.zero_add] at hsplit
        have hpre_nil : (leaf_infos_list (BpNode.inner fv offs cs last) (cs.take c0) 0 off).filter
            (fun x => decide (start < x.m_offset + x.m_size)) = [] := by
          apply filter_ends_before
          intro x hx
          have := leaf_infos_list_bounds (BpNode.inner fv offs cs last) (cs.take c0)
            (fun c hc => leaf_infos_bounds (level - 1) c
              (hch c (List.mem_of_mem_take hc)).1) 0 off x hx
          rw [hpreflat] at this
          rcases h1 with h1 | h1
          · omega
          · subst h1
            simp [leaf_infos_list] at hx
        rw [hsplit, List.filter_append, hpre_nil, List.nil_append]
      simp only [foreach_bptree_leaf]
      rw [if_neg (show ¬ cs.length < 1 by omega)]
      by_cases hso : start > off
      · have hloc : start - off < (child_sizes cs).sum := by omega
        by_cases hgen : Int.tmod fv 2 = 0
        · rw [if_pos hgen] at hform
          have hd : decide (Int.tmod fv 2 ≠ 0) = false := by
            rw [decide_eq_false_iff_not]; exact not_not.mpr hgen
          obtain ⟨e1, e2, e3, e4⟩ := foreach_entry_general offs (child_sizes cs) (start - off)
            hform hloc (by omega)
          rw [child_sizes_length] at e1
          generalize upper_bound offs (to_int64 ((start - off : Nat) : Int)) = c0 at e1 e2 e3 e4 ⊢
          have hoff : (if c0 > 0 then sz (off + to_size_t (offs.getD (c0 - 1) 0)) else off) =
              off + psum (child_sizes cs) c0 := by
            have hle : psum (child_sizes cs) c0 ≤ (child_sizes cs).sum := by
              rw [← psum_length]
              exact psum_mono _ _ _ (by rw [child_sizes_length]; omega)
            by_cases hc : c0 > 0
            · have s2 : sz (off + psum (child_sizes cs) c0) = off + psum (child_sizes cs) c0 :=
                sz_small _ (by omega)
              rw [if_pos hc, e2 hc, s2]
            · rw [if_neg hc]
              have : c0 = 0 := by omega
              subst this
              rw [psum_zero, Nat.add_zero]
          have ht := tail c0 e1 (Or.inl (by omega)) (by omega)
          simp only [hd, hso, Bool.false_eq_true, false_and, if_false, if_true, hoff] at ht ⊢
          exact ht
        · rw [if_neg hgen] at hform
          have hd : decide (Int.tmod fv 2 ≠ 0) = true := by
            rw [decide_eq_true_iff]; exact hgen
          obtain ⟨e0, e1, e2, e3, e4⟩ := foreach_entry_compact (to_size_t (Int.tdiv fv 2))
            (child_sizes cs) (start - off) hform.2 hpos hloc
          rw [child_sizes_length] at e1
          generalize hepc : to_size_t (Int.tdiv fv 2) = epc at e0 e1 e2 e3 e4 ⊢
          generalize hc0 : (start - off) / epc = c0 at e1 e2 e3 e4 ⊢
          have hoff : sz (off + sz (c0 * epc)) = off + psum (child_sizes cs) c0 := by
            have hle : psum (child_sizes cs) c0 ≤ (child_sizes cs).sum := by
              rw [← psum_length]
              exact psum_mono _ _ _ (by rw [child_sizes_length]; omega)
            have s1 : sz (psum (child_sizes cs) c0) = psum (child_sizes cs) c0 :=
              sz_small _ (by omega)
            have s2 : sz (off + psum (child_sizes cs) c0) = off + psum (child_sizes cs) c0 :=
              sz_small _ (by omega)
            rw [e2, s1, s2]
          have ht := tail c0 e1 (Or.inl (by omega)) (by omega)
          simp only [hd, hso, hepc, if_true, true_and, e0, if_false, hc0, hoff] at ht ⊢
          exact ht
      · have ht := tail 0 (by omega) (Or.inr rfl) (by
          rw [psum_succ, psum_zero]
          have := hpos 0 (by rw [child_sizes_length]; omega)
          omega)
        rw [psum_zero, Nat.add_zero] at ht
        simp only [hso, false_and, and_false, if_false] at ht ⊢
        exact ht

/-- The value that a run of handler calls returns is true exactly when every
call of the run, each made in the state that the calls before it left,
returned true. -/
theorem handle_leaves_true_iff {σ : Type} (handler : σ → NodeInfo → Bool × σ) :
    ∀ (L : List NodeInfo) (s : σ),
      (handle_leaves handler L s).1 = true ↔
        ∀ i x, L[i]? = some x → (handler (handle_leaves handler (L.take i) s).2 x).1 = true := by
  intro L
  induction L with
  | nil => intro s; simp [handle_leaves]
  | cons y ys ih =>
    intro s
    simp only [handle_leaves]
    constructor
    · intro h i x hx
      by_cases hy : (handler s y).1 = true
      · rw [if_pos hy] at h
        cases i with
        | zero =>
          simp only [List.getElem?_cons_zero, Option.some.injEq] at hx
          subst hx
          simpa [handle_leaves] using hy
        | succ i =>
          simp only [List.getElem?_cons_succ] at hx
          simp only [List.take_succ_cons, handle_leaves]
          rw [if_pos hy]
          exact (ih _).mp h i x hx
      · rw [if_neg hy] at h
        cases h
    · intro h
      have hy : (handler s y).1 = true := by
        have := h 0 y (by simp)
        simpa [handle_leaves] using this
      rw [if_pos hy]
      apply (ih _).mpr
      intro i x hx
      have := h (i + 1) x (by simpa using hx)
      simp only [List.take_succ_cons, handle_leaves] at this
      rw [if_pos hy] at this
      exact this

/-- A run of handler calls stops after the first call that returns false: the
state is the one which that call left. -/
theorem handle_leaves_stop {σ : Type} (handler : σ → NodeInfo → Bool × σ) :
    ∀ (L : List NodeInfo) (s : σ) (i : Nat) (x : NodeInfo), L[i]? = some x →
      (handle_leaves handler (L.take i) s).1 = true →
      (handler (handle_leaves handler (L.take i) s).2 x).1 = false →
      handle_leaves handler L s =
        (false, (handler (handle_leaves handler (L.take i) s).2 x).2) := by
  intro L
  induction L with
  | nil => intro s i x hx; simp at hx
  | cons y ys ih =>
    intro s i x hx h1 h2
    cases i with
    | zero =>
      simp only [List.getElem?_cons_zero, Option.some.injEq] at hx
      subst hx
      simp only [List.take_zero, handle_leaves] at h2 ⊢
      rw [if_neg (by rw [h2]; decide)]
    | succ i =>
      simp only [List.getElem?_cons_succ] at hx
      simp only [List.take_succ_cons, handle_leaves] at h1 h2 ⊢
      by_cases hy : (handler s y).1 = true
      · simp only [hy, if_true] at h1 h2 ⊢
        exact ih _ i x hx h1 h2
      · rw [if_neg hy] at h1
        cases h1

/-- The function `Array::visit_bptree_leaves` on a well-formed tree with `total` elements. -/
theorem visit_bptree_leaves_spec {σ : Type} (handler : σ → NodeInfo → Bool × σ)
    (fuel : Nat) (t : BpNode) (level offset : Nat) (s : σ) (p : BpNode) (ndx : Nat)
    (hwf : t.wf level) (hl : 1 ≤ level) (hf : level ≤ fuel)
    (hoff : offset < t.flatten.length) :
    visit_bptree_leaves handler fuel t offset t.flatten.length s =
      some (handle_leaves handler
        ((t.leaf_infos p ndx 0).filter fun x => decide (offset < x.m_offset + x.m_size)) s) := by
  have hb : t.flatten.length < 9223372036854775808 := by
    cases t with
    | leaf xs =>
      simp only [BpNode.wf] at hwf
      omega
    | inner fv offs cs last =>
      simp only [BpNode.wf] at hwf
      obtain ⟨_, _, _, _, w5, _, w7⟩ := hwf
      unfold is_int64 at w7
      rw [flatten_inner]
      omega
  unfold visit_bptree_leaves
  rw [if_neg (not_not.mpr hoff)]
  exact foreach_bptree_leaf_spec handler offset fuel t level 0 s p ndx hwf hl hf (by omega)
    (by omega)

/-! ## Theorems: the leaves that are visited, and the stored totals -/

theorem offsets_append (A B : List NodeInfo) (off a : Nat)
    (ha : (A.map fun x => x.m_size).sum = a)
    (hA : ∀ i x, A[i]? = some x → x.m_offset = off + ((A.take i).map fun x => x.m_size).sum)
    (hB : ∀ i x, B[i]? = some x →
      x.m_offset = off + a + ((B.take i).map fun x => x.m_size).sum) :
    ∀ i x, (A ++ B)[i]? = some x →
      x.m_offset = off + (((A ++ B).take i).map fun x => x.m_size).sum := by
  intro i x hx
  by_cases hi : i < A.length
  · rw [List.getElem?_append_left hi] at hx
    rw [List.take_append_of_le_length (by omega)]
    exact hA i x hx
  · rw [List.getElem?_append_right (by omega)] at hx
    rw [List.take_append_eq_append_take, List.take_of_length_le (by omega), List.map_append,
      List.sum_append, ha, hB _ x hx]
    omega

/-- The leaves listed for the children of a node: their sizes add up to the
number of elements, their elements are the flattened sequence, each starts
where the one before ends, and each is a non-empty leaf of the size listed. -/
theorem leaf_infos_list_layout (parent : BpNode) :
    ∀ (cs : List BpNode),
      (∀ c ∈ cs, ∀ p ndx off,
        ((c.leaf_infos p ndx off).map fun x => x.m_size).sum = c.flatten.length ∧
        ((c.leaf_infos p ndx off).map fun x => x.m_mem.flatten).flatten = c.flatten ∧
        (∀ i x, (c.leaf_infos p ndx off)[i]? = some x →
          x.m_offset = off + (((c.leaf_infos p ndx off).take i).map fun x => x.m_size).sum) ∧
        (∀ x ∈ c.leaf_infos p ndx off,
          ∃ xs, x.m_mem = BpNode.leaf xs ∧ x.m_size = xs.length ∧ 1 ≤ xs.length)) →
      ∀ i off,
        ((leaf_infos_list parent cs i off).map fun x => x.m_size).sum = (flatten_list cs).length ∧
        ((leaf_infos_list parent cs i off).map fun x => x.m_mem.flatten).flatten =
          flatten_list cs ∧
        (∀ j x, (leaf_infos_list parent cs i off)[j]? = some x →
          x.m_offset =
            off + (((leaf_infos_list parent cs i off).take j).map fun x => x.m_size).sum) ∧
        (∀ x ∈ leaf_infos_list parent cs i off,
          ∃ xs, x.m_mem = BpNode.leaf xs ∧ x.m_size = xs.length ∧ 1 ≤ xs.length) := by
  intro cs
  induction cs with
  | nil =>
    intro _ i off
    simp [leaf_infos_list, flatten_list]
  | cons c cs ih =>
    intro hc i off
    obtain ⟨a1, a2, a3, a4⟩ := hc c (List.mem_cons_self _ _) parent (1 + i) off
    obtain ⟨b1, b2, b3, b4⟩ := ih (fun c2 h2 => hc c2 (List.mem_cons_of_mem _ h2)) (i + 1)
      (off + c.flatten.length)
    rw [leaf_infos_list_cons, flatten_list_cons]
    refine ⟨?_, ?_, ?_, ?_⟩
    · rw [List.map_append, List.sum_append, a1, b1, List.length_append]
    · rw [List.map_append, List.flatten_append, a2, b2]
    · exact offsets_append _ _ off c.flatten.length a1 a3 b3
    · intro x hx
      rcases List.mem_append.mp hx with h | h
      · exact a4 x h
      · exact b4 x h

theorem leaf_infos_layout : ∀ (level : Nat) (t : BpNode), t.wf level → ∀ p ndx off,
    ((t.leaf_infos p ndx off).map fun x => x.m_size).sum = t.flatten.length ∧
    ((t.leaf_infos p ndx off).map fun x => x.m_mem.flatten).flatten = t.flatten ∧
    (∀ i x, (t.leaf_infos p ndx off)[i]? = some x →
      x.m_offset = off + (((t.leaf_infos p ndx off).take i).map fun x => x.m_size).sum) ∧
    (∀ x ∈ t.leaf_infos p ndx off,
      ∃ xs, x.m_mem = BpNode.leaf xs ∧ x.m_size = xs.length ∧ 1 ≤ xs.length) := by
  intro level
  induction level with
  | zero =>
    intro t hwf p ndx off
    cases t with
    | leaf xs =>
      simp only [BpNode.wf] at hwf
      simp only [BpNode.leaf_infos, BpNode.flatten, List.map_cons, List.map_nil, List.sum_cons,
        List.sum_nil, Nat.add_zero, List.flatten_cons, List.flatten_nil, List.append_nil,
        List.mem_singleton, true_and]
      refine ⟨fun i x hx => ?_, fun x hx => ?_⟩
      · cases i with
        | zero =>
          simp only [List.getElem?_cons_zero, Option.some.injEq] at hx
          subst hx
          simp
        | succ i => simp at hx
      · subst hx
        exact ⟨xs, rfl, rfl, hwf.2⟩
    | inner fv offs cs last =>
      simp only [BpNode.wf] at hwf
      omega
  | succ level ih =>
    intro t hwf p ndx off
    cases t with
    | leaf xs =>
      simp only [BpNode.wf] at hwf
      omega
    | inner fv offs cs last =>
      rw [leaf_infos_inner, flatten_inner]
      have hch := wf_children fv offs cs last (level + 1) hwf
      exact leaf_infos_list_layout _ cs (fun c hc => ih c (hch c hc).1) 0 off

/-- The slot named by the `NodeInfo` of a leaf below the children of `parent`
holds that leaf. -/
theorem leaf_infos_list_slot (fv : Int) (offs : List Int) (all : List BpNode) (last : Int) :
    ∀ (cs pre : List BpNode),
      all = pre ++ cs →
      (∀ c ∈ cs, (∃ a b d e, c = BpNode.inner a b d e) → ∀ p ndx off, ∀ x ∈ c.leaf_infos p ndx off,
        1 ≤ x.m_ndx_in_parent ∧
        x.m_parent.children[x.m_ndx_in_parent - 1]? = some x.m_mem) →
      ∀ off, ∀ x ∈ leaf_infos_list (BpNode.inner fv offs all last) cs pre.length off,
        1 ≤ x.m_ndx_in_parent ∧ x.m_parent.children[x.m_ndx_in_parent - 1]? = some x.m_mem := by
  intro cs
  induction cs with
  | nil =>
    intro pre _ _ off x hx
    simp [leaf_infos_list] at hx
  | cons c cs ih =>
    intro pre hall hc off x hx
    rw [leaf_infos_list_cons] at hx
    rcases List.mem_append.mp hx with h | h
    · cases c with
      | leaf xs =>
        simp only [BpNode.leaf_infos, List.mem_singleton] at h
        subst h
        refine ⟨by simp, ?_⟩
        simp only [BpNode.children, Nat.add_sub_cancel_left]
        rw [hall, List.getElem?_append_right (le_refl _), Nat.sub_self, List.getElem?_cons_zero]
      | inner a b d e =>
        exact hc _ (List.mem_cons_self _ _) ⟨a, b, d, e, rfl⟩ _ _ _ x h
    · have := ih (pre ++ [c]) (by rw [hall]; simp)
        (fun c2 h2 => hc c2 (List.mem_cons_of_mem _ h2)) (off + c.flatten.length) x
      rw [List.length_append, List.length_singleton] at this
      exact this h

theorem leaf_infos_slot : ∀ (level : Nat) (t : BpNode), t.wf level → 1 ≤ level →
    ∀ p ndx off, ∀ x ∈ t.leaf_infos p ndx off,
      1 ≤ x.m_ndx_in_parent ∧ x.m_parent.children[x.m_ndx_in_parent - 1]? = some x.m_mem := by
  intro level
  induction level with
  | zero => intro t _ h; omega
  | succ level ih =>
    intro t hwf _ p ndx off x hx
    cases t with
    | leaf xs =>
      simp only [BpNode.wf] at hwf
      omega
    | inner fv offs cs last =>
      rw [leaf_infos_inner] at hx
      have hch := wf_children fv offs cs last (level + 1) hwf
      refine leaf_infos_list_slot fv offs cs last cs [] rfl (fun c hc hin p2 n2 o2 y hy => ?_)
        off x hx
      have hcw := (hch c hc).1
      have hl : 1 ≤ level := by
        obtain ⟨a, b, d, e, rfl⟩ := hin
        simp only [BpNode.wf, Nat.add_sub_cancel] at hcw
        omega
      exact ih c hcw hl p2 n2 o2 y hy

/-- In a list of leaves that follow one another from `off` on, the leaves that
end after `offset` are the one that contains `offset` and all leaves after
it. -/
theorem filter_from_offset (offset : Nat) : ∀ (L : List NodeInfo) (off : Nat),
    (∀ i x, L[i]? = some x → x.m_offset = off + ((L.take i).map fun x => x.m_size).sum) →
    off ≤ offset → offset < off + (L.map fun x => x.m_size).sum →
    ∃ pre x rest, L = pre ++ x :: rest ∧
      L.filter (fun x => decide (offset < x.m_offset + x.m_size)) = x :: rest ∧
      x.m_offset ≤ offset ∧ offset < x.m_offset + x.m_size := by
  intro L
  induction L with
  | nil =>
    intro off _ h1 h2
    simp only [List.map_nil, List.sum_nil] at h2
    omega
  | cons y ys ih =>
    intro off hL h1 h2
    have hy : y.m_offset = off := by
      have := hL 0 y (by simp)
      simpa using this
    have hys : ∀ i x, ys[i]? = some x →
        x.m_offset = off + y.m_size + ((ys.take i).map fun x => x.m_size).sum := by
      intro i x hx
      have := hL (i + 1) x (by simpa using hx)
      simp only [List.take_succ_cons, List.map_cons, List.sum_cons] at this
      omega
    by_cases hP : offset < off + y.m_size
    · refine ⟨[], y, ys, rfl, ?_, by omega, by omega⟩
      rw [List.filter_cons_of_pos (by rw [hy]; exact decide_eq_true hP)]
      congr 1
      rw [List.filter_eq_self]
      intro x hx
      obtain ⟨i, hi⟩ := List.getElem?_of_mem hx
      have := hys i x hi
      exact decide_eq_true (by omega)
    · simp only [List.map_cons, List.sum_cons] at h2
      obtain ⟨pre, x, rest, e1, e2, e3, e4⟩ := ih (off + y.m_size) hys (by omega) (by omega)
      refine ⟨y :: pre, x, rest, by rw [e1]; rfl, ?_, e3, e4⟩
      rw [List.filter_cons_of_neg (by rw [hy]; simpa using hP)]
      exact e2

/-! ### Traversal and the stored totals -/

theorem clear_totals_list_eq (cs : List BpNode) :
    clear_totals_list cs = cs.map BpNode.clear_totals := by
  induction cs with
  | nil => rfl
  | cons c cs ih => rw [clear_totals_list, ih, List.map_cons]

theorem clear_totals_leaf_iff (c : BpNode) :
    (match c.clear_totals with
      | .leaf _ => true
      | .inner _ _ _ _ => false) =
    (match c with
      | .leaf _ => true
      | .inner _ _ _ _ => false) := by
  cases c <;> rfl

theorem foreach_children_clear_totals {σ : Type}
    (foreach : BpNode → Nat → Nat → σ → Option (Bool × σ))
    (handler : σ → NodeInfo → Bool × σ) (hh : ignores_totals handler)
    (hrec : ∀ c off size s, foreach c.clear_totals off size s = foreach c off size s)
    (node : BpNode) (node_offset node_size epc : Nat) (offsets : List Int) (num_children : Nat)
    (cal : Bool) :
    ∀ (rest : List BpNode) (child_ndx m_offset : Nat) (s : σ),
      foreach_children foreach handler node.clear_totals node_offset node_size epc offsets
        num_children cal (rest.map BpNode.clear_totals) child_ndx m_offset s =
      foreach_children foreach handler node node_offset node_size epc offsets
        num_children cal rest child_ndx m_offset s := by
  intro rest
  induction rest with
  | nil => intro _ _ _; rfl
  | cons c rest ih =>
    intro child_ndx m_offset s
    rw [List.map_cons]
    unfold foreach_children
    dsimp only
    have h1 : ∀ size, handler s
        { m_mem := c.clear_totals, m_parent := node.clear_totals,
          m_ndx_in_parent := 1 + child_ndx, m_offset := m_offset, m_size := size } =
        handler s
        { m_mem := c, m_parent := node,
          m_ndx_in_parent := 1 + child_ndx, m_offset := m_offset, m_size := size } :=
      fun size => (hh s ⟨c, node, 1 + child_ndx, m_offset, size⟩).symm
    simp only [h1, hrec, ih]

theorem foreach_entry_clear_totals {σ : Type} (handler : σ → NodeInfo → Bool × σ)
    (hh : ignores_totals handler) (start fuel : Nat)
    (ih : ∀ (t : BpNode) (off size : Nat) (s : σ),
      foreach_bptree_leaf handler start fuel t.clear_totals off size s =
      foreach_bptree_leaf handler start fuel t off size s)
    (fv : Int) (offs : List Int) (cs : List BpNode) (last : Int)
    (off size epc idx child_offset : Nat) (s : σ) :
    (match (cs.map BpNode.clear_totals)[idx]? with
      | none => none
      | some first_child =>
        foreach_children (foreach_bptree_leaf handler start fuel) handler
          (BpNode.inner fv offs (cs.map BpNode.clear_totals) 0) off size epc offs cs.length
          (match first_child with
            | .leaf _ => true
            | .inner _ _ _ _ => false)
          ((cs.map BpNode.clear_totals).drop idx) idx child_offset s) =
    (match cs[idx]? with
      | none => none
      | some first_child =>
        foreach_children (foreach_bptree_leaf handler start fuel) handler
          (BpNode.inner fv offs cs last) off size epc offs cs.length
          (match first_child with
            | .leaf _ => true
            | .inner _ _ _ _ => false)
          (cs.drop idx) idx child_offset s) := by
  have hc : (BpNode.inner fv offs cs last).clear_totals =
      BpNode.inner fv offs (cs.map BpNode.clear_totals) 0 := by
    rw [BpNode.clear_totals, clear_totals_list_eq]
  rw [List.getElem?_map]
  cases hg : cs[idx]? with
  | none => rfl
  | some fc =>
    simp only [Option.map_some']
    rw [clear_totals_leaf_iff, ← List.map_drop, ← hc]
    exact foreach_children_clear_totals _ handler hh ih _ _ _ _ _ _ _ _ _ _ _

/-- The traversal of `foreach_bptree_leaf` on a tree and on the tree with the stored
totals cleared makes the same calls of a handler that ignores the stored
totals. -/
theorem foreach_bptree_leaf_clear_totals {σ : Type} (handler : σ → NodeInfo → Bool × σ)
    (hh : ignores_totals handler) (start : Nat) :
    ∀ (fuel : Nat) (t : BpNode) (off size : Nat) (s : σ),
      foreach_bptree_leaf handler start fuel t.clear_totals off size s =
      foreach_bptree_leaf handler start fuel t off size s := by
  intro fuel
  induction fuel with
  | zero => intro t off size s; rfl
  | succ fuel ih =>
    intro t off size s
    cases t with
    | leaf xs => rfl
    | inner fv offs cs last =>
      have hc : (BpNode.inner fv offs cs last).clear_totals =
          BpNode.inner fv offs (cs.map BpNode.clear_totals) 0 := by
        rw [BpNode.clear_totals, clear_totals_list_eq]
      rw [hc]
      unfold foreach_bptree_leaf
      dsimp only
      rw [List.length_map]
      refine ite_congr rfl (fun _ => rfl) (fun _ => ite_congr rfl (fun _ => rfl) (fun _ => ?_))
      exact foreach_entry_clear_totals handler hh start fuel ih fv offs cs last _ _ _ _ _ _

theorem visit_bptree_leaves_clear_totals {σ : Type} (handler : σ → NodeInfo → Bool × σ)
    (hh : ignores_totals handler) (fuel : Nat) (t : BpNode) (offset total : Nat) (s : σ) :
    visit_bptree_leaves handler fuel t.clear_totals offset total s =
    visit_bptree_leaves handler fuel t offset total s := by
  unfold visit_bptree_leaves
  rw [foreach_bptree_leaf_clear_totals handler hh]

theorem get_bptree_leaf_clear_totals : ∀ (fuel : Nat) (t : BpNode) (k : Nat),
    get_bptree_leaf fuel t.clear_totals k = get_bptree_leaf fuel t k := by
  intro fuel
  induction fuel with
  | zero => intro t k; rfl
  | succ fuel ih =>
    intro t k
    cases t with
    | leaf xs => rfl
    | inner fv offs cs last =>
      rw [BpNode.clear_totals, clear_totals_list_eq]
      unfold get_bptree_leaf
      dsimp only
      rw [List.getElem?_map]
      cases hg : cs[(find_bptree_child fv offs k).1]? with
      | none => rfl
      | some c =>
        cases c with
        | leaf xs => rfl
        | inner a b d e =>
          simp only [Option.map_some']
          exact ih (BpNode.inner a b d e) _

mutual
theorem clear_totals_flatten : ∀ (t : BpNode), t.clear_totals.flatten = t.flatten
  | .leaf _ => rfl
  | .inner fv offs cs last => by
    rw [BpNode.clear_totals, flatten_inner, flatten_inner, clear_totals_list_flatten cs]
theorem clear_totals_list_flatten : ∀ (cs : List BpNode),
    flatten_list (clear_totals_list cs) = flatten_list cs
  | [] => rfl
  | c :: cs => by
    rw [clear_totals_list, flatten_list_cons, flatten_list_cons, clear_totals_flatten c,
      clear_totals_list_flatten cs]
end

theorem recording_handler_ignores_totals (limit : Nat) :
    ignores_totals (recording_handler limit) := by
  intro s x
  simp only [recording_handler, NodeInfo.clear_totals, clear_totals_flatten]

/-! ## Theorems: the nodes on the erase path -/

/-- The child that `do_erase_bptree_elem` descends into on a well-formed node: it
is a child of the node, well-formed one level down, and the index passed on
addresses one of its elements (`npos` the last one). -/
theorem erase_descend (oref : Nat) (horef : oref % 8 = 0) (fv : Int) (offs : List Int)
    (cs : List BpNode) (last : Int) (level e k : Nat)
    (hwf : (BpNode.inner fv offs cs last).wf level)
    (hk : k < (flatten_list cs).length)
    (he : e = k ∨ (e = npos ∧ k + 1 = (flatten_list cs).length)) :
    ∃ f1 o1 c j child k2,
      (if e = npos then (fv, offs) else ensure_bptree_offsets fv offs cs.length oref)
        = (f1, o1) ∧
      (if e = npos then (cs.length - 1, npos) else find_bptree_child f1 o1 e) = (c, j) ∧
      cs[c]? = some child ∧ child.wf (level - 1) ∧ k2 < child.flatten.length ∧
      (j = k2 ∨ (j = npos ∧ k2 + 1 = child.flatten.length)) := by
  have hk63 : k < 9223372036854775808 := by
    simp only [BpNode.wf] at hwf
    obtain ⟨_, _, _, _, w5, _, w7⟩ := hwf
    unfold is_int64 at w7
    omega
  have hknpos : k ≠ npos := by unfold npos; omega
  have hN : (flatten_list cs).length = psum (child_sizes cs) cs.length := by
    rw [flatten_list_length, ← psum_length, child_sizes_length]
  by_cases hn : e = npos
  · have hkn : k + 1 = (flatten_list cs).length := by
      rcases he with h | h
      · exact absurd (h ▸ hn) hknpos
      · exact h.2
    have hw := hwf
    simp only [BpNode.wf] at hw
    have hc : cs.length - 1 < cs.length := by omega
    have hget : cs[cs.length - 1]? = some cs[cs.length - 1] := List.getElem?_eq_getElem hc
    have hsz := child_sizes_getD cs _ _ hget
    have hps := psum_succ (child_sizes cs) (cs.length - 1)
    rw [show cs.length - 1 + 1 = cs.length by omega, hsz] at hps
    have hcw := wf_children fv offs cs last level hwf _ (List.getElem_mem hc)
    refine ⟨fv, offs, cs.length - 1, npos, cs[cs.length - 1],
      cs[cs.length - 1].flatten.length - 1, by rw [if_pos hn],
      by rw [if_pos hn], hget, hcw.1, by have := hcw.2.2; omega,
      Or.inr ⟨rfl, by have := hcw.2.2; omega⟩⟩
  · have hek : e = k := by
      rcases he with h | h
      · exact h
      · exact absurd h.1 hn
    subst hek
    obtain ⟨g1, g2⟩ := ensure_bptree_offsets_spec fv offs cs last level oref horef hwf
    obtain ⟨c, hc, h1, h2⟩ :=
      exists_child (child_sizes cs) e (by rw [← flatten_list_length]; exact hk)
    rw [child_sizes_length] at hc
    have hfind := find_bptree_child_spec _ _ cs last level e c g2 hc h1 h2
    have hget : cs[c]? = some cs[c] := List.getElem?_eq_getElem hc
    have hsz := child_sizes_getD cs c _ hget
    have hcw := wf_children fv offs cs last level hwf _ (List.getElem_mem hc)
    rw [psum_succ, hsz] at h2
    exact ⟨_, _, c, e - psum (child_sizes cs) c, cs[c], e - psum (child_sizes cs) c,
      by rw [if_neg hn], by rw [if_neg hn]; exact hfind, hget, hcw.1, by omega, Or.inl rfl⟩

/-- Every call of `do_erase_bptree_elem` on the erase path of a well-formed tree
returns, and when it returns false the node is left with its last slot
decreased by 2, which is then `2 * n + 1` for the `n` elements left in the
subtree, with an offsets array, when it has one, that holds the running
totals of the element counts of the children, and with its child on the path
either replaced by that child with one element less, or removed when that
child held a single element. -/
theorem do_erase_calls_spec (handler : EraseHandler) (hh : handler.erases) (oref : Nat)
    (horef : oref % 8 = 0) :
    ∀ (fuel : Nat) (t : BpNode) (level e k : Nat),
      t.wf level → 1 ≤ level → level ≤ fuel → k < t.flatten.length →
      (e = k ∨ (e = npos ∧ k + 1 = t.flatten.length)) →
      ∀ x ∈ do_erase_bptree_elem_calls oref fuel t e,
        ∃ fv offs cs last d n2, x.2.1 = BpNode.inner fv offs cs last ∧
          do_erase_bptree_elem handler oref x.1 x.2.1 x.2.2 = some (d, n2) ∧
          (d = false → ∃ f o cs2 c child,
            n2 = BpNode.inner f o cs2 (last - 2) ∧
            last - 2 = 2 * (n2.flatten.length : Int) + 1 ∧
            (Int.tmod f 2 = 0 → general_offsets o (child_sizes cs2)) ∧
            cs[c]? = some child ∧
            ((∃ child2, cs2 = cs.set c child2 ∧
                child2.flatten.length + 1 = child.flatten.length) ∨
              (cs2 = cs.eraseIdx c ∧ child.flatten.length = 1))) := by
  intro fuel
  induction fuel with
  | zero => intro t level e k _ h1 h2; omega
  | succ fuel ih =>
    intro t level e k hwf hl hf hk he x hx
    cases t with
    | leaf xs =>
      simp only [BpNode.wf] at hwf
      omega
    | inner fv offs cs last =>
      rw [flatten_inner] at hk he
      obtain ⟨f1, o1, c, j, child, k2, hconv, hp, hget, hcw, hk2, hj⟩ :=
        erase_descend oref horef fv offs cs last level e k hwf hk he
      simp only [do_erase_bptree_elem_calls] at hx
      rw [hconv] at hx
      dsimp only at hx
      rw [hp] at hx
      dsimp only at hx
      rw [hget] at hx
      rcases List.mem_cons.mp hx with hx1 | hx2
      · subst hx1
        dsimp only
        obtain ⟨d, t2, r1, r2, r3⟩ := do_erase_spec handler hh oref horef (fuel + 1)
          (BpNode.inner fv offs cs last) level e k hwf hl hf (by rw [flatten_inner]; exact hk)
          (by rw [flatten_inner]; exact he)
        refine ⟨fv, offs, cs, last, d, t2, rfl, r1, fun hd => ?_⟩
        obtain ⟨c3, j3, child3, dc, child2, f, o, cs2, s0, s1, _, s3, s4, _, s6⟩ :=
          do_erase_step handler oref fuel fv offs cs last e d t2 r1
        rw [hconv] at s0
        dsimp only at s0
        rw [hp] at s0
        have hc3 : c3 = c := (congrArg Prod.fst s0).symm
        have hj3 : j3 = j := (congrArg Prod.snd s0).symm
        subst hc3
        subst hj3
        rw [hget] at s1
        have hch3 : child3 = child := (Option.some.inj s1).symm
        subst hch3
        have s6b := s6 hd
        rw [hd] at s4
        simp only [Bool.false_eq_true, if_false] at s4
        obtain ⟨w1, _⟩ := r3 hd
        rw [s4] at w1
        simp only [BpNode.wf] at w1
        obtain ⟨_, _, _, w4, w5, _, _⟩ := w1
        have hfacts : (dc = true ↔ child3.flatten.length = 1) ∧
            (dc = false → child2.flatten.length + 1 = child3.flatten.length) := by
          rcases s3 with ⟨xs, e1, e2, e3⟩ | ⟨⟨cfv, coffs, ccs, clast, e1⟩, e2⟩
          · subst e1
            simp only [BpNode.flatten] at hk2 hj ⊢
            have hjv : j3 < xs.length ∨ j3 = npos := by
              rcases hj with h | h
              · left; omega
              · right; exact h.1
            obtain ⟨a1, a2⟩ := hh xs j3 (by omega) hjv
            rw [← e2] at a1 a2
            refine ⟨a1, fun hdc => ?_⟩
            rw [e3, a2 hdc]
            simp only [BpNode.flatten]
            rw [List.length_eraseIdx_of_lt (by
              by_cases hn : j3 = npos
              · rw [if_pos hn]; omega
              · rw [if_neg hn]
                rcases hjv with h | h
                · exact h
                · exact absurd h hn)]
            omega
          · have hl1 : 1 ≤ level - 1 := by
              rw [e1] at hcw
              simp only [BpNode.wf] at hcw
              omega
            obtain ⟨d2, t3, q1, q2, q3⟩ := do_erase_spec handler hh oref horef fuel child3
              (level - 1) j3 k2 hcw hl1 (by omega) hk2 hj
            rw [e2] at q1
            have hq := Option.some.inj q1
            have hd2 : d2 = dc := (congrArg Prod.fst hq).symm
            have ht3 : t3 = child2 := (congrArg Prod.snd hq).symm
            subst hd2
            subst ht3
            refine ⟨q2, fun hdc => ?_⟩
            rw [(q3 hdc).2.1, List.length_eraseIdx_of_lt hk2]
            omega
        refine ⟨f, o, cs2, c3, child3, s4, ?_, ?_, hget, ?_⟩
        · rw [s4, flatten_inner]
          exact w5
        · intro hg
          rw [if_pos hg] at w4
          exact w4
        · cases hdc : dc with
          | false =>
            rw [hdc] at s6b
            simp only [Bool.false_eq_true, if_false] at s6b
            exact Or.inl ⟨child2, s6b, hfacts.2 hdc⟩
          | true =>
            rw [hdc] at s6b
            simp only [if_true] at s6b
            rw [eraseIdx_set_same] at s6b
            exact Or.inr ⟨s6b, hfacts.1.1 hdc⟩
      · cases child with
        | leaf xs => cases hx2
        | inner a b cc dd =>
          dsimp only at hx2
          have hl1 : 1 ≤ level - 1 := by
            simp only [BpNode.wf] at hcw
            omega
          exact ih (BpNode.inner a b cc dd) (level - 1) j k2 hcw hl1 (by omega) hk2 hj x hx2

/-- The function `Array::erase_bptree_elem` when the recursive erase leaves a root with a
single child: the elimination installs the first node below the root that is
a leaf or has at least two children, frees the nodes of the chain above it
and nothing else, and keeps the sequence; when the elimination throws, the
call returns with the root as the recursive erase left it. -/
theorem erase_elim_spec (handler : EraseHandler) (hh : handler.erases) (oref : Nat)
    (horef : oref % 8 = 0) (fuel : Nat) (fv : Int) (offs : List Int) (cs : List BpNode)
    (last : Int) (level k : Nat) (fv2 : Int) (offs2 : List Int) (c : BpNode) (last2 : Int)
    (hwf : (BpNode.inner fv offs cs last).wf level) (hl : 1 ≤ level) (hf : level ≤ fuel)
    (hk : k < (BpNode.inner fv offs cs last).flatten.length)
    (hd : do_erase_bptree_elem handler oref fuel (BpNode.inner fv offs cs last)
      (if k + 1 = (BpNode.inner fv offs cs last).flatten.length then npos else k) =
        some (false, BpNode.inner fv2 offs2 [c] last2)) :
    (∃ chain r,
      erase_bptree_elem handler oref false fuel (BpNode.inner fv offs cs last)
        (if k + 1 = (BpNode.inner fv offs cs last).flatten.length then npos else k) = some r ∧
      chain ≠ [] ∧ single_child_chain chain (BpNode.inner fv2 offs2 [c] last2) r ∧
      ((∃ xs, r = BpNode.leaf xs) ∨ 2 ≤ r.children.length) ∧
      elim_superfluous_bptree_root_frees fuel (BpNode.inner fv2 offs2 [c] last2) =
        some ((chain.reverse.map freed_with).flatten) ∧
      r.flatten = (BpNode.inner fv2 offs2 [c] last2).flatten ∧
      r.flatten = (BpNode.inner fv offs cs last).flatten.eraseIdx k) ∧
    erase_bptree_elem handler oref true fuel (BpNode.inner fv offs cs last)
      (if k + 1 = (BpNode.inner fv offs cs last).flatten.length then npos else k) =
        some (BpNode.inner fv2 offs2 [c] last2) ∧
    (BpNode.inner fv2 offs2 [c] last2).flatten = (BpNode.inner fv offs cs last).flatten.eraseIdx k := by
  have hw := hwf
  simp only [BpNode.wf] at hw
  obtain ⟨_, w2, _, _, w5, _, w7⟩ := hw
  have hn63 : (flatten_list cs).length < 4611686018427387904 := by
    unfold is_int64 at w7
    omega
  have hedge0 :
      ((if k + 1 = (BpNode.inner fv offs cs last).flatten.length then npos else k) = k ∧
        k + 1 ≠ (BpNode.inner fv offs cs last).flatten.length) ∨
      ((if k + 1 = (BpNode.inner fv offs cs last).flatten.length then npos else k) = npos ∧
        k + 1 = (BpNode.inner fv offs cs last).flatten.length) := by
    by_cases h : k + 1 = (BpNode.inner fv offs cs last).flatten.length
    · rw [if_pos h]; exact Or.inr ⟨rfl, h⟩
    · rw [if_neg h]; exact Or.inl ⟨rfl, h⟩
  generalize (if k + 1 = (BpNode.inner fv offs cs last).flatten.length then npos else k) = e
    at hedge0 hd ⊢
  obtain ⟨d, root2, r1, _, r3⟩ := do_erase_spec handler hh oref horef fuel _ level e k hwf hl hf
    hk (hedge0.imp (fun h => h.1) (fun h => h))
  rw [hd] at r1
  have hq := Option.some.inj r1
  have hd2 : d = false := (congrArg Prod.fst hq).symm
  have hr2 : root2 = BpNode.inner fv2 offs2 [c] last2 := (congrArg Prod.snd hq).symm
  subst hd2
  subst hr2
  obtain ⟨q1, q2, _, _⟩ := r3 rfl
  have hassert : e = npos ∨ e + 1 ≠ to_size_t (Int.tdiv last 2) := by
    rcases hedge0 with h | h
    · right
      have e1 : Int.tdiv last 2 = ((flatten_list cs).length : Int) := by
        rw [tdiv_two, w5, if_pos (by omega)]
        omega
      rw [e1, to_size_t_of_nat _ (by omega), h.1]
      have := h.2
      rw [flatten_inner] at this
      exact this
    · exact Or.inl h.1
  obtain ⟨chain, r, c1, c2, c3, c4, c5, c6, _⟩ := elim_chain_spec fuel fv2 offs2 c last2 level q1 hf
  have hfalse := erase_bptree_elem_single_child handler oref false fuel fv offs cs last e
    fv2 offs2 c last2 w2 hassert hd
  have htrue := erase_bptree_elem_single_child handler oref true fuel fv offs cs last e
    fv2 offs2 c last2 w2 hassert hd
  simp only [Bool.false_eq_true, if_false] at hfalse
  simp only [if_true] at htrue
  exact ⟨⟨chain, r, by rw [hfalse, c4], c1, c2, c3, c5, c6, by rw [c6, q2]⟩, htrue, q2⟩

/-! ## Theorems: the blocks freed by the elimination of a superfluous root -/

/-- The nodes of a chain of single children are strictly larger terms than the
node at its end. -/
theorem single_child_chain_sizeOf : ∀ (chain : List BpNode) (n r : BpNode),
    single_child_chain chain n r →
    sizeOf r ≤ sizeOf n ∧ ∀ m ∈ chain, sizeOf r < sizeOf m ∧ sizeOf m ≤ sizeOf n := by
  intro chain
  induction chain with
  | nil =>
    intro n r h
    simp only [single_child_chain] at h
    subst h
    exact ⟨le_refl _, fun m hm => by cases hm⟩
  | cons m ms ih =>
    intro n r h
    simp only [single_child_chain] at h
    obtain ⟨hn, fv, offs, c, last, hm, hrest⟩ := h
    subst hn
    obtain ⟨i1, i2⟩ := ih c r hrest
    have hlt : sizeOf c < sizeOf n := by
      rw [hm]
      simp only [BpNode.inner.sizeOf_spec, List.cons.sizeOf_spec, List.nil.sizeOf_spec]
      omega
    refine ⟨by omega, fun x hx => ?_⟩
    rcases List.mem_cons.mp hx with hx1 | hx2
    · subst hx1
      exact ⟨by omega, le_refl _⟩
    · have := i2 x hx2
      exact ⟨this.1, by omega⟩

/-- The nodes of a chain of single children are pairwise different, and the
node at its end is none of them. -/
theorem single_child_chain_nodup : ∀ (chain : List BpNode) (n r : BpNode),
    single_child_chain chain n r → chain.Nodup ∧ r ∉ chain := by
  intro chain
  induction chain with
  | nil => intro n r _; exact ⟨List.nodup_nil, fun h => by cases h⟩
  | cons m ms ih =>
    intro n r h
    have hall := single_child_chain_sizeOf (m :: ms) n r h
    simp only [single_child_chain] at h
    obtain ⟨hn, fv, offs, c, last, hm, hrest⟩ := h
    obtain ⟨i1, i2⟩ := ih c r hrest
    have hsz := single_child_chain_sizeOf ms c r hrest
    have hlt : sizeOf c < sizeOf m := by
      rw [hm]
      simp only [BpNode.inner.sizeOf_spec, List.cons.sizeOf_spec, List.nil.sizeOf_spec]
      omega
    refine ⟨List.nodup_cons.mpr ⟨fun hmem => ?_, i1⟩, fun hmem => ?_⟩
    · have := (hsz.2 m hmem).2
      omega
    · rcases List.mem_cons.mp hmem with h1 | h2
      · have := (hall.2 m (List.mem_cons_self _ _)).1
        rw [h1] at this
        omega
      · exact i2 h2

/-- The blocks that the last two statements of `elim_superfluous_bptree_root` free for a
node, written out: the node, and the offsets array at the ref in slot 0 when
slot 0 is even. -/
theorem freed_with_eq (m : BpNode) :
    freed_with m = Freed.node m ::
      (match m with
        | .inner fv _ _ _ => if Int.tmod fv 2 = 0 then [Freed.offsets (to_ref fv)] else []
        | .leaf _ => []) := by
  cases m <;> rfl

/-- The node blocks among the blocks freed for a list of nodes are those
nodes, one entry each. -/
theorem freed_nodes_of (L : List BpNode) :
    ((L.map fun m => Freed.node m ::
      (match m with
        | .inner fv _ _ _ => if Int.tmod fv 2 = 0 then [Freed.offsets (to_ref fv)] else []
        | .leaf _ => [])).flatten).filterMap
      (fun f => match f with
        | .node m => some m
        | .offsets _ => none) = L := by
  induction L with
  | nil => rfl
  | cons m ms ih =>
    rw [List.map_cons, List.flatten_cons, List.filterMap_append, ih]
    cases m with
    | leaf xs => rfl
    | inner fv offs cs last =>
      by_cases hg : Int.tmod fv 2 = 0
      · simp only [hg, if_true, List.filterMap_cons, List.filterMap_nil]
        rfl
      · simp only [hg, if_false, List.filterMap_cons, List.filterMap_nil]
        rfl

/-- The offsets arrays among the blocks freed for a list of nodes are those of
the nodes on the general form, one entry each. -/
theorem freed_offsets_of (L : List BpNode) :
    ((L.map fun m => Freed.node m ::
      (match m with
        | .inner fv _ _ _ => if Int.tmod fv 2 = 0 then [Freed.offsets (to_ref fv)] else []
        | .leaf _ => [])).flatten).filterMap
      (fun f => match f with
        | .node _ => none
        | .offsets ref => some ref) =
    L.filterMap (fun m => match m with
      | .inner fv _ _ _ => if Int.tmod fv 2 = 0 then some (to_ref fv) else none
      | .leaf _ => none) := by
  induction L with
  | nil => rfl
  | cons m ms ih =>
    rw [List.map_cons, List.flatten_cons, List.filterMap_append, ih]
    cases m with
    | leaf xs => rfl
    | inner fv offs cs last =>
      by_cases hg : Int.tmod fv 2 = 0
      · simp only [hg, if_true, List.filterMap_cons, List.filterMap_nil]
        rfl
      · simp only [hg, if_false, List.filterMap_cons, List.filterMap_nil]
        rfl

/-! ## The claims on leaf visiting, erase bookkeeping, byte sizes and extrema -/

/-- Claim C31. For a tree rooted at an inner node that `verify_bptree` accepts,
with `n` elements, and `offset < n`, `Array::visit_bptree_leaves(offset, n, handler)` returns, and
the calls of the handler it makes are those on the leaves from the one that
contains the global index `offset` through the last leaf, from left to right,
up to and including the first call that returns false; the value returned is
true exactly when every call returned true. The leaves of the tree from left
to right make up the flattened sequence, and for each of them `m_offset` is
the global index of its first element (the sizes of the leaves before it
added up), `m_size` is its number of elements, and slot `m_ndx_in_parent` of
`m_parent` holds `m_mem`, the leaf. -/
theorem visit_bptree_leaves_contract {σ : Type} (handler : σ → NodeInfo → Bool × σ)
    (fuel : Nat) (t : BpNode) (n : Nat) (l : Int) (g : Bool) (offset : Nat) (s : σ)
    (hs : t.int64_slots = true) (hv : verify_bptree fuel t = some (n, l, g))
    (hoff : offset < n) :
    ∃ pre x rest,
      t.leaf_infos t 0 0 = pre ++ x :: rest ∧
      x.m_offset ≤ offset ∧ offset < x.m_offset + x.m_size ∧
      visit_bptree_leaves handler fuel t offset n s =
        some (handle_leaves handler (x :: rest) s) ∧
      ((handle_leaves handler (x :: rest) s).1 = true ↔
        ∀ i y, (x :: rest)[i]? = some y →
          (handler (handle_leaves handler ((x :: rest).take i) s).2 y).1 = true) ∧
      (∀ i y, (x :: rest)[i]? = some y →
        (handle_leaves handler ((x :: rest).take i) s).1 = true →
        (handler (handle_leaves handler ((x :: rest).take i) s).2 y).1 = false →
        handle_leaves handler (x :: rest) s =
          (false, (handler (handle_leaves handler ((x :: rest).take i) s).2 y).2)) ∧
      ((t.leaf_infos t 0 0).map fun y => y.m_mem.flatten).flatten = t.flatten ∧
      (∀ i y, (t.leaf_infos t 0 0)[i]? = some y →
        y.m_offset = (((t.leaf_infos t 0 0).take i).map fun z => z.m_size).sum ∧
        (∃ xs, y.m_mem = BpNode.leaf xs ∧ y.m_size = xs.length ∧ 1 ≤ xs.length) ∧
        1 ≤ y.m_ndx_in_parent ∧
        y.m_parent.children[y.m_ndx_in_parent - 1]? = some y.m_mem) := by
  obtain ⟨level, _, e2, e3, e4, _⟩ := verify_bptree_wf fuel t n l g hv hs
  have hl : 1 ≤ level := by
    cases t with
    | leaf xs => cases fuel <;> simp [verify_bptree] at hv
    | inner fv offs cs last =>
      simp only [BpNode.wf] at e3
      omega
  subst e4
  obtain ⟨a1, a2, a3, a4⟩ := leaf_infos_layout level t e3 t 0 0
  obtain ⟨pre, x, rest, b1, b2, b3, b4⟩ := filter_from_offset offset (t.leaf_infos t 0 0) 0 a3
    (Nat.zero_le _) (by rw [a1]; omega)
  have hvis := visit_bptree_leaves_spec handler fuel t level offset s t 0 e3 hl e2 hoff
  rw [b2] at hvis
  refine ⟨pre, x, rest, b1, b3, b4, hvis, handle_leaves_true_iff handler _ s,
    fun i y hy h1 h2 => handle_leaves_stop handler _ s i y hy h1 h2, a2, fun i y hy => ?_⟩
  have hmem : y ∈ t.leaf_infos t 0 0 := List.getElem?_mem hy
  have hsl := leaf_infos_slot level t e3 hl t 0 0 y hmem
  exact ⟨by rw [a3 i y hy, Nat.zero_add], a4 y hmem, hsl.1, hsl.2⟩

/-- Witness for `visit_bptree_leaves_contract`: the leaves of `example_tree2` from global
index 3 on, with a handler that records its calls and stops after the second
one. -/
theorem visit_bptree_leaves_contract_witness :
    example_tree2.int64_slots = true ∧ verify_bptree 5 example_tree2 = some (6, 2, true) ∧
    3 < 6 ∧
    ∃ pre x rest,
      example_tree2.leaf_infos example_tree2 0 0 = pre ++ x :: rest ∧
      x.m_offset ≤ 3 ∧ 3 < x.m_offset + x.m_size ∧
      visit_bptree_leaves (recording_handler 2) 5 example_tree2 3 6 [] =
        some (handle_leaves (recording_handler 2) (x :: rest) []) ∧
      ((handle_leaves (recording_handler 2) (x :: rest) []).1 = true ↔
        ∀ i y, (x :: rest)[i]? = some y →
          (recording_handler 2
            (handle_leaves (recording_handler 2) ((x :: rest).take i) []).2 y).1 = true) ∧
      (∀ i y, (x :: rest)[i]? = some y →
        (handle_leaves (recording_handler 2) ((x :: rest).take i) []).1 = true →
        (recording_handler 2
          (handle_leaves (recording_handler 2) ((x :: rest).take i) []).2 y).1 = false →
        handle_leaves (recording_handler 2) (x :: rest) [] =
          (false, (recording_handler 2
            (handle_leaves (recording_handler 2) ((x :: rest).take i) []).2 y).2)) ∧
      ((example_tree2.leaf_infos example_tree2 0 0).map fun y => y.m_mem.flatten).flatten =
        example_tree2.flatten ∧
      (∀ i y, (example_tree2.leaf_infos example_tree2 0 0)[i]? = some y →
        y.m_offset =
          (((example_tree2.leaf_infos example_tree2 0 0).take i).map fun z => z.m_size).sum ∧
        (∃ xs, y.m_mem = BpNode.leaf xs ∧ y.m_size = xs.length ∧ 1 ≤ xs.length) ∧
        1 ≤ y.m_ndx_in_parent ∧
        y.m_parent.children[y.m_ndx_in_parent - 1]? = some y.m_mem) :=
  ⟨by decide, by decide, by decide,
    visit_bptree_leaves_contract (recording_handler 2) 5 example_tree2 6 2 true 3 []
      (by decide) (by decide) (by decide)⟩

/-- Claim C32. In `Array::erase_bptree_elem` on a tree rooted at an inner node that
`verify_bptree` accepts, with a handler that meets the handler contract, the
recursion of `Array::do_erase_bptree_elem` starts at the root, and each of its calls
returns. A call on a node of the erase path that returns false, so that the
node remains in the tree, leaves the node with its last slot decreased by
exactly 2, which is then `2 * m + 1` for the `m` elements left in its subtree,
and, when the node has an offsets array, with one offset less than it has
children, offset `i` being the total number of elements of the children
`0..i`. This holds when the child on the path survives, with one element
less, and when that child, which held a single element, is removed. -/
theorem erase_keeps_node_counts (handler : EraseHandler) (oref : Nat) (fuel : Nat)
    (t : BpNode) (n : Nat) (l : Int) (g : Bool) (k : Nat)
    (hh : handler.erases) (horef : oref % 8 = 0) (hs : t.int64_slots = true)
    (hv : verify_bptree fuel t = some (n, l, g)) (hk : k < n) :
    (∃ rest, do_erase_bptree_elem_calls oref fuel t (if k + 1 = n then npos else k) =
      (fuel, t, if k + 1 = n then npos else k) :: rest) ∧
    ∀ x ∈ do_erase_bptree_elem_calls oref fuel t (if k + 1 = n then npos else k),
      ∃ fv offs cs last d n2, x.2.1 = BpNode.inner fv offs cs last ∧
        do_erase_bptree_elem handler oref x.1 x.2.1 x.2.2 = some (d, n2) ∧
        (d = false → ∃ f o cs2 c child,
          n2 = BpNode.inner f o cs2 (last - 2) ∧
          last - 2 = 2 * (n2.flatten.length : Int) + 1 ∧
          (Int.tmod f 2 = 0 → general_offsets o (child_sizes cs2)) ∧
          cs[c]? = some child ∧
          ((∃ child2, cs2 = cs.set c child2 ∧
              child2.flatten.length + 1 = child.flatten.length) ∨
            (cs2 = cs.eraseIdx c ∧ child.flatten.length = 1))) := by
  obtain ⟨level, _, e2, e3, e4, _⟩ := verify_bptree_wf fuel t n l g hv hs
  have hl : 1 ≤ level := by
    cases t with
    | leaf xs => cases fuel <;> simp [verify_bptree] at hv
    | inner fv offs cs last =>
      simp only [BpNode.wf] at e3
      omega
  subst e4
  refine ⟨?_, ?_⟩
  · cases fuel with
    | zero => omega
    | succ fuel =>
      cases t with
      | leaf xs => simp [verify_bptree] at hv
      | inner fv offs cs last =>
        simp only [do_erase_bptree_elem_calls]
        exact ⟨_, rfl⟩
  · refine do_erase_calls_spec handler hh oref horef fuel t level _ k e3 hl e2 hk ?_
    by_cases h : k + 1 = t.flatten.length
    · rw [if_pos h]; exact Or.inr ⟨rfl, h⟩
    · rw [if_neg h]; exact Or.inl rfl

/-- Witness for `erase_keeps_node_counts`: erasing element 2 of `example_tree2`, the
only element of its leaf, so that the leaf is removed from the node above it
while that node survives in the root. -/
theorem erase_keeps_node_counts_witness :
    example_erase_handler.erases ∧ 8 % 8 = 0 ∧ example_tree2.int64_slots = true ∧
    verify_bptree 5 example_tree2 = some (6, 2, true) ∧ 2 < 6 ∧
    ((∃ rest, do_erase_bptree_elem_calls 8 5 example_tree2 (if 2 + 1 = 6 then npos else 2) =
      (5, example_tree2, if 2 + 1 = 6 then npos else 2) :: rest) ∧
    ∀ x ∈ do_erase_bptree_elem_calls 8 5 example_tree2 (if 2 + 1 = 6 then npos else 2),
      ∃ fv offs cs last d n2, x.2.1 = BpNode.inner fv offs cs last ∧
        do_erase_bptree_elem example_erase_handler 8 x.1 x.2.1 x.2.2 = some (d, n2) ∧
        (d = false → ∃ f o cs2 c child,
          n2 = BpNode.inner f o cs2 (last - 2) ∧
          last - 2 = 2 * (n2.flatten.length : Int) + 1 ∧
          (Int.tmod f 2 = 0 → general_offsets o (child_sizes cs2)) ∧
          cs[c]? = some child ∧
          ((∃ child2, cs2 = cs.set c child2 ∧
              child2.flatten.length + 1 = child.flatten.length) ∨
            (cs2 = cs.eraseIdx c ∧ child.flatten.length = 1)))) :=
  ⟨example_erase_handler_erases, by decide, by decide, by decide, by decide,
    erase_keeps_node_counts example_erase_handler 8 5 example_tree2 6 2 true 2
      example_erase_handler_erases (by decide) (by decide) (by decide) (by decide)⟩

/-- Claim C33. When the recursive erase of `Array::erase_bptree_elem`, on a tree rooted at
an inner node that `verify_bptree` accepts and with a handler that meets the
handler contract, leaves the root with exactly one child, then: if the
elimination of the superfluous root does not fail, the new root is the first
node on the chain of single children below the root that is a leaf or an inner
node with at least two children. The blocks handed to `free_` are, from the
lowest node of the chain up, each node of the chain followed by its offsets
array, at the ref in its slot 0, when that slot is even: the node blocks freed
are the nodes of the chain, one entry each, the offsets arrays freed are those
of the chain nodes on the general form, one entry each, and nothing else is
freed. The nodes of the chain are pairwise different and the new root is none
of them, so it is not freed. The flattened sequence is the one the recursive
erase left, the old one without the erased element. If the elimination
throws, `erase_bptree_elem` still returns, with the root as the recursive erase left
it. -/
theorem erase_eliminates_superfluous_root (handler : EraseHandler) (oref : Nat) (fuel : Nat)
    (t : BpNode) (n : Nat) (l : Int) (g : Bool) (k : Nat)
    (fv2 : Int) (offs2 : List Int) (c : BpNode) (last2 : Int)
    (hh : handler.erases) (horef : oref % 8 = 0) (hs : t.int64_slots = true)
    (hv : verify_bptree fuel t = some (n, l, g)) (hk : k < n)
    (hd : do_erase_bptree_elem handler oref fuel t (if k + 1 = n then npos else k) =
      some (false, BpNode.inner fv2 offs2 [c] last2)) :
    (∃ chain r frees,
      erase_bptree_elem handler oref false fuel t (if k + 1 = n then npos else k) = some r ∧
      chain ≠ [] ∧ single_child_chain chain (BpNode.inner fv2 offs2 [c] last2) r ∧
      ((∃ xs, r = BpNode.leaf xs) ∨ 2 ≤ r.children.length) ∧
      elim_superfluous_bptree_root_frees fuel (BpNode.inner fv2 offs2 [c] last2) = some frees ∧
      frees = (chain.reverse.map fun m => Freed.node m ::
        (match m with
          | .inner fv _ _ _ => if Int.tmod fv 2 = 0 then [Freed.offsets (to_ref fv)] else []
          | .leaf _ => [])).flatten ∧
      frees.filterMap (fun f => match f with
        | .node m => some m
        | .offsets _ => none) = chain.reverse ∧
      frees.filterMap (fun f => match f with
        | .node _ => none
        | .offsets ref => some ref) =
        chain.reverse.filterMap (fun m => match m with
          | .inner fv _ _ _ => if Int.tmod fv 2 = 0 then some (to_ref fv) else none
          | .leaf _ => none) ∧
      chain.Nodup ∧ r ∉ chain ∧
      r.flatten = (BpNode.inner fv2 offs2 [c] last2).flatten ∧
      r.flatten = t.flatten.eraseIdx k) ∧
    erase_bptree_elem handler oref true fuel t (if k + 1 = n then npos else k) =
      some (BpNode.inner fv2 offs2 [c] last2) ∧
    (BpNode.inner fv2 offs2 [c] last2).flatten = t.flatten.eraseIdx k := by
  obtain ⟨level, _, e2, e3, e4, _⟩ := verify_bptree_wf fuel t n l g hv hs
  subst e4
  cases t with
  | leaf xs => cases fuel <;> simp [verify_bptree] at hv
  | inner fv offs cs last =>
    have hl : 1 ≤ level := by
      simp only [BpNode.wf] at e3
      omega
    obtain ⟨⟨chain, r, p1, p2, p3, p4, p5, p6, p7⟩, q1, q2⟩ :=
      erase_elim_spec handler hh oref horef fuel fv offs cs last level k fv2 offs2 c last2
        e3 hl e2 hk hd
    have hfun : freed_with = fun m => Freed.node m ::
        (match m with
          | .inner fv _ _ _ => if Int.tmod fv 2 = 0 then [Freed.offsets (to_ref fv)] else []
          | .leaf _ => []) := funext freed_with_eq
    rw [hfun] at p5
    obtain ⟨n1, n2⟩ := single_child_chain_nodup chain _ r p3
    exact ⟨⟨chain, r, _, p1, p2, p3, p4, p5, rfl, freed_nodes_of chain.reverse,
      freed_offsets_of chain.reverse, n1, n2, p6, p7⟩, q1, q2⟩

/-- Witness for `erase_eliminates_superfluous_root`: erasing element 0 of `example_tree3`
removes the first child of the root; the child that is left has a single
child itself, the leaf 2, 3, which becomes the root, and the blocks freed are
that child, the old root and the offsets array of the old root at ref 16. -/
theorem erase_eliminates_superfluous_root_witness :
    example_erase_handler.erases ∧ 8 % 8 = 0 ∧ example_tree3.int64_slots = true ∧
    verify_bptree 5 example_tree3 = some (3, 2, true) ∧ 0 < 3 ∧
    do_erase_bptree_elem example_erase_handler 8 5 example_tree3 (if 0 + 1 = 3 then npos else 0) =
      some (false, BpNode.inner 16 [] [BpNode.inner 5 [] [BpNode.leaf [2, 3]] 5] 5) ∧
    ((∃ chain r frees,
      erase_bptree_elem example_erase_handler 8 false 5 example_tree3
        (if 0 + 1 = 3 then npos else 0) = some r ∧
      chain ≠ [] ∧
      single_child_chain chain
        (BpNode.inner 16 [] [BpNode.inner 5 [] [BpNode.leaf [2, 3]] 5] 5) r ∧
      ((∃ xs, r = BpNode.leaf xs) ∨ 2 ≤ r.children.length) ∧
      elim_superfluous_bptree_root_frees 5
          (BpNode.inner 16 [] [BpNode.inner 5 [] [BpNode.leaf [2, 3]] 5] 5) = some frees ∧
      frees = (chain.reverse.map fun m => Freed.node m ::
        (match m with
          | .inner fv _ _ _ => if Int.tmod fv 2 = 0 then [Freed.offsets (to_ref fv)] else []
          | .leaf _ => [])).flatten ∧
      frees.filterMap (fun f => match f with
        | .node m => some m
        | .offsets _ => none) = chain.reverse ∧
      frees.filterMap (fun f => match f with
        | .node _ => none
        | .offsets ref => some ref) =
        chain.reverse.filterMap (fun m => match m with
          | .inner fv _ _ _ => if Int.tmod fv 2 = 0 then some (to_ref fv) else none
          | .leaf _ => none) ∧
      chain.Nodup ∧ r ∉ chain ∧
      r.flatten = (BpNode.inner 16 [] [BpNode.inner 5 [] [BpNode.leaf [2, 3]] 5] 5).flatten ∧
      r.flatten = example_tree3.flatten.eraseIdx 0) ∧
    erase_bptree_elem example_erase_handler 8 true 5 example_tree3
        (if 0 + 1 = 3 then npos else 0) =
      some (BpNode.inner 16 [] [BpNode.inner 5 [] [BpNode.leaf [2, 3]] 5] 5) ∧
    (BpNode.inner 16 [] [BpNode.inner 5 [] [BpNode.leaf [2, 3]] 5] 5).flatten =
      example_tree3.flatten.eraseIdx 0) :=
  ⟨example_erase_handler_erases, by decide, by decide, by decide, by decide, by rfl,
    erase_eliminates_superfluous_root example_erase_handler 8 5 example_tree3 3 2 true 0
      16 [] (BpNode.inner 5 [] [BpNode.leaf [2, 3]] 5) 5
      example_erase_handler_erases (by decide) (by decide) (by decide) (by decide) (by rfl)⟩

/-- Claim C34. For two trees that are identical except for the values in the
last slot of their inner nodes, `Array::visit_bptree_leaves` with the same offset, total
and handler makes the same calls of the handler and returns the same value:
for every handler that does not read the last slots of the nodes it is given,
the value returned and the state of the handler afterwards are the same, and
so is, in particular, the sequence of `m_ndx_in_parent`, `m_offset`, `m_size`
and leaf elements that the recording handler collects. `Array::get_bptree_leaf` returns
the same leaf and index for every index. -/
theorem traversal_ignores_stored_totals {σ : Type} (handler : σ → NodeInfo → Bool × σ)
    (t1 t2 : BpNode) (fuel offset total limit k : Nat) (s : σ)
    (hh : ignores_totals handler) (h : t1.clear_totals = t2.clear_totals) :
    visit_bptree_leaves handler fuel t1 offset total s =
      visit_bptree_leaves handler fuel t2 offset total s ∧
    visit_bptree_leaves (recording_handler limit) fuel t1 offset total [] =
      visit_bptree_leaves (recording_handler limit) fuel t2 offset total [] ∧
    get_bptree_leaf fuel t1 k = get_bptree_leaf fuel t2 k := by
  refine ⟨?_, ?_, ?_⟩
  · rw [← visit_bptree_leaves_clear_totals handler hh fuel t1,
      ← visit_bptree_leaves_clear_totals handler hh fuel t2, h]
  · rw [← visit_bptree_leaves_clear_totals _ (recording_handler_ignores_totals limit) fuel t1,
      ← visit_bptree_leaves_clear_totals _ (recording_handler_ignores_totals limit) fuel t2, h]
  · rw [← get_bptree_leaf_clear_totals fuel t1, ← get_bptree_leaf_clear_totals fuel t2, h]

/-- Witness for `traversal_ignores_stored_totals`: `example_tree2` and the same tree with
99, -1 and 1 in the last slots. -/
theorem traversal_ignores_stored_totals_witness :
    ignores_totals (recording_handler 2) ∧
    example_tree2.clear_totals = example_tree2_totals.clear_totals ∧
    (visit_bptree_leaves (recording_handler 2) 5 example_tree2 1 6 [] =
      visit_bptree_leaves (recording_handler 2) 5 example_tree2_totals 1 6 [] ∧
    visit_bptree_leaves (recording_handler 100) 5 example_tree2 1 6 [] =
      visit_bptree_leaves (recording_handler 100) 5 example_tree2_totals 1 6 [] ∧
    get_bptree_leaf 5 example_tree2 4 = get_bptree_leaf 5 example_tree2_totals 4) :=
  ⟨recording_handler_ignores_totals 2, rfl,
    traversal_ignores_stored_totals (recording_handler 2) example_tree2 example_tree2_totals
      5 1 6 100 4 [] (recording_handler_ignores_totals 2) rfl⟩

/-- Claim C35. For a width among 1, 2, 4, 8, 16, 32, 64 and a `size_t` value
`size`, with `B = 8 + ceil(size * width / 8)` over the natural numbers and `M`
the value `SIZE_MAX` rounded down to a multiple of 8, `Array::calc_aligned_byte_size` throws the
byte-size overflow error exactly when `B > M`, and otherwise returns `B`
rounded up to a multiple of 8, which is a multiple of 8, at least `B` and at
most `M`: no step of the computation wraps around. -/
theorem calc_aligned_byte_size_exact (size width : Nat)
    (hw : width ∈ [1, 2, 4, 8, 16, 32, 64]) (hs : size ≤ size_max) :
    calc_aligned_byte_size size width =
      some (if 8 + (size * width + 7) / 8 > size_max / 8 * 8
        then .error ByteSizeError.byte_size_overflow
        else .ok ((8 + (size * width + 7) / 8 + 7) / 8 * 8)) ∧
    (calc_aligned_byte_size size width = some (.error ByteSizeError.byte_size_overflow) ↔
      8 + (size * width + 7) / 8 > size_max / 8 * 8) ∧
    (8 + (size * width + 7) / 8 ≤ size_max / 8 * 8 →
      (8 + (size * width + 7) / 8 + 7) / 8 * 8 % 8 = 0 ∧
      8 + (size * width + 7) / 8 ≤ (8 + (size * width + 7) / 8 + 7) / 8 * 8 ∧
      (8 + (size * width + 7) / 8 + 7) / 8 * 8 < 8 + (size * width + 7) / 8 + 8 ∧
      (8 + (size * width + 7) / 8 + 7) / 8 * 8 ≤ size_max / 8 * 8) := by
  have hM : size_max / 8 * 8 = 18446744073709551608 := by decide
  have hsz : size < 18446744073709551616 := by
    unfold size_max at hs
    omega
  have hspec := calc_aligned_byte_size_spec size width hw hsz
  rw [hM]
  refine ⟨hspec, ?_, fun hB => ⟨by omega, by omega, by omega, by omega⟩⟩
  rw [hspec]
  by_cases hB : 8 + (size * width + 7) / 8 > 18446744073709551608
  · rw [if_pos hB]
    exact ⟨fun _ => hB, fun _ => rfl⟩
  · rw [if_neg hB]
    exact ⟨fun hx => (by cases hx), fun hx => absurd hx hB⟩

/-- Witness for `calc_aligned_byte_size_exact`: 9 elements of width 1 take 8 + 2 bytes, rounded
up to 16. -/
theorem calc_aligned_byte_size_exact_witness :
    1 ∈ [1, 2, 4, 8, 16, 32, 64] ∧ 9 ≤ size_max ∧
    (calc_aligned_byte_size 9 1 =
      some (if 8 + (9 * 1 + 7) / 8 > size_max / 8 * 8
        then .error ByteSizeError.byte_size_overflow
        else .ok ((8 + (9 * 1 + 7) / 8 + 7) / 8 * 8)) ∧
    (calc_aligned_byte_size 9 1 = some (.error ByteSizeError.byte_size_overflow) ↔
      8 + (9 * 1 + 7) / 8 > size_max / 8 * 8) ∧
    (8 + (9 * 1 + 7) / 8 ≤ size_max / 8 * 8 →
      (8 + (9 * 1 + 7) / 8 + 7) / 8 * 8 % 8 = 0 ∧
      8 + (9 * 1 + 7) / 8 ≤ (8 + (9 * 1 + 7) / 8 + 7) / 8 * 8 ∧
      (8 + (9 * 1 + 7) / 8 + 7) / 8 * 8 < 8 + (9 * 1 + 7) / 8 + 8 ∧
      (8 + (9 * 1 + 7) / 8 + 7) / 8 * 8 ≤ size_max / 8 * 8)) :=
  ⟨by decide, by decide, calc_aligned_byte_size_exact 9 1 (by decide) (by decide)⟩

/-- Claim C36. For an attached array, `ndx < size` and a 64-bit value `v`,
`Array::set(ndx, v)` succeeds and every element at an index `j` other than `ndx` reads
the same value afterwards as before, also when `v` lies outside the bounds of
the current width, in which case the width afterwards is `bit_width(v)`; and
in that case `ensure_minimum_width`, which calls `do_ensure_minimum_width` to
re-encode the elements at the new width in the same buffer, leaves every
element with the value it had. -/
theorem set_leaves_other_elements (a : Array) (ndx : Nat) (v : Int) (fr fr2 : Fresh)
    (h : a.attached) (hndx : ndx < a.m_size) (hv : is_int64 v)
    (hroom : calc_byte_len a.m_size
      (if v < a.m_lbound ∨ v > a.m_ubound then bit_width v else a.m_width) ≤
        max_array_payload) :
    (∃ b, a.set ndx v fr = some b ∧ b.m_size = a.m_size ∧
      (∀ j, j < a.m_size → j ≠ ndx → b.get j = a.get j) ∧
      b.m_width = (if v < a.m_lbound ∨ v > a.m_ubound then bit_width v else a.m_width)) ∧
    (v < a.m_lbound ∨ v > a.m_ubound →
      ∃ c, a.ensure_minimum_width v fr2 = some c ∧ c.m_size = a.m_size ∧
        c.m_width = bit_width v ∧ ∀ j, j < a.m_size → c.get j = a.get j) := by
  obtain ⟨b, hb, _, b2, b3, _, b5, _⟩ := set_spec a ndx v fr h hndx hv hroom
  refine ⟨⟨b, hb, b2, b5, b3⟩, fun hout => ?_⟩
  rw [if_pos hout] at hroom
  obtain ⟨c, hc, _, c2, c3, c4, _⟩ :=
    ensure_minimum_width_spec a v fr2 h hv (by omega) hroom
  rw [if_pos hout] at c3
  exact ⟨c, hc, c2, c3, c4⟩

/-- Witness for `set_leaves_other_elements`: storing 1000 at index 1 of the leaf 1, 2, 3, 4
of width 8, which promotes the leaf to width 16. -/
theorem set_leaves_other_elements_witness :
    example_leaf.attached ∧ 1 < example_leaf.m_size ∧ is_int64 1000 ∧
    ((∃ b, example_leaf.set 1 1000 zero_fresh = some b ∧ b.m_size = example_leaf.m_size ∧
      (∀ j, j < example_leaf.m_size → j ≠ 1 → b.get j = example_leaf.get j) ∧
      b.m_width = (if (1000 : Int) < example_leaf.m_lbound ∨ (1000 : Int) > example_leaf.m_ubound
        then bit_width 1000 else example_leaf.m_width)) ∧
    ((1000 : Int) < example_leaf.m_lbound ∨ (1000 : Int) > example_leaf.m_ubound →
      ∃ c, example_leaf.ensure_minimum_width 1000 zero_fresh = some c ∧
        c.m_size = example_leaf.m_size ∧
        c.m_width = bit_width 1000 ∧ ∀ j, j < example_leaf.m_size → c.get j = example_leaf.get j)) :=
  ⟨by decide, by decide, by decide,
    set_leaves_other_elements example_leaf 1 1000 zero_fresh zero_fresh (by decide) (by decide)
      (by decide) (by decide)⟩

/-- Claim C37, evaluated at a failing input. On the leaf 1, 2, 3, 4 of width
8, `minimum(result, 1, 4, &ndx)` returns true with `result = 2`, the minimum
of the range, but writes the index 0, which lies outside the range 1 to 3 and
holds the value 1; `maximum(result, 3, 4, &ndx)` returns true with
`result = 4` and writes the index 0 as well. The index is right for a range
that starts at 0. -/
theorem minmax_index_outside_range :
    example_leaf.m_size = 4 ∧ example_leaf.m_width = 8 ∧
    example_leaf.minimum 1 4 = some (some (2, 0)) ∧
    example_leaf.get 0 = 1 ∧ example_leaf.get 1 = 2 ∧
    example_leaf.maximum 3 4 = some (some (4, 0)) ∧
    example_leaf.get 3 = 4 ∧
    example_leaf.minimum 0 4 = some (some (1, 0)) ∧
    example_leaf.maximum 0 4 = some (some (4, 3)) := by
  decide

/-- Claim C38, evaluated at a failing input. From a fresh allocator with a
baseline of 1024, `alloc(8)` returns the ref 1024 in a new slab of the refs
1024 to 1279, `alloc(2^31)` returns the ref 1032 from the free entry of 248
bytes that is left, since `int(size)` is negative, and a second `alloc(8)`
returns the ref 1280 in a new slab. No block is freed. The block of `2^31`
bytes at 1032 reaches beyond its slab, and the block at 1280 lies inside it.
The free entry that is left has a negative size. -/
theorem alloc_blocks_overlap :
    (run_ops (fresh_slab_alloc 1024) []
      [.alloc 8 (some 4096), .alloc 2147483648 none, .alloc 8 (some 8192)]).2 =
        [1024, 1032, 1280] ∧
    (run_ops (fresh_slab_alloc 1024) []
      [.alloc 8 (some 4096), .alloc 2147483648 none,
        .alloc 8 (some 8192)]).1.m_free_space_invalid = false ∧
    (run_ops (fresh_slab_alloc 1024) []
      [.alloc 8 (some 4096), .alloc 2147483648 none]).1.m_slabs = [⟨1280, 4096⟩] ∧
    (run_ops (fresh_slab_alloc 1024) []
      [.alloc 8 (some 4096), .alloc 2147483648 none, .alloc 8 (some 8192)]).1.m_slabs =
        [⟨1280, 4096⟩, ⟨1792, 8192⟩] ∧
    (run_ops (fresh_slab_alloc 1024) []
      [.alloc 8 (some 4096), .alloc 2147483648 none, .alloc 8 (some 8192)]).1.m_free_space =
        [⟨2147484680, -2147483400⟩, ⟨1288, 504⟩] ∧
    1280 < 1032 + 2147483648 ∧ 1032 ≤ 1280 ∧ 1280 + 8 ≤ 1032 + 2147483648 := by
  decide

/-- Claim C39, evaluated at a failing input. On the leaf `example_bits`, of
48 elements of width 1, the call `move_rotate(0, 47, 2)` meets the asserted
precondition of `move_rotate` with `from != to`, and the call `move(2, 49, 0)`
it makes fails the assertion `end <= m_size` of `Array::move`. The call
`move_rotate(47, 0, 2)` fails in `move_backward(0, 47, 49)`, and `move_rotate(0, 1, 0)` fails in
`move(0, 1, 0)`, whose destination lies inside the source range. The call
`move_rotate(0, 46, 2)`, for which both ranges lie inside the array, goes through. -/
theorem move_rotate_callee_assertion_fails :
    example_bits.m_size = 48 ∧ example_bits.m_width = 1 ∧
    (0 < 48 ∧ 47 < 48 ∧ 2 ≤ 48 ∧ 0 ≠ 47) ∧
    (example_bits.move_rotate 0 47 2 (fun _ => zero_fresh)).isSome = false ∧
    ((example_bits.copy_on_write (zero_fresh 0)).move (0 + 2) (47 + 2) 0 zero_fresh).isSome
      = false ∧
    (example_bits.move_rotate 47 0 2 (fun _ => zero_fresh)).isSome = false ∧
    ((example_bits.copy_on_write (zero_fresh 0)).move_backward 0 47 (47 + 2) zero_fresh).isSome
      = false ∧
    (example_bits.move_rotate 0 1 0 (fun _ => zero_fresh)).isSome = false ∧
    ((example_bits.copy_on_write (zero_fresh 0)).move (0 + 0) (1 + 0) 0 zero_fresh).isSome
      = false ∧
    (example_bits.move_rotate 0 46 2 (fun _ => zero_fresh)).isSome = true := by
  decide

/-- Claim C40. For a compact inner node with `N >= 1` children and
`elems_per_child = c >= 1` (slot 0 is `2 * c + 1`), `Array::create_bptree_offsets` builds the
offsets array `c, 2c, ..., (N - 1) c`, which is empty for `N = 1`, and the
new slot 0 is the ref of that array, an even value; no other slot of the node
is written. For every element index `k < N * c`, `find_bptree_child` on the
converted node returns `(k / c, k mod c)`, the pair it returns on the compact
node. -/
theorem create_bptree_offsets_preserves_addressing (fv : Int) (offs0 : List Int)
    (N c oref k : Nat)
    (hfv : fv = 2 * (c : Int) + 1) (hfv64 : is_int64 fv) (hc : 1 ≤ c) (hN : 1 ≤ N)
    (hb : N * c ≤ 9223372036854775807) (horef : oref % 8 = 0) (hk : k < N * c) :
    (create_bptree_offsets fv N oref).2 =
      (List.range (N - 1)).map (fun i => (((i + 1) * c : Nat) : Int)) ∧
    (N = 1 → (create_bptree_offsets fv N oref).2 = []) ∧
    (create_bptree_offsets fv N oref).1 = to_int64 oref ∧
    Int.tmod (create_bptree_offsets fv N oref).1 2 = 0 ∧
    ensure_bptree_offsets fv offs0 N oref = create_bptree_offsets fv N oref ∧
    find_bptree_child fv offs0 k = (k / c, k % c) ∧
    find_bptree_child (create_bptree_offsets fv N oref).1 (create_bptree_offsets fv N oref).2 k =
      find_bptree_child fv offs0 k := by
  obtain ⟨r1, r2, r3, r4, r5⟩ := create_bptree_offsets_spec fv offs0 N c oref k hfv hfv64 hc hN
    hb horef hk
  have hodd : ¬ Int.tmod fv 2 = 0 := by
    rw [tmod_two]
    split_ifs <;> omega
  refine ⟨r3, fun h1 => ?_, r1, r2, ?_, r4, r5⟩
  · rw [r3, h1]
    rfl
  · unfold ensure_bptree_offsets
    rw [if_neg hodd]

/-- Witness for `create_bptree_offsets_preserves_addressing`: a compact node with 3 children of
2 elements each, and element 5. -/
theorem create_bptree_offsets_preserves_addressing_witness :
    (5 : Int) = 2 * ((2 : Nat) : Int) + 1 ∧ is_int64 5 ∧ 1 ≤ 2 ∧ 1 ≤ 3 ∧
    3 * 2 ≤ 9223372036854775807 ∧ 16 % 8 = 0 ∧ 5 < 3 * 2 ∧
    ((create_bptree_offsets 5 3 16).2 =
      (List.range (3 - 1)).map (fun i => (((i + 1) * 2 : Nat) : Int)) ∧
    (3 = 1 → (create_bptree_offsets 5 3 16).2 = []) ∧
    (create_bptree_offsets 5 3 16).1 = to_int64 16 ∧
    Int.tmod (create_bptree_offsets 5 3 16).1 2 = 0 ∧
    ensure_bptree_offsets 5 [] 3 16 = create_bptree_offsets 5 3 16 ∧
    find_bptree_child 5 [] 5 = (5 / 2, 5 % 2) ∧
    find_bptree_child (create_bptree_offsets 5 3 16).1 (create_bptree_offsets 5 3 16).2 5 =
      find_bptree_child 5 [] 5) :=
  ⟨by decide, by decide, by decide, by decide, by decide, by decide, by decide,
    create_bptree_offsets_preserves_addressing 5 [] 3 2 16 5 (by decide) (by decide)
      (by decide) (by decide) (by decide) (by decide) (by decide)⟩

end Realm
